import Mathlib

/-!
# corecdtl: request-head scanner and route trie

A shallow embedding of the native core of the repository
(`src/native/http/routes`, `src/native/http/core` and `src/native/http/cpool`)
together with the properties established about it.

Conventions of the embedding

* A byte buffer, a pattern and a header value are lists of byte values
  (`Bytes`).  A read `p[i]` is `rd p i`; a read at or past the end of the list
  sees the byte 0 (patterns are NUL-terminated C strings; for request buffers
  the C++ code reads whatever memory follows the buffer, which the embedding
  fixes to NUL bytes).
* Offsets are `uint32_t` in the source and natural numbers here: buffers are
  assumed shorter than 2^32 bytes, so no offset wraps.
* 64-bit and 128-bit words are natural numbers, assembled little-endian from
  the bytes read.
* JavaScript objects used as mappings (`Napi::Object`) are association lists
  with `Has` / `Get` / `Set`.  A JavaScript string is modelled by the bytes
  handed to N-API.  A key passed as `std::string` reaches
  `napi_set_named_property` as `c_str()`, so it ends at its first NUL byte
  (`c_str`).  N-API reads the bytes as UTF-8 and a plain object inherits the
  accessor `__proto__`; neither is modelled, so properties about keys and
  values that the request chooses freely are stated for text of the bytes
  1..127 and for keys other than `__proto__`.
* Loops over the buffer are functions with an explicit iteration budget.  Where
  the budget is the number of bytes left (`total - offset`) the budget 0 is the
  loop's own exit; elsewhere running out of budget is reported as `none`, and
  `scanHeaders_isSome` shows that the header scan never does.
* The two SIMD backends of `http_scanner.h` are both modelled (`Simd`); the
  properties of the header scanner are stated for either.
-/

namespace Corecdtl

/-- Raw bytes. -/
abbrev Bytes := List Nat

/-- Byte values of the characters of a string literal. -/
def B (s : String) : Bytes := s.toList.map Char.toNat

/-- The read `p[i]`; past the end of the list it sees the byte 0. -/
def rd (buf : Bytes) (i : Nat) : Nat := buf.getD i 0

/-- The bytes `buf[start, start+len)` (as `std::string(buf + start, len)`). -/
def slice (buf : Bytes) (start len : Nat) : Bytes :=
  (List.range len).map (fun i => rd buf (start + i))

/-! ## Mappings (`Napi::Object`) -/

/-- A JavaScript object used as a mapping from byte-string keys to byte-string values. -/
abbrev Obj := List (Bytes × Bytes)

/-- Model of `Napi::Object::Has`. -/
def Obj.Has (o : Obj) (k : Bytes) : Bool := o.any (fun kv => kv.1 == k)

/-- Model of `Napi::Object::Get` (the empty string stands for `undefined`). -/
def Obj.Get (o : Obj) (k : Bytes) : Bytes :=
  match o.find? (fun kv => kv.1 == k) with
  | some kv => kv.2
  | none => []

/-- Model of `Napi::Object::Set`: overwrite an existing key, else add the key. -/
def Obj.Set : Obj → Bytes → Bytes → Obj
  | [], k, v => [(k, v)]
  | (k0, v0) :: rest, k, v =>
    if k0 == k then (k0, v) :: rest else (k0, v0) :: Obj.Set rest k v

/-- The bytes of `s.c_str()` seen as a NUL-terminated string. -/
def c_str (v : Bytes) : Bytes := v.takeWhile (fun b => b != 0)

/-! ## route.h -/

/-- The enum `RouteBuilder::ParamType`. -/
inductive ParamType where
  | kString
  | kNumber
  deriving DecidableEq, Repr

/-- The struct `RouteBuilder::EndpointParam`. -/
structure EndpointParam where
  name : Bytes
  type : ParamType
  deriving DecidableEq, Repr

/-- The struct `RouteBuilder::Endpoint`; `url` is the pattern without its closing NUL. -/
structure Endpoint where
  url : Bytes
  params : List EndpointParam
  vptr_table_index : Int
  deriving DecidableEq, Repr

/-- A default-constructed `Endpoint` (`vptr_table_index = -1`). -/
def Endpoint.default : Endpoint := ⟨[], [], -1⟩

/-- The struct `RouteBuilder::RouteNode` (the never-assigned `parent` back pointer is left out). -/
inductive RouteNode where
  | mk (value : Nat) (value_length : Nat) (vptr_table_index : Int)
      (param_type : ParamType) (is_param : Bool) (is_wildcard : Bool)
      (param_name : Bytes) (children : List RouteNode)
  deriving Repr

namespace RouteNode

def value : RouteNode → Nat
  | mk v _ _ _ _ _ _ _ => v

def value_length : RouteNode → Nat
  | mk _ l _ _ _ _ _ _ => l

def vptr_table_index : RouteNode → Int
  | mk _ _ h _ _ _ _ _ => h

def param_type : RouteNode → ParamType
  | mk _ _ _ t _ _ _ _ => t

def is_param : RouteNode → Bool
  | mk _ _ _ _ p _ _ _ => p

def is_wildcard : RouteNode → Bool
  | mk _ _ _ _ _ w _ _ => w

def param_name : RouteNode → Bytes
  | mk _ _ _ _ _ _ n _ => n

def children : RouteNode → List RouteNode
  | mk _ _ _ _ _ _ _ cs => cs

/-- Assignment `node->vptr_table_index = h`. -/
def setVptr : RouteNode → Int → RouteNode
  | mk v l _ t p w n cs, h => mk v l h t p w n cs

/-- The call `node->children.push_back(c)`. -/
def pushChild : RouteNode → RouteNode → RouteNode
  | mk v l h t p w n cs, c => mk v l h t p w n (cs ++ [c])

end RouteNode

/-! ## route_builder.cpp -/

def kParamMarker : Nat := 58
def kWildcardMarker : Nat := 42
def kMaxPacked : Nat := 8

/-- Pack up to 8 bytes of `str` into a 64-bit word, high bytes filled with 0xFF. -/
def packU64Safe (str : Bytes) (len : Nat) : Nat :=
  if len = 0 then 0
  else
    let len := if len > 8 then 8 else len
    let val := (List.range len).foldl (fun v i => v ||| (rd str i <<< (8 * i))) 0
    (List.range' len (8 - len)).foldl (fun v i => v ||| (0xFF <<< (8 * i))) val

/-- A value-initialised `RouteNode`. -/
def newNode : RouteNode := RouteNode.mk 0 0 (-1) ParamType.kString false false [] []

def makeParamNode : RouteNode := RouteNode.mk 0 0 (-1) ParamType.kString true false [] []

def makeStaticNode : RouteNode := RouteNode.mk 0 0 (-1) ParamType.kString false false [] []

def makeWildcardNode : RouteNode := RouteNode.mk 0 0 (-1) ParamType.kString false true [] []

/-- The common-prefix loop of `buildSubRouteTree` (`for p in 0 .. kMaxPacked`);
`n` is the number of iterations left, `first` is `static_eps[0]`. -/
def commonPfx (first : Endpoint) (static_eps : List Endpoint) (offset : Nat) :
    Nat → Nat → Bytes → Bytes
  | 0, _, acc => acc
  | n + 1, p, acc =>
    let ch := rd first.url (offset + p)
    if ch = 0 ∨ ch = kParamMarker ∨ ch = kWildcardMarker then acc
    else if static_eps.all (fun se => rd se.url (offset + p) == ch) then
      commonPfx first static_eps offset n (p + 1) (acc ++ [ch])
    else acc

/-- The statement `buckets[c].push_back(se)` on a `std::map<char, vector<Endpoint>>`,
kept in ascending key order (the order in which the map is iterated). -/
def bucketInsert (c : Nat) (se : Endpoint) :
    List (Nat × List Endpoint) → List (Nat × List Endpoint)
  | [] => [(c, [se])]
  | (k, v) :: rest =>
    if c = k then (k, v ++ [se]) :: rest
    else if c < k then (c, [se]) :: (k, v) :: rest
    else (k, v) :: bucketInsert c se rest

/-- Model of `buildSubRouteTree(node, eps, offset)`; returns the node as the call leaves it.
The first argument bounds the recursion depth. -/
def buildSubRouteTree : Nat → RouteNode → List Endpoint → Nat → Option RouteNode
  | 0, _, _, _ => none
  | fuel + 1, node, eps, offset =>
    if eps.isEmpty then some node
    else
      -- endpoints that end here set the handler (the last one wins)
      let node := eps.foldl
        (fun n ep => if rd ep.url offset = 0 then n.setVptr ep.vptr_table_index else n) node
      let param_eps := eps.filter
        (fun ep => rd ep.url offset != 0 && rd ep.url offset != kWildcardMarker
          && (rd ep.url offset == kParamMarker && rd ep.url (offset + 1) == 47))
      let static_eps := eps.filter
        (fun ep => rd ep.url offset != 0 && rd ep.url offset != kWildcardMarker
          && !(rd ep.url offset == kParamMarker && rd ep.url (offset + 1) == 47))
      let wildcard_ep := eps.foldl
        (fun w ep => if rd ep.url offset == kWildcardMarker then ep else w) Endpoint.default
      -- 3) static group
      let node : Option RouteNode :=
        match static_eps with
        | [] => some node
        | first :: _ =>
          let pfx := commonPfx first static_eps offset kMaxPacked 0 []
          if pfx ≠ [] then
            let static_node := RouteNode.mk (packU64Safe pfx pfx.length) pfx.length (-1)
              ParamType.kString false false [] []
            (buildSubRouteTree fuel static_node static_eps (offset + pfx.length)).map
              node.pushChild
          else
            let buckets := static_eps.foldl
              (fun bs se => bucketInsert (rd se.url offset) se bs) []
            buckets.foldl
              (fun acc kv =>
                let child := RouteNode.mk (packU64Safe [kv.1] 1) 1 (-1)
                  ParamType.kString false false [] []
                match acc, buildSubRouteTree fuel child kv.2 (offset + 1) with
                | some n, some c => some (n.pushChild c)
                | _, _ => none)
              (some node)
      -- 4) parameter group
      let node : Option RouteNode :=
        match param_eps with
        | [] => node
        | pfirst :: _ =>
          let param_node :=
            match pfirst.params with
            | [] => makeParamNode
            | pm :: _ => RouteNode.mk 0 0 (-1) pm.type true false pm.name []
          match node, buildSubRouteTree fuel param_node param_eps (offset + 2) with
          | some n, some c => some (n.pushChild c)
          | _, _ => none
      -- 5) wildcard terminal
      if wildcard_ep.vptr_table_index ≠ -1 then
        node.map (fun n => n.pushChild (makeWildcardNode.setVptr wildcard_ep.vptr_table_index))
      else node

/-- Recursion budget of the builder: the offset grows in every recursive call and never
passes the end of the longest pattern. -/
def buildFuel (eps : List Endpoint) : Nat :=
  (eps.map (fun ep => ep.url.length)).foldl max 0 + 2

/-- Model of `RouteBuilder::buildRouteTree`; `none` is `nullptr`. -/
def buildRouteTree (eps : List Endpoint) : Option RouteNode :=
  if eps.length = 0 then none
  else buildSubRouteTree (buildFuel eps) newNode eps 0

/-! ## route_matching.cpp -/

/-- Model of `packedU64FromString(src, start, end)`: the bytes `src[start, end)` (at most 8)
packed little-endian, the remaining high bytes set to 0xFF. -/
def packedU64FromString (src : Bytes) (start stop : Nat) : Nat :=
  let len := if stop - start > 8 then 8 else stop - start
  let value := (List.range len).foldl (fun v i => v ||| (rd src (start + i) <<< (8 * i))) 0
  (List.range' len (8 - len)).foldl (fun v i => v ||| (0xFF <<< (8 * i))) value

/-- Model of `nodeStaticMatches(node, url, offset)`. -/
def nodeStaticMatches (node : RouteNode) (url : Bytes) (offset : Nat) : Bool :=
  packedU64FromString url offset (offset + node.value_length) == node.value

/-- Model of `hex_to_char`. -/
def hex_to_char (h : Nat) : Nat :=
  if 48 ≤ h ∧ h ≤ 57 then h - 48
  else if 65 ≤ h ∧ h ≤ 70 then h - 65 + 10
  else if 97 ≤ h ∧ h ≤ 102 then h - 97 + 10
  else 0

/-- The loop of `url_decode`; `p` and `stop` are indices into `buf`. -/
def url_decode_loop (buf : Bytes) (stop : Nat) : Nat → Nat → Bytes → Bytes
  | 0, _, out => out
  | n + 1, p, out =>
    if p < stop then
      let c := rd buf p
      if c = 37 ∧ p + 2 < stop then
        let hi := hex_to_char (rd buf (p + 1))
        let lo := hex_to_char (rd buf (p + 2))
        url_decode_loop buf stop n (p + 3) (out ++ [((hi <<< 4) ||| lo) % 256])
      else if c ≠ 37 ∧ c = 43 then
        url_decode_loop buf stop n (p + 1) (out ++ [32])
      else
        url_decode_loop buf stop n (p + 1) (out ++ [c])
    else out

/-- Model of `url_decode(start, end)` on the bytes `buf[start, stop)`. -/
def url_decode (buf : Bytes) (start stop : Nat) : Bytes :=
  url_decode_loop buf stop (stop - start + 1) start []

/-- The key/value store shared by the two `query_params->Set` sites of `parse_query_params`.
Both arguments are `std::string`s: `Napi::Object::Set(const std::string&, ...)` passes the key
as `c_str()`, the value is converted with its length. -/
def querySetPair (url : Bytes) (key_start : Nat) (val_start : Option Nat) (p : Nat)
    (q : Obj) : Obj :=
  let key_end := match val_start with
    | some v => v - 1
    | none => p
  let key := url_decode url key_start key_end
  let value := match val_start with
    | some v => url_decode url v p
    | none => []
  q.Set (c_str key) value

/-- Result of `parse_query_params`: the boolean returned, the offset and the query object. -/
structure QueryResult where
  ok : Bool
  offset : Nat
  query : Obj
  deriving DecidableEq, Repr

/-- The `while (*p != 0)` loop of `parse_query_params` and the code after it. -/
def parse_query_loop (url : Bytes) (offset query_limit : Nat) :
    Nat → Nat → Nat → Nat → Option Nat → Obj → Option QueryResult
  | 0, _, _, _, _, _ => none
  | n + 1, p, scanned, key_start, val_start, q =>
    let c := rd url p
    if c ≠ 0 ∧ ¬ (c = 32 ∨ c = 13 ∨ c = 10 ∨ c = 35) then
      let scanned := scanned + 1
      if scanned > query_limit then some ⟨false, offset, q⟩
      else if c = 61 then
        parse_query_loop url offset query_limit n (p + 1) scanned key_start (some (p + 1)) q
      else if c = 38 then
        parse_query_loop url offset query_limit n (p + 1) scanned (p + 1) none
          (querySetPair url key_start val_start p q)
      else
        parse_query_loop url offset query_limit n (p + 1) scanned key_start val_start q
    else
      let q := if key_start < p then querySetPair url key_start val_start p q else q
      some ⟨true, offset + scanned, q⟩

/-- Model of `parse_query_params(env, url, offset, query_params, query_limit)`.  The loop
reads at most the bytes left in `url` and the NUL after them, which is its budget. -/
def parse_query_params (url : Bytes) (offset : Nat) (q : Obj) (query_limit : Nat) :
    Option QueryResult :=
  let p := if rd url offset = 63 then offset + 1 else offset
  parse_query_loop url offset query_limit (url.length - p + 1) p 0 p none q

/-- What `matchUrl` leaves behind: the value returned, the offset, the path parameters and
the query object. -/
structure MatchResult where
  ret : Int
  offset : Nat
  path_params : List Bytes
  query : Obj
  deriving DecidableEq, Repr

/-- The parameter scan `while (*p && *p != '/' && *p != '?' && *p != ' ') p++`. -/
def paramEnd (url : Bytes) : Nat → Nat → Nat
  | 0, p => p
  | n + 1, p =>
    let c := rd url p
    if c ≠ 0 ∧ c ≠ 47 ∧ c ≠ 63 ∧ c ≠ 32 then paramEnd url n (p + 1) else p

/-- The exit shared by the parameter and static branches of `matchUrl`: the child carries a
handler and the next byte is a space or `?`. -/
def matchFinish (url : Bytes) (query_limit : Nat) (vptr : Int) (offset : Nat)
    (ps : List Bytes) (q : Obj) : Option MatchResult :=
  if rd url offset = 63 then
    match parse_query_params url offset q query_limit with
    | none => none
    | some r =>
      if !r.ok then some ⟨-2, r.offset, ps, r.query⟩
      else some ⟨vptr, r.offset + 1, ps, r.query⟩
  else some ⟨vptr, offset, ps, q⟩

/-- The wildcard loop `while (url[*offset] != ' ')` of `matchUrl`. -/
def wildcardLoop (url : Bytes) (query_limit : Nat) (vptr : Int) (ps : List Bytes) :
    Nat → Nat → Obj → Option MatchResult
  | 0, _, _ => none
  | n + 1, offset, q =>
    if rd url offset ≠ 32 then
      if offset > 1000 then some ⟨-3, offset, ps, q⟩
      else if rd url offset = 63 then
        match parse_query_params url offset q query_limit with
        | none => none
        | some r =>
          if !r.ok then some ⟨-2, r.offset, ps, r.query⟩
          else some ⟨vptr, r.offset + 1, ps, r.query⟩
      else wildcardLoop url query_limit vptr ps n (offset + 1) q
    else some ⟨vptr, offset, ps, q⟩

mutual
/-- One round of the `while (true)` loop of `matchUrl` at `node`: scan its children. -/
def matchNode (url : Bytes) (query_limit : Nat) :
    RouteNode → Nat → List Bytes → Obj → Option MatchResult
  | RouteNode.mk _ _ _ _ _ _ _ cs, offset, ps, q => matchChildren url query_limit cs offset ps q
/-- The `for (auto& child : node->children)` loop of `matchUrl`; a child that matches without
finishing becomes the node of the next round. -/
def matchChildren (url : Bytes) (query_limit : Nat) :
    List RouteNode → Nat → List Bytes → Obj → Option MatchResult
  | [], offset, ps, q => some ⟨-1, offset, ps, q⟩
  | child :: rest, offset, ps, q =>
    if child.is_param then
      let pend := paramEnd url (url.length + 1 - offset) offset
      let param_len := pend - offset
      let ps := ps ++ [slice url offset param_len]
      let offset := offset + param_len
      if child.vptr_table_index ≠ -1 ∧ (rd url offset = 32 ∨ rd url offset = 63) then
        matchFinish url query_limit child.vptr_table_index offset ps q
      else matchNode url query_limit child (offset + 1) ps q
    else if child.is_wildcard then
      wildcardLoop url query_limit child.vptr_table_index ps 1003 offset q
    else if nodeStaticMatches child url offset then
      let offset := offset + child.value_length
      if child.vptr_table_index ≠ -1 ∧ (rd url offset = 32 ∨ rd url offset = 63) then
        matchFinish url query_limit child.vptr_table_index offset ps q
      else matchNode url query_limit child offset ps q
    else matchChildren url query_limit rest offset ps q
end

/-- Model of `RouteBuilder::matchUrl(env, root, url, urlLen, offset, path_params,
query_params, query_limit)`; `root = none` is the null pointer.  The result is `none` only
if an inner loop exhausts its iteration budget. -/
def matchUrl (root : Option RouteNode) (url : Bytes) (offset : Nat) (path_params : List Bytes)
    (query_params : Obj) (query_limit : Nat) : Option MatchResult :=
  match root with
  | none => some ⟨-1, offset, path_params, query_params⟩
  | some node =>
    if !node.is_param ∧ node.value_length > 0 then
      if !nodeStaticMatches node url offset then
        some ⟨-1, offset, path_params, query_params⟩
      else matchNode url query_limit node (offset + node.value_length) path_params query_params
    else matchNode url query_limit node offset path_params query_params

/-! ## http_core.h / http_core.cpp: flags, methods, route registration -/

/-- The enum `FlagBits`. -/
inductive FlagBits where
  | FLAG_OK
  | FLAG_BAD_REQUEST
  | FLAG_METHOD_NOT_ALLOWED
  | FLAG_NOT_FOUND
  | FLAG_CORS_PREFLIGHT
  | FLAG_HTTP_VERSION_UNSUPPORTED
  | FLAG_CONTENT_LENGTH_TOO_LARGE
  | FLAG_MISSING_HOST
  | FLAG_HAS_BODY
  | FLAG_INVALID_ARGUMENT
  | FLAG_INVALID_HEADER
  | FLAG_INVALID_HEADER_VALUE
  | FLAG_INVALID_CONTENT_LENGTH
  | FLAG_CONTENT_LENGTH_EXCEEDED
  | FLAG_UNTERMINATED_HEADERS
  | FLAG_MAX_HEADER_SIZE
  | FLAG_MAX_HEADER_NAME_SIZE
  | FLAG_MAX_HEADER_VALUE_SIZE
  | FLAG_DUPLICATE_SINGLE_HEADER
  | FLAG_REQUEST_QUERY_EXCEEDED
  | FLAG_REQUEST_URL_EXCEEDED
  | FLAG_SMUGGING_TE_CL
  deriving DecidableEq, Repr

/-- The numeric value of each `FlagBits` enumerator. -/
def FlagBits.toNat : FlagBits → Nat
  | FLAG_OK => 0x0000
  | FLAG_BAD_REQUEST => 0x0001
  | FLAG_METHOD_NOT_ALLOWED => 0x0002
  | FLAG_NOT_FOUND => 0x0004
  | FLAG_CORS_PREFLIGHT => 0x0008
  | FLAG_HTTP_VERSION_UNSUPPORTED => 0x0010
  | FLAG_CONTENT_LENGTH_TOO_LARGE => 0x0020
  | FLAG_MISSING_HOST => 0x0040
  | FLAG_HAS_BODY => 0x0080
  | FLAG_INVALID_ARGUMENT => 0x0100
  | FLAG_INVALID_HEADER => 0x0200
  | FLAG_INVALID_HEADER_VALUE => 0x0300
  | FLAG_INVALID_CONTENT_LENGTH => 0x0400
  | FLAG_CONTENT_LENGTH_EXCEEDED => 0x0800
  | FLAG_UNTERMINATED_HEADERS => 0x1000
  | FLAG_MAX_HEADER_SIZE => 0x2000
  | FLAG_MAX_HEADER_NAME_SIZE => 0x2100
  | FLAG_MAX_HEADER_VALUE_SIZE => 0x2200
  | FLAG_DUPLICATE_SINGLE_HEADER => 0x3000
  | FLAG_REQUEST_QUERY_EXCEEDED => 0x4000
  | FLAG_REQUEST_URL_EXCEEDED => 0x5000
  | FLAG_SMUGGING_TE_CL => 0x6000

/-- The enum `MethodType`. -/
inductive MethodType where
  | M_HEAD
  | M_GET
  | M_POST
  | M_PUT
  | M_DELETE
  | M_PATCH
  | M_OPTIONS
  | M_ERROR
  deriving DecidableEq, Repr

/-- The numeric value of each `MethodType` enumerator. -/
def MethodType.toNat : MethodType → Nat
  | M_HEAD => 0
  | M_GET => 1
  | M_POST => 2
  | M_PUT => 3
  | M_DELETE => 4
  | M_PATCH => 5
  | M_OPTIONS => 6
  | M_ERROR => 7

def METHOD_MAX_INDEX_COUNT : Nat := 7

/-- The data members of `HttpCore` that the scanner and the router use:
`m_methodFlags` and the `route_node` of each of the seven `m_httpRouteMaps` slots. -/
structure HttpCore where
  m_methodFlags : Nat
  m_httpRouteMaps : List (Option RouteNode)
  deriving Repr

/-- A freshly constructed `HttpCore`: no flag set, seven null tries. -/
def HttpCore.init : HttpCore := ⟨0, List.replicate METHOD_MAX_INDEX_COUNT none⟩

/-- Model of `HttpCore::setMethodFlag` (`m_methodFlags` is a `uint8_t`). -/
def HttpCore.setMethodFlag (core : HttpCore) (method : MethodType) : HttpCore :=
  if method.toNat ≥ MethodType.M_HEAD.toNat ∧ method.toNat ≤ MethodType.M_OPTIONS.toNat then
    { core with m_methodFlags := (core.m_methodFlags ||| (1 <<< method.toNat)) % 256 }
  else core

/-- Model of `HttpCore::isMethodAllowed`. -/
def HttpCore.isMethodAllowed (core : HttpCore) (method : MethodType) : Bool :=
  if method.toNat ≤ MethodType.M_HEAD.toNat ∨ method.toNat > MethodType.M_OPTIONS.toNat then false
  else (core.m_methodFlags &&& (1 <<< method.toNat)) != 0

/-- The scan `while (end < url.size() && url[end] != '/' && url[end] != '?') end++`
of `makeEndpoint`. -/
def paramNameEnd (url : Bytes) : Nat → Nat → Nat
  | 0, e => e
  | n + 1, e =>
    if e < url.length ∧ rd url e ≠ 47 ∧ rd url e ≠ 63 then paramNameEnd url n (e + 1) else e

/-- The `for (size_t i = 0; i < url.size();)` loop of `makeEndpoint`. -/
def makeEndpointLoop (url : Bytes) :
    Nat → Nat → Bytes → List EndpointParam → Bytes × List EndpointParam
  | 0, _, out, params => (out, params)
  | n + 1, i, out, params =>
    if i < url.length then
      if rd url i = 58 ∧ (i = 0 ∨ rd url (i - 1) = 47) then
        let start := i + 1
        let stop := paramNameEnd url (url.length + 1 - start) start
        let paramName := slice url start (stop - start)
        makeEndpointLoop url n stop (out ++ [58] ++ paramName)
          (params ++ [⟨paramName, ParamType.kString⟩])
      else makeEndpointLoop url n (i + 1) (out ++ [rd url i]) params
    else (out, params)

/-- Model of `HttpCore::makeEndpoint`; `strdup(out.c_str())` keeps the bytes before the
first NUL. -/
def makeEndpoint (url : Bytes) (vptr_table_index : Int) : Endpoint :=
  let r := makeEndpointLoop url (url.length + 1) 0 [] []
  ⟨r.1.takeWhile (fun c => c != 0), r.2, vptr_table_index⟩

/-- Model of `HttpCore::parserMethod`. -/
def parserMethod (method : Bytes) : MethodType :=
  if method = B "HEAD" then MethodType.M_HEAD
  else if method = B "GET" then MethodType.M_GET
  else if method = B "POST" then MethodType.M_POST
  else if method = B "PUT" then MethodType.M_PUT
  else if method = B "DELETE" then MethodType.M_DELETE
  else if method = B "PATCH" then MethodType.M_PATCH
  else if method = B "OPTIONS" then MethodType.M_OPTIONS
  else MethodType.M_ERROR

/-- One element of the array given to `registerRoutes`. -/
structure RouteDef where
  method : Bytes
  route : Bytes
  vptrTableIndex : Int
  deriving DecidableEq, Repr

/-- The endpoints `methodEndpoints[index]` collected by the first loop of `RegisterRoutes`. -/
def methodEndpoints (routes : List RouteDef) (index : Nat) : List Endpoint :=
  (routes.filter (fun r => (parserMethod r.method != MethodType.M_ERROR)
      && (parserMethod r.method).toNat == index)).map
    (fun r => makeEndpoint r.route r.vptrTableIndex)

/-- The method with the given index. -/
def MethodType.ofIndex : Nat → MethodType
  | 0 => M_HEAD
  | 1 => M_GET
  | 2 => M_POST
  | 3 => M_PUT
  | 4 => M_DELETE
  | 5 => M_PATCH
  | 6 => M_OPTIONS
  | _ => M_ERROR

/-- Model of `HttpCore::RegisterRoutes`: per method with at least one endpoint, build the
trie, store it in the method's slot and set the method's flag. -/
def HttpCore.RegisterRoutes (core : HttpCore) (routes : List RouteDef) : HttpCore :=
  (List.range METHOD_MAX_INDEX_COUNT).foldl
    (fun c index =>
      let eps := methodEndpoints routes index
      if !eps.isEmpty then
        ({ c with m_httpRouteMaps := c.m_httpRouteMaps.set index (buildRouteTree eps) }
          : HttpCore).setMethodFlag (MethodType.ofIndex index)
      else c)
    core

/-! ## http_scanner.h / http_scanner.cpp: words and SIMD helpers -/

/-- Little-endian value of a byte sequence. -/
def packLE : Bytes → Nat
  | [] => 0
  | b :: bs => b + 256 * packLE bs

/-- Model of `ascii_lower`. -/
def ascii_lower (c : Nat) : Nat := if 65 ≤ c ∧ c ≤ 90 then c ||| 0x20 else c

/-- Model of `load_u64(buf + p)`: `memcpy` of 8 bytes into a little-endian word. -/
def load_u64 (buf : Bytes) (p : Nat) : Nat := packLE (slice buf p 8)

/-- Model of `ascii_lower_u64`. -/
def ascii_lower_u64 (v : Nat) : Nat := v ||| 0x2020202020202020

/-- Model of `load_u128(buf + p)`: an unaligned load of 16 bytes. -/
def load_u128 (buf : Bytes) (p : Nat) : Nat := packLE (slice buf p 16)

/-- Model of `ascii_lower_u128`: OR with 0x20 in each of the 16 byte lanes. -/
def ascii_lower_u128 (v : Nat) : Nat := v ||| packLE (List.replicate 16 0x20)

/-- The loop of `PACK8`: OR the bytes of `s` into a word until a NUL or 8 bytes. -/
def PACK8_loop (s : Bytes) : Nat → Nat → Nat → Nat
  | 0, _, v => v
  | n + 1, i, v =>
    if rd s i = 0 then v else PACK8_loop s n (i + 1) (v ||| (rd s i <<< (i * 8)))

/-- Model of `PACK8`. -/
def PACK8 (s : Bytes) : Nat := PACK8_loop s 8 0 0

/-- The struct `Pack128`. -/
structure Pack128 where
  lo : Nat
  hi : Nat
  deriving DecidableEq, Repr

/-- Model of the family `PACK16_9 .. PACK16_15` (one function per argument count in the
source): the first eight characters go to `lo`, the others to `hi`, byte `i` of each half
shifted by `8 * i`. -/
def PACK16 (cs : Bytes) : Pack128 :=
  ⟨(List.range 8).foldl (fun v i => v ||| (rd cs i <<< (8 * i))) 0,
   (List.range (cs.length - 8)).foldl (fun v i => v ||| (rd cs (8 + i) <<< (8 * i))) 0⟩

/-- Model of `load_const128`: `lo` is the low half, `hi` the high half. -/
def load_const128 (p : Pack128) : Nat := p.lo ||| (p.hi <<< 64)

/-- The SIMD backend selected at compile time. -/
inductive Simd where
  | sse2
  | neon
  deriving DecidableEq, Repr

/-- Row `n` of the table in `mask128_sse` / `mask128_neon`: `n` bytes 0xFF, then zeros. -/
def mask128 (n : Nat) : Nat := packLE (List.replicate n 0xFF ++ List.replicate (16 - n) 0)

/-- Model of `_mm_movemask_epi8`: bit `i` of the result is the top bit of byte `i`. -/
def movemask_epi8 (x : Nat) : Nat :=
  (List.range 16).foldl (fun m i => m ||| (((x >>> (8 * i + 7)) % 2) <<< i)) 0

/-- Model of `vmaxvq_u8`: the largest of the 16 bytes. -/
def vmaxvq_u8 (x : Nat) : Nat :=
  (List.range 16).foldl (fun m i => max m ((x >>> (8 * i)) % 256)) 0

/-- Model of `simd_eq_n(a, b, n)` for either backend. -/
def simd_eq_n (simd : Simd) (a b : Nat) (n : Nat) : Bool :=
  let diff := (a ^^^ b) &&& mask128 n
  match simd with
  | Simd.sse2 => movemask_epi8 diff == 0
  | Simd.neon => vmaxvq_u8 diff == 0

/-- Model of `hv_is_valid_char`. -/
def hv_is_valid_char (c : Nat) : Bool :=
  if c = 9 ∨ c = 32 then true else decide (33 ≤ c ∧ c ≤ 126)

def MASK_U64_2BYTE : Nat := 0x000000000000FFFF
def MASK_U64_3BYTE : Nat := 0x0000000000FFFFFF
def MASK_U64_4BYTE : Nat := 0x00000000FFFFFFFF
def MASK_U64_5BYTE : Nat := 0x000000FFFFFFFFFF
def MASK_U64_6BYTE : Nat := 0x0000FFFFFFFFFFFF
def MASK_U64_7BYTE : Nat := 0x00FFFFFFFFFFFFFF

/-! ## Value parsers -/

/-- What a value parser leaves behind: the flag returned, the cursor and the value `hv`. -/
structure ParseResult where
  flag : FlagBits
  cur : Nat
  hv : Bytes
  deriving DecidableEq, Repr

/-- The inner loop of `hv_get_value_number` (trailing optional whitespace).  The first
argument is `total - offset`, so budget 0 is the exit `*__offset >= total`.  The result is
`none` when the loop breaks at a line end, else the flag returned. -/
def hv_number_ows (buf : Bytes) (total : Nat) : Nat → Nat → Option FlagBits × Nat
  | 0, off => (some FlagBits.FLAG_UNTERMINATED_HEADERS, off)
  | n + 1, off =>
    if off ≥ total then (some FlagBits.FLAG_UNTERMINATED_HEADERS, off)
    else
      let c := rd buf off
      if c = 13 ∨ c = 10 then (none, off)
      else if c ≠ 32 ∧ c ≠ 9 then (some FlagBits.FLAG_INVALID_HEADER_VALUE, off)
      else hv_number_ows buf total n (off + 1)

/-- The outer loop of `hv_get_value_number` and the code after it.  The first argument is
`total - offset`, so budget 0 is the exit `*__offset >= total`. -/
def hv_number_loop (buf : Bytes) (total maxHeaderValueSize valueBegin : Nat) :
    Nat → Nat → Nat → Bool → ParseResult
  | 0, off, _, _ => ⟨FlagBits.FLAG_UNTERMINATED_HEADERS, off, []⟩
  | n + 1, off, valueEnd, seen_digit =>
    if off ≥ total then ⟨FlagBits.FLAG_UNTERMINATED_HEADERS, off, []⟩
    else if off - valueBegin > maxHeaderValueSize then
      ⟨FlagBits.FLAG_MAX_HEADER_VALUE_SIZE, off, []⟩
    else
      let c := rd buf off
      let finish (off : Nat) (valueEnd : Nat) (seen_digit : Bool) : ParseResult :=
        if !seen_digit then ⟨FlagBits.FLAG_INVALID_HEADER_VALUE, off, []⟩
        else ⟨FlagBits.FLAG_OK, off, slice buf valueBegin (valueEnd - valueBegin)⟩
      if c = 13 ∨ c = 10 then finish off valueEnd seen_digit
      else if 48 ≤ c ∧ c ≤ 57 then
        hv_number_loop buf total maxHeaderValueSize valueBegin n (off + 1) (off + 1) true
      else if c = 32 ∨ c = 9 then
        match hv_number_ows buf total n (off + 1) with
        | (some f, off2) => ⟨f, off2, []⟩
        | (none, off2) => finish off2 valueEnd seen_digit
      else ⟨FlagBits.FLAG_INVALID_HEADER_VALUE, off, []⟩

/-- Model of `HttpScanner::hv_get_value_number`. -/
def hv_get_value_number (buf : Bytes) (offset total maxHeaderValueSize : Nat) : ParseResult :=
  hv_number_loop buf total maxHeaderValueSize offset (total - offset) offset offset false

/-- The loop of `hv_get_value_any` and the code after it.  The first argument is
`total - offset`, so budget 0 is the exit `*__offset >= total`. -/
def hv_any_loop (buf : Bytes) (total maxHeaderValueSize valueBegin : Nat) :
    Nat → Nat → Nat → ParseResult
  | 0, off, _ => ⟨FlagBits.FLAG_UNTERMINATED_HEADERS, off, []⟩
  | n + 1, off, valueEnd =>
    if off ≥ total then ⟨FlagBits.FLAG_UNTERMINATED_HEADERS, off, []⟩
    else if off - valueBegin > maxHeaderValueSize then
      ⟨FlagBits.FLAG_MAX_HEADER_VALUE_SIZE, off, []⟩
    else
      let c := rd buf off
      if c = 13 ∨ c = 10 then
        ⟨FlagBits.FLAG_OK, off, slice buf valueBegin (valueEnd - valueBegin)⟩
      else if c < 32 ∧ c ≠ 9 then ⟨FlagBits.FLAG_INVALID_HEADER_VALUE, off, []⟩
      else if c = 127 then ⟨FlagBits.FLAG_INVALID_HEADER_VALUE, off, []⟩
      else if !hv_is_valid_char c then ⟨FlagBits.FLAG_INVALID_HEADER_VALUE, off, []⟩
      else
        hv_any_loop buf total maxHeaderValueSize valueBegin n (off + 1)
          (if c ≠ 32 ∧ c ≠ 9 then off + 1 else valueEnd)

/-- Model of `HttpScanner::hv_get_value_any`. -/
def hv_get_value_any (buf : Bytes) (offset total maxHeaderValueSize : Nat) : ParseResult :=
  hv_any_loop buf total maxHeaderValueSize offset (total - offset) offset offset

/-! ## Header catalog -/

/-- The enum `HeaderId`. -/
inductive HeaderId where
  | HDR_UNKNOWN
  | HDR_HOST
  | HDR_CONTENT_LENGTH
  | HDR_TRANSFER_ENCODING
  | HDR_CONTENT_TYPE
  | HDR_CONTENT_RANGE
  | HDR_AUTHORIZATION
  | HDR_PROXY_AUTHORIZATION
  | HDR_USER_AGENT
  | HDR_RANGE
  | HDR_EXPECT
  | HDR_IF_MATCH
  | HDR_IF_NONE_MATCH
  | HDR_IF_MODIFIED_SINCE
  | HDR_IF_UNMODIFIED_SINCE
  | HDR_REFERER
  | HDR_ORIGIN
  | HDR_DATE
  | HDR_SET_COOKIE
  | HDR_WARNING
  | HDR_WWW_AUTHENTICATE
  | HDR_PROXY_AUTHENTICATE
  | HDR_LINK
  | HDR_VIA
  | HDR_ACCEPT
  | HDR_ACCEPT_LANGUAGE
  | HDR_ACCEPT_ENCODING
  | HDR_ACCEPT_RANGES
  | HDR_ALLOW
  | HDR_CACHE_CONTROL
  | HDR_CONNECTION
  | HDR_PRAGMA
  | HDR_UPGRADE
  | HDR_TRAILER
  | HDR_TE
  | HDR_VARY
  | HDR_COOKIE
  | HDR_ETAG
  | HDR_LAST_MODIFIED
  | HDR_EXPIRES
  | HDR_SERVER
  | HDR_LOCATION
  | HDR_REFERER_POLICY
  | HDR_SEC_FETCH_SITE
  | HDR_SEC_FETCH_MODE
  | HDR_SEC_FETCH_DEST
  | HDR_SEC_FETCH_USER
  | HDR_DNT
  | HDR_X_FORWARDED_FOR
  | HDR_X_FORWARDED_PROTO
  | HDR_X_FORWARDED_HOST
  | HDR_X_REAL_IP
  deriving DecidableEq, Repr

/-- The type `hv_value_parser_fn`: buffer, offset, total, value cap. -/
abbrev hv_value_parser_fn := Bytes → Nat → Nat → Nat → ParseResult

/-- The struct `HeaderDesc`. -/
structure HeaderDesc where
  name : Bytes
  value_parser_fn : hv_value_parser_fn

/-- The table `HEADERS`, indexed by `HeaderId`. -/
def HEADERS : HeaderId → HeaderDesc
  | HeaderId.HDR_UNKNOWN => ⟨B "unknown", hv_get_value_any⟩
  | HeaderId.HDR_HOST => ⟨B "host", hv_get_value_any⟩
  | HeaderId.HDR_CONTENT_LENGTH => ⟨B "content-length", hv_get_value_number⟩
  | HeaderId.HDR_TRANSFER_ENCODING => ⟨B "transfer-encoding", hv_get_value_any⟩
  | HeaderId.HDR_CONTENT_TYPE => ⟨B "content-type", hv_get_value_any⟩
  | HeaderId.HDR_CONTENT_RANGE => ⟨B "content-range", hv_get_value_any⟩
  | HeaderId.HDR_AUTHORIZATION => ⟨B "authorization", hv_get_value_any⟩
  | HeaderId.HDR_PROXY_AUTHORIZATION => ⟨B "proxy-authorization", hv_get_value_any⟩
  | HeaderId.HDR_USER_AGENT => ⟨B "user-agent", hv_get_value_any⟩
  | HeaderId.HDR_RANGE => ⟨B "range", hv_get_value_any⟩
  | HeaderId.HDR_EXPECT => ⟨B "expect", hv_get_value_any⟩
  | HeaderId.HDR_IF_MATCH => ⟨B "if-match", hv_get_value_any⟩
  | HeaderId.HDR_IF_NONE_MATCH => ⟨B "if-none-match", hv_get_value_any⟩
  | HeaderId.HDR_IF_MODIFIED_SINCE => ⟨B "if-modified-since", hv_get_value_any⟩
  | HeaderId.HDR_IF_UNMODIFIED_SINCE => ⟨B "if-unmodified-since", hv_get_value_any⟩
  | HeaderId.HDR_REFERER => ⟨B "referer", hv_get_value_any⟩
  | HeaderId.HDR_ORIGIN => ⟨B "origin", hv_get_value_any⟩
  | HeaderId.HDR_DATE => ⟨B "date", hv_get_value_any⟩
  | HeaderId.HDR_SET_COOKIE => ⟨B "set-cookie", hv_get_value_any⟩
  | HeaderId.HDR_WARNING => ⟨B "warning", hv_get_value_any⟩
  | HeaderId.HDR_WWW_AUTHENTICATE => ⟨B "www-authenticate", hv_get_value_any⟩
  | HeaderId.HDR_PROXY_AUTHENTICATE => ⟨B "proxy-authenticate", hv_get_value_any⟩
  | HeaderId.HDR_LINK => ⟨B "link", hv_get_value_any⟩
  | HeaderId.HDR_VIA => ⟨B "via", hv_get_value_any⟩
  | HeaderId.HDR_ACCEPT => ⟨B "accept", hv_get_value_any⟩
  | HeaderId.HDR_ACCEPT_LANGUAGE => ⟨B "accept-language", hv_get_value_any⟩
  | HeaderId.HDR_ACCEPT_ENCODING => ⟨B "accept-encoding", hv_get_value_any⟩
  | HeaderId.HDR_ACCEPT_RANGES => ⟨B "accept-ranges", hv_get_value_any⟩
  | HeaderId.HDR_ALLOW => ⟨B "allow", hv_get_value_any⟩
  | HeaderId.HDR_CACHE_CONTROL => ⟨B "cache-control", hv_get_value_any⟩
  | HeaderId.HDR_CONNECTION => ⟨B "connection", hv_get_value_any⟩
  | HeaderId.HDR_PRAGMA => ⟨B "pragma", hv_get_value_any⟩
  | HeaderId.HDR_UPGRADE => ⟨B "upgrade", hv_get_value_any⟩
  | HeaderId.HDR_TRAILER => ⟨B "trailer", hv_get_value_any⟩
  | HeaderId.HDR_TE => ⟨B "te", hv_get_value_any⟩
  | HeaderId.HDR_VARY => ⟨B "vary", hv_get_value_any⟩
  | HeaderId.HDR_COOKIE => ⟨B "cookie", hv_get_value_any⟩
  | HeaderId.HDR_ETAG => ⟨B "etag", hv_get_value_any⟩
  | HeaderId.HDR_LAST_MODIFIED => ⟨B "last-modified", hv_get_value_any⟩
  | HeaderId.HDR_EXPIRES => ⟨B "expires", hv_get_value_any⟩
  | HeaderId.HDR_SERVER => ⟨B "server", hv_get_value_any⟩
  | HeaderId.HDR_LOCATION => ⟨B "location", hv_get_value_any⟩
  | HeaderId.HDR_REFERER_POLICY => ⟨B "referer-policy", hv_get_value_any⟩
  | HeaderId.HDR_SEC_FETCH_SITE => ⟨B "sec-fetch-site", hv_get_value_any⟩
  | HeaderId.HDR_SEC_FETCH_MODE => ⟨B "sec-fetch-mode", hv_get_value_any⟩
  | HeaderId.HDR_SEC_FETCH_DEST => ⟨B "sec-fetch-dest", hv_get_value_any⟩
  | HeaderId.HDR_SEC_FETCH_USER => ⟨B "sec-fetch-user", hv_get_value_any⟩
  | HeaderId.HDR_DNT => ⟨B "dnt", hv_get_value_number⟩
  | HeaderId.HDR_X_FORWARDED_FOR => ⟨B "x-forwarded-for", hv_get_value_any⟩
  | HeaderId.HDR_X_FORWARDED_PROTO => ⟨B "x-forwarded-proto", hv_get_value_any⟩
  | HeaderId.HDR_X_FORWARDED_HOST => ⟨B "x-forwarded-host", hv_get_value_any⟩
  | HeaderId.HDR_X_REAL_IP => ⟨B "x-real-ip", hv_get_value_any⟩

/-! ## scanHeaders: machine state -/

/-- The enum `State` of `scanHeaders`. -/
inductive State where
  | ST_STARTUP
  | ST_HN_SPACE
  | ST_HN_UNKNOWN
  | ST_HN_H
  | ST_HN_A
  | ST_HN_C
  | ST_HN_D
  | ST_HN_I
  | ST_HN_L
  | ST_HN_O
  | ST_HN_P
  | ST_HN_S
  | ST_HN_T
  | ST_HN_U
  | ST_HN_V
  | ST_HN_W
  | ST_HN_X
  | ST_HV_CONCAT
  deriving DecidableEq, Repr

/-- The arguments of `scanHeaders` that stay fixed during a call, and the SIMD backend the
translation unit was compiled for. -/
structure Cfg where
  simd : Simd
  buf : Bytes
  total : Nat
  maxHeaderSize : Nat
  maxHeaderNameSize : Nat
  maxHeaderValueSize : Nat
  currentHeaderSize : Nat
  method : MethodType

/-- The mutable variables of `scanHeaders`: the out-parameter `*offset`, the object
`*outHeaders` and the locals. -/
structure Scan where
  offset : Nat
  __offset : Nat
  vStart : Nat
  hdrId : HeaderId
  hdrMergeable : Bool
  headerUnknownName : Bytes
  state : State
  outHeaders : Obj
  deriving DecidableEq, Repr

/-- Outcome of one pass through the `switch`: a `return flag`, or the next loop round. -/
inductive Step where
  | ret (flag : FlagBits) (s : Scan)
  | next (s : Scan)

/-- Read `buf[i]`. -/
def Cfg.byte (c : Cfg) (i : Nat) : Nat := rd c.buf i

/-- The word `ascii_lower_u64(load_u64(buf + p))`. -/
def Cfg.lw (c : Cfg) (p : Nat) : Nat := ascii_lower_u64 (load_u64 c.buf p)

/-- The test `simd_eq_n(ascii_lower_u128(load_u128(buf + p)), load_const128(PACK16(lit)), n)`. -/
def Cfg.eq128 (c : Cfg) (p : Nat) (lit : Bytes) (n : Nat) : Bool :=
  simd_eq_n c.simd (ascii_lower_u128 (load_u128 c.buf p)) (load_const128 (PACK16 lit)) n

/-- The exit `return FLAG_UNTERMINATED_HEADERS`. -/
def Scan.cut (s : Scan) : Step := Step.ret FlagBits.FLAG_UNTERMINATED_HEADERS s

/-- The fall-through `state = ST_HN_UNKNOWN` with the cursor where the branch left it. -/
def Scan.unknown (s : Scan) (off : Nat) : Step :=
  Step.next { s with __offset := off, state := State.ST_HN_UNKNOWN }

/-- The exit `hdrId = id; state = ST_HN_SPACE; continue`. -/
def Scan.known (s : Scan) (off : Nat) (id : HeaderId) : Step :=
  Step.next { s with __offset := off, hdrId := id, state := State.ST_HN_SPACE }

/-- The exit `hdrMergeable = true; hdrId = id; state = ST_HN_SPACE; continue`. -/
def Scan.mergeable (s : Scan) (off : Nat) (id : HeaderId) : Step :=
  Step.next { s with __offset := off, hdrId := id, hdrMergeable := true,
                     state := State.ST_HN_SPACE }

/-- The exit of a singleton header: `if (outHeaders->Has(name)) return
FLAG_DUPLICATE_SINGLE_HEADER;` and then as `known`. -/
def Scan.singleton (s : Scan) (off : Nat) (id : HeaderId) (name : Bytes) : Step :=
  if s.outHeaders.Has name then
    Step.ret FlagBits.FLAG_DUPLICATE_SINGLE_HEADER { s with __offset := off }
  else s.known off id

/-- The common tail `if (buf[__offset] == ':') { ... continue; }` followed by the fall-through
to `ST_HN_UNKNOWN`. -/
def Scan.colon (c : Cfg) (s : Scan) (off : Nat) (hit : Step) : Step :=
  if c.byte off = 58 then hit else s.unknown off

/-! ## scanHeaders: the states -/

/-- Case `ST_STARTUP`. -/
def st_STARTUP (c : Cfg) (s : Scan) : Step :=
  let o := s.__offset
  if o ≥ c.total then s.cut
  else if o > c.maxHeaderSize then Step.ret FlagBits.FLAG_MAX_HEADER_SIZE s
  else
    let go (st : State) : Step :=
      Step.next { s with vStart := o, __offset := o + 1, state := st }
    let b := c.byte o
    if b = 97 ∨ b = 65 then go State.ST_HN_A
    else if b = 99 ∨ b = 67 then go State.ST_HN_C
    else if b = 100 ∨ b = 68 then go State.ST_HN_D
    else if b = 105 ∨ b = 73 then go State.ST_HN_I
    else if b = 108 ∨ b = 76 then go State.ST_HN_L
    else if b = 111 ∨ b = 79 then go State.ST_HN_O
    else if b = 112 ∨ b = 80 then go State.ST_HN_P
    else if b = 115 ∨ b = 83 then go State.ST_HN_S
    else if b = 116 ∨ b = 84 then go State.ST_HN_T
    else if b = 117 ∨ b = 85 then go State.ST_HN_U
    else if b = 118 ∨ b = 86 then go State.ST_HN_V
    else if b = 119 ∨ b = 87 then go State.ST_HN_W
    else if b = 120 ∨ b = 88 then go State.ST_HN_X
    else if b = 104 ∨ b = 72 then go State.ST_HN_H
    else Step.next { s with vStart := o, state := State.ST_HN_UNKNOWN }

/-- Case `ST_HN_SPACE`. -/
def st_HN_SPACE (_c : Cfg) (s : Scan) : Step :=
  Step.next { s with __offset := s.__offset + 1, state := State.ST_HV_CONCAT }

/-- Model of `std::tolower` in the C locale. -/
def tolower (c : Nat) : Nat := if 65 ≤ c ∧ c ≤ 90 then c + 32 else c

/-- The `while (true)` loop of case `ST_HN_UNKNOWN`.  The first argument is
`total - __offset`, so budget 0 is the exit `__offset >= total`.  The result is the flag
returned, or `none` with the cursor just past the `:`. -/
def unknownLoop (c : Cfg) (vStart : Nat) : Nat → Nat → Option FlagBits × Nat
  | 0, off => (some FlagBits.FLAG_UNTERMINATED_HEADERS, off)
  | n + 1, off =>
    if off ≥ c.total then (some FlagBits.FLAG_UNTERMINATED_HEADERS, off)
    else
      let ch := c.byte off
      if ch = 58 then (none, off + 1)
      else if ch = 32 ∨ ch = 9 then (some FlagBits.FLAG_INVALID_HEADER, off)
      else if ch < 33 ∨ ch > 126 then (some FlagBits.FLAG_INVALID_HEADER, off)
      else if off + 1 - vStart > c.maxHeaderNameSize then
        (some FlagBits.FLAG_MAX_HEADER_NAME_SIZE, off + 1)
      else unknownLoop c vStart n (off + 1)

/-- Case `ST_HN_UNKNOWN`. -/
def st_HN_UNKNOWN (c : Cfg) (s : Scan) : Step :=
  match unknownLoop c s.vStart (c.total - s.__offset) s.__offset with
  | (some f, off) => Step.ret f { s with __offset := off }
  | (none, off) =>
    Step.next { s with
      __offset := off
      hdrId := HeaderId.HDR_UNKNOWN
      headerUnknownName := (slice c.buf s.vStart (off - s.vStart - 1)).map tolower
      state := State.ST_HV_CONCAT }

/-- Case `ST_HN_H`. -/
def st_HN_H (c : Cfg) (s : Scan) : Step :=
  let o := s.__offset
  if o + 3 > c.total then s.cut
  else if (c.lw o &&& MASK_U64_3BYTE) == PACK8 (B "ost") then
    let o := o + 3
    s.colon c o (s.singleton o HeaderId.HDR_HOST (B "host"))
  else s.unknown o

/-- Case `ST_HN_A`. -/
def st_HN_A (c : Cfg) (s : Scan) : Step :=
  let o := s.__offset
  if o ≥ c.total then s.cut
  else
    let lv := ascii_lower (c.byte o)
    if lv = 99 then
      if o + 5 > c.total then s.cut
      else
        let o := o + 1
        if (c.lw o &&& MASK_U64_4BYTE) == PACK8 (B "cept") then
          let o := o + 4
          if o ≥ c.total then s.cut
          else
            let ch := c.byte o
            if ch = 58 ∨ ch = 32 ∨ ch = 9 then s.known o HeaderId.HDR_ACCEPT
            else if ch = 45 then
              if o + 1 ≥ c.total then s.cut
              else
                let o := o + 1
                let n := ascii_lower (c.byte o)
                if n = 108 then
                  if (c.lw (o + 1) &&& MASK_U64_7BYTE) == PACK8 (B "anguage") then
                    s.colon c (o + 8) (s.mergeable (o + 8) HeaderId.HDR_ACCEPT_LANGUAGE)
                  else s.unknown o
                else if n = 101 then
                  if (c.lw (o + 1) &&& MASK_U64_7BYTE) == PACK8 (B "ncoding") then
                    s.colon c (o + 8) (s.mergeable (o + 8) HeaderId.HDR_ACCEPT_ENCODING)
                  else s.unknown o
                else if n = 114 then
                  if (c.lw (o + 1) &&& MASK_U64_5BYTE) == PACK8 (B "anges") then
                    s.colon c (o + 6) (s.mergeable (o + 6) HeaderId.HDR_ACCEPT_RANGES)
                  else s.unknown o
                else s.unknown o
            else s.unknown o
        else s.unknown o
    else if lv = 108 then
      if (c.lw o &&& MASK_U64_3BYTE) == PACK8 (B "low") then
        s.colon c (o + 4) (s.mergeable (o + 4) HeaderId.HDR_ALLOW)
      else s.unknown o
    else if lv = 117 then
      if o + 12 > c.total then s.cut
      else
        let o := o + 1
        if c.eq128 o (B "thorization") 11 then
          s.colon c (o + 11) (s.singleton (o + 11) HeaderId.HDR_AUTHORIZATION (B "authorization"))
        else s.unknown o
    else s.unknown o

/-- The name-recognition exit of `content-length`: duplicate check, then the
`transfer-encoding` check. -/
def Scan.contentLength (s : Scan) (off : Nat) : Step :=
  if s.outHeaders.Has (B "content-length") then
    Step.ret FlagBits.FLAG_DUPLICATE_SINGLE_HEADER { s with __offset := off }
  else if s.outHeaders.Has (B "transfer-encoding") then
    Step.ret FlagBits.FLAG_BAD_REQUEST { s with __offset := off }
  else s.known off HeaderId.HDR_CONTENT_LENGTH

/-- The name-recognition exit of `transfer-encoding`: duplicate check, then the
`content-length` check. -/
def Scan.transferEncoding (s : Scan) (off : Nat) : Step :=
  if s.outHeaders.Has (B "transfer-encoding") then
    Step.ret FlagBits.FLAG_DUPLICATE_SINGLE_HEADER { s with __offset := off }
  else if s.outHeaders.Has (B "content-length") then
    Step.ret FlagBits.FLAG_BAD_REQUEST { s with __offset := off }
  else s.known off HeaderId.HDR_TRANSFER_ENCODING

/-- Case `ST_HN_C`. -/
def st_HN_C (c : Cfg) (s : Scan) : Step :=
  let o := s.__offset
  if o ≥ c.total then s.cut
  else
    let lv := ascii_lower (c.byte o)
    if lv = 97 then
      if o + 12 > c.total then s.cut
      else if c.lw (o + 1) == PACK8 (B "che-cont") then
        if (c.lw (o + 9) &&& MASK_U64_3BYTE) == PACK8 (B "rol") then
          s.colon c (o + 12) (s.mergeable (o + 12) HeaderId.HDR_CACHE_CONTROL)
        else s.unknown o
      else s.unknown o
    else if lv = 111 then
      if o + 1 ≥ c.total then s.cut
      else
        let o := o + 1
        let n := ascii_lower (c.byte o)
        if n = 111 then
          if o + 5 > c.total then s.cut
          else if (c.lw (o + 1) &&& MASK_U64_3BYTE) == PACK8 (B "kie") then
            s.colon c (o + 4) (s.known (o + 4) HeaderId.HDR_COOKIE)
          else s.unknown o
        else if n = 110 then
          if o + 1 ≥ c.total then s.cut
          else
            let o := o + 1
            let t := ascii_lower (c.byte o)
            if t = 110 then
              if o + 7 > c.total then s.cut
              else if (c.lw (o + 1) &&& MASK_U64_6BYTE) == PACK8 (B "ection") then
                s.colon c (o + 7) (s.mergeable (o + 7) HeaderId.HDR_CONNECTION)
              else s.unknown o
            else if t = 116 then
              if o + 4 > c.total then s.cut
              else
                let o := o + 1
                if (c.lw o &&& MASK_U64_4BYTE) == PACK8 (B "ent-") then
                  let o := o + 4
                  if o ≥ c.total then s.cut
                  else
                    let k := ascii_lower (c.byte o)
                    if k = 108 then
                      if (c.lw (o + 1) &&& MASK_U64_5BYTE) == PACK8 (B "ength") then
                        s.colon c (o + 6) (s.contentLength (o + 6))
                      else s.unknown o
                    else if k = 116 then
                      if (c.lw (o + 1) &&& MASK_U64_3BYTE) == PACK8 (B "ype") then
                        s.colon c (o + 4)
                          (s.singleton (o + 4) HeaderId.HDR_CONTENT_TYPE (B "content-type"))
                      else s.unknown o
                    else if k = 114 then
                      if (c.lw (o + 1) &&& MASK_U64_4BYTE) == PACK8 (B "ange") then
                        s.colon c (o + 5)
                          (s.singleton (o + 5) HeaderId.HDR_CONTENT_RANGE (B "content-range"))
                      else s.unknown o
                    else s.unknown o
                else s.unknown o
            else s.unknown o
        else s.unknown o
    else s.unknown o

/-- Case `ST_HN_D`. -/
def st_HN_D (c : Cfg) (s : Scan) : Step :=
  let o := s.__offset
  if o ≥ c.total then s.cut
  else
    let lv := ascii_lower (c.byte o)
    if lv = 97 then
      if o + 3 > c.total then s.cut
      else
        let w := (ascii_lower (c.byte (o + 1)) <<< 16) ||| (ascii_lower (c.byte (o + 2)) <<< 8)
        if w = ((116 <<< 16) ||| (101 <<< 8)) then
          s.colon c (o + 3) (s.singleton (o + 3) HeaderId.HDR_DATE (B "date"))
        else s.unknown o
    else if lv = 110 then
      if o + 2 > c.total then s.cut
      else
        let w := ascii_lower (c.byte (o + 1))
        if w = 116 then s.colon c (o + 2) (s.known (o + 2) HeaderId.HDR_DNT)
        else s.unknown o
    else s.unknown o

/-- Case `ST_HN_I`. -/
def st_HN_I (c : Cfg) (s : Scan) : Step :=
  let o := s.__offset
  if o + 3 > c.total then s.cut
  else
    let lw := c.lw o &&& MASK_U64_3BYTE
    if lw == PACK8 (B "f-n") then
      let o := o + 3
      if o + 9 > c.total then s.cut
      else if c.eq128 o (B "one-match") 9 then
        s.colon c (o + 9) (s.singleton (o + 9) HeaderId.HDR_IF_NONE_MATCH (B "if-none-match"))
      else s.unknown o
    else if lw == PACK8 (B "f-m") then
      let o := o + 3
      if o + 4 > c.total then s.cut
      else
        let lt := c.lw o &&& MASK_U64_4BYTE
        if lt == PACK8 (B "atch") ∧ c.byte (o + 4) = 58 then
          s.singleton (o + 4) HeaderId.HDR_IF_MATCH (B "if-match")
        else
          -- the long path, with the cursor past "atch" when the short path consumed it
          let o := if lt == PACK8 (B "atch") then o + 4 else o
          if o + 13 > c.total then s.cut
          else if c.eq128 o (B "odified-since") 13 then
            s.colon c (o + 13)
              (s.singleton (o + 13) HeaderId.HDR_IF_MODIFIED_SINCE (B "if-modified-since"))
          else s.unknown o
    else if lw == PACK8 (B "f-u") then
      let o := o + 3
      if o + 15 > c.total then s.cut
      else if c.eq128 (o + 3) (B "nmodified-since") 15 then
        s.colon c (o + 15)
          (s.singleton (o + 15) HeaderId.HDR_IF_UNMODIFIED_SINCE (B "if-unmodified-since"))
      else s.unknown o
    else s.unknown o

/-- Case `ST_HN_L`. -/
def st_HN_L (c : Cfg) (s : Scan) : Step :=
  let o := s.__offset
  if o ≥ c.total then s.cut
  else
    let lv := ascii_lower (c.byte o)
    if lv = 105 then
      if o + 3 > c.total then s.cut
      else if (c.lw (o + 1) &&& MASK_U64_2BYTE) == PACK8 (B "nk") then
        s.colon c (o + 3) (s.known (o + 3) HeaderId.HDR_LINK)
      else s.unknown o
    else if lv = 97 then
      if o + 12 > c.total then s.cut
      else if c.lw (o + 1) == PACK8 (B "st-modif") then
        if (c.lw (o + 9) &&& MASK_U64_3BYTE) == PACK8 (B "ied") then
          s.colon c (o + 12) (s.known (o + 12) HeaderId.HDR_LAST_MODIFIED)
        else s.unknown o
      else s.unknown o
    else if lv = 111 then
      if o + 7 > c.total then s.cut
      else if (c.lw (o + 1) &&& MASK_U64_6BYTE) == PACK8 (B "cation") then
        s.colon c (o + 7) (s.known (o + 7) HeaderId.HDR_LOCATION)
      else s.unknown o
    else s.unknown o

/-- Case `ST_HN_O`. -/
def st_HN_O (c : Cfg) (s : Scan) : Step :=
  let o := s.__offset
  if o + 5 > c.total then s.cut
  else if (c.lw o &&& MASK_U64_5BYTE) == PACK8 (B "rigin") then
    s.colon c (o + 5) (s.singleton (o + 5) HeaderId.HDR_ORIGIN (B "origin"))
  else s.unknown o

/-- Case `ST_HN_P`. -/
def st_HN_P (c : Cfg) (s : Scan) : Step :=
  let o := s.__offset
  if o + 2 > c.total then s.cut
  else
    let lw := c.lw o &&& MASK_U64_2BYTE
    if lw == PACK8 (B "ro") then
      let o := o + 2
      if o + 8 > c.total then s.cut
      else if c.lw o == PACK8 (B "xy-authe") then
        let o := o + 8
        if o + 7 > c.total then s.cut
        else if (c.lw o &&& MASK_U64_7BYTE) == PACK8 (B "nticate") then
          s.colon c (o + 7) (s.known (o + 7) HeaderId.HDR_PROXY_AUTHENTICATE)
        else s.unknown o
      else if c.lw o == PACK8 (B "xy-autho") then
        let o := o + 8
        if o + 8 > c.total then s.cut
        else if c.lw o == PACK8 (B "rization") then
          s.colon c (o + 8)
            (s.singleton (o + 8) HeaderId.HDR_PROXY_AUTHORIZATION (B "proxy-authorization"))
        else s.unknown o
      else s.unknown o
    else if lw == PACK8 (B "ra") then
      let o := o + 2
      if o + 2 > c.total then s.cut
      else if (c.lw o &&& MASK_U64_3BYTE) == PACK8 (B "gma") then
        s.colon c (o + 3) (s.mergeable (o + 3) HeaderId.HDR_PRAGMA)
      else s.unknown o
    else s.unknown o

/-- The four `sec-fetch-*` branches of case `ST_HN_S`, which differ in the literals only. -/
def Scan.secFetch (c : Cfg) (s : Scan) (o : Nat) (tail : Bytes) (id : HeaderId) : Step :=
  let o := o + 8
  if o + 3 > c.total then s.cut
  else if (c.lw o &&& MASK_U64_3BYTE) == PACK8 tail then
    s.colon c (o + 3) (s.known (o + 3) id)
  else s.unknown o

/-- Case `ST_HN_S`. -/
def st_HN_S (c : Cfg) (s : Scan) : Step :=
  let o := s.__offset
  if o + 2 > c.total then s.cut
  else
    let lw := c.lw o &&& MASK_U64_2BYTE
    if lw == PACK8 (B "ec") then
      let o := o + 2
      if o + 8 > c.total then s.cut
      else if c.lw o == PACK8 (B "-fetch-s") then
        s.secFetch c o (B "ite") HeaderId.HDR_SEC_FETCH_SITE
      else if c.lw o == PACK8 (B "-fetch-m") then
        s.secFetch c o (B "ode") HeaderId.HDR_SEC_FETCH_MODE
      else if c.lw o == PACK8 (B "-fetch-d") then
        s.secFetch c o (B "est") HeaderId.HDR_SEC_FETCH_DEST
      else if c.lw o == PACK8 (B "-fetch-u") then
        s.secFetch c o (B "ser") HeaderId.HDR_SEC_FETCH_USER
      else s.unknown o
    else if lw == PACK8 (B "er") then
      let o := o + 2
      if o + 3 > c.total then s.cut
      else if (c.lw o &&& MASK_U64_3BYTE) == PACK8 (B "ver") then
        s.colon c (o + 3) (s.known (o + 3) HeaderId.HDR_SERVER)
      else s.unknown o
    else if lw == PACK8 (B "et") then
      let o := o + 2
      if o + 7 > c.total then s.cut
      else if (c.lw o &&& MASK_U64_7BYTE) == PACK8 (B "-cookie") then
        s.colon c (o + 7) (s.known (o + 7) HeaderId.HDR_SET_COOKIE)
      else s.unknown o
    else s.unknown o

/-- Case `ST_HN_T`. -/
def st_HN_T (c : Cfg) (s : Scan) : Step :=
  let o := s.__offset
  if o ≥ c.total then s.cut
  else
    let lv := ascii_lower (c.byte o)
    if lv = 101 then
      let o := o + 1
      if o ≥ c.total then s.cut
      else if c.byte o = 58 then s.mergeable o HeaderId.HDR_TE
      else s.unknown o
    else if lv = 114 then
      if o + 3 ≥ c.total then s.cut
      else
        let o := o + 1
        let lw := c.lw o &&& MASK_U64_2BYTE
        if lw == PACK8 (B "an") then
          let o := o + 2
          if o + 13 > c.total then s.cut
          else if c.eq128 o (B "sfer-encoding") 13 then
            s.colon c (o + 13) (s.transferEncoding (o + 13))
          else s.unknown o
        else if lw == PACK8 (B "ai") then
          let o := o + 2
          if o + 3 > c.total then s.cut
          else if (c.lw o &&& MASK_U64_3BYTE) == PACK8 (B "ler") then
            s.colon c (o + 4) (s.mergeable (o + 4) HeaderId.HDR_TRAILER)
          else s.unknown o
        else s.unknown o
    else s.unknown o

/-- Case `ST_HN_U`. -/
def st_HN_U (c : Cfg) (s : Scan) : Step :=
  let o := s.__offset
  if o ≥ c.total then s.cut
  else
    let lv := ascii_lower (c.byte o)
    if lv = 115 then
      let o := o + 1
      if o + 8 > c.total then s.cut
      else if c.lw o == PACK8 (B "er-agent") then
        s.colon c (o + 8) (s.singleton (o + 8) HeaderId.HDR_USER_AGENT (B "user-agent"))
      else s.unknown o
    else if lv = 112 then
      let o := o + 1
      if o + 5 > c.total then s.cut
      else if (c.lw o &&& MASK_U64_5BYTE) == PACK8 (B "grade") then
        s.colon c (o + 5) (s.mergeable (o + 5) HeaderId.HDR_UPGRADE)
      else s.unknown o
    else s.unknown o

/-- Case `ST_HN_V`; the word is reduced with `% MASK_U64_2BYTE` as in the source. -/
def st_HN_V (c : Cfg) (s : Scan) : Step :=
  let o := s.__offset
  if o + 2 > c.total then s.cut
  else
    let lw := c.lw o % MASK_U64_2BYTE
    if lw == PACK8 (B "ia") then
      s.colon c (o + 2) (s.known (o + 2) HeaderId.HDR_VIA)
    else if lw == PACK8 (B "ar") then
      let o := o + 2
      if o ≥ c.total then s.cut
      else
        let lv := ascii_lower (c.byte o)
        if lv = 121 then s.colon c (o + 1) (s.known (o + 1) HeaderId.HDR_VARY)
        else s.unknown o
    else s.unknown o

/-- Case `ST_HN_W`. -/
def st_HN_W (c : Cfg) (s : Scan) : Step :=
  let o := s.__offset
  if o ≥ c.total then s.cut
  else
    let lv := ascii_lower (c.byte o)
    if lv = 119 then
      let o := o + 1
      if o + 14 > c.total then s.cut
      else if c.eq128 o (B "w-authenticate") 14 then
        s.colon c (o + 14) (s.known (o + 14) HeaderId.HDR_WWW_AUTHENTICATE)
      else s.unknown o
    else if lv = 97 then
      let o := o + 1
      if o + 5 > c.total then s.cut
      else if (c.lw o &&& MASK_U64_5BYTE) == PACK8 (B "rning") then
        s.colon c (o + 5) (s.known (o + 5) HeaderId.HDR_WARNING)
      else s.unknown o
    else s.unknown o

/-- Case `ST_HN_X`. -/
def st_HN_X (c : Cfg) (s : Scan) : Step :=
  let o := s.__offset
  if o + 2 > c.total then s.cut
  else
    let lw := c.lw o &&& MASK_U64_2BYTE
    if lw == PACK8 (B "-f") then
      let o := o + 2
      if o + 12 > c.total then s.cut
      else if c.eq128 o (B "orwarded-for") 12 then
        s.colon c (o + 12) (s.known (o + 12) HeaderId.HDR_X_FORWARDED_FOR)
      else if c.eq128 o (B "orwarded-hos") 12 then
        let o := o + 12
        if o ≥ c.total then s.cut
        else if ascii_lower (c.byte o) = 116 then
          s.colon c (o + 1) (s.known (o + 1) HeaderId.HDR_X_FORWARDED_HOST)
        else s.unknown o
      else if c.eq128 o (B "orwarded-pro") 12 then
        let o := o + 12
        if o + 2 > c.total then s.cut
        else if (c.lw o &&& MASK_U64_2BYTE) == PACK8 (B "to") then
          s.colon c (o + 2) (s.known (o + 2) HeaderId.HDR_X_FORWARDED_PROTO)
        else s.unknown o
      else s.unknown o
    else if lw == PACK8 (B "-r") then
      let o := o + 2
      if o + 6 > c.total then s.cut
      else if (c.lw o &&& MASK_U64_6BYTE) == PACK8 (B "eal-ip") then
        s.colon c (o + 6) (s.known (o + 6) HeaderId.HDR_X_REAL_IP)
      else s.unknown o
    else s.unknown o

/-- The loop `while (__offset < total && (buf[__offset] == ' ' || buf[__offset] == '\t'))
__offset++` of case `ST_HV_CONCAT`; the first argument is `total - __offset`. -/
def skipOWS (c : Cfg) : Nat → Nat → Nat
  | 0, off => off
  | n + 1, off =>
    if off < c.total ∧ (c.byte off = 32 ∨ c.byte off = 9) then skipOWS c n (off + 1) else off

/-- Case `ST_HV_CONCAT`: parse the value, consume the line end, store the header, detect
the end of the block. -/
def st_HV_CONCAT (c : Cfg) (s : Scan) : Step :=
  let o := skipOWS c (c.total - s.__offset) s.__offset
  let r := (HEADERS s.hdrId).value_parser_fn c.buf o c.total c.maxHeaderValueSize
  if r.flag ≠ FlagBits.FLAG_OK then Step.ret r.flag { s with __offset := r.cur }
  else
    let o := r.cur
    if c.byte o = 13 ∧ (o + 1 ≥ c.total ∨ c.byte (o + 1) ≠ 10) then
      Step.ret FlagBits.FLAG_INVALID_HEADER_VALUE { s with __offset := o }
    else
      let o := if c.byte o = 13 then o + 2 else if c.byte o = 10 then o + 1 else o
      let value := c_str r.hv
      let hs : Obj :=
        if s.hdrId = HeaderId.HDR_UNKNOWN then s.outHeaders.Set (c_str s.headerUnknownName) value
        else
          let name := (HEADERS s.hdrId).name
          if s.hdrMergeable ∧ s.outHeaders.Has name then
            s.outHeaders.Set name (s.outHeaders.Get name ++ B ", " ++ value)
          else s.outHeaders.Set name value
      if o + 1 < c.total ∧ c.byte o = 13 ∧ c.byte (o + 1) = 10 then
        Step.ret FlagBits.FLAG_OK
          { s with __offset := o, offset := o + 2, outHeaders := hs, hdrMergeable := false }
      else
        Step.next { s with
          __offset := o
          offset := o
          outHeaders := hs
          hdrId := HeaderId.HDR_UNKNOWN
          hdrMergeable := false
          headerUnknownName := []
          state := State.ST_STARTUP }

/-- The `switch (state)` of `scanHeaders`. -/
def step (c : Cfg) (s : Scan) : Step :=
  match s.state with
  | State.ST_STARTUP => st_STARTUP c s
  | State.ST_HN_SPACE => st_HN_SPACE c s
  | State.ST_HN_UNKNOWN => st_HN_UNKNOWN c s
  | State.ST_HN_H => st_HN_H c s
  | State.ST_HN_A => st_HN_A c s
  | State.ST_HN_C => st_HN_C c s
  | State.ST_HN_D => st_HN_D c s
  | State.ST_HN_I => st_HN_I c s
  | State.ST_HN_L => st_HN_L c s
  | State.ST_HN_O => st_HN_O c s
  | State.ST_HN_P => st_HN_P c s
  | State.ST_HN_S => st_HN_S c s
  | State.ST_HN_T => st_HN_T c s
  | State.ST_HN_U => st_HN_U c s
  | State.ST_HN_V => st_HN_V c s
  | State.ST_HN_W => st_HN_W c s
  | State.ST_HN_X => st_HN_X c s
  | State.ST_HV_CONCAT => st_HV_CONCAT c s

/-- What a call of `scanHeaders` leaves behind: the flag returned, `*offset` and
`*outHeaders`. -/
structure ScanResult where
  flag : FlagBits
  offset : Nat
  headers : Obj
  deriving DecidableEq, Repr

/-- The `while (true)` loop of `scanHeaders` and the `return FLAG_OK` after it; the first
argument bounds the number of rounds. -/
def scanLoop (c : Cfg) : Nat → Scan → Option ScanResult
  | 0, _ => none
  | n + 1, s =>
    if s.__offset ≥ c.total ∧ s.state ≠ State.ST_HV_CONCAT then
      some ⟨FlagBits.FLAG_OK, s.offset, s.outHeaders⟩
    else
      match step c s with
      | Step.ret f s2 => some ⟨f, s2.offset, s2.outHeaders⟩
      | Step.next s2 => scanLoop c n s2

/-- The variables of `scanHeaders` when the loop is entered. -/
def Scan.init (offset : Nat) (outHeaders : Obj) : Scan :=
  { offset := offset
    __offset := offset
    vStart := 0
    hdrId := HeaderId.HDR_UNKNOWN
    hdrMergeable := false
    headerUnknownName := []
    state := State.ST_STARTUP
    outHeaders := outHeaders }

/-- Rounds granted to the loop of `scanHeaders`: a header line takes at most four rounds
and at least one byte. -/
def scanFuel (total : Nat) : Nat := 4 * total + 8

/-- Model of `scanHeaders(env, buf, total, offset, maxHeaderSize, maxHeaderNameSize,
maxHeaderValueSize, currentHeaderSize, method, outHeaders)`. -/
def scanHeaders (c : Cfg) (offset : Nat) (outHeaders : Obj) : Option ScanResult :=
  if offset + 1 > c.total then some ⟨FlagBits.FLAG_UNTERMINATED_HEADERS, offset, outHeaders⟩
  else
    scanLoop c (scanFuel c.total) (Scan.init offset outHeaders)

/-- Arguments of a `scanHeaders` call on the whole of `buf` with the usual caps
(8192 header bytes, names of 256 bytes, values of 4096 bytes). -/
def Cfg.whole (simd : Simd) (buf : Bytes) : Cfg :=
  ⟨simd, buf, buf.length, 8192, 256, 4096, 0, MethodType.M_GET⟩

/-! ## http_core.cpp: request line -/

/-- Model of `scanHttpMethod(curl, offset)`: the method returned and the offset left. -/
def scanHttpMethod (curl : Bytes) (offset : Nat) : MethodType × Nat :=
  let p := fun (i : Nat) => rd curl (offset + i)
  if p 0 = 71 then
    if p 1 = 69 ∧ p 2 = 84 ∧ (p 3 = 32 ∨ p 3 = 0) then (MethodType.M_GET, offset + 3)
    else (MethodType.M_ERROR, offset)
  else if p 0 = 72 then
    if p 1 = 69 ∧ p 2 = 65 ∧ p 3 = 68 ∧ (p 4 = 32 ∨ p 4 = 0) then
      (MethodType.M_HEAD, offset + 4)
    else (MethodType.M_ERROR, offset)
  else if p 0 = 80 then
    if p 1 = 79 then
      if p 2 = 83 ∧ p 3 = 84 ∧ (p 4 = 32 ∨ p 4 = 0) then (MethodType.M_POST, offset + 4)
      else (MethodType.M_ERROR, offset)
    else if p 1 = 85 then
      if p 2 = 84 ∧ (p 3 = 32 ∨ p 3 = 0) then (MethodType.M_PUT, offset + 3)
      else (MethodType.M_ERROR, offset)
    else if p 1 = 65 then
      if p 2 = 84 ∧ p 3 = 67 ∧ p 4 = 72 ∧ (p 5 = 32 ∨ p 5 = 0) then
        (MethodType.M_PATCH, offset + 5)
      else (MethodType.M_ERROR, offset)
    else (MethodType.M_ERROR, offset)
  else if p 0 = 68 then
    if p 1 = 69 ∧ p 2 = 76 ∧ p 3 = 69 ∧ p 4 = 84 ∧ p 5 = 69 ∧ (p 6 = 32 ∨ p 6 = 0) then
      (MethodType.M_DELETE, offset + 6)
    else (MethodType.M_ERROR, offset)
  else if p 0 = 79 then
    if p 1 = 80 ∧ p 2 = 84 ∧ p 3 = 73 ∧ p 4 = 79 ∧ p 5 = 78 ∧ p 6 = 83
        ∧ (p 7 = 32 ∨ p 7 = 0) then
      (MethodType.M_OPTIONS, offset + 7)
    else (MethodType.M_ERROR, offset)
  else (MethodType.M_ERROR, offset)

/-- Model of `isHttp11AtOffset(curl, curlLen, offset)`: the boolean returned and the offset
left. -/
def isHttp11AtOffset (curl : Bytes) (curlLen : Nat) (offset : Nat) : Bool × Nat :=
  if offset + 8 > curlLen then (false, offset)
  else if slice curl offset 8 ≠ B "HTTP/1.1" then (false, offset)
  else (true, offset + 8)

/-- The properties of the request object `reqObj` that the two scan entry points read and
write. -/
structure ReqObj where
  retFlag : Nat
  mainOffset : Nat
  method : Nat
  params : List Bytes
  query : Obj
  headers : Obj
  headerSize : Nat
  deriving DecidableEq, Repr

/-- The numeric arguments `info[2..5]` of `scannerRouteFirst` / `scannerHeader`. -/
structure Caps where
  maxHeaderNameSize : Nat
  maxHeaderValueSize : Nat
  maxHeaderSize : Nat
  query_limit : Nat
  deriving DecidableEq, Repr

/-- Model of `HttpCore::ScannerRouteFirst`: the number returned and the request object as
the call leaves it.  The result is `none` only if the route matcher exhausts an iteration
budget. -/
def HttpCore.ScannerRouteFirst (core : HttpCore) (simd : Simd) (curl : Bytes) (reqObj : ReqObj)
    (caps : Caps) : Option (Int × ReqObj) :=
  let curlLen := curl.length
  let main_offset := 0
  -- scan method
  let (methodType, main_offset) := scanHttpMethod curl main_offset
  if !core.isMethodAllowed methodType then
    if methodType = MethodType.M_ERROR then
      some (-1, { reqObj with retFlag := FlagBits.FLAG_BAD_REQUEST.toNat })
    else
      let flags := FlagBits.FLAG_METHOD_NOT_ALLOWED.toNat
      let flags :=
        if methodType = MethodType.M_OPTIONS then flags ||| FlagBits.FLAG_CORS_PREFLIGHT.toNat
        else flags
      some (-1, { reqObj with retFlag := flags, mainOffset := main_offset })
  else
    let reqObj := { reqObj with method := methodType.toNat }
    let main_offset := main_offset + 1
    -- match route
    match matchUrl (core.m_httpRouteMaps.getD methodType.toNat none) curl main_offset [] []
        caps.query_limit with
    | none => none
    | some m =>
      let routeId := m.ret
      let main_offset := m.offset
      if routeId = -1 then
        some (-1, { reqObj with retFlag := FlagBits.FLAG_NOT_FOUND.toNat })
      else if routeId = -2 then
        some (-1, { reqObj with retFlag := FlagBits.FLAG_REQUEST_QUERY_EXCEEDED.toNat })
      else if routeId = -3 then
        some (-1, { reqObj with retFlag := FlagBits.FLAG_REQUEST_URL_EXCEEDED.toNat })
      else
        let reqObj := { reqObj with params := m.path_params, query := m.query }
        let main_offset := main_offset + 1
        -- HTTP version validation
        let (ret, main_offset) := isHttp11AtOffset curl curlLen main_offset
        if !ret then
          some (routeId,
            { reqObj with retFlag := FlagBits.FLAG_HTTP_VERSION_UNSUPPORTED.toNat })
        else
          let main_offset := main_offset + 2
          -- header scanner; `maxHeaderSize` is passed for the name cap as well
          let currentHeaderSize := reqObj.headerSize
          let sOff := main_offset
          match scanHeaders
              ⟨simd, curl, curlLen, caps.maxHeaderSize, caps.maxHeaderSize,
                caps.maxHeaderValueSize, currentHeaderSize, methodType⟩
              main_offset reqObj.headers with
          | none => none
          | some res =>
            some (routeId,
              { reqObj with
                retFlag := res.flag.toNat
                headers := res.headers
                headerSize := currentHeaderSize + res.offset - sOff
                mainOffset := res.offset })

/-- Model of `HttpCore::ScannerHeader`; the method stored in the request object is passed
on unchanged (it is not used by `scanHeaders`). -/
def HttpCore.ScannerHeader (_core : HttpCore) (simd : Simd) (curl : Bytes) (reqObj : ReqObj)
    (caps : Caps) : Option (Int × ReqObj) :=
  let curlLen := curl.length
  let mainOff := reqObj.mainOffset
  let currentHeaderSize := reqObj.headerSize
  let sOff := mainOff
  match scanHeaders
      ⟨simd, curl, curlLen, caps.maxHeaderSize, caps.maxHeaderNameSize,
        caps.maxHeaderValueSize, currentHeaderSize, MethodType.ofIndex reqObj.method⟩
      mainOff reqObj.headers with
  | none => none
  | some res =>
    some (0,
      { reqObj with
        retFlag := res.flag.toNat
        headers := res.headers
        headerSize := currentHeaderSize + res.offset - sOff
        mainOffset := res.offset })

/-- The token of each method, as in `HttpCore::parserMethod`; `M_ERROR` has none. -/
def MethodType.token : MethodType → Bytes
  | MethodType.M_HEAD => B "HEAD"
  | MethodType.M_GET => B "GET"
  | MethodType.M_POST => B "POST"
  | MethodType.M_PUT => B "PUT"
  | MethodType.M_DELETE => B "DELETE"
  | MethodType.M_PATCH => B "PATCH"
  | MethodType.M_OPTIONS => B "OPTIONS"
  | MethodType.M_ERROR => []

/-- The bytes at `offset` are the upper-case token of `m`, immediately followed by a space
or a NUL. -/
def tokenAt (curl : Bytes) (offset : Nat) (m : MethodType) : Prop :=
  slice curl offset m.token.length = m.token
    ∧ (rd curl (offset + m.token.length) = 32 ∨ rd curl (offset + m.token.length) = 0)

instance (curl : Bytes) (offset : Nat) (m : MethodType) : Decidable (tokenAt curl offset m) := by
  unfold tokenAt; infer_instance

/-! ## cpool.h / cpool.cpp: connection pool

`size_t` is 64 bits wide and `int` 32 bits.  The sizes come from
`Napi::Number::Uint32Value()` and the index of `Free` from `Int32Value()`; the argument of a
call is the integer value of the JavaScript number.  Only the state of the pool is modelled:
a call that throws or returns `null` leaves the state it had reached.  `std::vector::resize`
never fails. -/

/-- Model of `struct PoolEntry`; `jsRef` records whether the reference holds an object. -/
structure PoolEntry where
  jsRef : Bool
  inUse : Bool
deriving DecidableEq, Repr

/-- A value-initialised `PoolEntry`. -/
def PoolEntry.fresh : PoolEntry := ⟨false, false⟩

/-- The data members of `class CPool`.  `m_freeStack` is in vector order: `push_back`
appends at the end and `back()` is the last element. -/
structure CPool where
  m_poolEntries : List PoolEntry
  m_freeStack : List Int
  m_activeSize : Nat
  m_currentSize : Nat
  m_retiredCount : Nat
  m_shrinking : Bool
deriving DecidableEq, Repr

/-- The pool left by the constructor `CPool::CPool`. -/
def CPool.new : CPool := ⟨[], [], 0, 0, 0, false⟩

/-- The conversion `(int)i` of a `size_t`. -/
def toInt (i : Nat) : Int :=
  if i % 4294967296 < 2147483648 then (i % 4294967296 : Nat) else (i % 4294967296 : Nat) - 4294967296

/-- The conversion `(size_t)idx` of an `int`. -/
def toSize (idx : Int) : Nat := (idx % 18446744073709551616).toNat

/-- Model of `Napi::Number::Uint32Value()` on an integer. -/
def Uint32Value (x : Int) : Nat := (x % 4294967296).toNat

/-- Model of `Napi::Number::Int32Value()` on an integer. -/
def Int32Value (x : Int) : Int := toInt (x % 4294967296).toNat

/-- The element `m_poolEntries[i]`. -/
def entryAt (es : List PoolEntry) (i : Nat) : PoolEntry := (es[i]?).getD PoolEntry.fresh

/-- The assignment `m_poolEntries[i].inUse = b`. -/
def setInUse (es : List PoolEntry) (i : Nat) (b : Bool) : List PoolEntry :=
  es.set i { entryAt es i with inUse := b }

/-- The assignment of `m_poolEntries[i].jsRef`. -/
def setRef (es : List PoolEntry) (i : Nat) (b : Bool) : List PoolEntry :=
  es.set i { entryAt es i with jsRef := b }

/-- The statement `if (!e.jsRef.IsEmpty()) { e.jsRef.Unref(); e.jsRef = ObjectReference(); }`
on `m_poolEntries[i]`. -/
def unrefAt (es : List PoolEntry) (i : Nat) : List PoolEntry :=
  if (entryAt es i).jsRef then setRef es i false else es

/-- Model of `m_poolEntries.resize(n)`. -/
def vresize (es : List PoolEntry) (n : Nat) : List PoolEntry :=
  es.take n ++ List.replicate (n - es.length) PoolEntry.fresh

/-- Model of `popFreeIndex`: the index returned and the stack left. -/
def popFreeIndex (st : List Int) : Int × List Int :=
  match st.getLast? with
  | none => (-1, st)
  | some idx => (idx, st.dropLast)

/-- The loop `for (i = 0; i < n; ++i) if (!m_poolEntries[i].inUse) pushFreeIndex((int)i);`
on an empty stack. -/
def rebuildFreeStack (es : List PoolEntry) (n : Nat) : List Int :=
  ((List.range n).filter (fun i => !(entryAt es i).inUse)).map toInt

/-- The loop `for (i = a; i < b; ++i)` unreferencing `m_poolEntries[i]`. -/
def unrefRange (es : List PoolEntry) (a b : Nat) : List PoolEntry :=
  (List.range' a (b - a)).foldl unrefAt es

/-- Model of `CPool::InitializePool`. -/
def CPool.InitializePool (p : CPool) (x : Int) : CPool :=
  let newSize := Uint32Value x
  if newSize = 0 then p
  else if p.m_currentSize ≠ 0 then p
  else
    let es := vresize p.m_poolEntries newSize
    { m_poolEntries := (List.range newSize).foldl (fun es i => setInUse es i false) es
      m_freeStack := p.m_freeStack ++ (List.range newSize).map toInt
      m_activeSize := newSize
      m_currentSize := newSize
      m_retiredCount := 0
      m_shrinking := false }

/-- Model of `CPool::RegisterObj`. -/
def CPool.RegisterObj (p : CPool) : CPool :=
  if p.m_currentSize = 0 then p
  else
    match (List.range p.m_currentSize).find? (fun i => !(entryAt p.m_poolEntries i).jsRef) with
    | none => p
    | some found => { p with m_poolEntries := setRef p.m_poolEntries found true }

/-- Model of `CPool::Allocate`. -/
def CPool.Allocate (p : CPool) : CPool :=
  if p.m_activeSize = 0 then p
  else
    let r := popFreeIndex p.m_freeStack
    if r.1 = -1 then { p with m_freeStack := r.2 }
    else if toSize r.1 ≥ p.m_activeSize then { p with m_freeStack := r.2 ++ [r.1] }
    else
      { p with m_freeStack := r.2
               m_poolEntries := setInUse p.m_poolEntries r.1.toNat true }

/-- Model of `CPool::finalizeShrinkIfNeeded`. -/
def CPool.finalizeShrinkIfNeeded (p : CPool) : CPool :=
  if ¬ p.m_shrinking then p
  else
    let es := vresize (unrefRange p.m_poolEntries p.m_activeSize p.m_currentSize) p.m_activeSize
    { p with m_poolEntries := es
             m_currentSize := p.m_activeSize
             m_freeStack := rebuildFreeStack es p.m_activeSize
             m_shrinking := false }

/-- Model of `CPool::Free`. -/
def CPool.Free (p : CPool) (x : Int) : CPool :=
  let idx := Int32Value x
  if idx < 0 ∨ toSize idx ≥ p.m_currentSize then p
  else if ¬ (entryAt p.m_poolEntries idx.toNat).inUse then p
  else
    let es := setInUse p.m_poolEntries idx.toNat false
    if toSize idx ≥ p.m_activeSize then
      let q := { p with m_poolEntries := unrefAt es idx.toNat }
      if q.m_retiredCount > 0 then
        let q2 := { q with m_retiredCount := q.m_retiredCount - 1 }
        if q2.m_retiredCount = 0 ∧ q2.m_shrinking then q2.finalizeShrinkIfNeeded
        else q2
      else q
    else { p with m_poolEntries := es, m_freeStack := p.m_freeStack ++ [idx] }

/-- Model of `CPool::ResizePool`. -/
def CPool.ResizePool (p : CPool) (x : Int) : CPool :=
  let newSize := Uint32Value x
  if newSize = 0 then p
  else if newSize = p.m_activeSize then p
  else if newSize > p.m_currentSize then
    let old := p.m_currentSize
    let es := (List.range' old (newSize - old)).foldl (fun es i => setInUse es i false)
      (vresize p.m_poolEntries newSize)
    { p with m_poolEntries := es
             m_freeStack := p.m_freeStack ++ (List.range' old (newSize - old)).map toInt
             m_currentSize := newSize
             m_activeSize := newSize }
  else
    let activeInRetired := ((List.range' newSize (p.m_currentSize - newSize)).filter
      (fun i => (entryAt p.m_poolEntries i).inUse)).length
    if activeInRetired = 0 then
      let es := vresize (unrefRange p.m_poolEntries newSize p.m_currentSize) newSize
      { p with m_activeSize := newSize
               m_poolEntries := es
               m_currentSize := newSize
               m_freeStack := rebuildFreeStack es newSize }
    else
      { p with m_activeSize := newSize
               m_retiredCount := activeInRetired
               m_shrinking := true
               m_freeStack := p.m_freeStack.filter (fun idx => decide (toSize idx < newSize)) }

/-- A call of one of the methods of the pool. -/
inductive PoolOp where
  | initializePool (x : Int)
  | registerObj
  | allocate
  | free (x : Int)
  | resizePool (x : Int)
deriving DecidableEq, Repr

/-- The pool after one call. -/
def CPool.call (p : CPool) : PoolOp → CPool
  | PoolOp.initializePool x => p.InitializePool x
  | PoolOp.registerObj => p.RegisterObj
  | PoolOp.allocate => p.Allocate
  | PoolOp.free x => p.Free x
  | PoolOp.resizePool x => p.ResizePool x

/-- The pool after a sequence of calls. -/
def CPool.run (p : CPool) (ops : List PoolOp) : CPool := ops.foldl CPool.call p

/-! ## Vocabulary of the properties -/

/-- Every element of the buffer is a byte. -/
def IsBytes (buf : Bytes) : Prop := ∀ b ∈ buf, b < 256

instance (buf : Bytes) : Decidable (IsBytes buf) := by
  unfold IsBytes; infer_instance

/-- The bytes at `o` spell `lit` up to ASCII letter case. -/
def nameAt (buf : Bytes) (o : Nat) (lit : Bytes) : Prop :=
  (slice buf o lit.length).map tolower = lit

instance (buf : Bytes) (o : Nat) (lit : Bytes) : Decidable (nameAt buf o lit) := by
  unfold nameAt; infer_instance

/-- The machine state after `ST_STARTUP` dispatched on the first byte of a line. -/
def Scan.started (s : Scan) (st : State) : Scan :=
  { s with vStart := s.__offset, __offset := s.__offset + 1, state := st }

/-- The state of `scanHeaders` after `k` rounds of its loop; `none` when the call has
returned before. -/
def scanRounds (c : Cfg) : Nat → Scan → Option Scan
  | 0, s => some s
  | k + 1, s =>
    if s.__offset ≥ c.total ∧ s.state ≠ State.ST_HV_CONCAT then none
    else
      match step c s with
      | Step.ret _ _ => none
      | Step.next s2 => scanRounds c k s2

/-- Rank of a state inside one header line: rounds still to go before the line is stored. -/
def State.rank : State → Nat
  | State.ST_STARTUP => 3
  | State.ST_HV_CONCAT => 0
  | State.ST_HN_SPACE => 1
  | State.ST_HN_UNKNOWN => 1
  | _ => 2

/-- A quantity that every round of the loop decreases. -/
def Scan.pot (c : Cfg) (s : Scan) : Nat := 4 * (c.total - s.__offset) + s.state.rank

/-- What a name-recognition state may do: return without touching `*offset` and the
mapping, or move the cursor forward into `ST_HN_UNKNOWN` or `ST_HN_SPACE`. -/
def Step.nameOk (s : Scan) : Step → Prop
  | Step.ret _ s2 => s2.offset = s.offset ∧ s2.outHeaders = s.outHeaders
  | Step.next s2 => s.__offset ≤ s2.__offset ∧ s2.offset = s.offset
      ∧ s2.outHeaders = s.outHeaders
      ∧ (s2.state = State.ST_HN_UNKNOWN ∨ s2.state = State.ST_HN_SPACE)


/-- A value parser that returns FLAG_OK stops inside the buffer on a CR or LF at or after
the offset it started from. -/
def ParseResult.lineEnd (buf : Bytes) (total start : Nat) (r : ParseResult) : Prop :=
  r.flag = FlagBits.FLAG_OK → start ≤ r.cur ∧ r.cur < total ∧ (rd buf r.cur = 13 ∨ rd buf r.cur = 10)

/-- Every round of the loop that does not return lowers `Scan.pot`. -/
def Step.dec (c : Cfg) (s : Scan) : Step → Prop
  | Step.ret _ _ => True
  | Step.next s2 => s2.pot c < s.pot c

/-- What any round of the loop does to the mapping: keys are never removed. -/
def Step.keeps (s : Scan) (key : Bytes) : Step → Prop
  | Step.ret _ _ => True
  | Step.next s2 => s.outHeaders.Has key = true → s2.outHeaders.Has key = true

/-- A step that stores: when the round goes on, the mapping holds `key`. -/
def Step.stores (key : Bytes) : Step → Prop
  | Step.ret _ _ => True
  | Step.next s2 => s2.outHeaders.Has key = true

/-- The method flags and the route slots of a core agree: there are seven slots, and a
method that `isMethodAllowed` admits has a trie in its slot. -/
def HttpCore.Coherent (core : HttpCore) : Prop :=
  core.m_httpRouteMaps.length = METHOD_MAX_INDEX_COUNT ∧
    ∀ m, core.isMethodAllowed m = true →
      (core.m_httpRouteMaps.getD (MethodType.toNat m) none).isSome = true

/-- The core of a new `HttpCore` object after a sequence of `registerRoutes` calls. -/
def HttpCore.registered (calls : List (List RouteDef)) : HttpCore :=
  calls.foldl HttpCore.RegisterRoutes HttpCore.init

/-- The ASCII hex digit of `d < 16`, in upper or in lower case. -/
def hexDigit (upper : Bool) (d : Nat) : Nat :=
  if d < 10 then 48 + d else if upper then 55 + d else 87 + d

/-- The percent-encoding that writes every byte of `s` as `%` and its two hex digits; the
digit number `k` of the output is in upper case when `upper k` holds, `i` is the index of
the first byte of `s`. -/
def pctEncode (upper : Nat → Bool) : Nat → Bytes → Bytes
  | _, [] => []
  | i, b :: s =>
    37 :: hexDigit (upper (2 * i)) (b / 16) :: hexDigit (upper (2 * i + 1)) (b % 16)
      :: pctEncode upper (i + 1) s

/-- The bytes at which `parse_query_params` stops: NUL, space, CR, LF and `#`. -/
def isQueryStop (c : Nat) : Bool := c == 0 || c == 32 || c == 13 || c == 10 || c == 35

/-- The number of query bytes that start at index `p`: the bytes before the first stop byte
(the end of the list counts as NUL). -/
def queryLen (url : Bytes) (p : Nat) : Nat :=
  ((url.drop p).takeWhile (fun c => !isQueryStop c)).length

/-- A byte that may stand in a key or a value of a query: not a stop byte, not `=`, not
`&`. -/
def isQueryPlain (c : Nat) : Bool := !isQueryStop c && c != 61 && c != 38

/-- The text of one pair: `key` or `key=value`. -/
def renderPair : Bytes × Option Bytes → Bytes
  | (k, none) => k
  | (k, some v) => k ++ 61 :: v

/-- The text of a query: its pairs separated by `&`. -/
def renderQuery : List (Bytes × Option Bytes) → Bytes
  | [] => []
  | [x] => renderPair x
  | x :: y :: rest => renderPair x ++ 38 :: renderQuery (y :: rest)

/-- Percent-decoding of a whole byte string: `url_decode` on a buffer that holds it. -/
def pctDecode (s : Bytes) : Bytes := url_decode s 0 s.length

/-- The query mapping after the pairs are stored in order: decoded key to decoded value,
the empty string when the pair has no `=`. -/
def storePairs (pairs : List (Bytes × Option Bytes)) (q : Obj) : Obj :=
  pairs.foldl
    (fun q kv => q.Set (pctDecode kv.1)
      (match kv.2 with
        | none => []
        | some v => pctDecode v)) q

/-- Every pair is non-empty and its key and value hold plain bytes only. -/
def wellFormedPairs (pairs : List (Bytes × Option Bytes)) : Prop :=
  ∀ kv ∈ pairs, renderPair kv ≠ [] ∧ (∀ c ∈ kv.1, isQueryPlain c = true)
    ∧ ∀ v, kv.2 = some v → ∀ c ∈ v, isQueryPlain c = true

instance (pairs : List (Bytes × Option Bytes)) : Decidable (wellFormedPairs pairs) := by
  unfold wellFormedPairs; infer_instance

/-- The query mapping as `querySetPair` builds it: each decoded key ends at its first NUL. -/
def storePairsCStr (pairs : List (Bytes × Option Bytes)) (q : Obj) : Obj :=
  pairs.foldl
    (fun q kv => q.Set (c_str (pctDecode kv.1))
      (match kv.2 with
        | none => []
        | some v => pctDecode v)) q

/-- A byte of plain text: 1..127, so neither the NUL that ends a C string nor a byte that is
not ASCII. -/
def isTextByte (b : Nat) : Bool := decide (1 ≤ b ∧ b ≤ 127)

/-- Every decoded key and value is plain text, and no decoded key is `__proto__`: the pairs
reach the JavaScript object byte for byte. -/
def decodeToText (pairs : List (Bytes × Option Bytes)) : Prop :=
  ∀ kv ∈ pairs, (∀ b ∈ pctDecode kv.1, isTextByte b = true)
    ∧ pctDecode kv.1 ≠ B "__proto__"
    ∧ ∀ v, kv.2 = some v → ∀ b ∈ pctDecode v, isTextByte b = true

instance (pairs : List (Bytes × Option Bytes)) : Decidable (decodeToText pairs) := by
  unfold decodeToText; infer_instance

/-- A decimal digit. -/
def isDigitByte (c : Nat) : Bool := decide (48 ≤ c ∧ c ≤ 57)

/-- Optional whitespace: space or HTAB. -/
def isOwsByte (c : Nat) : Bool := c == 32 || c == 9

/-- A line end byte: CR or LF. -/
def isEolByte (c : Nat) : Bool := c == 13 || c == 10

/-- The length of the longest run of bytes satisfying `f` that starts at index `off`. -/
def runLen (f : Nat → Bool) (buf : Bytes) (off : Nat) : Nat :=
  ((buf.drop off).takeWhile f).length

/-- The machine state a round of the loop ends with. -/
def Step.scan : Step → Scan
  | Step.ret _ s => s
  | Step.next s => s

/-- The flag a round of the loop returns, `none` when the loop goes on. -/
def Step.flag : Step → Option FlagBits
  | Step.ret f _ => some f
  | Step.next _ => none

/-- The header mapping after the store of `ST_HV_CONCAT`: the value goes under the unknown
name, or under the catalog name, appended after `, ` when the header is mergeable and
already present. -/
def Scan.store (s : Scan) (value : Bytes) : Obj :=
  if s.hdrId = HeaderId.HDR_UNKNOWN then s.outHeaders.Set (c_str s.headerUnknownName) value
  else
    if s.hdrMergeable ∧ s.outHeaders.Has (HEADERS s.hdrId).name then
      s.outHeaders.Set (HEADERS s.hdrId).name
        (s.outHeaders.Get (HEADERS s.hdrId).name ++ B ", " ++ value)
    else s.outHeaders.Set (HEADERS s.hdrId).name value

/-- The number of bits set in a 16-bit word. -/
def bitsSet (n : Nat) : Nat := ((List.range 16).filter (fun i => n.testBit i)).length

/-- The word obtained by combining the flags of a list with bitwise OR. -/
def orAll (fs : List FlagBits) : Nat := fs.foldl (fun w f => w ||| f.toNat) 0

/-- The enumerators of `FlagBits` whose value is a single bit. -/
def FlagBits.singleBit : List FlagBits :=
  [FlagBits.FLAG_BAD_REQUEST, FlagBits.FLAG_METHOD_NOT_ALLOWED, FlagBits.FLAG_NOT_FOUND,
    FlagBits.FLAG_CORS_PREFLIGHT, FlagBits.FLAG_HTTP_VERSION_UNSUPPORTED,
    FlagBits.FLAG_CONTENT_LENGTH_TOO_LARGE, FlagBits.FLAG_MISSING_HOST, FlagBits.FLAG_HAS_BODY,
    FlagBits.FLAG_INVALID_ARGUMENT, FlagBits.FLAG_INVALID_HEADER,
    FlagBits.FLAG_INVALID_CONTENT_LENGTH, FlagBits.FLAG_CONTENT_LENGTH_EXCEEDED,
    FlagBits.FLAG_UNTERMINATED_HEADERS, FlagBits.FLAG_MAX_HEADER_SIZE,
    FlagBits.FLAG_REQUEST_QUERY_EXCEEDED]

/-- The handler index `buildSubRouteTree` leaves on its node: that of the last endpoint of
`eps` whose pattern ends at `offset`, else the one the node had. -/
def terminalVptr (eps : List Endpoint) (offset : Nat) (v0 : Int) : Int :=
  eps.foldl (fun v ep => if rd ep.url offset = 0 then ep.vptr_table_index else v) v0

/-- The vector `param_eps` of `buildSubRouteTree`. -/
def paramEps (eps : List Endpoint) (offset : Nat) : List Endpoint :=
  eps.filter
    (fun ep => rd ep.url offset != 0 && rd ep.url offset != kWildcardMarker
      && (rd ep.url offset == kParamMarker && rd ep.url (offset + 1) == 47))

/-- The vector `static_eps` of `buildSubRouteTree`. -/
def staticEps (eps : List Endpoint) (offset : Nat) : List Endpoint :=
  eps.filter
    (fun ep => rd ep.url offset != 0 && rd ep.url offset != kWildcardMarker
      && !(rd ep.url offset == kParamMarker && rd ep.url (offset + 1) == 47))

/-- The variable `wildcard_ep` of `buildSubRouteTree`. -/
def wildcardEp (eps : List Endpoint) (offset : Nat) : Endpoint :=
  eps.foldl (fun w ep => if rd ep.url offset == kWildcardMarker then ep else w) Endpoint.default

/-- The map `buckets` of `buildSubRouteTree`, in the order in which it is iterated. -/
def staticBuckets (static_eps : List Endpoint) (offset : Nat) : List (Nat × List Endpoint) :=
  static_eps.foldl (fun bs se => bucketInsert (rd se.url offset) se bs) []

/-- The static node made for the bytes `pfx`. -/
def staticNodeOf (pfx : Bytes) : RouteNode :=
  RouteNode.mk (packU64Safe pfx pfx.length) pfx.length (-1) ParamType.kString false false [] []

/-- The parameter node made from the first endpoint of the parameter group. -/
def paramNodeOf (pfirst : Endpoint) : RouteNode :=
  match pfirst.params with
  | [] => makeParamNode
  | pm :: _ => RouteNode.mk 0 0 (-1) pm.type true false pm.name []

/-- The wildcard node made for an endpoint. -/
def wildcardNodeOf (ep : Endpoint) : RouteNode :=
  makeWildcardNode.setVptr ep.vptr_table_index

/-- Several `push_back` calls on the children of a node. -/
def RouteNode.pushChildren : RouteNode → List RouteNode → RouteNode
  | RouteNode.mk v l h t p w n cs, more => RouteNode.mk v l h t p w n (cs ++ more)

/-- The statement `node->children.push_back(child)` followed by the recursive call on
`child`, on a node and a child that may have failed to build. -/
def pushBuilt (acc : Option RouteNode) (c : Option RouteNode) : Option RouteNode :=
  match acc, c with
  | some n, some c => some (n.pushChild c)
  | _, _ => none

/-- Stage 3 of `buildSubRouteTree` (the static group) on the node `n0`. -/
def buildStatic (fuel : Nat) (eps : List Endpoint) (offset : Nat) (n0 : RouteNode) :
    Option RouteNode :=
  match staticEps eps offset with
  | [] => some n0
  | first :: _ =>
    if commonPfx first (staticEps eps offset) offset kMaxPacked 0 [] ≠ [] then
      (buildSubRouteTree fuel
        (staticNodeOf (commonPfx first (staticEps eps offset) offset kMaxPacked 0 []))
        (staticEps eps offset)
        (offset + (commonPfx first (staticEps eps offset) offset kMaxPacked 0 []).length)).map
        n0.pushChild
    else
      (staticBuckets (staticEps eps offset) offset).foldl
        (fun acc kv =>
          pushBuilt acc (buildSubRouteTree fuel (staticNodeOf [kv.1]) kv.2 (offset + 1)))
        (some n0)

/-- Stage 4 of `buildSubRouteTree` (the parameter group). -/
def buildParam (fuel : Nat) (eps : List Endpoint) (offset : Nat) (x : Option RouteNode) :
    Option RouteNode :=
  match paramEps eps offset with
  | [] => x
  | pfirst :: _ =>
    pushBuilt x
      (buildSubRouteTree fuel (paramNodeOf pfirst) (paramEps eps offset) (offset + 2))

/-- Stage 5 of `buildSubRouteTree` (the wildcard terminal). -/
def buildWild (eps : List Endpoint) (offset : Nat) (x : Option RouteNode) : Option RouteNode :=
  if (wildcardEp eps offset).vptr_table_index ≠ -1 then
    x.map (fun n => n.pushChild (wildcardNodeOf (wildcardEp eps offset)))
  else x

/-- The children stage 3 appends: none, the node of the common prefix, or one node per
bucket, each as its recursive call leaves it. -/
def StaticKids (fuel : Nat) (eps : List Endpoint) (offset : Nat) (S : List RouteNode) : Prop :=
  (staticEps eps offset = [] → S = [])
    ∧ ∀ first rest, staticEps eps offset = first :: rest →
      (commonPfx first (staticEps eps offset) offset kMaxPacked 0 [] ≠ [] →
        ∃ c, buildSubRouteTree fuel
            (staticNodeOf (commonPfx first (staticEps eps offset) offset kMaxPacked 0 []))
            (staticEps eps offset)
            (offset + (commonPfx first (staticEps eps offset) offset kMaxPacked 0 []).length)
          = some c ∧ S = [c])
      ∧ (commonPfx first (staticEps eps offset) offset kMaxPacked 0 [] = [] →
          List.Forall₂
            (fun kv c => buildSubRouteTree fuel (staticNodeOf [kv.1]) kv.2 (offset + 1) = some c)
            (staticBuckets (staticEps eps offset) offset) S)

/-- The child stage 4 appends: none, or the parameter node as its recursive call leaves
it. -/
def ParamKids (fuel : Nat) (eps : List Endpoint) (offset : Nat) (P : List RouteNode) : Prop :=
  (paramEps eps offset = [] → P = [])
    ∧ ∀ pfirst rest, paramEps eps offset = pfirst :: rest →
      ∃ c, buildSubRouteTree fuel (paramNodeOf pfirst) (paramEps eps offset) (offset + 2)
        = some c ∧ P = [c]

/-- The child stage 5 appends: none, or the wildcard node. -/
def WildKids (eps : List Endpoint) (offset : Nat) (W : List RouteNode) : Prop :=
  W = if (wildcardEp eps offset).vptr_table_index ≠ -1 then
        [wildcardNodeOf (wildcardEp eps offset)]
      else []

mutual
/-- Every node of the tree under `n`, `n` included, satisfies `p`. -/
def RouteNode.allNodes (p : RouteNode → Bool) : RouteNode → Bool
  | RouteNode.mk v l h t ip iw nm cs =>
    p (RouteNode.mk v l h t ip iw nm cs) && allNodesList p cs
/-- Every node of the trees under the nodes of a list satisfies `p`. -/
def allNodesList (p : RouteNode → Bool) : List RouteNode → Bool
  | [] => true
  | c :: cs => RouteNode.allNodes p c && allNodesList p cs
end

/-- The kind of a node: 0 static, 1 parameter, 2 wildcard. -/
def RouteNode.kind (n : RouteNode) : Nat :=
  if n.is_wildcard then 2 else if n.is_param then 1 else 0

/-- The order of a child list: static children first, then at most one parameter child,
then at most one wildcard child. -/
def childrenOrdered (cs : List RouteNode) : Prop :=
  (cs.map RouteNode.kind).Pairwise (fun a b => a < b ∨ (a = 0 ∧ b = 0))

instance (cs : List RouteNode) : Decidable (childrenOrdered cs) := by
  unfold childrenOrdered; infer_instance

/-- What holds of a node that is a child: a wildcard node has no children and a static node
has a value of 1 to 8 bytes. -/
def RouteNode.childOk (c : RouteNode) : Bool :=
  (if c.is_wildcard then c.children.isEmpty && !c.is_param else true)
    && (if !c.is_param && !c.is_wildcard then
          decide (1 ≤ c.value_length ∧ c.value_length ≤ 8)
        else true)

/-- What holds of the child list of a node: it is ordered and every child is as
`RouteNode.childOk` says. -/
def RouteNode.localOk (n : RouteNode) : Bool :=
  decide (childrenOrdered n.children) && n.children.all RouteNode.childOk

/-- The structural invariants of a trie with root `n`: the root is a static node with
`value_length = 0` and every node has a child list as `RouteNode.localOk` says. -/
def RouteNode.wellFormedRoot (n : RouteNode) : Bool :=
  !n.is_param && !n.is_wildcard && n.value_length == 0 && n.allNodes RouteNode.localOk

/-- The fields of a node other than its handler index and its children. -/
def RouteNode.sameHead (a b : RouteNode) : Prop :=
  a.value = b.value ∧ a.value_length = b.value_length ∧ a.param_type = b.param_type
    ∧ a.is_param = b.is_param ∧ a.is_wildcard = b.is_wildcard ∧ a.param_name = b.param_name

/-- The recursive calls `buildSubRouteTree(child, group, next)` made by the call on `eps` at
`offset`, in the order in which they are made: the node passed, the endpoints passed and
the offset passed. -/
def recursiveCalls (eps : List Endpoint) (offset : Nat) :
    List (RouteNode × List Endpoint × Nat) :=
  (match staticEps eps offset with
    | [] => []
    | first :: _ =>
      if commonPfx first (staticEps eps offset) offset kMaxPacked 0 [] ≠ [] then
        [(staticNodeOf (commonPfx first (staticEps eps offset) offset kMaxPacked 0 []),
          staticEps eps offset,
          offset + (commonPfx first (staticEps eps offset) offset kMaxPacked 0 []).length)]
      else
        (staticBuckets (staticEps eps offset) offset).map
          (fun kv => (staticNodeOf [kv.1], kv.2, offset + 1)))
  ++ (match paramEps eps offset with
    | [] => []
    | pfirst :: _ => [(paramNodeOf pfirst, paramEps eps offset, offset + 2)])

/-- The offset has not passed the terminator of the pattern: no byte before it is NUL. -/
def withinPattern (ep : Endpoint) (offset : Nat) : Prop :=
  ∀ j, j < offset → rd ep.url j ≠ 0

/-- What the buckets hold after the endpoints `done`: ascending distinct keys, each bucket
the endpoints with its key in their order, and a bucket for every endpoint. -/
def BucketsOf (offset : Nat) (bs : List (Nat × List Endpoint)) (done : List Endpoint) : Prop :=
  bs.Pairwise (fun a b => a.1 < b.1)
    ∧ (∀ kv ∈ bs, kv.2 = done.filter (fun e => rd e.url offset == kv.1))
    ∧ (∀ e ∈ done, ∃ kv ∈ bs, kv.1 = rd e.url offset)

/-- The handler index of the last endpoint of `eps` whose pattern is `p` (`-1` if there is
none). -/
def lastHandler (eps : List Endpoint) (p : Bytes) : Int :=
  eps.foldl (fun v ep => if ep.url = p then ep.vptr_table_index else v) (-1)

/-- The node of a trie at which the pattern `p` terminates, found by following `p` from
position `j` at the node `n`: at the end of the pattern it is `n`; at `*` the wildcard
child; at `:/` it continues in the parameter child two bytes further; otherwise it
continues in the static child whose bytes stand at `j`, after them.  The first argument
bounds the number of nodes on the way. -/
def patternNode : Nat → RouteNode → Bytes → Nat → Option RouteNode
  | 0, _, _, _ => none
  | fuel + 1, n, p, j =>
    if rd p j = 0 then some n
    else if rd p j = kWildcardMarker then n.children.find? (fun c => c.is_wildcard)
    else if rd p j = kParamMarker ∧ rd p (j + 1) = 47 then
      match n.children.find? (fun c => c.is_param) with
      | none => none
      | some c => patternNode fuel c p (j + 2)
    else
      match n.children.find?
          (fun c => !c.is_param && !c.is_wildcard && nodeStaticMatches c p j) with
      | none => none
      | some c => patternNode fuel c p (j + c.value_length)

/-- The patterns a route table is built from: bytes without a NUL, a `*` only as the last
byte, and a handler index other than `-1`. -/
def WellFormedPatterns (eps : List Endpoint) : Prop :=
  ∀ ep ∈ eps, IsBytes ep.url ∧ (∀ b ∈ ep.url, b ≠ 0) ∧ ep.vptr_table_index ≠ -1
    ∧ ∀ i, i < ep.url.length → rd ep.url i = kWildcardMarker → i + 1 = ep.url.length

instance (eps : List Endpoint) : Decidable (WellFormedPatterns eps) := by
  unfold WellFormedPatterns; infer_instance

/-- A pattern of plain bytes: not empty and without NUL, `:`, `*`, space and `?`. -/
def StaticPattern (p : Bytes) : Prop :=
  p ≠ [] ∧ ∀ b ∈ p, b ≠ 0 ∧ b ≠ 58 ∧ b ≠ 42 ∧ b ≠ 32 ∧ b ≠ 63

instance (p : Bytes) : Decidable (StaticPattern p) := by
  unfold StaticPattern; infer_instance

/-- An ASCII hex digit: `0`..`9`, `A`..`F` or `a`..`f`. -/
def isHexByte (h : Nat) : Bool :=
  decide ((48 ≤ h ∧ h ≤ 57) ∨ (65 ≤ h ∧ h ≤ 70) ∨ (97 ≤ h ∧ h ≤ 102))

/-- A pair as `parse_query_params` splits it: without `=` the whole pair is the key, of plain
bytes; with `=` the value is the plain bytes after the last `=` and the key every byte
before that `=`, plain bytes and earlier `=` bytes. -/
def splitsAtLastEq (kv : Bytes × Option Bytes) : Prop :=
  renderPair kv ≠ []
    ∧ (∀ v, kv.2 = some v →
        (∀ c ∈ kv.1, isQueryPlain c = true ∨ c = 61) ∧ ∀ c ∈ v, isQueryPlain c = true)
    ∧ (kv.2 = none → ∀ c ∈ kv.1, isQueryPlain c = true)

instance (kv : Bytes × Option Bytes) : Decidable (splitsAtLastEq kv) := by
  unfold splitsAtLastEq; infer_instance

/-- The cursor a successful match leaves, seen from a cursor `c` of the match: it stands on
a space, or a `?` stands at some `k ≥ c`, the cursor is past the query bytes that follow it
and stands on the byte that stopped the query. -/
def MatchResult.endsTarget (url : Bytes) (c : Nat) (res : MatchResult) : Prop :=
  c ≤ res.offset
    ∧ (rd url res.offset = 32
      ∨ ∃ k, c ≤ k ∧ rd url k = 63 ∧ res.offset = k + 1 + queryLen url (k + 1)
          ∧ isQueryStop (rd url res.offset) = true)

/-- A byte that a stored header value may hold: HTAB or a byte from 32 to 126. -/
def isValueByte (b : Nat) : Bool := b == 9 || decide (32 ≤ b ∧ b ≤ 126)

/-- Every value of the mapping holds value bytes only. -/
def cleanValues (hs : Obj) : Prop := ∀ kv ∈ hs, ∀ b ∈ kv.2, isValueByte b = true

instance (hs : Obj) : Decidable (cleanValues hs) := by
  unfold cleanValues; infer_instance

/-- The machine state at the start of a header line: state `ST_STARTUP`, the cursor on the
committed offset and the per-header variables reset. -/
def Scan.lineStart (s : Scan) : Prop :=
  s.state = State.ST_STARTUP ∧ s.offset = s.__offset ∧ s.hdrId = HeaderId.HDR_UNKNOWN
    ∧ s.hdrMergeable = false ∧ s.headerUnknownName = []

/-- What one round of the loop does to `*offset` and the mapping.  Either it touches
neither (and a round that goes on does not move the cursor back); or it is the round of
`ST_HV_CONCAT` that stores a value `v` of value bytes and commits the offset `e` just after
the LF of the line: it then returns OK with `*offset = e + 2` on the CR LF of the blank
line, or goes on at the start of the next line with `*offset = e`. -/
def Step.round (c : Cfg) (s : Scan) (st : Step) : Prop :=
  ((Step.scan st).offset = s.offset ∧ (Step.scan st).outHeaders = s.outHeaders
      ∧ (Step.flag st = none → s.__offset ≤ (Step.scan st).__offset))
    ∨ ∃ (v : Bytes) (e : Nat), (∀ b ∈ v, isValueByte b = true) ∧ s.__offset < e ∧ e ≤ c.total
        ∧ rd c.buf (e - 1) = 10 ∧ (Step.scan st).outHeaders = s.store v
        ∧ ((Step.flag st = some FlagBits.FLAG_OK ∧ (Step.scan st).offset = e + 2
              ∧ e + 1 < c.total ∧ rd c.buf e = 13 ∧ rd c.buf (e + 1) = 10)
          ∨ (Step.flag st = none ∧ (Step.scan st).lineStart ∧ (Step.scan st).offset = e))

/-- Two outcomes of one case of the machine, run from a state and from the same state with
another `vStart`, that agree: the same return with the state unchanged, or the same next
state. -/
def Step.sameLine (s : Scan) (v : Nat) (a b : Step) : Prop :=
  (∃ f, a = Step.ret f { s with vStart := v } ∧ b = Step.ret f s)
    ∨ ∃ s2, a = Step.next s2 ∧ b = Step.next s2

/-- The free stack `st` is sound for the entries `es` and the active size: no index occurs
twice, and every index is the `int` of a position below the active size whose entry is not in
use. -/
def stackOk (es : List PoolEntry) (active : Nat) (st : List Int) : Prop :=
  st.Nodup ∧ ∀ idx ∈ st, ∃ j, j < active ∧ idx = toInt j ∧ (entryAt es j).inUse = false

/-- The invariant of the pool. -/
def CPool.Inv (p : CPool) : Prop :=
  p.m_poolEntries.length = p.m_currentSize ∧ p.m_activeSize ≤ p.m_currentSize
    ∧ p.m_currentSize < 4294967296
    ∧ stackOk p.m_poolEntries p.m_activeSize p.m_freeStack

/-- The size argument of a call, if it has one, is at most 2^31 after conversion, so that
every position of the pool fits an `int`. -/
def PoolOp.small : PoolOp → Prop
  | PoolOp.initializePool x => Uint32Value x ≤ 2147483648
  | PoolOp.resizePool x => Uint32Value x ≤ 2147483648
  | _ => True

instance (op : PoolOp) : Decidable op.small := by
  cases op <;> unfold PoolOp.small <;> infer_instance

/-- The buffers `b2` and `b1` hold the same bytes at every index below `k`. -/
def agreeBelow (k : Nat) (b2 b1 : Bytes) : Prop := ∀ i, i < k → rd b2 i = rd b1 i

/-- What the result of a route match has to be for `ScannerRouteFirst` to go on to the
version check: not one of the three failure codes. -/
def MatchResult.found (r : MatchResult) : Prop := r.ret ≠ -1 ∧ r.ret ≠ -2 ∧ r.ret ≠ -3

instance (r : MatchResult) : Decidable r.found := by
  unfold MatchResult.found
  infer_instance

/-- A case of the machine keeps `vStart` when the loop goes on. -/
def Step.vKeep (s : Scan) : Step → Prop
  | Step.ret _ _ => True
  | Step.next s2 => s2.vStart = s.vStart

/-- A case of the machine that goes on leaves the start state or a `vStart` at or after
`o`. -/
def Step.vOk (o : Nat) : Step → Prop
  | Step.ret _ _ => True
  | Step.next s2 => s2.state = State.ST_STARTUP ∨ o ≤ s2.vStart

/-! # Properties -/

/-! ## Auxiliary lemmas: bytes and words -/

theorem lor_byte_cons (a c x y : Nat) (ha : a < 256) (hc : c < 256) :
    (a + 256 * x) ||| (c + 256 * y) = (a ||| c) + 256 * (x ||| y) := by
  have hac : a ||| c < 2 ^ 8 := Nat.or_lt_two_pow (by simpa using ha) (by simpa using hc)
  have e1 : a + 256 * x = 2 ^ 8 * x + a := by omega
  have e2 : c + 256 * y = 2 ^ 8 * y + c := by omega
  have e3 : (a ||| c) + 256 * (x ||| y) = 2 ^ 8 * (x ||| y) + (a ||| c) := by omega
  rw [e1, e2, e3]
  apply Nat.eq_of_testBit_eq
  intro j
  rw [Nat.testBit_or, Nat.testBit_mul_pow_two_add _ (by simpa using ha),
    Nat.testBit_mul_pow_two_add _ (by simpa using hc), Nat.testBit_mul_pow_two_add _ hac]
  by_cases h : j < 8 <;> simp [h]

theorem xor_mod_two_pow_eq (a b n : Nat) : (a ^^^ b) % 2 ^ n = (a % 2 ^ n) ^^^ (b % 2 ^ n) := by
  apply Nat.eq_of_testBit_eq
  intro j
  simp only [Nat.testBit_mod_two_pow, Nat.testBit_xor]
  by_cases h : j < n <;> simp [h]

theorem rd_lt (buf : Bytes) (h : IsBytes buf) (i : Nat) : rd buf i < 256 := by
  unfold rd
  by_cases hi : i < buf.length
  · rw [List.getD_eq_getElem _ _ hi]; exact h _ (List.getElem_mem _)
  · rw [List.getD_eq_default _ _ (by omega)]; omega

theorem ascii_lower_eq_tolower (b : Nat) : ascii_lower b = tolower b := by
  unfold ascii_lower tolower
  by_cases h : 65 ≤ b ∧ b ≤ 90
  · rw [if_pos h, if_pos h]
    obtain ⟨h1, h2⟩ := h
    interval_cases b <;> rfl
  · rw [if_neg h, if_neg h]

theorem lor32_of_tolower (b l : Nat) (h : tolower b = l) (hl : l ||| 32 = l) : b ||| 32 = l := by
  unfold tolower at h
  by_cases hb : 65 ≤ b ∧ b ≤ 90
  · rw [if_pos hb] at h
    obtain ⟨h1, h2⟩ := hb
    subst h
    interval_cases b <;> rfl
  · rw [if_neg hb] at h
    subst h
    exact hl

theorem packLE_lor : ∀ (xs ys : Bytes), xs.length = ys.length → (∀ a ∈ xs, a < 256) →
    (∀ a ∈ ys, a < 256) → packLE xs ||| packLE ys = packLE (List.zipWith (· ||| ·) xs ys)
  | [], [], _, _, _ => by simp [packLE]
  | [], _ :: _, h, _, _ => by simp at h
  | _ :: _, [], h, _, _ => by simp at h
  | a :: xs, c :: ys, h, hx, hy => by
    have ih := packLE_lor xs ys (by simpa using h)
      (fun b hb => hx b (List.mem_cons_of_mem _ hb)) (fun b hb => hy b (List.mem_cons_of_mem _ hb))
    simp only [packLE, List.zipWith_cons_cons]
    rw [lor_byte_cons _ _ _ _ (hx a (List.mem_cons_self _ _)) (hy c (List.mem_cons_self _ _)), ih]

theorem packLE_lt : ∀ (xs : Bytes), (∀ a ∈ xs, a < 256) → packLE xs < 256 ^ xs.length
  | [], _ => by simp [packLE]
  | a :: xs, h => by
    have ih := packLE_lt xs (fun b hb => h b (List.mem_cons_of_mem _ hb))
    have ha := h a (List.mem_cons_self _ _)
    simp only [packLE, List.length_cons, Nat.pow_succ]
    omega

theorem packLE_append : ∀ (xs ys : Bytes),
    packLE (xs ++ ys) = packLE xs + 256 ^ xs.length * packLE ys
  | [], ys => by simp [packLE]
  | a :: xs, ys => by
    have ih := packLE_append xs ys
    show a + 256 * packLE (xs ++ ys) = packLE (a :: xs) + 256 ^ (xs.length + 1) * packLE ys
    rw [ih, Nat.pow_succ]
    simp only [packLE]
    ring

theorem slice_add (buf : Bytes) (p k m : Nat) :
    slice buf p (k + m) = slice buf p k ++ slice buf (p + k) m := by
  unfold slice
  rw [List.range_add, List.map_append, List.map_map]
  congr 1
  apply List.map_congr_left
  intro i _
  simp [Nat.add_assoc]

theorem slice_length (buf : Bytes) (p k : Nat) : (slice buf p k).length = k := by
  simp [slice]

theorem slice_lt (buf : Bytes) (h : IsBytes buf) (p k : Nat) : ∀ a ∈ slice buf p k, a < 256 := by
  intro a ha
  simp only [slice, List.mem_map] at ha
  obtain ⟨i, _, rfl⟩ := ha
  exact rd_lt buf h _

theorem lor32_lt (a : Nat) (h : a < 256) : a ||| 32 < 256 :=
  Nat.or_lt_two_pow (n := 8) (by simpa using h) (by decide)

/-- The lane-wise OR with 0x20 of a packed byte sequence. -/
theorem packLE_lor32 (k : Nat) (xs : Bytes) (hl : xs.length = k) (hx : ∀ a ∈ xs, a < 256) :
    packLE xs ||| packLE (List.replicate k 32) = packLE (xs.map (· ||| 32)) := by
  rw [packLE_lor xs (List.replicate k 32) (by simp [hl]) hx
    (by intro a ha; rw [List.eq_of_mem_replicate ha]; decide)]
  congr 1
  subst hl
  clear hx
  induction xs with
  | nil => rfl
  | cons a xs ih => simp [List.replicate_succ, ih]

/-- A masked compare of a lower-cased word: the low `k` bytes are the lane-wise OR with 0x20
of the `k` bytes read. -/
theorem lw_mod (buf : Bytes) (h : IsBytes buf) (p k : Nat) (hk : k ≤ 8) (lit : Bytes)
    (hlit : (slice buf p k).map (· ||| 32) = lit) :
    ascii_lower_u64 (load_u64 buf p) % 256 ^ k = packLE lit := by
  unfold ascii_lower_u64 load_u64
  have e : (0x2020202020202020 : Nat) = packLE (List.replicate 8 32) := by decide
  rw [e, packLE_lor32 8 _ (slice_length _ _ _) (slice_lt buf h p 8)]
  have e8 : slice buf p 8 = slice buf p k ++ slice buf (p + k) (8 - k) := by
    rw [← slice_add]; congr 1; omega
  rw [e8, List.map_append, packLE_append, hlit]
  have hlen : lit.length = k := by rw [← hlit]; simp [slice_length]
  have hlt : packLE lit < 256 ^ k := by
    rw [← hlen]
    apply packLE_lt
    intro a ha
    rw [← hlit] at ha
    simp only [List.mem_map] at ha
    obtain ⟨b, hb, rfl⟩ := ha
    exact lor32_lt b (slice_lt buf h p k b hb)
  rw [hlen, Nat.add_mul_mod_self_left, Nat.mod_eq_of_lt hlt]

theorem lw128_mod (buf : Bytes) (h : IsBytes buf) (p k : Nat) (hk : k ≤ 16) (lit : Bytes)
    (hlit : (slice buf p k).map (· ||| 32) = lit) :
    ascii_lower_u128 (load_u128 buf p) % 256 ^ k = packLE lit := by
  unfold ascii_lower_u128 load_u128
  rw [packLE_lor32 16 _ (slice_length _ _ _) (slice_lt buf h p 16)]
  have e16 : slice buf p 16 = slice buf p k ++ slice buf (p + k) (16 - k) := by
    rw [← slice_add]; congr 1; omega
  rw [e16, List.map_append, packLE_append, hlit]
  have hlen : lit.length = k := by rw [← hlit]; simp [slice_length]
  have hlt : packLE lit < 256 ^ k := by
    rw [← hlen]
    apply packLE_lt
    intro a ha
    rw [← hlit] at ha
    simp only [List.mem_map] at ha
    obtain ⟨b, hb, rfl⟩ := ha
    exact lor32_lt b (slice_lt buf h p k b hb)
  rw [hlen, Nat.add_mul_mod_self_left, Nat.mod_eq_of_lt hlt]

theorem simd_eq_n_of_mod (simd : Simd) (a b n : Nat) (hmask : mask128 n = 2 ^ (8 * n) - 1)
    (h : a % 2 ^ (8 * n) = b % 2 ^ (8 * n)) : simd_eq_n simd a b n = true := by
  unfold simd_eq_n
  have hd : (a ^^^ b) &&& mask128 n = 0 := by
    rw [hmask, Nat.and_pow_two_sub_one_eq_mod, xor_mod_two_pow_eq, h, Nat.xor_self]
  simp only [hd]
  cases simd <;> decide

theorem nameAt_get (buf : Bytes) (o : Nat) (lit : Bytes) (h : nameAt buf o lit) (i : Nat)
    (hi : i < lit.length) : tolower (rd buf (o + i)) = rd lit i := by
  unfold nameAt at h
  have : rd lit i = rd ((slice buf o lit.length).map tolower) i := by rw [h]
  rw [this]
  simp [rd, slice, List.getD_eq_getElem?_getD, hi]

/-- A sub-range of a name, lane-wise ORed with 0x20, is the same sub-range of the literal
when the literal is made of bytes that already carry the bit 0x20. -/
theorem nameAt_lor (buf : Bytes) (o : Nat) (lit : Bytes) (h : nameAt buf o lit)
    (hl : ∀ l ∈ lit, l ||| 32 = l) (i k : Nat) (hik : i + k ≤ lit.length) :
    (slice buf (o + i) k).map (· ||| 32) = slice lit i k := by
  apply List.ext_getElem
  · simp [slice_length]
  · intro j h1 h2
    simp only [slice, List.getElem_map, List.getElem_range]
    simp only [List.length_map, slice_length] at h1
    have hg := nameAt_get buf o lit h (i + j) (by omega)
    have hmem : rd lit (i + j) ∈ lit := by
      unfold rd
      rw [List.getD_eq_getElem _ _ (by omega)]
      exact List.getElem_mem _
    rw [Nat.add_assoc]
    exact lor32_of_tolower _ _ hg (hl _ hmem)

theorem tolower_cases (b l : Nat) (h : tolower b = l) (hl : 97 ≤ l ∧ l ≤ 122) :
    b = l ∨ b = l - 32 := by
  unfold tolower at h
  by_cases hb : 65 ≤ b ∧ b ≤ 90
  · rw [if_pos hb] at h; omega
  · rw [if_neg hb] at h; omega

theorem step_startup_c (c : Cfg) (s : Scan) (hst : s.state = State.ST_STARTUP)
    (h0 : tolower (rd c.buf s.__offset) = 99)
    (ht : s.__offset < c.total) (hcap : s.__offset ≤ c.maxHeaderSize) :
    step c s = Step.next (s.started State.ST_HN_C) := by
  have hb := tolower_cases _ _ h0 (by omega)
  unfold step
  rw [hst]
  simp only [st_STARTUP, Scan.started, Cfg.byte]
  rw [if_neg (by omega), if_neg (by omega)]
  rcases hb with hb | hb <;> simp [hb]
/-! ## Auxiliary lemmas: progress of the scanning loop -/

theorem cut_nameOk (s : Scan) : Step.nameOk s s.cut := by
  simp [Step.nameOk, Scan.cut]

theorem unknown_nameOk (s : Scan) (off : Nat) (h : s.__offset ≤ off) :
    Step.nameOk s (s.unknown off) := by
  simp [Step.nameOk, Scan.unknown, h]

theorem known_nameOk (s : Scan) (off : Nat) (id : HeaderId) (h : s.__offset ≤ off) :
    Step.nameOk s (s.known off id) := by
  simp [Step.nameOk, Scan.known, h]

theorem mergeable_nameOk (s : Scan) (off : Nat) (id : HeaderId) (h : s.__offset ≤ off) :
    Step.nameOk s (s.mergeable off id) := by
  simp [Step.nameOk, Scan.mergeable, h]

theorem singleton_nameOk (s : Scan) (off : Nat) (id : HeaderId) (nm : Bytes)
    (h : s.__offset ≤ off) : Step.nameOk s (s.singleton off id nm) := by
  unfold Scan.singleton
  split
  · simp [Step.nameOk]
  · exact known_nameOk s off id h

theorem contentLength_nameOk (s : Scan) (off : Nat) (h : s.__offset ≤ off) :
    Step.nameOk s (s.contentLength off) := by
  unfold Scan.contentLength
  split
  · simp [Step.nameOk]
  · split
    · simp [Step.nameOk]
    · exact known_nameOk s off _ h

theorem transferEncoding_nameOk (s : Scan) (off : Nat) (h : s.__offset ≤ off) :
    Step.nameOk s (s.transferEncoding off) := by
  unfold Scan.transferEncoding
  split
  · simp [Step.nameOk]
  · split
    · simp [Step.nameOk]
    · exact known_nameOk s off _ h

theorem colon_nameOk (c : Cfg) (s : Scan) (off : Nat) (hit : Step) (h : s.__offset ≤ off)
    (hh : Step.nameOk s hit) : Step.nameOk s (s.colon c off hit) := by
  unfold Scan.colon
  split
  · exact hh
  · exact unknown_nameOk s off h

theorem ite_nameOk (s : Scan) (p : Prop) [Decidable p] (a b : Step)
    (ha : Step.nameOk s a) (hb : Step.nameOk s b) : Step.nameOk s (if p then a else b) := by
  split <;> assumption

theorem secFetch_nameOk (c : Cfg) (s : Scan) (o : Nat) (tail : Bytes) (id : HeaderId)
    (h : s.__offset ≤ o) : Step.nameOk s (s.secFetch c o tail id) := by
  unfold Scan.secFetch
  simp only []
  repeat' first
    | exact cut_nameOk s
    | exact unknown_nameOk s _ (by omega)
    | exact colon_nameOk c s _ _ (by omega) (known_nameOk s _ _ (by omega))
    | apply ite_nameOk

theorem st_HN_H_nameOk (c : Cfg) (s : Scan) : Step.nameOk s (st_HN_H c s) := by
  unfold st_HN_H
  simp only []
  repeat' first
    | exact cut_nameOk s
    | exact unknown_nameOk s _ (by omega)
    | exact colon_nameOk c s _ _ (by omega) (singleton_nameOk s _ _ _ (by omega))
    | apply ite_nameOk

theorem st_HN_A_nameOk (c : Cfg) (s : Scan) : Step.nameOk s (st_HN_A c s) := by
  unfold st_HN_A
  simp only []
  repeat' first
    | exact cut_nameOk s
    | exact unknown_nameOk s _ (by omega)
    | exact known_nameOk s _ _ (by omega)
    | exact colon_nameOk c s _ _ (by omega) (mergeable_nameOk s _ _ (by omega))
    | exact colon_nameOk c s _ _ (by omega) (singleton_nameOk s _ _ _ (by omega))
    | apply ite_nameOk

theorem st_HN_C_nameOk (c : Cfg) (s : Scan) : Step.nameOk s (st_HN_C c s) := by
  unfold st_HN_C
  simp only []
  repeat' first
    | exact cut_nameOk s
    | exact unknown_nameOk s _ (by omega)
    | exact colon_nameOk c s _ _ (by omega) (mergeable_nameOk s _ _ (by omega))
    | exact colon_nameOk c s _ _ (by omega) (known_nameOk s _ _ (by omega))
    | exact colon_nameOk c s _ _ (by omega) (singleton_nameOk s _ _ _ (by omega))
    | exact colon_nameOk c s _ _ (by omega) (contentLength_nameOk s _ (by omega))
    | apply ite_nameOk

theorem st_HN_D_nameOk (c : Cfg) (s : Scan) : Step.nameOk s (st_HN_D c s) := by
  unfold st_HN_D
  simp only []
  repeat' first
    | exact cut_nameOk s
    | exact unknown_nameOk s _ (by omega)
    | exact colon_nameOk c s _ _ (by omega) (known_nameOk s _ _ (by omega))
    | exact colon_nameOk c s _ _ (by omega) (singleton_nameOk s _ _ _ (by omega))
    | apply ite_nameOk

theorem st_HN_L_nameOk (c : Cfg) (s : Scan) : Step.nameOk s (st_HN_L c s) := by
  unfold st_HN_L
  simp only []
  repeat' first
    | exact cut_nameOk s
    | exact unknown_nameOk s _ (by omega)
    | exact colon_nameOk c s _ _ (by omega) (known_nameOk s _ _ (by omega))
    | apply ite_nameOk

theorem st_HN_O_nameOk (c : Cfg) (s : Scan) : Step.nameOk s (st_HN_O c s) := by
  unfold st_HN_O
  simp only []
  repeat' first
    | exact cut_nameOk s
    | exact unknown_nameOk s _ (by omega)
    | exact colon_nameOk c s _ _ (by omega) (singleton_nameOk s _ _ _ (by omega))
    | apply ite_nameOk

theorem st_HN_P_nameOk (c : Cfg) (s : Scan) : Step.nameOk s (st_HN_P c s) := by
  unfold st_HN_P
  simp only []
  repeat' first
    | exact cut_nameOk s
    | exact unknown_nameOk s _ (by omega)
    | exact colon_nameOk c s _ _ (by omega) (known_nameOk s _ _ (by omega))
    | exact colon_nameOk c s _ _ (by omega) (mergeable_nameOk s _ _ (by omega))
    | exact colon_nameOk c s _ _ (by omega) (singleton_nameOk s _ _ _ (by omega))
    | apply ite_nameOk

theorem st_HN_S_nameOk (c : Cfg) (s : Scan) : Step.nameOk s (st_HN_S c s) := by
  unfold st_HN_S
  simp only []
  repeat' first
    | exact cut_nameOk s
    | exact unknown_nameOk s _ (by omega)
    | exact secFetch_nameOk c s _ _ _ (by omega)
    | exact colon_nameOk c s _ _ (by omega) (known_nameOk s _ _ (by omega))
    | apply ite_nameOk

theorem st_HN_T_nameOk (c : Cfg) (s : Scan) : Step.nameOk s (st_HN_T c s) := by
  unfold st_HN_T
  simp only []
  repeat' first
    | exact cut_nameOk s
    | exact unknown_nameOk s _ (by omega)
    | exact mergeable_nameOk s _ _ (by omega)
    | exact colon_nameOk c s _ _ (by omega) (mergeable_nameOk s _ _ (by omega))
    | exact colon_nameOk c s _ _ (by omega) (transferEncoding_nameOk s _ (by omega))
    | apply ite_nameOk

theorem st_HN_U_nameOk (c : Cfg) (s : Scan) : Step.nameOk s (st_HN_U c s) := by
  unfold st_HN_U
  simp only []
  repeat' first
    | exact cut_nameOk s
    | exact unknown_nameOk s _ (by omega)
    | exact colon_nameOk c s _ _ (by omega) (mergeable_nameOk s _ _ (by omega))
    | exact colon_nameOk c s _ _ (by omega) (singleton_nameOk s _ _ _ (by omega))
    | apply ite_nameOk

theorem st_HN_V_nameOk (c : Cfg) (s : Scan) : Step.nameOk s (st_HN_V c s) := by
  unfold st_HN_V
  simp only []
  repeat' first
    | exact cut_nameOk s
    | exact unknown_nameOk s _ (by omega)
    | exact colon_nameOk c s _ _ (by omega) (known_nameOk s _ _ (by omega))
    | apply ite_nameOk

theorem st_HN_W_nameOk (c : Cfg) (s : Scan) : Step.nameOk s (st_HN_W c s) := by
  unfold st_HN_W
  simp only []
  repeat' first
    | exact cut_nameOk s
    | exact unknown_nameOk s _ (by omega)
    | exact colon_nameOk c s _ _ (by omega) (known_nameOk s _ _ (by omega))
    | apply ite_nameOk

theorem st_HN_X_nameOk (c : Cfg) (s : Scan) : Step.nameOk s (st_HN_X c s) := by
  unfold st_HN_X
  simp only []
  repeat' first
    | exact cut_nameOk s
    | exact unknown_nameOk s _ (by omega)
    | exact colon_nameOk c s _ _ (by omega) (known_nameOk s _ _ (by omega))
    | apply ite_nameOk

theorem st_HN_I_nameOk (c : Cfg) (s : Scan) : Step.nameOk s (st_HN_I c s) := by
  unfold st_HN_I
  simp only []
  repeat' first
    | exact cut_nameOk s
    | exact unknown_nameOk s _ (by split <;> omega)
    | exact unknown_nameOk s _ (by omega)
    | exact singleton_nameOk s _ _ _ (by omega)
    | exact colon_nameOk c s _ _ (by split <;> omega) (singleton_nameOk s _ _ _ (by split <;> omega))
    | exact colon_nameOk c s _ _ (by omega) (singleton_nameOk s _ _ _ (by omega))
    | apply ite_nameOk

theorem unknownLoop_none (c : Cfg) (v : Nat) : ∀ (n off off2 : Nat),
    unknownLoop c v n off = (none, off2) → off < off2
  | 0, off, off2, h => by simp [unknownLoop] at h
  | n + 1, off, off2, h => by
    unfold unknownLoop at h
    simp only [] at h
    split at h
    · simp at h
    · split at h
      · simp only [Prod.mk.injEq, true_and] at h; omega
      · split at h
        · simp at h
        · split at h
          · simp at h
          · split at h
            · simp at h
            · have := unknownLoop_none c v n (off + 1) off2 h
              omega

theorem skipOWS_ge (c : Cfg) : ∀ (n off : Nat), off ≤ skipOWS c n off
  | 0, off => by simp [skipOWS]
  | n + 1, off => by
    unfold skipOWS
    split
    · have := skipOWS_ge c n (off + 1); omega
    · omega

theorem hv_any_loop_lineEnd (buf : Bytes) (total mx vb : Nat) : ∀ (n off ve : Nat),
    (hv_any_loop buf total mx vb n off ve).lineEnd buf total off
  | 0, off, ve => by simp [hv_any_loop, ParseResult.lineEnd]
  | n + 1, off, ve => by
    unfold hv_any_loop
    simp only []
    split
    · simp [ParseResult.lineEnd]
    · split
      · simp [ParseResult.lineEnd]
      · split
        · rename_i h1 _ h3
          intro _
          exact ⟨Nat.le_refl _, by dsimp only; omega, h3⟩
        · split
          · simp [ParseResult.lineEnd]
          · split
            · simp [ParseResult.lineEnd]
            · split
              · simp [ParseResult.lineEnd]
              · intro hf
                have := hv_any_loop_lineEnd buf total mx vb n (off + 1) _ hf
                exact ⟨by omega, this.2⟩

theorem hv_number_ows_none (buf : Bytes) (total : Nat) : ∀ (n off off2 : Nat),
    hv_number_ows buf total n off = (none, off2) →
      off ≤ off2 ∧ off2 < total ∧ (rd buf off2 = 13 ∨ rd buf off2 = 10)
  | 0, off, off2, h => by simp [hv_number_ows] at h
  | n + 1, off, off2, h => by
    unfold hv_number_ows at h
    simp only [] at h
    split at h
    · simp at h
    · split at h
      · rename_i h1 h2
        simp only [Prod.mk.injEq, true_and] at h
        subst h
        exact ⟨Nat.le_refl _, by omega, h2⟩
      · split at h
        · simp at h
        · have := hv_number_ows_none buf total n (off + 1) off2 h
          exact ⟨by omega, this.2⟩

theorem hv_number_ows_some (buf : Bytes) (total : Nat) : ∀ (n off : Nat) (f : FlagBits)
    (off2 : Nat), hv_number_ows buf total n off = (some f, off2) → f ≠ FlagBits.FLAG_OK
  | 0, off, f, off2, h => by
    simp only [hv_number_ows, Prod.mk.injEq, Option.some.injEq] at h
    rw [← h.1]; decide
  | n + 1, off, f, off2, h => by
    unfold hv_number_ows at h
    simp only [] at h
    split at h
    · simp only [Prod.mk.injEq, Option.some.injEq] at h
      rw [← h.1]; decide
    · split at h
      · simp at h
      · split at h
        · simp only [Prod.mk.injEq, Option.some.injEq] at h
          rw [← h.1]; decide
        · exact hv_number_ows_some buf total n (off + 1) f off2 h

theorem hv_number_loop_lineEnd (buf : Bytes) (total mx vb : Nat) : ∀ (n off ve : Nat) (sd : Bool),
    (hv_number_loop buf total mx vb n off ve sd).lineEnd buf total off
  | 0, off, ve, sd => by simp [hv_number_loop, ParseResult.lineEnd]
  | n + 1, off, ve, sd => by
    unfold hv_number_loop
    simp only []
    split
    · simp [ParseResult.lineEnd]
    · split
      · simp [ParseResult.lineEnd]
      · split
        · rename_i h1 _ h3
          split
          · simp [ParseResult.lineEnd]
          · intro _
            exact ⟨Nat.le_refl _, by dsimp only; omega, h3⟩
        · split
          · intro hf
            have := hv_number_loop_lineEnd buf total mx vb n (off + 1) (off + 1) true hf
            exact ⟨by omega, this.2⟩
          · split
            · split
              · rename_i f off2 he
                intro hf
                exact absurd hf (hv_number_ows_some buf total n (off + 1) f off2 he)
              · rename_i off2 he
                have hh := hv_number_ows_none buf total n (off + 1) off2 he
                split
                · simp [ParseResult.lineEnd]
                · intro _
                  exact ⟨by dsimp only; omega, hh.2⟩
            · simp [ParseResult.lineEnd]

theorem HEADERS_lineEnd (id : HeaderId) (buf : Bytes) (off total mx : Nat) :
    ((HEADERS id).value_parser_fn buf off total mx).lineEnd buf total off := by
  cases id <;> first
    | exact hv_any_loop_lineEnd buf total mx off (total - off) off off
    | exact hv_number_loop_lineEnd buf total mx off (total - off) off off false

theorem nameOk_dec (c : Cfg) (s : Scan) (st : Step) (hr : s.state.rank = 2)
    (h : Step.nameOk s st) : Step.dec c s st := by
  cases st with
  | ret f s2 => trivial
  | next s2 =>
    obtain ⟨h1, _, _, h4⟩ := h
    have hr2 : s2.state.rank = 1 := by rcases h4 with h4 | h4 <;> rw [h4] <;> rfl
    show 4 * (c.total - s2.__offset) + s2.state.rank < 4 * (c.total - s.__offset) + s.state.rank
    omega

theorem ite_dec (c : Cfg) (s : Scan) (p : Prop) [Decidable p] (a b : Step)
    (ha : Step.dec c s a) (hb : Step.dec c s b) : Step.dec c s (if p then a else b) := by
  split <;> assumption

theorem st_STARTUP_dec (c : Cfg) (s : Scan) (hst : s.state = State.ST_STARTUP) :
    Step.dec c s (st_STARTUP c s) := by
  unfold st_STARTUP
  simp only []
  have key : ∀ st : State, st.rank ≤ 2 → Step.dec c s (Step.next (s.started st)) := by
    intro st hr
    show 4 * (c.total - (s.__offset + 1)) + st.rank < 4 * (c.total - s.__offset) + s.state.rank
    rw [hst]
    show _ < 4 * (c.total - s.__offset) + 3
    omega
  have key2 : Step.dec c s
      (Step.next { s with vStart := s.__offset, state := State.ST_HN_UNKNOWN }) := by
    show 4 * (c.total - s.__offset) + 1 < 4 * (c.total - s.__offset) + s.state.rank
    rw [hst]
    show _ < _ + 3
    omega
  repeat' first
    | exact trivial
    | exact key _ (by decide)
    | exact key2
    | apply ite_dec

theorem st_HN_SPACE_dec (c : Cfg) (s : Scan) (hst : s.state = State.ST_HN_SPACE)
    (hlt : s.__offset < c.total) : Step.dec c s (st_HN_SPACE c s) := by
  show 4 * (c.total - (s.__offset + 1)) + 0 < 4 * (c.total - s.__offset) + s.state.rank
  rw [hst]
  show _ < _ + 1
  omega

theorem st_HN_UNKNOWN_dec (c : Cfg) (s : Scan) (hst : s.state = State.ST_HN_UNKNOWN) :
    Step.dec c s (st_HN_UNKNOWN c s) := by
  unfold st_HN_UNKNOWN
  split
  · trivial
  · rename_i off he
    have := unknownLoop_none c _ _ _ _ he
    show 4 * (c.total - off) + 0 < 4 * (c.total - s.__offset) + s.state.rank
    rw [hst]
    show _ < _ + 1
    omega

theorem st_HV_CONCAT_dec (c : Cfg) (s : Scan) (hst : s.state = State.ST_HV_CONCAT) :
    Step.dec c s (st_HV_CONCAT c s) := by
  unfold st_HV_CONCAT
  simp only []
  have hle := HEADERS_lineEnd s.hdrId c.buf
    (skipOWS c (c.total - s.__offset) s.__offset) c.total c.maxHeaderValueSize
  have hsk := skipOWS_ge c (c.total - s.__offset) s.__offset
  generalize (HEADERS s.hdrId).value_parser_fn c.buf
    (skipOWS c (c.total - s.__offset) s.__offset) c.total c.maxHeaderValueSize = r at *
  by_cases hf : r.flag ≠ FlagBits.FLAG_OK
  · rw [if_pos hf]; trivial
  · rw [if_neg hf]
    obtain ⟨h1, h2, h3⟩ := hle (not_not.mp hf)
    by_cases hcr : c.byte r.cur = 13 ∧ (r.cur + 1 ≥ c.total ∨ c.byte (r.cur + 1) ≠ 10)
    · rw [if_pos hcr]; trivial
    · rw [if_neg hcr]
      apply ite_dec
      · trivial
      · show 4 * (c.total - (if c.byte r.cur = 13 then r.cur + 2
            else if c.byte r.cur = 10 then r.cur + 1 else r.cur)) + 3
          < 4 * (c.total - s.__offset) + s.state.rank
        rw [hst]
        show _ < _ + 0
        unfold Cfg.byte at hcr ⊢
        rcases h3 with h3 | h3
        · rw [if_pos h3]
          have : r.cur + 1 < c.total := by
            by_contra hh
            exact hcr ⟨h3, Or.inl (by omega)⟩
          omega
        · rw [if_neg (by omega), if_pos h3]
          omega

theorem step_dec (c : Cfg) (s : Scan)
    (h : ¬ (s.__offset ≥ c.total ∧ s.state ≠ State.ST_HV_CONCAT)) :
    Step.dec c s (step c s) := by
  unfold step
  cases hst : s.state <;> simp only []
  · exact st_STARTUP_dec c s hst
  · exact st_HN_SPACE_dec c s hst (by rw [hst] at h; simp at h; omega)
  · exact st_HN_UNKNOWN_dec c s hst
  · exact nameOk_dec c s _ (by rw [hst]; rfl) (st_HN_H_nameOk c s)
  · exact nameOk_dec c s _ (by rw [hst]; rfl) (st_HN_A_nameOk c s)
  · exact nameOk_dec c s _ (by rw [hst]; rfl) (st_HN_C_nameOk c s)
  · exact nameOk_dec c s _ (by rw [hst]; rfl) (st_HN_D_nameOk c s)
  · exact nameOk_dec c s _ (by rw [hst]; rfl) (st_HN_I_nameOk c s)
  · exact nameOk_dec c s _ (by rw [hst]; rfl) (st_HN_L_nameOk c s)
  · exact nameOk_dec c s _ (by rw [hst]; rfl) (st_HN_O_nameOk c s)
  · exact nameOk_dec c s _ (by rw [hst]; rfl) (st_HN_P_nameOk c s)
  · exact nameOk_dec c s _ (by rw [hst]; rfl) (st_HN_S_nameOk c s)
  · exact nameOk_dec c s _ (by rw [hst]; rfl) (st_HN_T_nameOk c s)
  · exact nameOk_dec c s _ (by rw [hst]; rfl) (st_HN_U_nameOk c s)
  · exact nameOk_dec c s _ (by rw [hst]; rfl) (st_HN_V_nameOk c s)
  · exact nameOk_dec c s _ (by rw [hst]; rfl) (st_HN_W_nameOk c s)
  · exact nameOk_dec c s _ (by rw [hst]; rfl) (st_HN_X_nameOk c s)
  · exact st_HV_CONCAT_dec c s hst

theorem step_startup_t (c : Cfg) (s : Scan) (hst : s.state = State.ST_STARTUP)
    (h0 : tolower (rd c.buf s.__offset) = 116)
    (ht : s.__offset < c.total) (hcap : s.__offset ≤ c.maxHeaderSize) :
    step c s = Step.next (s.started State.ST_HN_T) := by
  have hb := tolower_cases _ _ h0 (by omega)
  unfold step
  rw [hst]
  simp only [st_STARTUP, Scan.started, Cfg.byte]
  rw [if_neg (by omega), if_neg (by omega)]
  rcases hb with hb | hb <;> simp [hb]

/-- A masked 64-bit compare against a sub-range of a name recognised up to letter case. -/
theorem lw_mask_eq (c : Cfg) (hb : IsBytes c.buf) (o : Nat) (lit : Bytes)
    (hn : nameAt c.buf o lit) (hl : ∀ l ∈ lit, l ||| 32 = l) (i k : Nat)
    (hik : i + k ≤ lit.length) (hk : k ≤ 8) (mask v : Nat) (hm : mask = 2 ^ (8 * k) - 1)
    (hv : v = packLE (slice lit i k)) : c.lw (o + i) &&& mask = v := by
  unfold Cfg.lw
  rw [hm, Nat.and_pow_two_sub_one_eq_mod, hv, Nat.pow_mul]
  exact lw_mod c.buf hb (o + i) k hk _ (nameAt_lor c.buf o lit hn hl i k hik)

/-- A 128-bit compare against a sub-range of a name recognised up to letter case succeeds
on both backends. -/
theorem eq128_of_nameAt (c : Cfg) (hb : IsBytes c.buf) (o : Nat) (lit : Bytes)
    (hn : nameAt c.buf o lit) (hl : ∀ l ∈ lit, l ||| 32 = l) (i k : Nat)
    (hik : i + k ≤ lit.length) (hk : k ≤ 16) (part : Bytes)
    (hmask : mask128 k = 2 ^ (8 * k) - 1)
    (hv : load_const128 (PACK16 part) % 2 ^ (8 * k) = packLE (slice lit i k)) :
    c.eq128 (o + i) part k = true := by
  unfold Cfg.eq128
  apply simd_eq_n_of_mod _ _ _ _ hmask
  rw [hv, Nat.pow_mul]
  exact lw128_mod c.buf hb (o + i) k hk _ (nameAt_lor c.buf o lit hn hl i k hik)

theorem nameAt_lower (buf : Bytes) (o : Nat) (lit : Bytes) (hn : nameAt buf o lit) (i l : Nat)
    (hi : i < lit.length) (hl : rd lit i = l) : ascii_lower (rd buf (o + i)) = l := by
  rw [ascii_lower_eq_tolower, nameAt_get buf o lit hn i hi, hl]

theorem step_HN_C_contentLength (c : Cfg) (s : Scan) (o : Nat) (hb : IsBytes c.buf)
    (hs : s.__offset = o + 1) (hst : s.state = State.ST_HN_C)
    (hn : nameAt c.buf o (B "content-length")) (h14 : rd c.buf (o + 14) = 58)
    (ht : o + 15 ≤ c.total) :
    step c s = s.contentLength (o + 14) := by
  have hl : ∀ l ∈ B "content-length", l ||| 32 = l := by decide
  have h1 := nameAt_lower c.buf o _ hn 1 111 (by decide) (by decide)
  have h2 := nameAt_lower c.buf o _ hn 2 110 (by decide) (by decide)
  have h3 := nameAt_lower c.buf o _ hn 3 116 (by decide) (by decide)
  have h8 := nameAt_lower c.buf o _ hn 8 108 (by decide) (by decide)
  have h4 := lw_mask_eq c hb o _ hn hl 4 4 (by decide) (by decide) MASK_U64_4BYTE
    (PACK8 (B "ent-")) (by decide) (by decide)
  have h9 := lw_mask_eq c hb o _ hn hl 9 5 (by decide) (by decide) MASK_U64_5BYTE
    (PACK8 (B "ength")) (by decide) (by decide)
  unfold step
  rw [hst]
  simp only [st_HN_C, Cfg.byte, hs, Scan.colon, Nat.add_assoc, Nat.reduceAdd]
  have a1 : ¬ (o + 1 ≥ c.total) := by omega
  have a2 : ¬ (o + 2 ≥ c.total) := by omega
  have a3 : ¬ (o + 3 ≥ c.total) := by omega
  have a7 : ¬ (o + 7 > c.total) := by omega
  have a8 : ¬ (o + 8 ≥ c.total) := by omega
  simp [a1, a2, a3, a7, a8, h1, h2, h3, h4, h8, h9, h14]

theorem step_HN_T_transferEncoding (c : Cfg) (s : Scan) (o : Nat) (hb : IsBytes c.buf)
    (hs : s.__offset = o + 1) (hst : s.state = State.ST_HN_T)
    (hn : nameAt c.buf o (B "transfer-encoding")) (h17 : rd c.buf (o + 17) = 58)
    (ht : o + 18 ≤ c.total) :
    step c s = s.transferEncoding (o + 17) := by
  have hl : ∀ l ∈ B "transfer-encoding", l ||| 32 = l := by decide
  have h1 := nameAt_lower c.buf o _ hn 1 114 (by decide) (by decide)
  have h2 := lw_mask_eq c hb o _ hn hl 2 2 (by decide) (by decide) MASK_U64_2BYTE
    (PACK8 (B "an")) (by decide) (by decide)
  have h4 := eq128_of_nameAt c hb o _ hn hl 4 13 (by decide) (by decide) (B "sfer-encoding")
    (by decide) (by decide)
  unfold step
  rw [hst]
  simp only [st_HN_T, Cfg.byte, hs, Scan.colon, Nat.add_assoc, Nat.reduceAdd]
  have a1 : ¬ (o + 1 ≥ c.total) := by omega
  have a4 : ¬ (o + 4 ≥ c.total) := by omega
  have a17 : ¬ (o + 17 > c.total) := by omega
  simp [a1, a4, a17, h1, h2, h4, h17]

theorem scanLoop_succ (c : Cfg) (n : Nat) (s : Scan) :
    scanLoop c (n + 1) s =
      if s.__offset ≥ c.total ∧ s.state ≠ State.ST_HV_CONCAT then
        some ⟨FlagBits.FLAG_OK, s.offset, s.outHeaders⟩
      else
        match step c s with
        | Step.ret f s2 => some ⟨f, s2.offset, s2.outHeaders⟩
        | Step.next s2 => scanLoop c n s2 := rfl

theorem scanRounds_scanLoop (c : Cfg) : ∀ (k : Nat) (s s2 : Scan),
    scanRounds c k s = some s2 → ∀ n, scanLoop c (k + n) s = scanLoop c n s2
  | 0, s, s2, h, n => by
    simp only [scanRounds, Option.some.injEq] at h
    rw [h, Nat.zero_add]
  | k + 1, s, s2, h, n => by
    unfold scanRounds at h
    rw [show k + 1 + n = (k + n) + 1 by omega, scanLoop_succ]
    by_cases hh : s.__offset ≥ c.total ∧ s.state ≠ State.ST_HV_CONCAT
    · rw [if_pos hh] at h; exact absurd h (by simp)
    · rw [if_neg hh] at h
      rw [if_neg hh]
      cases hs : step c s with
      | ret f s3 => rw [hs] at h; exact absurd h (by simp)
      | next s3 =>
        rw [hs] at h
        exact scanRounds_scanLoop c k s3 s2 h n

theorem scanRounds_pot (c : Cfg) : ∀ (k : Nat) (s s2 : Scan),
    scanRounds c k s = some s2 → s2.pot c + k ≤ s.pot c
  | 0, s, s2, h => by
    simp only [scanRounds, Option.some.injEq] at h
    rw [h]; omega
  | k + 1, s, s2, h => by
    unfold scanRounds at h
    by_cases hh : s.__offset ≥ c.total ∧ s.state ≠ State.ST_HV_CONCAT
    · rw [if_pos hh] at h; exact absurd h (by simp)
    · rw [if_neg hh] at h
      have hd := step_dec c s hh
      cases hs : step c s with
      | ret f s3 => rw [hs] at h; exact absurd h (by simp)
      | next s3 =>
        rw [hs] at h hd
        have := scanRounds_pot c k s3 s2 h
        have hd2 : s3.pot c < s.pot c := hd
        omega

/-- From `ST_STARTUP` at a `content-length` name the loop needs two rounds to reach the
checks of that name. -/
theorem scanLoop_contentLength (c : Cfg) (s : Scan) (hb : IsBytes c.buf)
    (hst : s.state = State.ST_STARTUP)
    (hn : nameAt c.buf s.__offset (B "content-length"))
    (h14 : rd c.buf (s.__offset + 14) = 58) (ht : s.__offset + 15 ≤ c.total)
    (hcap : s.__offset ≤ c.maxHeaderSize) (n : Nat) :
    scanLoop c (n + 2) s =
      (match (s.started State.ST_HN_C).contentLength (s.__offset + 14) with
       | Step.ret f s2 => some ⟨f, s2.offset, s2.outHeaders⟩
       | Step.next s2 => scanLoop c n s2) := by
  have h0 : tolower (rd c.buf s.__offset) = 99 := by
    have := nameAt_get c.buf s.__offset _ hn 0 (by decide)
    simpa using this
  rw [show n + 2 = (n + 1) + 1 by rfl, scanLoop_succ]
  rw [if_neg (by intro h; omega), step_startup_c c s hst h0 (by omega) hcap]
  simp only []
  rw [scanLoop_succ]
  rw [if_neg (by intro h; have := h.1; simp only [Scan.started] at this; omega),
    step_HN_C_contentLength c (s.started State.ST_HN_C) s.__offset hb rfl rfl hn h14 ht]

theorem scanLoop_transferEncoding (c : Cfg) (s : Scan) (hb : IsBytes c.buf)
    (hst : s.state = State.ST_STARTUP)
    (hn : nameAt c.buf s.__offset (B "transfer-encoding"))
    (h17 : rd c.buf (s.__offset + 17) = 58) (ht : s.__offset + 18 ≤ c.total)
    (hcap : s.__offset ≤ c.maxHeaderSize) (n : Nat) :
    scanLoop c (n + 2) s =
      (match (s.started State.ST_HN_T).transferEncoding (s.__offset + 17) with
       | Step.ret f s2 => some ⟨f, s2.offset, s2.outHeaders⟩
       | Step.next s2 => scanLoop c n s2) := by
  have h0 : tolower (rd c.buf s.__offset) = 116 := by
    have := nameAt_get c.buf s.__offset _ hn 0 (by decide)
    simpa using this
  rw [show n + 2 = (n + 1) + 1 by rfl, scanLoop_succ]
  rw [if_neg (by intro h; omega), step_startup_t c s hst h0 (by omega) hcap]
  simp only []
  rw [scanLoop_succ]
  rw [if_neg (by intro h; have := h.1; simp only [Scan.started] at this; omega),
    step_HN_T_transferEncoding c (s.started State.ST_HN_T) s.__offset hb rfl rfl hn h17 ht]

/-- The loop of `scanHeaders` returns as soon as its budget exceeds the potential. -/
theorem scanLoop_isSome (c : Cfg) : ∀ (n : Nat) (s : Scan), s.pot c < n →
    (scanLoop c n s).isSome = true
  | 0, s, h => by omega
  | n + 1, s, h => by
    rw [scanLoop_succ]
    by_cases hh : s.__offset ≥ c.total ∧ s.state ≠ State.ST_HV_CONCAT
    · rw [if_pos hh]; rfl
    · rw [if_neg hh]
      have hd := step_dec c s hh
      cases hs : step c s with
      | ret f s3 => rfl
      | next s3 =>
        rw [hs] at hd
        have hd2 : s3.pot c < s.pot c := hd
        exact scanLoop_isSome c n s3 (by omega)

/-- `scanHeaders` is total: the budget `scanFuel` is never exhausted. -/
theorem scanHeaders_isSome (c : Cfg) (o : Nat) (hs : Obj) :
    (scanHeaders c o hs).isSome = true := by
  unfold scanHeaders
  split
  · rfl
  · apply scanLoop_isSome
    have : (Scan.init o hs).pot c = 4 * (c.total - o) + 3 := rfl
    unfold scanFuel
    omega

theorem Has_Set_self : ∀ (o : Obj) (k v : Bytes), (Obj.Set o k v).Has k = true
  | [], k, v => by simp [Obj.Set, Obj.Has]
  | (k0, v0) :: rest, k, v => by
    unfold Obj.Set
    by_cases h : (k0 == k) = true
    · rw [if_pos h]; simpa [Obj.Has] using Or.inl h
    · rw [if_neg h]
      have ih := Has_Set_self rest k v
      simp only [Obj.Has, List.any_cons, Bool.or_eq_true] at ih ⊢
      exact Or.inr ih

theorem Has_Set_mono : ∀ (o : Obj) (k v k2 : Bytes), o.Has k2 = true →
    (Obj.Set o k v).Has k2 = true
  | [], k, v, k2, h => by simp [Obj.Has] at h
  | (k0, v0) :: rest, k, v, k2, h => by
    unfold Obj.Set
    simp only [Obj.Has, List.any_cons, Bool.or_eq_true] at h
    by_cases hk : (k0 == k) = true
    · rw [if_pos hk]
      simp only [Obj.Has, List.any_cons, Bool.or_eq_true]
      exact h
    · rw [if_neg hk]
      simp only [Obj.Has, List.any_cons, Bool.or_eq_true]
      rcases h with h | h
      · exact Or.inl h
      · exact Or.inr (Has_Set_mono rest k v k2 h)

theorem nameOk_keeps (s : Scan) (key : Bytes) (st : Step) (h : Step.nameOk s st) :
    Step.keeps s key st := by
  cases st with
  | ret f s2 => trivial
  | next s2 =>
    obtain ⟨_, _, h3, _⟩ := h
    intro hh
    rw [h3]; exact hh

theorem ite_keeps (s : Scan) (key : Bytes) (p : Prop) [Decidable p] (a b : Step)
    (ha : Step.keeps s key a) (hb : Step.keeps s key b) :
    Step.keeps s key (if p then a else b) := by
  split <;> assumption

theorem st_STARTUP_keeps (c : Cfg) (s : Scan) (key : Bytes) :
    Step.keeps s key (st_STARTUP c s) := by
  unfold st_STARTUP
  simp only []
  have key1 : ∀ st : State, Step.keeps s key (Step.next (s.started st)) := fun _ h => h
  have key2 : Step.keeps s key
      (Step.next { s with vStart := s.__offset, state := State.ST_HN_UNKNOWN }) := fun h => h
  repeat' first
    | exact trivial
    | exact key1 _
    | exact key2
    | apply ite_keeps

theorem st_HV_CONCAT_keeps (c : Cfg) (s : Scan) (key : Bytes) :
    Step.keeps s key (st_HV_CONCAT c s) := by
  unfold st_HV_CONCAT
  simp only []
  repeat' first
    | exact trivial
    | apply ite_keeps
  intro h
  show Obj.Has (if s.hdrId = HeaderId.HDR_UNKNOWN then _ else _) key = true
  split
  · exact Has_Set_mono _ _ _ _ h
  · split
    · exact Has_Set_mono _ _ _ _ h
    · exact Has_Set_mono _ _ _ _ h

theorem step_keeps (c : Cfg) (s : Scan) (key : Bytes) : Step.keeps s key (step c s) := by
  unfold step
  cases hst : s.state <;> simp only []
  · exact st_STARTUP_keeps c s key
  · exact fun h => h
  · unfold st_HN_UNKNOWN
    split
    · trivial
    · exact fun h => h
  · exact nameOk_keeps s key _ (st_HN_H_nameOk c s)
  · exact nameOk_keeps s key _ (st_HN_A_nameOk c s)
  · exact nameOk_keeps s key _ (st_HN_C_nameOk c s)
  · exact nameOk_keeps s key _ (st_HN_D_nameOk c s)
  · exact nameOk_keeps s key _ (st_HN_I_nameOk c s)
  · exact nameOk_keeps s key _ (st_HN_L_nameOk c s)
  · exact nameOk_keeps s key _ (st_HN_O_nameOk c s)
  · exact nameOk_keeps s key _ (st_HN_P_nameOk c s)
  · exact nameOk_keeps s key _ (st_HN_S_nameOk c s)
  · exact nameOk_keeps s key _ (st_HN_T_nameOk c s)
  · exact nameOk_keeps s key _ (st_HN_U_nameOk c s)
  · exact nameOk_keeps s key _ (st_HN_V_nameOk c s)
  · exact nameOk_keeps s key _ (st_HN_W_nameOk c s)
  · exact nameOk_keeps s key _ (st_HN_X_nameOk c s)
  · exact st_HV_CONCAT_keeps c s key

/-- A key present in the mapping stays present through any number of rounds. -/
theorem scanRounds_keeps (c : Cfg) (key : Bytes) : ∀ (k : Nat) (s s2 : Scan),
    scanRounds c k s = some s2 → s.outHeaders.Has key = true → s2.outHeaders.Has key = true
  | 0, s, s2, h, hh => by
    simp only [scanRounds, Option.some.injEq] at h
    rw [← h]; exact hh
  | k + 1, s, s2, h, hh => by
    unfold scanRounds at h
    by_cases hc : s.__offset ≥ c.total ∧ s.state ≠ State.ST_HV_CONCAT
    · rw [if_pos hc] at h; exact absurd h (by simp)
    · rw [if_neg hc] at h
      have hk := step_keeps c s key
      cases hs : step c s with
      | ret f s3 => rw [hs] at h; exact absurd h (by simp)
      | next s3 =>
        rw [hs] at h hk
        exact scanRounds_keeps c key k s3 s2 h (hk hh)

theorem scanRounds_succ (c : Cfg) (k : Nat) (s : Scan) :
    scanRounds c (k + 1) s =
      if s.__offset ≥ c.total ∧ s.state ≠ State.ST_HV_CONCAT then none
      else
        match step c s with
        | Step.ret _ _ => none
        | Step.next s2 => scanRounds c k s2 := rfl

theorem scanRounds_split (c : Cfg) : ∀ (a b : Nat) (s s2 : Scan),
    scanRounds c (a + b) s = some s2 →
      ∃ sm, scanRounds c a s = some sm ∧ scanRounds c b sm = some s2
  | 0, b, s, s2, h => ⟨s, rfl, by simpa using h⟩
  | a + 1, b, s, s2, h => by
    rw [show a + 1 + b = (a + b) + 1 by omega, scanRounds_succ] at h
    rw [scanRounds_succ]
    by_cases hc : s.__offset ≥ c.total ∧ s.state ≠ State.ST_HV_CONCAT
    · rw [if_pos hc] at h; exact absurd h (by simp)
    · rw [if_neg hc] at h
      rw [if_neg hc]
      cases hs : step c s with
      | ret f s3 => rw [hs] at h; exact absurd h (by simp)
      | next s3 =>
        rw [hs] at h
        exact scanRounds_split c a b s3 s2 h

theorem ite_stores (key : Bytes) (p : Prop) [Decidable p] (a b : Step)
    (ha : Step.stores key a) (hb : Step.stores key b) :
    Step.stores key (if p then a else b) := by
  split <;> assumption

/-- `ST_HV_CONCAT` stores a recognised header under its catalog name. -/
theorem st_HV_CONCAT_stores (c : Cfg) (s : Scan) (hid : s.hdrId ≠ HeaderId.HDR_UNKNOWN) :
    Step.stores (HEADERS s.hdrId).name (st_HV_CONCAT c s) := by
  unfold st_HV_CONCAT
  simp only []
  repeat' first
    | exact trivial
    | apply ite_stores
  show Obj.Has (if s.hdrId = HeaderId.HDR_UNKNOWN then _ else _) _ = true
  rw [if_neg hid]
  split
  · exact Has_Set_self _ _ _
  · exact Has_Set_self _ _ _

/-- Two rounds after a recognised name (`ST_HN_SPACE`, then `ST_HV_CONCAT`) the header is in
the mapping, if the call has not returned. -/
theorem scanRounds_two_known (c : Cfg) (s s2 : Scan) (hst : s.state = State.ST_HN_SPACE)
    (hid : s.hdrId ≠ HeaderId.HDR_UNKNOWN) (h : scanRounds c 2 s = some s2) :
    s2.outHeaders.Has (HEADERS s.hdrId).name = true := by
  rw [show (2 : Nat) = 1 + 1 by rfl, scanRounds_succ] at h
  by_cases hc : s.__offset ≥ c.total ∧ s.state ≠ State.ST_HV_CONCAT
  · rw [if_pos hc] at h; exact absurd h (by simp)
  · rw [if_neg hc] at h
    have hs : step c s = st_HN_SPACE c s := by unfold step; rw [hst]
    rw [hs] at h
    simp only [st_HN_SPACE] at h
    rw [scanRounds_succ] at h
    rw [if_neg (by simp)] at h
    have hs2 : ∀ t : Scan, t.state = State.ST_HV_CONCAT → step c t = st_HV_CONCAT c t := by
      intro t ht; unfold step; rw [ht]
    rw [hs2 _ rfl] at h
    have hst2 := st_HV_CONCAT_stores c
      { s with __offset := s.__offset + 1, state := State.ST_HV_CONCAT } hid
    generalize st_HV_CONCAT c { s with __offset := s.__offset + 1, state := State.ST_HV_CONCAT }
      = r at h hst2
    cases r with
    | ret f s3 => exact absurd h (by simp)
    | next s3 =>
      simp only [scanRounds, Option.some.injEq] at h
      rw [← h]
      exact hst2

theorem contentLength_next (s : Scan) (off : Nat) (s2 : Scan)
    (h : s.contentLength off = Step.next s2) :
    s2.state = State.ST_HN_SPACE ∧ s2.hdrId = HeaderId.HDR_CONTENT_LENGTH := by
  unfold Scan.contentLength at h
  by_cases h1 : s.outHeaders.Has (B "content-length") = true
  · rw [if_pos h1] at h; exact absurd h (by simp)
  · rw [if_neg h1] at h
    by_cases h2 : s.outHeaders.Has (B "transfer-encoding") = true
    · rw [if_pos h2] at h; exact absurd h (by simp)
    · rw [if_neg h2] at h
      simp only [Scan.known, Step.next.injEq] at h
      rw [← h]
      exact ⟨rfl, rfl⟩

theorem transferEncoding_next (s : Scan) (off : Nat) (s2 : Scan)
    (h : s.transferEncoding off = Step.next s2) :
    s2.state = State.ST_HN_SPACE ∧ s2.hdrId = HeaderId.HDR_TRANSFER_ENCODING := by
  unfold Scan.transferEncoding at h
  by_cases h1 : s.outHeaders.Has (B "transfer-encoding") = true
  · rw [if_pos h1] at h; exact absurd h (by simp)
  · rw [if_neg h1] at h
    by_cases h2 : s.outHeaders.Has (B "content-length") = true
    · rw [if_pos h2] at h; exact absurd h (by simp)
    · rw [if_neg h2] at h
      simp only [Scan.known, Step.next.injEq] at h
      rw [← h]
      exact ⟨rfl, rfl⟩

/-- The first line of the pair is stored: if the loop stands at `ST_STARTUP` on a
`content-length` or `transfer-encoding` name and runs four more rounds without returning,
the mapping holds that header, and it keeps holding it in every later round. -/
theorem pair_first_line_stored (c : Cfg) (s1 s : Scan) (k : Nat) (first : Bytes)
    (hb : IsBytes c.buf) (hst : s1.state = State.ST_STARTUP)
    (hfirst : first = B "content-length" ∨ first = B "transfer-encoding")
    (hname : nameAt c.buf s1.__offset first)
    (hcolon : rd c.buf (s1.__offset + first.length) = 58)
    (hin : s1.__offset + first.length + 1 ≤ c.total)
    (hcap : s1.__offset ≤ c.maxHeaderSize)
    (hreach : scanRounds c (4 + k) s1 = some s) :
    s.outHeaders.Has first = true := by
  obtain ⟨s4, h4, hk⟩ := scanRounds_split c 4 k s1 s hreach
  apply scanRounds_keeps c first k s4 s hk
  obtain ⟨s2, h2, h22⟩ := scanRounds_split c 2 2 s1 s4 h4
  have hstart : ¬ (s1.__offset ≥ c.total ∧ s1.state ≠ State.ST_HV_CONCAT) := by
    intro h; omega
  have hnext : ∀ st : State,
      ¬ ((s1.started st).__offset ≥ c.total ∧ (s1.started st).state ≠ State.ST_HV_CONCAT) := by
    intro st h
    have h1 : s1.__offset + 1 ≥ c.total := h.1
    rcases hfirst with hf | hf <;> subst hf <;>
      simp only [show (B "content-length").length = 14 by decide,
        show (B "transfer-encoding").length = 17 by decide] at hin <;> omega
  rw [show (2 : Nat) = 1 + 1 by rfl, scanRounds_succ, if_neg hstart] at h2
  rcases hfirst with hf | hf
  · subst hf
    have hlen : (B "content-length").length = 14 := by decide
    rw [hlen] at hcolon hin
    rw [step_startup_c c s1 hst (by
        have := nameAt_get c.buf s1.__offset _ hname 0 (by decide)
        simpa using this) (by omega) hcap] at h2
    simp only [] at h2
    rw [scanRounds_succ, if_neg (hnext _),
      step_HN_C_contentLength c (s1.started State.ST_HN_C) s1.__offset hb rfl rfl hname hcolon hin]
      at h2
    cases hcl : (s1.started State.ST_HN_C).contentLength (s1.__offset + 14) with
    | ret f s3 => rw [hcl] at h2; exact absurd h2 (by simp)
    | next s3 =>
      rw [hcl] at h2
      simp only [scanRounds, Option.some.injEq] at h2
      subst h2
      obtain ⟨e1, e2⟩ := contentLength_next _ _ _ hcl
      have := scanRounds_two_known c s3 s4 e1 (by rw [e2]; decide) h22
      rw [e2] at this
      exact this
  · subst hf
    have hlen : (B "transfer-encoding").length = 17 := by decide
    rw [hlen] at hcolon hin
    rw [step_startup_t c s1 hst (by
        have := nameAt_get c.buf s1.__offset _ hname 0 (by decide)
        simpa using this) (by omega) hcap] at h2
    simp only [] at h2
    rw [scanRounds_succ, if_neg (hnext _),
      step_HN_T_transferEncoding c (s1.started State.ST_HN_T) s1.__offset hb rfl rfl hname hcolon
        hin] at h2
    cases hcl : (s1.started State.ST_HN_T).transferEncoding (s1.__offset + 17) with
    | ret f s3 => rw [hcl] at h2; exact absurd h2 (by simp)
    | next s3 =>
      rw [hcl] at h2
      simp only [scanRounds, Option.some.injEq] at h2
      subst h2
      obtain ⟨e1, e2⟩ := transferEncoding_next _ _ _ hcl
      have := scanRounds_two_known c s3 s4 e1 (by rw [e2]; decide) h22
      rw [e2] at this
      exact this

theorem scanRounds_append (c : Cfg) : ∀ (a b : Nat) (s sm s2 : Scan),
    scanRounds c a s = some sm → scanRounds c b sm = some s2 →
      scanRounds c (a + b) s = some s2
  | 0, b, s, sm, s2, h1, h2 => by
    simp only [scanRounds, Option.some.injEq] at h1
    rw [Nat.zero_add, h1]; exact h2
  | a + 1, b, s, sm, s2, h1, h2 => by
    rw [scanRounds_succ] at h1
    rw [show a + 1 + b = (a + b) + 1 by omega, scanRounds_succ]
    by_cases hc : s.__offset ≥ c.total ∧ s.state ≠ State.ST_HV_CONCAT
    · rw [if_pos hc] at h1; exact absurd h1 (by simp)
    · rw [if_neg hc] at h1
      rw [if_neg hc]
      cases hs : step c s with
      | ret f s3 => rw [hs] at h1; exact absurd h1 (by simp)
      | next s3 =>
        rw [hs] at h1
        exact scanRounds_append c a b s3 sm s2 h1 h2

/-- The second header of the pair is rejected wherever the first came from: a call that
stands at `ST_STARTUP` on a line named `second` while the mapping holds `first` and not
`second` returns FLAG_BAD_REQUEST and leaves `*offset` and the mapping alone. -/
theorem cl_te_second_rejected (c : Cfg) (o : Nat) (hs : Obj) (k : Nat) (s : Scan)
    (first second : Bytes)
    (hb : IsBytes c.buf) (hlt : o < c.total)
    (hreach : scanRounds c k (Scan.init o hs) = some s)
    (hst : s.state = State.ST_STARTUP)
    (hpair : (first = B "content-length" ∧ second = B "transfer-encoding")
      ∨ (first = B "transfer-encoding" ∧ second = B "content-length"))
    (hname : nameAt c.buf s.__offset second)
    (hcolon : rd c.buf (s.__offset + second.length) = 58)
    (hin : s.__offset + second.length + 1 ≤ c.total)
    (hcap : s.__offset ≤ c.maxHeaderSize)
    (hfirst : Obj.Has s.outHeaders first = true)
    (hsecond : Obj.Has s.outHeaders second = false) :
    scanHeaders c o hs = some ⟨FlagBits.FLAG_BAD_REQUEST, s.offset, s.outHeaders⟩ := by
  have hpot := scanRounds_pot c k _ s hreach
  have hk : k ≤ 4 * c.total + 6 := by
    have : (Scan.init o hs).pot c = 4 * (c.total - o) + 3 := rfl
    omega
  unfold scanHeaders
  rw [if_neg (by omega)]
  obtain ⟨m, hm⟩ : ∃ m, scanFuel c.total = k + (m + 2) := ⟨4 * c.total + 6 - k, by
    unfold scanFuel; omega⟩
  rw [hm, scanRounds_scanLoop c k _ s hreach]
  rcases hpair with ⟨h1, h2⟩ | ⟨h1, h2⟩
  · subst h1 h2
    rw [scanLoop_transferEncoding c s hb hst hname hcolon hin hcap]
    have e1 : (s.started State.ST_HN_T).outHeaders = s.outHeaders := rfl
    unfold Scan.transferEncoding
    rw [e1, hsecond, hfirst]
    rfl
  · subst h1 h2
    rw [scanLoop_contentLength c s hb hst hname hcolon hin hcap]
    have e1 : (s.started State.ST_HN_C).outHeaders = s.outHeaders := rfl
    unfold Scan.contentLength
    rw [e1, hsecond, hfirst]
    rfl

theorem tokenAt_M_GET (curl : Bytes) (o : Nat) : tokenAt curl o MethodType.M_GET ↔
    (rd curl (o + 0) = 71 ∧ rd curl (o + 1) = 69 ∧ rd curl (o + 2) = 84
      ∧ (rd curl (o + 3) = 32 ∨ rd curl (o + 3) = 0)) := by
  have h : slice curl o 3 = [rd curl (o + 0), rd curl (o + 1), rd curl (o + 2)] := rfl
  have ht : MethodType.M_GET.token = [71, 69, 84] := by decide
  unfold tokenAt
  rw [ht]
  simp only [List.length_cons, List.length_nil, Nat.zero_add, Nat.reduceAdd, h, List.cons.injEq,
    and_true, and_assoc]

theorem tokenAt_M_HEAD (curl : Bytes) (o : Nat) : tokenAt curl o MethodType.M_HEAD ↔
    (rd curl (o + 0) = 72 ∧ rd curl (o + 1) = 69 ∧ rd curl (o + 2) = 65 ∧ rd curl (o + 3) = 68
      ∧ (rd curl (o + 4) = 32 ∨ rd curl (o + 4) = 0)) := by
  have h : slice curl o 4 = [rd curl (o + 0), rd curl (o + 1), rd curl (o + 2), rd curl (o + 3)] := rfl
  have ht : MethodType.M_HEAD.token = [72, 69, 65, 68] := by decide
  unfold tokenAt
  rw [ht]
  simp only [List.length_cons, List.length_nil, Nat.zero_add, Nat.reduceAdd, h, List.cons.injEq,
    and_true, and_assoc]

theorem tokenAt_M_POST (curl : Bytes) (o : Nat) : tokenAt curl o MethodType.M_POST ↔
    (rd curl (o + 0) = 80 ∧ rd curl (o + 1) = 79 ∧ rd curl (o + 2) = 83 ∧ rd curl (o + 3) = 84
      ∧ (rd curl (o + 4) = 32 ∨ rd curl (o + 4) = 0)) := by
  have h : slice curl o 4 = [rd curl (o + 0), rd curl (o + 1), rd curl (o + 2), rd curl (o + 3)] := rfl
  have ht : MethodType.M_POST.token = [80, 79, 83, 84] := by decide
  unfold tokenAt
  rw [ht]
  simp only [List.length_cons, List.length_nil, Nat.zero_add, Nat.reduceAdd, h, List.cons.injEq,
    and_true, and_assoc]

theorem tokenAt_M_PUT (curl : Bytes) (o : Nat) : tokenAt curl o MethodType.M_PUT ↔
    (rd curl (o + 0) = 80 ∧ rd curl (o + 1) = 85 ∧ rd curl (o + 2) = 84
      ∧ (rd curl (o + 3) = 32 ∨ rd curl (o + 3) = 0)) := by
  have h : slice curl o 3 = [rd curl (o + 0), rd curl (o + 1), rd curl (o + 2)] := rfl
  have ht : MethodType.M_PUT.token = [80, 85, 84] := by decide
  unfold tokenAt
  rw [ht]
  simp only [List.length_cons, List.length_nil, Nat.zero_add, Nat.reduceAdd, h, List.cons.injEq,
    and_true, and_assoc]

theorem tokenAt_M_PATCH (curl : Bytes) (o : Nat) : tokenAt curl o MethodType.M_PATCH ↔
    (rd curl (o + 0) = 80 ∧ rd curl (o + 1) = 65 ∧ rd curl (o + 2) = 84 ∧ rd curl (o + 3) = 67 ∧ rd curl (o + 4) = 72
      ∧ (rd curl (o + 5) = 32 ∨ rd curl (o + 5) = 0)) := by
  have h : slice curl o 5 = [rd curl (o + 0), rd curl (o + 1), rd curl (o + 2), rd curl (o + 3), rd curl (o + 4)] := rfl
  have ht : MethodType.M_PATCH.token = [80, 65, 84, 67, 72] := by decide
  unfold tokenAt
  rw [ht]
  simp only [List.length_cons, List.length_nil, Nat.zero_add, Nat.reduceAdd, h, List.cons.injEq,
    and_true, and_assoc]

theorem tokenAt_M_DELETE (curl : Bytes) (o : Nat) : tokenAt curl o MethodType.M_DELETE ↔
    (rd curl (o + 0) = 68 ∧ rd curl (o + 1) = 69 ∧ rd curl (o + 2) = 76 ∧ rd curl (o + 3) = 69 ∧ rd curl (o + 4) = 84 ∧ rd curl (o + 5) = 69
      ∧ (rd curl (o + 6) = 32 ∨ rd curl (o + 6) = 0)) := by
  have h : slice curl o 6 = [rd curl (o + 0), rd curl (o + 1), rd curl (o + 2), rd curl (o + 3), rd curl (o + 4), rd curl (o + 5)] := rfl
  have ht : MethodType.M_DELETE.token = [68, 69, 76, 69, 84, 69] := by decide
  unfold tokenAt
  rw [ht]
  simp only [List.length_cons, List.length_nil, Nat.zero_add, Nat.reduceAdd, h, List.cons.injEq,
    and_true, and_assoc]

theorem tokenAt_M_OPTIONS (curl : Bytes) (o : Nat) : tokenAt curl o MethodType.M_OPTIONS ↔
    (rd curl (o + 0) = 79 ∧ rd curl (o + 1) = 80 ∧ rd curl (o + 2) = 84 ∧ rd curl (o + 3) = 73 ∧ rd curl (o + 4) = 79 ∧ rd curl (o + 5) = 78 ∧ rd curl (o + 6) = 83
      ∧ (rd curl (o + 7) = 32 ∨ rd curl (o + 7) = 0)) := by
  have h : slice curl o 7 = [rd curl (o + 0), rd curl (o + 1), rd curl (o + 2), rd curl (o + 3), rd curl (o + 4), rd curl (o + 5), rd curl (o + 6)] := rfl
  have ht : MethodType.M_OPTIONS.token = [79, 80, 84, 73, 79, 78, 83] := by decide
  unfold tokenAt
  rw [ht]
  simp only [List.length_cons, List.length_nil, Nat.zero_add, Nat.reduceAdd, h, List.cons.injEq,
    and_true, and_assoc]

/-- The method scan in terms of its eight input bytes. -/
theorem scanHttpMethod_cases (curl : Bytes) (o : Nat) :
    (tokenAt curl o MethodType.M_GET ∧ scanHttpMethod curl o = (MethodType.M_GET, o + 3))
    ∨ (tokenAt curl o MethodType.M_HEAD ∧ scanHttpMethod curl o = (MethodType.M_HEAD, o + 4))
    ∨ (tokenAt curl o MethodType.M_POST ∧ scanHttpMethod curl o = (MethodType.M_POST, o + 4))
    ∨ (tokenAt curl o MethodType.M_PUT ∧ scanHttpMethod curl o = (MethodType.M_PUT, o + 3))
    ∨ (tokenAt curl o MethodType.M_PATCH ∧ scanHttpMethod curl o = (MethodType.M_PATCH, o + 5))
    ∨ (tokenAt curl o MethodType.M_DELETE
        ∧ scanHttpMethod curl o = (MethodType.M_DELETE, o + 6))
    ∨ (tokenAt curl o MethodType.M_OPTIONS
        ∧ scanHttpMethod curl o = (MethodType.M_OPTIONS, o + 7))
    ∨ ((∀ m, m ≠ MethodType.M_ERROR → ¬ tokenAt curl o m)
        ∧ scanHttpMethod curl o = (MethodType.M_ERROR, o)) := by
  have hall : ∀ (P : MethodType → Prop), P MethodType.M_HEAD → P MethodType.M_GET →
      P MethodType.M_POST → P MethodType.M_PUT → P MethodType.M_DELETE → P MethodType.M_PATCH →
      P MethodType.M_OPTIONS → ∀ m, m ≠ MethodType.M_ERROR → P m := by
    intro P h1 h2 h3 h4 h5 h6 h7 m hm
    cases m <;> first | assumption | exact absurd rfl hm
  rw [tokenAt_M_GET, tokenAt_M_HEAD, tokenAt_M_POST, tokenAt_M_PUT, tokenAt_M_PATCH,
    tokenAt_M_DELETE, tokenAt_M_OPTIONS]
  have hno : (∀ m, m ≠ MethodType.M_ERROR → ¬ tokenAt curl o m) ↔
      (¬ tokenAt curl o MethodType.M_HEAD ∧ ¬ tokenAt curl o MethodType.M_GET
        ∧ ¬ tokenAt curl o MethodType.M_POST ∧ ¬ tokenAt curl o MethodType.M_PUT
        ∧ ¬ tokenAt curl o MethodType.M_DELETE ∧ ¬ tokenAt curl o MethodType.M_PATCH
        ∧ ¬ tokenAt curl o MethodType.M_OPTIONS) := by
    constructor
    · intro h
      exact ⟨h _ (by decide), h _ (by decide), h _ (by decide), h _ (by decide),
        h _ (by decide), h _ (by decide), h _ (by decide)⟩
    · intro ⟨h1, h2, h3, h4, h5, h6, h7⟩
      exact hall _ h1 h2 h3 h4 h5 h6 h7
  rw [hno, tokenAt_M_GET, tokenAt_M_HEAD, tokenAt_M_POST, tokenAt_M_PUT, tokenAt_M_PATCH,
    tokenAt_M_DELETE, tokenAt_M_OPTIONS]
  unfold scanHttpMethod
  simp only []
  split_ifs <;> simp_all

theorem tokenAt_unique (curl : Bytes) (o : Nat) (m m2 : MethodType)
    (hm : m ≠ MethodType.M_ERROR) (hm2 : m2 ≠ MethodType.M_ERROR)
    (h : tokenAt curl o m) (h2 : tokenAt curl o m2) : m = m2 := by
  cases m <;> cases m2 <;> first
    | rfl
    | exact absurd rfl hm
    | exact absurd rfl hm2
    | (exfalso
       simp only [tokenAt_M_GET, tokenAt_M_HEAD, tokenAt_M_POST, tokenAt_M_PUT, tokenAt_M_PATCH,
         tokenAt_M_DELETE, tokenAt_M_OPTIONS] at h h2
       omega)

theorem rd_ne_zero_lt (buf : Bytes) (i : Nat) (h : rd buf i ≠ 0) : i < buf.length := by
  by_contra hh
  apply h
  unfold rd
  exact List.getD_eq_default _ _ (by omega)

theorem bucketInsert_mem (c : Nat) (se : Endpoint) :
    ∀ (bs : List (Nat × List Endpoint)) (kv : Nat × List Endpoint),
      kv ∈ bucketInsert c se bs → ∀ ep ∈ kv.2, ep = se ∨ ∃ kv2 ∈ bs, ep ∈ kv2.2
  | [], kv, h, ep, hep => by
    simp only [bucketInsert, List.mem_singleton] at h
    subst h
    simp only [List.mem_singleton] at hep
    exact Or.inl hep
  | (k, v) :: rest, kv, h, ep, hep => by
    unfold bucketInsert at h
    by_cases h1 : c = k
    · rw [if_pos h1] at h
      rcases List.mem_cons.mp h with h | h
      · subst h
        rcases List.mem_append.mp hep with hh | hh
        · exact Or.inr ⟨(k, v), List.mem_cons_self _ _, hh⟩
        · simp only [List.mem_singleton] at hh
          exact Or.inl hh
      · exact Or.inr ⟨kv, List.mem_cons_of_mem _ h, hep⟩
    · rw [if_neg h1] at h
      by_cases h2 : c < k
      · rw [if_pos h2] at h
        rcases List.mem_cons.mp h with h | h
        · subst h
          simp only [List.mem_singleton] at hep
          exact Or.inl hep
        · exact Or.inr ⟨kv, h, hep⟩
      · rw [if_neg h2] at h
        rcases List.mem_cons.mp h with h | h
        · subst h
          exact Or.inr ⟨(k, v), List.mem_cons_self _ _, hep⟩
        · rcases bucketInsert_mem c se rest kv h ep hep with hh | ⟨kv2, hk, hh⟩
          · exact Or.inl hh
          · exact Or.inr ⟨kv2, List.mem_cons_of_mem _ hk, hh⟩

theorem bucketInsert_nonempty (c : Nat) (se : Endpoint) :
    ∀ (bs : List (Nat × List Endpoint)), (∀ kv ∈ bs, kv.2 ≠ []) →
      ∀ kv ∈ bucketInsert c se bs, kv.2 ≠ []
  | [], _, kv, h => by
    simp only [bucketInsert, List.mem_singleton] at h
    subst h; simp
  | (k, v) :: rest, hb, kv, h => by
    unfold bucketInsert at h
    by_cases h1 : c = k
    · rw [if_pos h1] at h
      rcases List.mem_cons.mp h with h | h
      · subst h; simp
      · exact hb kv (List.mem_cons_of_mem _ h)
    · rw [if_neg h1] at h
      by_cases h2 : c < k
      · rw [if_pos h2] at h
        rcases List.mem_cons.mp h with h | h
        · subst h; simp
        · exact hb kv h
      · rw [if_neg h2] at h
        rcases List.mem_cons.mp h with h | h
        · subst h; exact hb _ (List.mem_cons_self _ _)
        · exact bucketInsert_nonempty c se rest
            (fun kv hk => hb kv (List.mem_cons_of_mem _ hk)) kv h

/-- The buckets built from a list hold only endpoints of that list, and none is empty. -/
theorem buckets_spec (offset : Nat) : ∀ (l : List Endpoint) (bs0 : List (Nat × List Endpoint))
    (P : Endpoint → Prop), (∀ kv ∈ bs0, kv.2 ≠ [] ∧ ∀ ep ∈ kv.2, P ep) → (∀ ep ∈ l, P ep) →
    ∀ kv ∈ l.foldl (fun bs se => bucketInsert (rd se.url offset) se bs) bs0,
      kv.2 ≠ [] ∧ ∀ ep ∈ kv.2, P ep
  | [], bs0, P, h0, _, kv, hkv => h0 kv hkv
  | se :: l, bs0, P, h0, hl, kv, hkv => by
    simp only [List.foldl_cons] at hkv
    refine buckets_spec offset l _ P ?_ (fun ep he => hl ep (List.mem_cons_of_mem _ he)) kv hkv
    intro kv2 hk2
    refine ⟨bucketInsert_nonempty _ se bs0 (fun kv hk => (h0 kv hk).1) kv2 hk2, ?_⟩
    intro ep hep
    rcases bucketInsert_mem _ se bs0 kv2 hk2 ep hep with hh | ⟨kv3, hk3, hh⟩
    · subst hh; exact hl _ (List.mem_cons_self _ _)
    · exact (h0 kv3 hk3).2 ep hh

theorem commonPfx_length (first : Endpoint) (eps : List Endpoint) (offset : Nat) :
    ∀ (n p : Nat) (acc : Bytes), acc.length ≤ (commonPfx first eps offset n p acc).length
  | 0, p, acc => by simp [commonPfx]
  | n + 1, p, acc => by
    unfold commonPfx
    simp only []
    split
    · exact Nat.le_refl _
    · split
      · have := commonPfx_length first eps offset n (p + 1) (acc ++ [rd first.url (offset + p)])
        simp only [List.length_append, List.length_singleton] at this
        omega
      · exact Nat.le_refl _

theorem foldl_opt_isSome {α : Type} (f : Option RouteNode → α → Option RouteNode) :
    ∀ (l : List α) (n0 : RouteNode), (∀ n, ∀ a ∈ l, (f (some n) a).isSome = true) →
      (l.foldl f (some n0)).isSome = true
  | [], _, _ => rfl
  | a :: l, n0, h => by
    simp only [List.foldl_cons]
    obtain ⟨c, hc⟩ := Option.isSome_iff_exists.mp (h n0 a (List.mem_cons_self _ _))
    rw [hc]
    exact foldl_opt_isSome f l c (fun n b hb => h n b (List.mem_cons_of_mem _ hb))

theorem isSome_ite_map (c : Prop) [Decidable c] (x : Option RouteNode) (f : RouteNode → RouteNode)
    (h : x.isSome = true) : (if c then x.map f else x).isSome = true := by
  split
  · rw [Option.isSome_map']; exact h
  · exact h

theorem isSome_match_param (l : List Endpoint) (x : Option RouteNode)
    (g : Endpoint → Option RouteNode) :
    x.isSome = true → (∀ pfirst rest, l = pfirst :: rest → (g pfirst).isSome = true) →
    (match l with
      | [] => x
      | pfirst :: _ =>
        match x, g pfirst with
        | some n, some c => some (n.pushChild c)
        | _, _ => none).isSome = true := by
  intro hx hg
  cases l with
  | nil => exact hx
  | cons pfirst rest =>
    obtain ⟨n, hn⟩ := Option.isSome_iff_exists.mp hx
    obtain ⟨c, hc⟩ := Option.isSome_iff_exists.mp (hg pfirst rest rfl)
    simp only [hn, hc]
    rfl

theorem isSome_match_static (l : List Endpoint) (n0 : RouteNode)
    (g : Endpoint → Option RouteNode) :
    (∀ first rest, l = first :: rest → (g first).isSome = true) →
    (match l with
      | [] => some n0
      | first :: _ => g first).isSome = true := by
  intro hg
  cases l with
  | nil => rfl
  | cons first rest => exact hg first rest rfl

theorem buildSubRouteTree_isSome : ∀ (fuel : Nat) (node : RouteNode) (eps : List Endpoint)
    (offset : Nat), (∀ ep ∈ eps, ep.url.length < offset + fuel) → 1 ≤ fuel →
    (buildSubRouteTree fuel node eps offset).isSome = true
  | 0, _, _, _, _, h => absurd h (by decide)
  | fuel + 1, node, eps, offset, h, _ => by
    have rec_ok : ∀ (n0 : RouteNode) (l : List Endpoint) (off : Nat), l ≠ [] →
        (∀ ep ∈ l, ep ∈ eps ∧ rd ep.url offset ≠ 0) → offset < off →
        (buildSubRouteTree fuel n0 l off).isSome = true := by
      intro n0 l off hl hm ho
      obtain ⟨e0, he0⟩ := List.exists_mem_of_ne_nil l hl
      have h1 := rd_ne_zero_lt _ _ (hm e0 he0).2
      have h2 := h e0 (hm e0 he0).1
      refine buildSubRouteTree_isSome fuel n0 l off ?_ (by omega)
      intro ep hep
      have := h ep (hm ep hep).1
      omega
    unfold buildSubRouteTree
    by_cases he : eps.isEmpty = true
    · rw [if_pos he]; rfl
    · rw [if_neg he]
      simp only []
      generalize hn0 : eps.foldl
        (fun n ep => if rd ep.url offset = 0 then n.setVptr ep.vptr_table_index else n) node = n0
      generalize hst : eps.filter
        (fun ep => rd ep.url offset != 0 && rd ep.url offset != kWildcardMarker
          && !(rd ep.url offset == kParamMarker && rd ep.url (offset + 1) == 47)) = static_eps
      generalize hpa : eps.filter
        (fun ep => rd ep.url offset != 0 && rd ep.url offset != kWildcardMarker
          && (rd ep.url offset == kParamMarker && rd ep.url (offset + 1) == 47)) = param_eps
      have hsm : ∀ ep ∈ static_eps, ep ∈ eps ∧ rd ep.url offset ≠ 0 := by
        intro ep hep
        rw [← hst] at hep
        have := List.mem_filter.mp hep
        refine ⟨this.1, ?_⟩
        have h2 := this.2
        simp only [Bool.and_eq_true, bne_iff_ne, ne_eq] at h2
        exact h2.1.1
      have hpm : ∀ ep ∈ param_eps, ep ∈ eps ∧ rd ep.url offset ≠ 0 := by
        intro ep hep
        rw [← hpa] at hep
        have := List.mem_filter.mp hep
        refine ⟨this.1, ?_⟩
        have h2 := this.2
        simp only [Bool.and_eq_true, bne_iff_ne, ne_eq] at h2
        exact h2.1.1
      refine isSome_ite_map _ _ _ ?_
      refine isSome_match_param param_eps _ _ ?_ ?_
      · refine isSome_match_static static_eps n0 _ ?_
        intro first rest hse
        by_cases hp : commonPfx first static_eps offset kMaxPacked 0 [] = []
        · rw [if_neg (not_not.mpr hp)]
          refine foldl_opt_isSome _ _ n0 ?_
          intro n kv hkv
          have hb := buckets_spec offset static_eps []
            (fun ep => ep ∈ eps ∧ rd ep.url offset ≠ 0) (by simp) hsm kv hkv
          obtain ⟨c, hc⟩ := Option.isSome_iff_exists.mp
            (rec_ok (RouteNode.mk (packU64Safe [kv.1] 1) 1 (-1) ParamType.kString false false
              [] []) kv.2 (offset + 1) hb.1 hb.2 (by omega))
          simp only [hc]
          rfl
        · rw [if_pos hp]
          have hl : 0 < (commonPfx first static_eps offset kMaxPacked 0 []).length :=
            List.length_pos.mpr hp
          rw [Option.isSome_map']
          exact rec_ok _ static_eps _ (by rw [hse]; simp) hsm (by omega)
      · intro pfirst rest hpe
        exact rec_ok _ param_eps (offset + 2) (by rw [hpe]; simp) hpm (by omega)

theorem foldl_max_ge (l : List Nat) : ∀ (a : Nat), a ≤ l.foldl max a ∧ ∀ x ∈ l, x ≤ l.foldl max a := by
  induction l with
  | nil => intro a; simp
  | cons y l ih =>
    intro a
    simp only [List.foldl_cons]
    have := ih (max a y)
    refine ⟨by omega, ?_⟩
    intro x hx
    rcases List.mem_cons.mp hx with hx | hx
    · subst hx; omega
    · exact this.2 x hx

/-- The builder returns a tree for every non-empty list of endpoints. -/
theorem buildRouteTree_isSome (eps : List Endpoint) (h : eps ≠ []) :
    (buildRouteTree eps).isSome = true := by
  unfold buildRouteTree
  rw [if_neg (by intro h0; exact h (List.length_eq_zero.mp h0))]
  apply buildSubRouteTree_isSome
  · intro ep hep
    have := (foldl_max_ge (eps.map (fun ep => ep.url.length)) 0).2 ep.url.length
      (List.mem_map.mpr ⟨ep, hep, rfl⟩)
    unfold buildFuel
    omega
  · unfold buildFuel; omega
theorem isMethodAllowed_iff (core : HttpCore) (m : MethodType) :
    core.isMethodAllowed m = true ↔
      1 ≤ m.toNat ∧ m.toNat ≤ 6 ∧ core.m_methodFlags.testBit m.toNat = true := by
  unfold HttpCore.isMethodAllowed
  have h0 : MethodType.M_HEAD.toNat = 0 := rfl
  have h6 : MethodType.M_OPTIONS.toNat = 6 := rfl
  rw [h0, h6]
  by_cases hc : m.toNat ≤ 0 ∨ m.toNat > 6
  · rw [if_pos hc]
    constructor
    · intro h; cases h
    · intro h; omega
  · rw [if_neg hc, Nat.one_shiftLeft, Nat.and_two_pow]
    have hp : 0 < 2 ^ m.toNat := Nat.two_pow_pos _
    cases hb : core.m_methodFlags.testBit m.toNat
    · simp
    · simp only [Bool.toNat_true, Nat.one_mul, bne_iff_ne, ne_eq, and_true]
      constructor
      · intro _; omega
      · intro _; omega

theorem ofIndex_toNat (i : Nat) (h : i < 7) : (MethodType.ofIndex i).toNat = i := by
  have : i = 0 ∨ i = 1 ∨ i = 2 ∨ i = 3 ∨ i = 4 ∨ i = 5 ∨ i = 6 := by omega
  rcases this with h | h | h | h | h | h | h <;> subst h <;> rfl

theorem setMethodFlag_testBit (core : HttpCore) (i j : Nat) (hi : i < 7)
    (h : (core.setMethodFlag (MethodType.ofIndex i)).m_methodFlags.testBit j = true) :
    j = i ∨ core.m_methodFlags.testBit j = true := by
  unfold HttpCore.setMethodFlag at h
  have h0 : MethodType.M_HEAD.toNat = 0 := rfl
  have h6 : MethodType.M_OPTIONS.toNat = 6 := rfl
  rw [h0, h6, ofIndex_toNat i hi, if_pos ⟨by omega, by omega⟩] at h
  have e : (256 : Nat) = 2 ^ 8 := by decide
  simp only [e, Nat.testBit_mod_two_pow, Nat.testBit_or, Nat.one_shiftLeft,
    Nat.testBit_two_pow, Bool.and_eq_true, Bool.or_eq_true, decide_eq_true_eq] at h
  rcases h.2 with h | h
  · exact Or.inr h
  · exact Or.inl h.symm

theorem setMethodFlag_maps (core : HttpCore) (m : MethodType) :
    (core.setMethodFlag m).m_httpRouteMaps = core.m_httpRouteMaps := by
  unfold HttpCore.setMethodFlag
  split <;> rfl

theorem getD_set_self {α : Type} (l : List α) (i : Nat) (a d : α) (h : i < l.length) :
    (l.set i a).getD i d = a := by
  rw [List.getD_eq_getElem?_getD, List.getElem?_set, if_pos rfl, if_pos h]
  rfl

theorem getD_set_ne {α : Type} (l : List α) (i j : Nat) (a d : α) (h : i ≠ j) :
    (l.set i a).getD j d = l.getD j d := by
  rw [List.getD_eq_getElem?_getD, List.getElem?_set, if_neg h, List.getD_eq_getElem?_getD]

theorem registerStep_coherent (routes : List RouteDef) :
    ∀ (l : List Nat) (c : HttpCore), (∀ i ∈ l, i < 7) → c.Coherent →
      (l.foldl
        (fun c index =>
          let eps := methodEndpoints routes index
          if !eps.isEmpty then
            ({ c with m_httpRouteMaps := c.m_httpRouteMaps.set index (buildRouteTree eps) }
              : HttpCore).setMethodFlag (MethodType.ofIndex index)
          else c) c).Coherent
  | [], c, _, hc => hc
  | i :: l, c, hl, hc => by
    simp only [List.foldl_cons]
    refine registerStep_coherent routes l _ (fun j hj => hl j (List.mem_cons_of_mem _ hj)) ?_
    have hi : i < 7 := hl i (List.mem_cons_self _ _)
    by_cases he : (methodEndpoints routes i).isEmpty = true
    · simp only [he, Bool.not_true, Bool.false_eq_true, if_false]
      exact hc
    · have he2 : (!(methodEndpoints routes i).isEmpty) = true := by
        cases hh : (methodEndpoints routes i).isEmpty
        · rfl
        · exact absurd hh he
      rw [if_pos he2]
      have hne : methodEndpoints routes i ≠ [] := by
        intro h0; rw [h0] at he; exact he rfl
      have h7 : c.m_httpRouteMaps.length = 7 := hc.1
      constructor
      · rw [setMethodFlag_maps]
        show (c.m_httpRouteMaps.set i _).length = _
        rw [List.length_set]; exact hc.1
      · intro m hm
        rw [setMethodFlag_maps]
        show ((c.m_httpRouteMaps.set i _).getD m.toNat none).isSome = true
        have hm2 := (isMethodAllowed_iff _ m).mp hm
        by_cases hmi : i = m.toNat
        · rw [← hmi, getD_set_self _ _ _ _ (by omega)]
          exact buildRouteTree_isSome _ hne
        · rw [getD_set_ne _ _ _ _ _ hmi]
          apply hc.2
          apply (isMethodAllowed_iff _ m).mpr
          refine ⟨hm2.1, hm2.2.1, ?_⟩
          rcases setMethodFlag_testBit _ i m.toNat hi hm2.2.2 with h | h
          · exact absurd h.symm hmi
          · exact h

theorem init_coherent : HttpCore.init.Coherent := by
  refine ⟨rfl, ?_⟩
  intro m hm
  have := (isMethodAllowed_iff _ m).mp hm
  have h0 : HttpCore.init.m_methodFlags = 0 := rfl
  rw [h0, Nat.zero_testBit] at this
  exact absurd this.2.2 (by decide)

/-- Registering routes keeps flags and slots in agreement. -/
theorem RegisterRoutes_coherent (core : HttpCore) (routes : List RouteDef)
    (h : core.Coherent) : (core.RegisterRoutes routes).Coherent := by
  unfold HttpCore.RegisterRoutes
  apply registerStep_coherent routes _ core _ h
  intro i hi
  have := List.mem_range.mp hi
  exact this

theorem registered_coherent (calls : List (List RouteDef)) :
    (HttpCore.registered calls).Coherent := by
  unfold HttpCore.registered
  have : ∀ (l : List (List RouteDef)) (c : HttpCore), c.Coherent →
      (l.foldl HttpCore.RegisterRoutes c).Coherent := by
    intro l
    induction l with
    | nil => intro c hc; exact hc
    | cons r l ih => intro c hc; exact ih _ (RegisterRoutes_coherent c r hc)
  exact this calls _ init_coherent

theorem scanHttpMethod_of_token (curl : Bytes) (offset : Nat) (m : MethodType)
    (hm : m ≠ MethodType.M_ERROR) (ht : tokenAt curl offset m) :
    scanHttpMethod curl offset = (m, offset + (MethodType.token m).length) := by
  rcases scanHttpMethod_cases curl offset with h | h | h | h | h | h | h | h
  all_goals first
    | (have e := tokenAt_unique curl offset m _ hm (by decide) ht h.1
       subst e
       exact h.2)
    | exact absurd ht (h.1 m hm)

theorem scanHttpMethod_of_none (curl : Bytes) (offset : Nat)
    (hno : ∀ m, m ≠ MethodType.M_ERROR → ¬ tokenAt curl offset m) :
    scanHttpMethod curl offset = (MethodType.M_ERROR, offset) := by
  rcases scanHttpMethod_cases curl offset with h | h | h | h | h | h | h | h
  all_goals first
    | exact h.2
    | exact absurd h.1 (hno _ (by decide))

/-- The request-line scan when the method is not admitted. -/
theorem ScannerRouteFirst_gate (core : HttpCore) (simd : Simd) (curl : Bytes)
    (reqObj : ReqObj) (caps : Caps) (m : MethodType) (o : Nat)
    (hs : scanHttpMethod curl 0 = (m, o)) (ha : core.isMethodAllowed m = false) :
    core.ScannerRouteFirst simd curl reqObj caps =
      if m = MethodType.M_ERROR then
        some (-1, { reqObj with retFlag := FlagBits.FLAG_BAD_REQUEST.toNat })
      else
        some (-1, { reqObj with
          retFlag :=
            if m = MethodType.M_OPTIONS then
              FlagBits.FLAG_METHOD_NOT_ALLOWED.toNat ||| FlagBits.FLAG_CORS_PREFLIGHT.toNat
            else FlagBits.FLAG_METHOD_NOT_ALLOWED.toNat
          mainOffset := o }) := by
  unfold HttpCore.ScannerRouteFirst
  simp only [hs, ha]
  rfl

/-- The request-line scan when the method is admitted: what follows the route match. -/
theorem ScannerRouteFirst_route (core : HttpCore) (simd : Simd) (curl : Bytes)
    (reqObj : ReqObj) (caps : Caps) (m : MethodType) (o : Nat) (r : MatchResult)
    (hs : scanHttpMethod curl 0 = (m, o)) (ha : core.isMethodAllowed m = true)
    (hr : matchUrl (core.m_httpRouteMaps.getD m.toNat none) curl (o + 1) [] []
      caps.query_limit = some r) :
    core.ScannerRouteFirst simd curl reqObj caps =
      if r.ret = -1 then
        some (-1, { reqObj with method := m.toNat, retFlag := FlagBits.FLAG_NOT_FOUND.toNat })
      else if r.ret = -2 then
        some (-1, { reqObj with
          method := m.toNat, retFlag := FlagBits.FLAG_REQUEST_QUERY_EXCEEDED.toNat })
      else if r.ret = -3 then
        some (-1, { reqObj with
          method := m.toNat, retFlag := FlagBits.FLAG_REQUEST_URL_EXCEEDED.toNat })
      else if (isHttp11AtOffset curl curl.length (r.offset + 1)).1 = false then
        some (r.ret, { reqObj with
          method := m.toNat, params := r.path_params, query := r.query,
          retFlag := FlagBits.FLAG_HTTP_VERSION_UNSUPPORTED.toNat })
      else
        match scanHeaders
            ⟨simd, curl, curl.length, caps.maxHeaderSize, caps.maxHeaderSize,
              caps.maxHeaderValueSize, reqObj.headerSize, m⟩
            ((isHttp11AtOffset curl curl.length (r.offset + 1)).2 + 2) reqObj.headers with
        | none => none
        | some res =>
          some (r.ret,
            { reqObj with
              method := m.toNat, params := r.path_params, query := r.query,
              retFlag := res.flag.toNat
              headers := res.headers
              headerSize := reqObj.headerSize + res.offset
                - ((isHttp11AtOffset curl curl.length (r.offset + 1)).2 + 2)
              mainOffset := res.offset }) := by
  unfold HttpCore.ScannerRouteFirst
  simp only [hs, ha, hr]
  by_cases h1 : r.ret = -1
  · simp only [h1, if_true]; rfl
  · by_cases h2 : r.ret = -2
    · simp only [h2, if_true]; rfl
    · by_cases h3 : r.ret = -3
      · simp only [h3, if_true]; rfl
      · simp only [h1, h2, h3, if_false]
        cases hv : isHttp11AtOffset curl curl.length (r.offset + 1) with
        | mk b o2 =>
          cases b <;> rfl

theorem parse_query_loop_isSome (url : Bytes) (offset query_limit : Nat) :
    ∀ (n p scanned key_start : Nat) (val_start : Option Nat) (q : Obj),
      url.length + 1 ≤ p + n → 1 ≤ n →
      (parse_query_loop url offset query_limit n p scanned key_start val_start q).isSome = true
  | 0, _, _, _, _, _, _, h => absurd h (by decide)
  | n + 1, p, scanned, key_start, val_start, q, hn, _ => by
    unfold parse_query_loop
    simp only []
    by_cases hc : rd url p ≠ 0 ∧ ¬ (rd url p = 32 ∨ rd url p = 13 ∨ rd url p = 10 ∨ rd url p = 35)
    · rw [if_pos hc]
      have hp := rd_ne_zero_lt url p hc.1
      have hn1 : url.length + 1 ≤ (p + 1) + n := by omega
      have hn2 : 1 ≤ n := by omega
      split
      · rfl
      · split
        · exact parse_query_loop_isSome url offset query_limit n _ _ _ _ _ hn1 hn2
        · split
          · exact parse_query_loop_isSome url offset query_limit n _ _ _ _ _ hn1 hn2
          · exact parse_query_loop_isSome url offset query_limit n _ _ _ _ _ hn1 hn2
    · rw [if_neg hc]
      rfl

theorem parse_query_params_isSome (url : Bytes) (offset : Nat) (q : Obj) (query_limit : Nat) :
    (parse_query_params url offset q query_limit).isSome = true := by
  unfold parse_query_params
  simp only []
  apply parse_query_loop_isSome
  · omega
  · omega

theorem matchFinish_isSome (url : Bytes) (query_limit : Nat) (vptr : Int) (offset : Nat)
    (ps : List Bytes) (q : Obj) :
    (matchFinish url query_limit vptr offset ps q).isSome = true := by
  unfold matchFinish
  split
  · obtain ⟨r, hr⟩ := Option.isSome_iff_exists.mp
      (parse_query_params_isSome url offset q query_limit)
    rw [hr]
    simp only []
    split <;> rfl
  · rfl

theorem wildcardLoop_isSome (url : Bytes) (query_limit : Nat) (vptr : Int) (ps : List Bytes) :
    ∀ (n offset : Nat) (q : Obj), 1002 ≤ offset + n → 1 ≤ n →
      (wildcardLoop url query_limit vptr ps n offset q).isSome = true
  | 0, _, _, _, h => absurd h (by decide)
  | n + 1, offset, q, hn, _ => by
    unfold wildcardLoop
    split
    · split
      · rfl
      · split
        · obtain ⟨r, hr⟩ := Option.isSome_iff_exists.mp
            (parse_query_params_isSome url offset q query_limit)
          rw [hr]
          simp only []
          split <;> rfl
        · exact wildcardLoop_isSome url query_limit vptr ps n (offset + 1) q (by omega)
            (by omega)
    · rfl

mutual
theorem matchNode_isSome (url : Bytes) (query_limit : Nat) :
    ∀ (node : RouteNode) (offset : Nat) (ps : List Bytes) (q : Obj),
      (matchNode url query_limit node offset ps q).isSome = true
  | RouteNode.mk _ _ _ _ _ _ _ cs, offset, ps, q => by
    unfold matchNode
    exact matchChildren_isSome url query_limit cs offset ps q
theorem matchChildren_isSome (url : Bytes) (query_limit : Nat) :
    ∀ (cs : List RouteNode) (offset : Nat) (ps : List Bytes) (q : Obj),
      (matchChildren url query_limit cs offset ps q).isSome = true
  | [], _, _, _ => by unfold matchChildren; rfl
  | child :: rest, offset, ps, q => by
    unfold matchChildren
    simp only []
    split
    · split
      · exact matchFinish_isSome _ _ _ _ _ _
      · exact matchNode_isSome url query_limit child _ _ _
    · split
      · exact wildcardLoop_isSome _ _ _ _ _ _ _ (by omega) (by omega)
      · split
        · split
          · exact matchFinish_isSome _ _ _ _ _ _
          · exact matchNode_isSome url query_limit child _ _ _
        · exact matchChildren_isSome url query_limit rest _ _ _
end

/-- The route matcher returns on every input: no inner loop runs out of its budget. -/
theorem matchUrl_isSome (root : Option RouteNode) (url : Bytes) (offset : Nat)
    (path_params : List Bytes) (query_params : Obj) (query_limit : Nat) :
    (matchUrl root url offset path_params query_params query_limit).isSome = true := by
  unfold matchUrl
  cases root with
  | none => rfl
  | some node =>
    simp only []
    split
    · split
      · rfl
      · exact matchNode_isSome _ _ _ _ _ _
    · exact matchNode_isSome _ _ _ _ _ _

theorem rd_slice (buf : Bytes) (p k i : Nat) (h : i < k) : rd (slice buf p k) i = rd buf (p + i) := by
  simp [rd, slice, List.getD_eq_getElem?_getD, h]

theorem rd_append_right (pre l : Bytes) (i : Nat) : rd (pre ++ l) (pre.length + i) = rd l i := by
  unfold rd
  rw [List.getD_eq_getElem?_getD, List.getD_eq_getElem?_getD,
    List.getElem?_append_right (by omega)]
  congr 2
  omega

theorem rd_append_left (l post : Bytes) (i : Nat) (h : i < l.length) :
    rd (l ++ post) i = rd l i := by
  unfold rd
  rw [List.getD_eq_getElem?_getD, List.getD_eq_getElem?_getD, List.getElem?_append_left h]

theorem hex_to_char_hexDigit (u : Bool) (d : Nat) (h : d < 16) :
    hex_to_char (hexDigit u d) = d := by
  unfold hex_to_char hexDigit
  by_cases h1 : d < 10
  · rw [if_pos h1, if_pos (by omega)]; omega
  · rw [if_neg h1]
    cases u
    · simp only [Bool.false_eq_true, if_false]
      rw [if_neg (by omega), if_neg (by omega), if_pos (by omega)]; omega
    · simp only [if_true]
      rw [if_neg (by omega), if_pos (by omega)]; omega

theorem nibbles_join (b : Nat) (h : b < 256) : (((b / 16) <<< 4) ||| (b % 16)) % 256 = b := by
  have h16 : b % 16 < 2 ^ 4 := Nat.mod_lt _ (by decide)
  have := Nat.mul_add_lt_is_or h16 (b / 16)
  rw [Nat.shiftLeft_eq, Nat.mul_comm, ← this]
  have e : (2 : Nat) ^ 4 = 16 := by decide
  rw [e]
  omega

/-- The decoding loop does not depend on spare budget, and its output extends `out`. -/
theorem url_decode_loop_eq (buf : Bytes) (stop : Nat) :
    ∀ (n m p : Nat) (out : Bytes), stop - p ≤ n → stop - p ≤ m →
      url_decode_loop buf stop n p out = out ++ url_decode_loop buf stop m p []
  | 0, m, p, out, hn, _ => by
    cases m with
    | zero => simp [url_decode_loop]
    | succ m =>
      unfold url_decode_loop
      rw [if_neg (by omega)]
      simp
  | n + 1, 0, p, out, _, hm => by
    unfold url_decode_loop
    rw [if_neg (by omega)]
    simp
  | n + 1, m + 1, p, out, hn, hm => by
    unfold url_decode_loop
    by_cases hp : p < stop
    · rw [if_pos hp, if_pos hp]
      simp only []
      split
      · rw [url_decode_loop_eq buf stop n m (p + 3) _ (by omega) (by omega),
          url_decode_loop_eq buf stop m m (p + 3) ([] ++ _) (by omega) (by omega)]
        simp
      · split
        · rw [url_decode_loop_eq buf stop n m (p + 1) _ (by omega) (by omega),
            url_decode_loop_eq buf stop m m (p + 1) ([] ++ _) (by omega) (by omega)]
          simp
        · rw [url_decode_loop_eq buf stop n m (p + 1) _ (by omega) (by omega),
            url_decode_loop_eq buf stop m m (p + 1) ([] ++ _) (by omega) (by omega)]
          simp
    · rw [if_neg hp, if_neg hp]
      simp

theorem url_decode_nil (buf : Bytes) (p stop : Nat) (h : stop ≤ p) : url_decode buf p stop = [] := by
  unfold url_decode
  have : stop - p + 1 = 0 + 1 := by omega
  rw [this]
  unfold url_decode_loop
  rw [if_neg (by omega)]

theorem url_decode_pct (buf : Bytes) (p stop : Nat) (hc : rd buf p = 37) (h : p + 2 < stop) :
    url_decode buf p stop
      = (((hex_to_char (rd buf (p + 1))) <<< 4 ||| hex_to_char (rd buf (p + 2))) % 256)
          :: url_decode buf (p + 3) stop := by
  unfold url_decode
  rw [show stop - p + 1 = (stop - p) + 1 by rfl]
  conv => lhs; unfold url_decode_loop
  rw [if_pos (by omega)]
  simp only []
  rw [if_pos ⟨hc, h⟩, url_decode_loop_eq buf stop _ (stop - (p + 3) + 1) (p + 3) _ (by omega)
    (by omega)]
  simp

theorem url_decode_plus (buf : Bytes) (p stop : Nat) (hc : rd buf p = 43) (h : p < stop) :
    url_decode buf p stop = 32 :: url_decode buf (p + 1) stop := by
  unfold url_decode
  rw [show stop - p + 1 = (stop - p) + 1 by rfl]
  conv => lhs; unfold url_decode_loop
  rw [if_pos h]
  simp only []
  rw [if_neg (by omega), if_pos ⟨by omega, hc⟩,
    url_decode_loop_eq buf stop _ (stop - (p + 1) + 1) (p + 1) _ (by omega) (by omega)]
  simp

theorem url_decode_copy (buf : Bytes) (p stop : Nat) (h : p < stop)
    (hc : (rd buf p = 37 ∧ stop ≤ p + 2) ∨ (rd buf p ≠ 37 ∧ rd buf p ≠ 43)) :
    url_decode buf p stop = rd buf p :: url_decode buf (p + 1) stop := by
  unfold url_decode
  rw [show stop - p + 1 = (stop - p) + 1 by rfl]
  conv => lhs; unfold url_decode_loop
  rw [if_pos h]
  simp only []
  rw [if_neg (by omega), if_neg (by omega),
    url_decode_loop_eq buf stop _ (stop - (p + 1) + 1) (p + 1) _ (by omega) (by omega)]
  simp

theorem pctEncode_length (upper : Nat → Bool) :
    ∀ (s : Bytes) (i : Nat), (pctEncode upper i s).length = 3 * s.length
  | [], _ => rfl
  | b :: s, i => by
    simp only [pctEncode, List.length_cons, pctEncode_length upper s (i + 1)]
    omega

/-- Decoding the percent-encoding of `s`, wherever it stands in a buffer, gives `s`. -/
theorem url_decode_pctEncode (upper : Nat → Bool) (buf : Bytes) :
    ∀ (s : Bytes) (i p : Nat), IsBytes s →
      (∀ j, j < 3 * s.length → rd buf (p + j) = rd (pctEncode upper i s) j) →
      url_decode buf p (p + 3 * s.length) = s
  | [], _, p, _, _ => url_decode_nil buf p _ (by simp)
  | b :: s, i, p, hs, hb => by
    have hlen : 3 * (b :: s).length = 3 * s.length + 3 := by simp only [List.length_cons]; omega
    rw [hlen] at hb
    have h0 := hb 0 (by omega)
    have h1 := hb 1 (by omega)
    have h2 := hb 2 (by omega)
    simp only [pctEncode, rd, List.getD_cons_zero, List.getD_cons_succ, Nat.add_zero] at h0 h1 h2
    have hb256 : b < 256 := hs b (List.mem_cons_self _ _)
    rw [hlen, url_decode_pct buf p _ h0 (by omega)]
    simp only [rd]
    rw [h1, h2, hex_to_char_hexDigit _ _ (by omega), hex_to_char_hexDigit _ _ (by omega),
      nibbles_join b hb256]
    have e : p + (3 * s.length + 3) = (p + 3) + 3 * s.length := by omega
    rw [e, url_decode_pctEncode upper buf s (i + 1) (p + 3)
      (fun x hx => hs x (List.mem_cons_of_mem _ hx))]
    intro j hj
    have := hb (j + 3) (by omega)
    rw [show p + 3 + j = p + (j + 3) by omega, this]
    simp only [pctEncode, rd, List.getD_cons_succ]

theorem isQueryStop_iff (c : Nat) :
    isQueryStop c = false ↔ (c ≠ 0 ∧ ¬ (c = 32 ∨ c = 13 ∨ c = 10 ∨ c = 35)) := by
  unfold isQueryStop
  simp only [Bool.or_eq_false_iff, beq_eq_false_iff_ne, ne_eq, not_or]
  constructor
  · intro h; exact ⟨h.1.1.1.1, h.1.1.1.2, h.1.1.2, h.1.2, h.2⟩
  · intro h; exact ⟨⟨⟨⟨h.1, h.2.1⟩, h.2.2.1⟩, h.2.2.2.1⟩, h.2.2.2.2⟩

theorem queryLen_succ (url : Bytes) (p : Nat) (h : isQueryStop (rd url p) = false) :
    queryLen url p = queryLen url (p + 1) + 1 := by
  have hp : p < url.length := rd_ne_zero_lt url p ((isQueryStop_iff _).mp h).1
  unfold queryLen
  rw [List.drop_eq_getElem_cons hp]
  have e : rd url p = url[p] := by
    unfold rd; exact List.getD_eq_getElem _ _ hp
  rw [e] at h
  rw [List.takeWhile_cons, if_pos (by rw [h]; rfl)]
  rfl

theorem queryLen_zero (url : Bytes) (p : Nat) (h : isQueryStop (rd url p) = true) :
    queryLen url p = 0 := by
  unfold queryLen
  by_cases hp : p < url.length
  · rw [List.drop_eq_getElem_cons hp]
    have e : rd url p = url[p] := by
      unfold rd; exact List.getD_eq_getElem _ _ hp
    rw [e] at h
    rw [List.takeWhile_cons, if_neg (by rw [h]; decide)]
    rfl
  · rw [List.drop_eq_nil_of_le (by omega)]
    rfl

/-- The scan loop of `parse_query_params` fails exactly when the bytes already counted plus
the query bytes still ahead exceed the cap; otherwise it moves the offset by their number. -/
theorem parse_query_loop_count (url : Bytes) (offset query_limit : Nat) :
    ∀ (n p scanned key_start : Nat) (val_start : Option Nat) (q : Obj),
      url.length + 1 ≤ p + n → 1 ≤ n → scanned ≤ query_limit →
      ∃ r, parse_query_loop url offset query_limit n p scanned key_start val_start q = some r
        ∧ (r.ok = false ↔ query_limit < scanned + queryLen url p)
        ∧ (r.ok = true → r.offset = offset + scanned + queryLen url p)
  | 0, _, _, _, _, _, _, h, _ => absurd h (by decide)
  | n + 1, p, scanned, key_start, val_start, q, hn, _, hsc => by
    unfold parse_query_loop
    simp only []
    by_cases hc : rd url p ≠ 0 ∧ ¬ (rd url p = 32 ∨ rd url p = 13 ∨ rd url p = 10 ∨ rd url p = 35)
    · rw [if_pos hc]
      have hp := rd_ne_zero_lt url p hc.1
      have hq := queryLen_succ url p ((isQueryStop_iff _).mpr hc)
      have hn1 : url.length + 1 ≤ (p + 1) + n := by omega
      have hn2 : 1 ≤ n := by omega
      by_cases hl : scanned + 1 > query_limit
      · rw [if_pos hl]
        refine ⟨_, rfl, ?_, ?_⟩
        · simp only [true_iff]; omega
        · intro h; cases h
      · rw [if_neg hl]
        have key : ∀ (ks : Nat) (vs : Option Nat) (q2 : Obj),
            ∃ r, parse_query_loop url offset query_limit n (p + 1) (scanned + 1) ks vs q2
                = some r
              ∧ (r.ok = false ↔ query_limit < scanned + queryLen url p)
              ∧ (r.ok = true → r.offset = offset + scanned + queryLen url p) := by
          intro ks vs q2
          obtain ⟨r, h1, h2, h3⟩ := parse_query_loop_count url offset query_limit n (p + 1)
            (scanned + 1) ks vs q2 hn1 hn2 (by omega)
          refine ⟨r, h1, ?_, ?_⟩
          · rw [h2, hq]
            constructor <;> intro h <;> omega
          · intro h
            rw [h3 h, hq]
            omega
        split
        · exact key _ _ _
        · split
          · exact key _ _ _
          · exact key _ _ _
    · rw [if_neg hc]
      have hz : queryLen url p = 0 := by
        apply queryLen_zero
        cases hh : isQueryStop (rd url p)
        · exact absurd ((isQueryStop_iff _).mp hh) hc
        · rfl
      refine ⟨_, rfl, ?_, ?_⟩
      · simp only [hz, Nat.add_zero]
        constructor
        · intro h; cases h
        · intro h
          omega
      · intro _
        simp only [hz, Nat.add_zero]

theorem parse_query_params_count (url : Bytes) (offset : Nat) (q : Obj) (query_limit : Nat)
    (h : rd url offset = 63) :
    ∃ r, parse_query_params url offset q query_limit = some r
      ∧ (r.ok = false ↔ query_limit < queryLen url (offset + 1))
      ∧ (r.ok = true → r.offset = offset + queryLen url (offset + 1)) := by
  unfold parse_query_params
  rw [if_pos h]
  simp only []
  obtain ⟨r, h1, h2, h3⟩ := parse_query_loop_count url offset query_limit
    (url.length - (offset + 1) + 1) (offset + 1) 0 (offset + 1) none q (by omega) (by omega)
    (Nat.zero_le _)
  refine ⟨r, h1, ?_, ?_⟩
  · rw [h2, Nat.zero_add]
  · intro h
    rw [h3 h, Nat.add_zero]

/-- The exit of the parameter and static branches at a `?`. -/
theorem matchFinish_query (url : Bytes) (query_limit : Nat) (vptr : Int) (offset : Nat)
    (ps : List Bytes) (q : Obj) (h : rd url offset = 63) (hv : vptr ≠ -2) :
    ∃ r, matchFinish url query_limit vptr offset ps q = some r
      ∧ (r.ret = -2 ↔ query_limit < queryLen url (offset + 1))
      ∧ (queryLen url (offset + 1) ≤ query_limit →
          r.ret = vptr ∧ r.offset = offset + queryLen url (offset + 1) + 1) := by
  obtain ⟨r, h1, h2, h3⟩ := parse_query_params_count url offset q query_limit h
  unfold matchFinish
  rw [if_pos h, h1]
  simp only []
  cases hok : r.ok
  · refine ⟨_, rfl, ?_, ?_⟩
    · simp only [Bool.not_false, if_true, true_iff]
      exact h2.mp hok
    · intro hle
      have := h2.mp hok
      omega
  · refine ⟨_, rfl, ?_, ?_⟩
    · simp only [Bool.not_true, Bool.false_eq_true, if_false]
      constructor
      · intro hh; exact absurd hh hv
      · intro hh
        have := h2.mpr hh
        rw [hok] at this
        cases this
    · intro _
      simp only [Bool.not_true, Bool.false_eq_true, if_false]
      rw [h3 hok]
      exact ⟨trivial, rfl⟩

/-- Children that are static and do not match at the offset are passed over. -/
theorem matchChildren_skip (url : Bytes) (query_limit : Nat) (rest : List RouteNode)
    (offset : Nat) (ps : List Bytes) (q : Obj) :
    ∀ (skipped : List RouteNode),
      (∀ c ∈ skipped, c.is_param = false ∧ c.is_wildcard = false
        ∧ nodeStaticMatches c url offset = false) →
      matchChildren url query_limit (skipped ++ rest) offset ps q
        = matchChildren url query_limit rest offset ps q
  | [], _ => rfl
  | c :: skipped, h => by
    have hc := h c (List.mem_cons_self _ _)
    rw [List.cons_append]
    conv => lhs; unfold matchChildren
    simp only [hc.1, hc.2.1, hc.2.2, Bool.false_eq_true, if_false]
    exact matchChildren_skip url query_limit rest offset ps q skipped
      (fun c2 h2 => h c2 (List.mem_cons_of_mem _ h2))

theorem paramEnd_ge (url : Bytes) : ∀ (n p : Nat), p ≤ paramEnd url n p
  | 0, p => Nat.le_refl p
  | n + 1, p => by
    unfold paramEnd
    simp only []
    split
    · exact Nat.le_trans (Nat.le_succ p) (paramEnd_ge url n (p + 1))
    · exact Nat.le_refl p

theorem slice_rd (url : Bytes) (p : Nat) (l : Bytes) (h : slice url p l.length = l) (j : Nat)
    (hj : j < l.length) : rd url (p + j) = rd l j := by
  rw [← rd_slice url p l.length j hj, h]

theorem slice_append_iff (url : Bytes) (p : Nat) (a b : Bytes) :
    slice url p (a ++ b).length = a ++ b
      ↔ slice url p a.length = a ∧ slice url (p + a.length) b.length = b := by
  rw [List.length_append, slice_add]
  constructor
  · intro h
    exact List.append_inj h (slice_length _ _ _)
  · intro h
    rw [h.1, h.2]

theorem slice_cons_iff (url : Bytes) (p c : Nat) (b : Bytes) :
    slice url p (c :: b).length = c :: b
      ↔ rd url p = c ∧ slice url (p + 1) b.length = b := by
  have := slice_append_iff url p [c] b
  simp only [List.singleton_append, List.length_singleton] at this
  rw [this]
  have e : slice url p 1 = [rd url p] := rfl
  rw [e]
  simp

theorem isQueryPlain_iff (c : Nat) :
    isQueryPlain c = true ↔ isQueryStop c = false ∧ c ≠ 61 ∧ c ≠ 38 := by
  unfold isQueryPlain
  simp only [Bool.and_eq_true, Bool.not_eq_true', bne_iff_ne, ne_eq, and_assoc]

theorem parse_query_loop_plain (url : Bytes) (offset query_limit n p scanned key_start : Nat)
    (val_start : Option Nat) (q : Obj) (hc : isQueryPlain (rd url p) = true)
    (hs : scanned + 1 ≤ query_limit) :
    parse_query_loop url offset query_limit (n + 1) p scanned key_start val_start q
      = parse_query_loop url offset query_limit n (p + 1) (scanned + 1) key_start val_start q := by
  have h := (isQueryPlain_iff _).mp hc
  have h2 := (isQueryStop_iff _).mp h.1
  conv => lhs; unfold parse_query_loop
  simp only []
  rw [if_pos h2, if_neg (by omega), if_neg h.2.1, if_neg h.2.2]

theorem parse_query_loop_eq (url : Bytes) (offset query_limit n p scanned key_start : Nat)
    (val_start : Option Nat) (q : Obj) (hc : rd url p = 61)
    (hs : scanned + 1 ≤ query_limit) :
    parse_query_loop url offset query_limit (n + 1) p scanned key_start val_start q
      = parse_query_loop url offset query_limit n (p + 1) (scanned + 1) key_start
          (some (p + 1)) q := by
  conv => lhs; unfold parse_query_loop
  simp only []
  rw [if_pos (by rw [hc]; decide), if_neg (by omega), if_pos hc]

theorem parse_query_loop_amp (url : Bytes) (offset query_limit n p scanned key_start : Nat)
    (val_start : Option Nat) (q : Obj) (hc : rd url p = 38)
    (hs : scanned + 1 ≤ query_limit) :
    parse_query_loop url offset query_limit (n + 1) p scanned key_start val_start q
      = parse_query_loop url offset query_limit n (p + 1) (scanned + 1) (p + 1) none
          (querySetPair url key_start val_start p q) := by
  conv => lhs; unfold parse_query_loop
  simp only []
  rw [if_pos (by rw [hc]; decide), if_neg (by omega), if_neg (by rw [hc]; decide), if_pos hc]

theorem parse_query_loop_stop (url : Bytes) (offset query_limit n p scanned key_start : Nat)
    (val_start : Option Nat) (q : Obj) (hc : isQueryStop (rd url p) = true) :
    parse_query_loop url offset query_limit (n + 1) p scanned key_start val_start q
      = some ⟨true, offset + scanned,
          if key_start < p then querySetPair url key_start val_start p q else q⟩ := by
  conv => lhs; unfold parse_query_loop
  simp only []
  rw [if_neg]
  intro h
  have := (isQueryStop_iff _).mpr h
  rw [hc] at this
  cases this

/-- A run of plain bytes only moves the cursor and the count. -/
theorem parse_query_loop_run (url : Bytes) (offset query_limit key_start : Nat)
    (val_start : Option Nat) (q : Obj) :
    ∀ (w : Bytes) (n p scanned : Nat), (∀ c ∈ w, isQueryPlain c = true) →
      slice url p w.length = w → scanned + w.length ≤ query_limit →
      parse_query_loop url offset query_limit (n + w.length) p scanned key_start val_start q
        = parse_query_loop url offset query_limit n (p + w.length) (scanned + w.length)
            key_start val_start q
  | [], n, p, scanned, _, _, _ => rfl
  | c :: w, n, p, scanned, hw, hsl, hs => by
    have h := (slice_cons_iff url p c w).mp hsl
    simp only [List.length_cons] at hs ⊢
    have hc : isQueryPlain (rd url p) = true := by
      rw [h.1]; exact hw c (List.mem_cons_self _ _)
    rw [show n + (w.length + 1) = (n + w.length) + 1 by omega,
      parse_query_loop_plain url offset query_limit _ p scanned key_start val_start q hc
        (by omega),
      parse_query_loop_run url offset query_limit key_start val_start q w n (p + 1)
        (scanned + 1) (fun x hx => hw x (List.mem_cons_of_mem _ hx)) h.2 (by omega)]
    rw [show p + 1 + w.length = p + (w.length + 1) by omega,
      show scanned + 1 + w.length = scanned + (w.length + 1) by omega]

/-- The result of `url_decode` depends only on the bytes of the region. -/
theorem url_decode_local (b1 b2 : Bytes) :
    ∀ (k p1 p2 : Nat), (∀ j, j < k → rd b1 (p1 + j) = rd b2 (p2 + j)) →
      url_decode b1 p1 (p1 + k) = url_decode b2 p2 (p2 + k) := by
  intro k
  induction k using Nat.strong_induction_on with
  | _ k ih =>
    intro p1 p2 h
    by_cases hk : k = 0
    · subst hk
      rw [url_decode_nil b1 p1 _ (by omega), url_decode_nil b2 p2 _ (by omega)]
    · have h0 : rd b1 p1 = rd b2 p2 := h 0 (by omega)
      have step1 : url_decode b1 (p1 + 1) (p1 + k) = url_decode b2 (p2 + 1) (p2 + k) := by
        have := ih (k - 1) (by omega) (p1 + 1) (p2 + 1) (by
          intro j hj
          have := h (j + 1) (by omega)
          rw [show p1 + 1 + j = p1 + (j + 1) by omega, show p2 + 1 + j = p2 + (j + 1) by omega]
          exact this)
        rw [show p1 + 1 + (k - 1) = p1 + k by omega,
          show p2 + 1 + (k - 1) = p2 + k by omega] at this
        exact this
      by_cases hc : rd b1 p1 = 37
      · by_cases h3 : 3 ≤ k
        · have e1 : rd b1 (p1 + 1) = rd b2 (p2 + 1) := h 1 (by omega)
          have e2 : rd b1 (p1 + 2) = rd b2 (p2 + 2) := h 2 (by omega)
          rw [url_decode_pct b1 p1 _ hc (by omega),
            url_decode_pct b2 p2 _ (by rw [← h0]; exact hc) (by omega), e1, e2]
          have := ih (k - 3) (by omega) (p1 + 3) (p2 + 3) (by
            intro j hj
            have := h (j + 3) (by omega)
            rw [show p1 + 3 + j = p1 + (j + 3) by omega,
              show p2 + 3 + j = p2 + (j + 3) by omega]
            exact this)
          rw [show p1 + 3 + (k - 3) = p1 + k by omega,
            show p2 + 3 + (k - 3) = p2 + k by omega] at this
          rw [this]
        · rw [url_decode_copy b1 p1 _ (by omega) (Or.inl ⟨hc, by omega⟩),
            url_decode_copy b2 p2 _ (by omega) (Or.inl ⟨by rw [← h0]; exact hc, by omega⟩),
            step1, h0]
      · by_cases hp : rd b1 p1 = 43
        · rw [url_decode_plus b1 p1 _ hp (by omega),
            url_decode_plus b2 p2 _ (by rw [← h0]; exact hp) (by omega), step1]
        · rw [url_decode_copy b1 p1 _ (by omega) (Or.inr ⟨hc, hp⟩),
            url_decode_copy b2 p2 _ (by omega)
              (Or.inr ⟨by rw [← h0]; exact hc, by rw [← h0]; exact hp⟩),
            step1, h0]

theorem url_decode_slice (url : Bytes) (p : Nat) (l : Bytes) (h : slice url p l.length = l) :
    url_decode url p (p + l.length) = pctDecode l := by
  unfold pctDecode
  have := url_decode_local url l l.length p 0 (by
    intro j hj
    rw [slice_rd url p l h j hj, Nat.zero_add])
  rw [this, Nat.zero_add]

/-- Scanning the text of one pair from the start-of-pair state. -/
theorem parse_query_loop_pair (url : Bytes) (offset query_limit : Nat) (q : Obj)
    (kv : Bytes × Option Bytes) (n p scanned : Nat)
    (hk : ∀ c ∈ kv.1, isQueryPlain c = true)
    (hv : ∀ v, kv.2 = some v → ∀ c ∈ v, isQueryPlain c = true)
    (hsl : slice url p (renderPair kv).length = renderPair kv)
    (hs : scanned + (renderPair kv).length ≤ query_limit) :
    ∃ vs, parse_query_loop url offset query_limit (n + (renderPair kv).length) p scanned p
          none q
        = parse_query_loop url offset query_limit n (p + (renderPair kv).length)
            (scanned + (renderPair kv).length) p vs q
      ∧ querySetPair url p vs (p + (renderPair kv).length) q
        = q.Set (c_str (pctDecode kv.1))
            (match kv.2 with
              | none => []
              | some v => pctDecode v) := by
  obtain ⟨k, v⟩ := kv
  cases v with
  | none =>
    simp only [renderPair] at hsl hs ⊢
    refine ⟨none, parse_query_loop_run url offset query_limit p none q k n p scanned hk hsl hs,
      ?_⟩
    unfold querySetPair
    simp only []
    rw [url_decode_slice url p k hsl]
  | some v =>
    simp only [renderPair] at hsl hs ⊢
    have h1 := (slice_append_iff url p k (61 :: v)).mp hsl
    have h2 := (slice_cons_iff url (p + k.length) 61 v).mp h1.2
    have hlen : (k ++ 61 :: v).length = k.length + 1 + v.length := by
      simp only [List.length_append, List.length_cons]; omega
    rw [hlen] at hs ⊢
    refine ⟨some (p + k.length + 1), ?_, ?_⟩
    · rw [show n + (k.length + 1 + v.length) = (n + v.length + 1) + k.length by omega,
        parse_query_loop_run url offset query_limit p none q k _ p scanned hk h1.1 (by omega),
        parse_query_loop_eq url offset query_limit _ _ _ p none q h2.1 (by omega),
        parse_query_loop_run url offset query_limit p (some (p + k.length + 1)) q v n
          (p + k.length + 1) (scanned + k.length + 1) (hv v rfl) h2.2 (by omega)]
      rw [show p + k.length + 1 + v.length = p + (k.length + 1 + v.length) by omega,
        show scanned + k.length + 1 + v.length = scanned + (k.length + 1 + v.length) by omega]
    · unfold querySetPair
      simp only []
      rw [show p + k.length + 1 - 1 = p + k.length by omega, url_decode_slice url p k h1.1,
        show p + (k.length + 1 + v.length) = (p + k.length + 1) + v.length by omega,
        url_decode_slice url (p + k.length + 1) v h2.2]

/-- The scan loop on the text of well-formed pairs that ends at a stop byte. -/
theorem parse_query_loop_pairs (url : Bytes) (offset query_limit : Nat) :
    ∀ (pairs : List (Bytes × Option Bytes)) (n p scanned : Nat) (q : Obj),
      wellFormedPairs pairs →
      slice url p (renderQuery pairs).length = renderQuery pairs →
      isQueryStop (rd url (p + (renderQuery pairs).length)) = true →
      scanned + (renderQuery pairs).length ≤ query_limit →
      parse_query_loop url offset query_limit (n + ((renderQuery pairs).length + 1)) p scanned
          p none q
        = some ⟨true, offset + (scanned + (renderQuery pairs).length), storePairsCStr pairs q⟩
  | [], n, p, scanned, q, _, _, hstop, _ => by
    simp only [renderQuery, List.length_nil, Nat.add_zero] at hstop ⊢
    rw [parse_query_loop_stop url offset query_limit n p scanned p none q hstop,
      if_neg (Nat.lt_irrefl p)]
    rfl
  | [kv], n, p, scanned, q, hwf, hsl, hstop, hs => by
    simp only [renderQuery] at hsl hstop hs ⊢
    have hkv := hwf kv (List.mem_cons_self _ _)
    obtain ⟨vs, h1, h2⟩ := parse_query_loop_pair url offset query_limit q kv (n + 1) p scanned
      hkv.2.1 hkv.2.2 hsl hs
    have hpos : 0 < (renderPair kv).length := List.length_pos.mpr hkv.1
    rw [show n + ((renderPair kv).length + 1) = (n + 1) + (renderPair kv).length by omega, h1,
      parse_query_loop_stop url offset query_limit n _ _ p vs q hstop, if_pos (by omega), h2]
    rfl
  | kv :: kv2 :: rest, n, p, scanned, q, hwf, hsl, hstop, hs => by
    simp only [renderQuery] at hsl hstop hs ⊢
    have hkv := hwf kv (List.mem_cons_self _ _)
    have hl : (renderPair kv ++ 38 :: renderQuery (kv2 :: rest)).length
        = (renderPair kv).length + 1 + (renderQuery (kv2 :: rest)).length := by
      simp only [List.length_append, List.length_cons]; omega
    have hA := (slice_append_iff url p (renderPair kv) (38 :: renderQuery (kv2 :: rest))).mp hsl
    have hB := (slice_cons_iff url (p + (renderPair kv).length) 38
      (renderQuery (kv2 :: rest))).mp hA.2
    rw [hl] at hstop hs ⊢
    obtain ⟨vs, h1, h2⟩ := parse_query_loop_pair url offset query_limit q kv
      (n + ((renderQuery (kv2 :: rest)).length + 1) + 1) p scanned hkv.2.1 hkv.2.2 hA.1
      (by omega)
    rw [show n + ((renderPair kv).length + 1 + (renderQuery (kv2 :: rest)).length + 1)
        = (n + ((renderQuery (kv2 :: rest)).length + 1) + 1) + (renderPair kv).length by omega,
      h1, parse_query_loop_amp url offset query_limit _ _ _ p vs q hB.1 (by omega), h2,
      parse_query_loop_pairs url offset query_limit (kv2 :: rest) n
        (p + (renderPair kv).length + 1) (scanned + (renderPair kv).length + 1) _
        (fun x hx => hwf x (List.mem_cons_of_mem _ hx)) hB.2
        (by
          rw [show p + (renderPair kv).length + 1 + (renderQuery (kv2 :: rest)).length
            = p + ((renderPair kv).length + 1 + (renderQuery (kv2 :: rest)).length) by omega]
          exact hstop)
        (by omega)]
    rw [show scanned + (renderPair kv).length + 1 + (renderQuery (kv2 :: rest)).length
      = scanned + ((renderPair kv).length + 1 + (renderQuery (kv2 :: rest)).length) by omega]
    rfl

theorem slice_mid (a l b : Bytes) : slice (a ++ l ++ b) a.length l.length = l := by
  apply List.ext_getElem (by rw [slice_length])
  intro i h1 h2
  have e1 := List.getD_eq_getElem (slice (a ++ l ++ b) a.length l.length) 0 h1
  have e2 := List.getD_eq_getElem l 0 h2
  rw [← e1, ← e2]
  show rd (slice (a ++ l ++ b) a.length l.length) i = rd l i
  rw [rd_slice _ _ _ _ h2, List.append_assoc, rd_append_right, rd_append_left _ _ _ h2]

theorem runLen_succ (f : Nat → Bool) (hf : f 0 = false) (buf : Bytes) (off : Nat)
    (h : f (rd buf off) = true) : runLen f buf off = runLen f buf (off + 1) + 1 := by
  have hp : off < buf.length := by
    apply rd_ne_zero_lt
    intro h0
    rw [h0, hf] at h
    cases h
  unfold runLen
  rw [List.drop_eq_getElem_cons hp]
  have e : rd buf off = buf[off] := by
    unfold rd; exact List.getD_eq_getElem _ _ hp
  rw [e] at h
  rw [List.takeWhile_cons, if_pos h]
  rfl

theorem runLen_zero (f : Nat → Bool) (buf : Bytes) (off : Nat)
    (h : f (rd buf off) = false) : runLen f buf off = 0 := by
  unfold runLen
  by_cases hp : off < buf.length
  · rw [List.drop_eq_getElem_cons hp]
    have e : rd buf off = buf[off] := by
      unfold rd; exact List.getD_eq_getElem _ _ hp
    rw [e] at h
    rw [List.takeWhile_cons, if_neg (by rw [h]; decide)]
    rfl
  · rw [List.drop_eq_nil_of_le (by omega)]
    rfl

theorem isDigitByte_iff (c : Nat) : isDigitByte c = true ↔ 48 ≤ c ∧ c ≤ 57 := by
  unfold isDigitByte
  exact decide_eq_true_iff

theorem isOwsByte_iff (c : Nat) : isOwsByte c = true ↔ c = 32 ∨ c = 9 := by
  unfold isOwsByte
  simp only [Bool.or_eq_true, beq_iff_eq]

theorem isEolByte_iff (c : Nat) : isEolByte c = true ↔ c = 13 ∨ c = 10 := by
  unfold isEolByte
  simp only [Bool.or_eq_true, beq_iff_eq]

theorem bool_false_of_not {b : Bool} (h : ¬ b = true) : b = false := by
  cases b
  · rfl
  · exact absurd rfl h

/-- The trailing-whitespace loop of the numeric parser, in terms of the whitespace run. -/
theorem hv_number_ows_run (buf : Bytes) (total : Nat) :
    ∀ (n off : Nat), off + n = total →
      (off + runLen isOwsByte buf off < total →
        hv_number_ows buf total n off
          = (if isEolByte (rd buf (off + runLen isOwsByte buf off)) = true then none
              else some FlagBits.FLAG_INVALID_HEADER_VALUE, off + runLen isOwsByte buf off))
      ∧ (total ≤ off + runLen isOwsByte buf off →
          (hv_number_ows buf total n off).1 = some FlagBits.FLAG_UNTERMINATED_HEADERS)
  | 0, off, _ => by
    constructor
    · intro h; omega
    · intro _; rfl
  | n + 1, off, hn => by
    unfold hv_number_ows
    rw [if_neg (by omega)]
    simp only []
    by_cases he : rd buf off = 13 ∨ rd buf off = 10
    · have hz : runLen isOwsByte buf off = 0 := by
        apply runLen_zero
        apply bool_false_of_not
        rw [isOwsByte_iff]
        omega
      rw [if_pos he, hz, Nat.add_zero, if_pos ((isEolByte_iff _).mpr he)]
      exact ⟨fun _ => rfl, fun h => by omega⟩
    · rw [if_neg he]
      by_cases ho : rd buf off ≠ 32 ∧ rd buf off ≠ 9
      · have hz : runLen isOwsByte buf off = 0 := by
          apply runLen_zero
          apply bool_false_of_not
          rw [isOwsByte_iff]
          omega
        rw [if_pos ho, hz, Nat.add_zero,
          if_neg (by rw [isEolByte_iff]; exact he)]
        exact ⟨fun _ => rfl, fun h => by omega⟩
      · have hs : runLen isOwsByte buf off = runLen isOwsByte buf (off + 1) + 1 := by
          apply runLen_succ _ (by decide)
          rw [isOwsByte_iff]
          omega
        rw [if_neg ho, hs]
        have ih := hv_number_ows_run buf total n (off + 1) (by omega)
        rw [show off + (runLen isOwsByte buf (off + 1) + 1)
          = off + 1 + runLen isOwsByte buf (off + 1) by omega]
        exact ih

theorem hv_number_loop_eol (buf : Bytes) (total cap vb n off ve : Nat) (seen : Bool)
    (h1 : off < total) (h2 : off - vb ≤ cap) (hc : rd buf off = 13 ∨ rd buf off = 10) :
    hv_number_loop buf total cap vb (n + 1) off ve seen
      = if seen = true then ⟨FlagBits.FLAG_OK, off, slice buf vb (ve - vb)⟩
        else ⟨FlagBits.FLAG_INVALID_HEADER_VALUE, off, []⟩ := by
  unfold hv_number_loop
  rw [if_neg (by omega), if_neg (by omega)]
  simp only []
  rw [if_pos hc]
  cases seen <;> rfl

theorem hv_number_loop_digit (buf : Bytes) (total cap vb n off ve : Nat) (seen : Bool)
    (h1 : off < total) (h2 : off - vb ≤ cap) (hc : 48 ≤ rd buf off ∧ rd buf off ≤ 57) :
    hv_number_loop buf total cap vb (n + 1) off ve seen
      = hv_number_loop buf total cap vb n (off + 1) (off + 1) true := by
  conv => lhs; unfold hv_number_loop
  rw [if_neg (by omega), if_neg (by omega)]
  simp only []
  rw [if_neg (by omega), if_pos hc]

theorem hv_number_loop_ows (buf : Bytes) (total cap vb n off ve : Nat) (seen : Bool)
    (h1 : off < total) (h2 : off - vb ≤ cap) (hc : rd buf off = 32 ∨ rd buf off = 9) :
    hv_number_loop buf total cap vb (n + 1) off ve seen
      = match hv_number_ows buf total n (off + 1) with
        | (some f, off2) => ⟨f, off2, []⟩
        | (none, off2) =>
          if seen = true then ⟨FlagBits.FLAG_OK, off2, slice buf vb (ve - vb)⟩
          else ⟨FlagBits.FLAG_INVALID_HEADER_VALUE, off2, []⟩ := by
  conv => lhs; unfold hv_number_loop
  rw [if_neg (by omega), if_neg (by omega)]
  simp only []
  rw [if_neg (by omega), if_neg (by omega), if_pos hc]
  cases seen <;> rfl

theorem hv_number_loop_bad (buf : Bytes) (total cap vb n off ve : Nat) (seen : Bool)
    (h1 : off < total) (h2 : off - vb ≤ cap)
    (hc : ¬ (rd buf off = 13 ∨ rd buf off = 10)) (hd : ¬ (48 ≤ rd buf off ∧ rd buf off ≤ 57))
    (ho : ¬ (rd buf off = 32 ∨ rd buf off = 9)) :
    hv_number_loop buf total cap vb (n + 1) off ve seen
      = ⟨FlagBits.FLAG_INVALID_HEADER_VALUE, off, []⟩ := by
  unfold hv_number_loop
  rw [if_neg (by omega), if_neg (by omega)]
  simp only []
  rw [if_neg hc, if_neg hd, if_neg ho]

theorem hv_number_loop_cap (buf : Bytes) (total cap vb n off ve : Nat) (seen : Bool)
    (h1 : off < total) (h2 : cap < off - vb) :
    hv_number_loop buf total cap vb (n + 1) off ve seen
      = ⟨FlagBits.FLAG_MAX_HEADER_VALUE_SIZE, off, []⟩ := by
  unfold hv_number_loop
  rw [if_neg (by omega), if_pos (by omega)]

/-- The numeric parser from a cursor that has read digits only, in terms of the digit run
and the whitespace run that follow. -/
theorem hv_number_loop_run (buf : Bytes) (total cap vb : Nat) :
    ∀ (n off : Nat) (seen : Bool), off + n = total → vb ≤ off →
      (off + runLen isDigitByte buf off
            + runLen isOwsByte buf (off + runLen isDigitByte buf off) < total →
          off + runLen isDigitByte buf off - vb ≤ cap →
          hv_number_loop buf total cap vb n off off seen
            = if (seen = true ∨ 1 ≤ runLen isDigitByte buf off)
                  ∧ isEolByte (rd buf (off + runLen isDigitByte buf off
                      + runLen isOwsByte buf (off + runLen isDigitByte buf off))) = true then
                ⟨FlagBits.FLAG_OK,
                  off + runLen isDigitByte buf off
                    + runLen isOwsByte buf (off + runLen isDigitByte buf off),
                  slice buf vb (off + runLen isDigitByte buf off - vb)⟩
              else
                ⟨FlagBits.FLAG_INVALID_HEADER_VALUE,
                  off + runLen isDigitByte buf off
                    + runLen isOwsByte buf (off + runLen isDigitByte buf off), []⟩)
      ∧ (¬ (off + runLen isDigitByte buf off
              + runLen isOwsByte buf (off + runLen isDigitByte buf off) < total
            ∧ off + runLen isDigitByte buf off - vb ≤ cap) →
          (hv_number_loop buf total cap vb n off off seen).flag ≠ FlagBits.FLAG_OK)
  | 0, off, seen, hn, _ => by
    constructor
    · intro h; omega
    · intro _
      unfold hv_number_loop
      intro h; cases h
  | n + 1, off, seen, hn, hvb => by
    have h1 : off < total := by omega
    by_cases hcap : cap < off - vb
    · rw [hv_number_loop_cap buf total cap vb n off off seen h1 hcap]
      constructor
      · intro _ h; omega
      · intro _ h; cases h
    · have h2 : off - vb ≤ cap := by omega
      by_cases hd : 48 ≤ rd buf off ∧ rd buf off ≤ 57
      · have hs : runLen isDigitByte buf off = runLen isDigitByte buf (off + 1) + 1 :=
          runLen_succ _ (by decide) _ _ ((isDigitByte_iff _).mpr hd)
        have ih := hv_number_loop_run buf total cap vb n (off + 1) true (by omega) (by omega)
        rw [hv_number_loop_digit buf total cap vb n off off seen h1 h2 hd, hs,
          show off + (runLen isDigitByte buf (off + 1) + 1)
            = off + 1 + runLen isDigitByte buf (off + 1) by omega]
        constructor
        · intro ha hb
          rw [ih.1 ha hb]
          simp only [true_or, true_and, Nat.le_add_left, or_true]
        · exact ih.2
      · have hD : runLen isDigitByte buf off = 0 := by
          apply runLen_zero
          apply bool_false_of_not
          rw [isDigitByte_iff]
          exact hd
        rw [hD, Nat.add_zero]
        by_cases he : rd buf off = 13 ∨ rd buf off = 10
        · have hW : runLen isOwsByte buf off = 0 := by
            apply runLen_zero
            apply bool_false_of_not
            rw [isOwsByte_iff]
            omega
          rw [hv_number_loop_eol buf total cap vb n off off seen h1 h2 he, hW, Nat.add_zero]
          constructor
          · intro _ _
            have hE := (isEolByte_iff (rd buf off)).mpr he
            cases seen
            · simp
            · simp [hE]
          · intro h
            exact absurd ⟨h1, h2⟩ h
        · by_cases ho : rd buf off = 32 ∨ rd buf off = 9
          · have hW : runLen isOwsByte buf off = runLen isOwsByte buf (off + 1) + 1 :=
              runLen_succ _ (by decide) _ _ ((isOwsByte_iff _).mpr ho)
            have hA := hv_number_ows_run buf total n (off + 1) (by omega)
            rw [hv_number_loop_ows buf total cap vb n off off seen h1 h2 ho, hW,
              show off + (runLen isOwsByte buf (off + 1) + 1)
                = off + 1 + runLen isOwsByte buf (off + 1) by omega]
            constructor
            · intro ha _
              rw [hA.1 ha]
              by_cases hE : isEolByte (rd buf (off + 1 + runLen isOwsByte buf (off + 1))) = true
              · rw [if_pos hE]
                cases seen
                · simp
                · simp [hE]
              · rw [if_neg hE]
                simp [hE]
            · intro h
              have hB := hA.2 (by omega)
              cases hr : hv_number_ows buf total n (off + 1) with
              | mk f off2 =>
                rw [hr] at hB
                simp only at hB
                subst hB
                intro h; cases h
          · have hW : runLen isOwsByte buf off = 0 := by
              apply runLen_zero
              apply bool_false_of_not
              rw [isOwsByte_iff]
              exact ho
            rw [hv_number_loop_bad buf total cap vb n off off seen h1 h2 he hd ho, hW,
              Nat.add_zero]
            constructor
            · intro _ _
              rw [if_neg]
              intro h
              exact he ((isEolByte_iff _).mp h.2)
            · intro h
              exact absurd ⟨h1, h2⟩ h

theorem hv_is_valid_char_iff (c : Nat) :
    hv_is_valid_char c = true ↔ c = 9 ∨ c = 32 ∨ (33 ≤ c ∧ c ≤ 126) := by
  unfold hv_is_valid_char
  by_cases h : c = 9 ∨ c = 32
  · rw [if_pos h]
    simp only [true_iff]
    omega
  · rw [if_neg h, decide_eq_true_iff]
    omega

theorem hv_any_loop_eol (buf : Bytes) (total cap vb n off ve : Nat)
    (h1 : off < total) (h2 : off - vb ≤ cap) (hc : rd buf off = 13 ∨ rd buf off = 10) :
    hv_any_loop buf total cap vb (n + 1) off ve
      = ⟨FlagBits.FLAG_OK, off, slice buf vb (ve - vb)⟩ := by
  unfold hv_any_loop
  rw [if_neg (by omega), if_neg (by omega)]
  simp only []
  rw [if_pos hc]

theorem hv_any_loop_valid (buf : Bytes) (total cap vb n off ve : Nat)
    (h1 : off < total) (h2 : off - vb ≤ cap) (hc : hv_is_valid_char (rd buf off) = true) :
    hv_any_loop buf total cap vb (n + 1) off ve
      = hv_any_loop buf total cap vb n (off + 1)
          (if isOwsByte (rd buf off) = true then ve else off + 1) := by
  have hv := (hv_is_valid_char_iff _).mp hc
  conv => lhs; unfold hv_any_loop
  rw [if_neg (by omega), if_neg (by omega)]
  simp only []
  rw [if_neg (by omega), if_neg (by omega), if_neg (by omega)]
  simp only [hc, Bool.not_true, Bool.false_eq_true, if_false]
  by_cases ho : rd buf off = 32 ∨ rd buf off = 9
  · rw [if_neg (by omega), if_pos ((isOwsByte_iff _).mpr ho)]
  · rw [if_pos (by omega), if_neg (by rw [isOwsByte_iff]; exact ho)]

theorem hv_any_loop_invalid (buf : Bytes) (total cap vb n off ve : Nat)
    (h1 : off < total) (h2 : off - vb ≤ cap) (he : ¬ (rd buf off = 13 ∨ rd buf off = 10))
    (hc : hv_is_valid_char (rd buf off) = false) :
    hv_any_loop buf total cap vb (n + 1) off ve
      = ⟨FlagBits.FLAG_INVALID_HEADER_VALUE, off, []⟩ := by
  unfold hv_any_loop
  rw [if_neg (by omega), if_neg (by omega)]
  simp only []
  rw [if_neg he]
  split
  · rfl
  · split
    · rfl
    · simp only [hc, Bool.not_false, if_true]

theorem slice_succ (buf : Bytes) (p k : Nat) :
    slice buf p (k + 1) = slice buf p k ++ [rd buf (p + k)] := by
  rw [slice_add]
  rfl

/-- The `any` parser on a line of valid bytes: the value is the line without its trailing
spaces and tabs. -/
theorem hv_any_loop_run (buf : Bytes) (total cap vb e : Nat) (he1 : e < total)
    (he2 : isEolByte (rd buf e) = true) (hcap : e - vb ≤ cap) :
    ∀ (n off ve : Nat), off + n = total → vb ≤ ve → ve ≤ off → off ≤ e →
      (∀ j, off ≤ j → j < e → hv_is_valid_char (rd buf j) = true) →
      slice buf vb (ve - vb) = (slice buf vb (off - vb)).rdropWhile isOwsByte →
      hv_any_loop buf total cap vb n off ve
        = ⟨FlagBits.FLAG_OK, e, (slice buf vb (e - vb)).rdropWhile isOwsByte⟩
  | 0, off, ve, hn, _, _, hoe, _, _ => by omega
  | n + 1, off, ve, hn, h1, h2, hoe, hval, hinv => by
    by_cases hx : off = e
    · subst hx
      rw [hv_any_loop_eol buf total cap vb n off ve he1 hcap ((isEolByte_iff _).mp he2), hinv]
    · have hv := hval off (Nat.le_refl _) (by omega)
      rw [hv_any_loop_valid buf total cap vb n off ve (by omega) (by omega) hv]
      apply hv_any_loop_run buf total cap vb e he1 he2 hcap n (off + 1) _ (by omega)
      · split <;> omega
      · split <;> omega
      · omega
      · intro j hj1 hj2
        exact hval j (by omega) hj2
      · have e1 : off + 1 - vb = (off - vb) + 1 := by omega
        rw [e1, slice_succ, List.rdropWhile_concat, show vb + (off - vb) = off by omega]
        by_cases ho : isOwsByte (rd buf off) = true
        · rw [if_pos ho, if_pos ho]
          exact hinv
        · rw [if_neg ho, if_neg ho, e1, slice_succ, show vb + (off - vb) = off by omega]

/-- The `any` parser stops with INVALID_HEADER_VALUE at the first byte that is neither a
line end nor valid. -/
theorem hv_any_loop_reject (buf : Bytes) (total cap vb k : Nat) (hk1 : k < total)
    (hcap : k - vb ≤ cap) (hbad : hv_is_valid_char (rd buf k) = false) :
    ∀ (n off ve : Nat), off + n = total → vb ≤ off → off ≤ k →
      (∀ j, off ≤ j → j ≤ k → isEolByte (rd buf j) = false) →
      (hv_any_loop buf total cap vb n off ve).flag = FlagBits.FLAG_INVALID_HEADER_VALUE
  | 0, off, ve, hn, _, hok, _ => by omega
  | n + 1, off, ve, hn, h1, hok, hne => by
    have he : ¬ (rd buf off = 13 ∨ rd buf off = 10) := by
      intro h
      have := hne off (Nat.le_refl _) hok
      rw [(isEolByte_iff _).mpr h] at this
      cases this
    cases hv : hv_is_valid_char (rd buf off)
    · rw [hv_any_loop_invalid buf total cap vb n off ve (by omega) (by omega) he hv]
    · have hx : off ≠ k := by
        intro h
        rw [h, hbad] at hv
        cases hv
      rw [hv_any_loop_valid buf total cap vb n off ve (by omega) (by omega) hv]
      exact hv_any_loop_reject buf total cap vb k hk1 hcap hbad n (off + 1) _ (by omega)
        (by omega) (by omega) (fun j hj1 hj2 => hne j (by omega) hj2)

/-- The wildcard loop returns -3 exactly when it reaches a cursor above 1000 on a byte that
is not a space, having met neither a space nor `?` at a cursor up to 1000. -/
theorem wildcardLoop_exceeded (url : Bytes) (query_limit : Nat) (vptr : Int) (ps : List Bytes)
    (hv : 0 ≤ vptr) :
    ∀ (n offset : Nat) (q : Obj), 1002 ≤ offset + n → 1 ≤ n →
      ∃ r, wildcardLoop url query_limit vptr ps n offset q = some r
        ∧ (r.ret = -3 ↔
            ((∀ i, offset ≤ i → i ≤ 1000 → rd url i ≠ 32 ∧ rd url i ≠ 63)
              ∧ rd url (max offset 1001) ≠ 32))
        ∧ (r.ret = -3 ∨ r.ret = -2 ∨ r.ret = vptr)
  | 0, _, _, _, h => absurd h (by decide)
  | n + 1, offset, q, hn, _ => by
    unfold wildcardLoop
    by_cases h32 : rd url offset = 32
    · rw [if_neg (not_not.mpr h32)]
      refine ⟨_, rfl, ⟨?_, ?_⟩, Or.inr (Or.inr rfl)⟩
      · intro h
        simp only at h
        omega
      · intro h
        exfalso
        by_cases ho : offset ≤ 1000
        · exact (h.1 offset (Nat.le_refl _) ho).1 h32
        · have e : max offset 1001 = offset := by omega
          rw [e] at h
          exact h.2 h32
    · rw [if_pos h32]
      by_cases ho : offset > 1000
      · rw [if_pos ho]
        refine ⟨_, rfl, ⟨?_, ?_⟩, Or.inl rfl⟩
        · intro _
          have e : max offset 1001 = offset := by omega
          rw [e]
          exact ⟨fun i h1 h2 => by omega, h32⟩
        · intro _; rfl
      · rw [if_neg ho]
        by_cases h63 : rd url offset = 63
        · rw [if_pos h63]
          obtain ⟨r, hr⟩ := Option.isSome_iff_exists.mp
            (parse_query_params_isSome url offset q query_limit)
          rw [hr]
          simp only []
          have hno : ¬ ((∀ i, offset ≤ i → i ≤ 1000 → rd url i ≠ 32 ∧ rd url i ≠ 63)
              ∧ rd url (max offset 1001) ≠ 32) := by
            intro h
            exact (h.1 offset (Nat.le_refl _) (by omega)).2 h63
          cases hok : r.ok
          · refine ⟨_, rfl, ⟨?_, fun h => absurd h hno⟩, Or.inr (Or.inl rfl)⟩
            intro h
            simp at h
          · refine ⟨_, rfl, ⟨?_, fun h => absurd h hno⟩, Or.inr (Or.inr rfl)⟩
            intro h
            simp only [Bool.not_true, Bool.false_eq_true, if_false] at h
            omega
        · rw [if_neg h63]
          obtain ⟨r, hr, hiff, hcases⟩ := wildcardLoop_exceeded url query_limit vptr ps hv n
            (offset + 1) q (by omega) (by omega)
          refine ⟨r, hr, ?_, hcases⟩
          rw [hiff, show max (offset + 1) 1001 = max offset 1001 by omega]
          constructor
          · intro h
            refine ⟨?_, h.2⟩
            intro i h1 h2
            by_cases hi : i = offset
            · subst hi; exact ⟨h32, h63⟩
            · exact h.1 i (by omega) h2
          · intro h
            exact ⟨fun i h1 h2 => h.1 i (by omega) h2, h.2⟩

/-- The wildcard loop stops with the handler at the first space when no `?` stands before
it and its cursor is at most 1001. -/
theorem wildcardLoop_space (url : Bytes) (query_limit : Nat) (vptr : Int) (ps : List Bytes)
    (t : Nat) (ht : rd url t = 32) (ht2 : t ≤ 1001) :
    ∀ (n offset : Nat) (q : Obj), 1002 ≤ offset + n → offset ≤ t →
      (∀ i, offset ≤ i → i < t → rd url i ≠ 32 ∧ rd url i ≠ 63) →
      wildcardLoop url query_limit vptr ps n offset q = some ⟨vptr, t, ps, q⟩
  | 0, _, _, _, _, _ => by omega
  | n + 1, offset, q, hn, hot, hbefore => by
    unfold wildcardLoop
    by_cases hx : offset = t
    · subst hx
      rw [if_neg (not_not.mpr ht)]
    · have hb := hbefore offset (Nat.le_refl _) (by omega)
      rw [if_pos hb.1, if_neg (by omega), if_neg hb.2]
      exact wildcardLoop_space url query_limit vptr ps t ht ht2 n (offset + 1) q (by omega)
        (by omega) (fun i h1 h2 => hbefore i (by omega) h2)

/-- The wildcard loop returns -3 at cursor 1001 when it meets neither a space nor `?` up to
cursor 1000 and the byte at cursor 1001 is not a space. -/
theorem wildcardLoop_over (url : Bytes) (query_limit : Nat) (vptr : Int) (ps : List Bytes)
    (h1001 : rd url 1001 ≠ 32) :
    ∀ (n offset : Nat) (q : Obj), 1002 ≤ offset + n → offset ≤ 1001 →
      (∀ i, offset ≤ i → i ≤ 1000 → rd url i ≠ 32 ∧ rd url i ≠ 63) →
      wildcardLoop url query_limit vptr ps n offset q = some ⟨-3, 1001, ps, q⟩
  | 0, _, _, _, _, _ => by omega
  | n + 1, offset, q, hn, ho, hb => by
    unfold wildcardLoop
    by_cases hx : offset = 1001
    · subst hx
      rw [if_pos h1001, if_pos (by decide)]
    · have h := hb offset (Nat.le_refl _) (by omega)
      rw [if_pos h.1, if_neg (by omega), if_neg h.2]
      exact wildcardLoop_over url query_limit vptr ps h1001 n (offset + 1) q (by omega)
        (by omega) (fun i h1 h2 => hb i (by omega) h2)

theorem rd_replicate_mid (a b : Bytes) (n c i : Nat) (h1 : a.length ≤ i)
    (h2 : i < a.length + n) : rd (a ++ List.replicate n c ++ b) i = c := by
  obtain ⟨j, rfl⟩ : ∃ j, i = a.length + j := ⟨i - a.length, by omega⟩
  rw [List.append_assoc, rd_append_right, rd_append_left _ _ _ (by simp; omega)]
  unfold rd
  rw [List.getD_eq_getElem _ _ (by simp; omega)]
  simp

/-- With the single route `*`, `matchUrl` is the wildcard loop from the given cursor. -/
theorem matchUrl_star (url : Bytes) (offset query_limit : Nat) (q : Obj) :
    matchUrl (buildRouteTree [makeEndpoint (B "*") 5]) url offset [] q query_limit
      = wildcardLoop url query_limit 5 [] 1003 offset q := by
  have e : buildRouteTree [makeEndpoint (B "*") 5]
      = some (RouteNode.mk 0 0 (-1) ParamType.kString false false []
          [RouteNode.mk 0 0 5 ParamType.kString false true [] []]) := by rfl
  rw [e]
  rfl

/-- The wildcard loop at a `?` that it reaches at a cursor of at most 1000. -/
theorem wildcardLoop_query (url : Bytes) (query_limit : Nat) (vptr : Int) (ps : List Bytes)
    (k : Nat) (hk : rd url k = 63) (hk2 : k ≤ 1000) (hv : vptr ≠ -2) :
    ∀ (n offset : Nat) (q : Obj), 1002 ≤ offset + n → offset ≤ k →
      (∀ i, offset ≤ i → i < k → rd url i ≠ 32 ∧ rd url i ≠ 63) →
      ∃ r, wildcardLoop url query_limit vptr ps n offset q = some r
        ∧ (r.ret = -2 ↔ query_limit < queryLen url (k + 1))
        ∧ (queryLen url (k + 1) ≤ query_limit →
            r.ret = vptr ∧ r.offset = k + queryLen url (k + 1) + 1)
  | 0, _, _, _, _, _ => by omega
  | n + 1, offset, q, hn, hot, hbefore => by
    unfold wildcardLoop
    by_cases hx : offset = k
    · subst hx
      obtain ⟨r, h1, h2, h3⟩ := parse_query_params_count url offset q query_limit hk
      rw [if_pos (by rw [hk]; decide), if_neg (by omega), if_pos hk, h1]
      simp only []
      cases hok : r.ok
      · refine ⟨_, rfl, ?_, ?_⟩
        · simp only [Bool.not_false, if_true, true_iff]
          exact h2.mp hok
        · intro hle
          have := h2.mp hok
          omega
      · refine ⟨_, rfl, ?_, ?_⟩
        · simp only [Bool.not_true, Bool.false_eq_true, if_false]
          constructor
          · intro hh; exact absurd hh hv
          · intro hh
            have := h2.mpr hh
            rw [hok] at this
            cases this
        · intro _
          simp only [Bool.not_true, Bool.false_eq_true, if_false]
          rw [h3 hok]
          exact ⟨trivial, rfl⟩
    · have hb := hbefore offset (Nat.le_refl _) (by omega)
      rw [if_pos hb.1, if_neg (by omega), if_neg hb.2]
      exact wildcardLoop_query url query_limit vptr ps k hk hk2 hv n (offset + 1) q (by omega)
        (by omega) (fun i h1 h2 => hbefore i (by omega) h2)

theorem hv_any_loop_cap (buf : Bytes) (total cap vb n off ve : Nat)
    (h1 : off < total) (h2 : cap < off - vb) :
    hv_any_loop buf total cap vb (n + 1) off ve
      = ⟨FlagBits.FLAG_MAX_HEADER_VALUE_SIZE, off, []⟩ := by
  unfold hv_any_loop
  rw [if_neg (by omega), if_pos (by omega)]

/-- The `any` parser on a line of valid bytes that is longer than the cap. -/
theorem hv_any_loop_capped (buf : Bytes) (total cap vb e : Nat) (he1 : e < total)
    (hcap : vb + cap + 1 ≤ e) :
    ∀ (n off ve : Nat), off + n = total → vb ≤ off → off ≤ vb + cap + 1 →
      (∀ j, off ≤ j → j < e → hv_is_valid_char (rd buf j) = true) →
      hv_any_loop buf total cap vb n off ve
        = ⟨FlagBits.FLAG_MAX_HEADER_VALUE_SIZE, vb + cap + 1, []⟩
  | 0, off, ve, hn, _, _, _ => by omega
  | n + 1, off, ve, hn, h1, h2, hval => by
    by_cases hx : off = vb + cap + 1
    · subst hx
      rw [hv_any_loop_cap buf total cap vb n _ ve (by omega) (by omega)]
    · rw [hv_any_loop_valid buf total cap vb n off ve (by omega) (by omega)
        (hval off (Nat.le_refl _) (by omega))]
      exact hv_any_loop_capped buf total cap vb e he1 hcap n (off + 1) _ (by omega) (by omega)
        (by omega) (fun j hj1 hj2 => hval j (by omega) hj2)

/-- Case `ST_HV_CONCAT` after its value parser has returned OK. -/
theorem st_HV_CONCAT_ok (c : Cfg) (s : Scan) (r : ParseResult)
    (hr : (HEADERS s.hdrId).value_parser_fn c.buf
      (skipOWS c (c.total - s.__offset) s.__offset) c.total c.maxHeaderValueSize = r)
    (hok : r.flag = FlagBits.FLAG_OK) (e : Nat)
    (he : e = if rd c.buf r.cur = 13 then r.cur + 2 else if rd c.buf r.cur = 10 then r.cur + 1
      else r.cur) :
    st_HV_CONCAT c s =
      if rd c.buf r.cur = 13 ∧ (r.cur + 1 ≥ c.total ∨ rd c.buf (r.cur + 1) ≠ 10) then
        Step.ret FlagBits.FLAG_INVALID_HEADER_VALUE { s with __offset := r.cur }
      else
        if e + 1 < c.total ∧ rd c.buf e = 13 ∧ rd c.buf (e + 1) = 10 then
          Step.ret FlagBits.FLAG_OK
            { s with
              __offset := e
              offset := e + 2
              outHeaders := s.store (c_str r.hv)
              hdrMergeable := false }
        else
          Step.next { s with
            __offset := e
            offset := e
            outHeaders := s.store (c_str r.hv)
            hdrId := HeaderId.HDR_UNKNOWN
            hdrMergeable := false
            headerUnknownName := []
            state := State.ST_STARTUP } := by
  subst he
  unfold st_HV_CONCAT
  simp only [hr, hok, ne_eq, not_true_eq_false, if_false]
  rfl

theorem unknownLoop_currentHeaderSize (simd : Simd) (buf : Bytes) (total a b d x y : Nat)
    (m : MethodType) (vStart : Nat) : ∀ (n off : Nat),
    unknownLoop ⟨simd, buf, total, a, b, d, x, m⟩ vStart n off
      = unknownLoop ⟨simd, buf, total, a, b, d, y, m⟩ vStart n off
  | 0, _ => rfl
  | n + 1, off => by
    unfold unknownLoop
    rw [unknownLoop_currentHeaderSize simd buf total a b d x y m vStart n (off + 1)]
    rfl

theorem skipOWS_currentHeaderSize (simd : Simd) (buf : Bytes) (total a b d x y : Nat)
    (m : MethodType) : ∀ (n off : Nat),
    skipOWS ⟨simd, buf, total, a, b, d, x, m⟩ n off
      = skipOWS ⟨simd, buf, total, a, b, d, y, m⟩ n off
  | 0, _ => rfl
  | n + 1, off => by
    unfold skipOWS
    rw [skipOWS_currentHeaderSize simd buf total a b d x y m n (off + 1)]
    rfl

/-- No round of the loop reads `currentHeaderSize`. -/
theorem step_currentHeaderSize (simd : Simd) (buf : Bytes) (total a b d x y : Nat)
    (m : MethodType) (s : Scan) :
    step ⟨simd, buf, total, a, b, d, x, m⟩ s = step ⟨simd, buf, total, a, b, d, y, m⟩ s := by
  unfold step
  cases s.state
  case ST_HN_UNKNOWN =>
    show st_HN_UNKNOWN _ s = st_HN_UNKNOWN _ s
    unfold st_HN_UNKNOWN
    rw [unknownLoop_currentHeaderSize simd buf total a b d x y m]
  case ST_HV_CONCAT =>
    show st_HV_CONCAT _ s = st_HV_CONCAT _ s
    unfold st_HV_CONCAT
    rw [skipOWS_currentHeaderSize simd buf total a b d x y m]
    rfl
  all_goals rfl

theorem scanLoop_currentHeaderSize (simd : Simd) (buf : Bytes) (total a b d x y : Nat)
    (m : MethodType) : ∀ (n : Nat) (s : Scan),
    scanLoop ⟨simd, buf, total, a, b, d, x, m⟩ n s
      = scanLoop ⟨simd, buf, total, a, b, d, y, m⟩ n s
  | 0, _ => rfl
  | n + 1, s => by
    rw [scanLoop_succ, scanLoop_succ, step_currentHeaderSize simd buf total a b d x y m s]
    cases step ⟨simd, buf, total, a, b, d, y, m⟩ s with
    | ret f s2 => rfl
    | next s2 =>
      simp only []
      rw [scanLoop_currentHeaderSize simd buf total a b d x y m n s2]

/-- The header scan does not depend on the running header size it is given. -/
theorem scanHeaders_currentHeaderSize (simd : Simd) (buf : Bytes) (total a b d x y : Nat)
    (m : MethodType) (offset : Nat) (hs : Obj) :
    scanHeaders ⟨simd, buf, total, a, b, d, x, m⟩ offset hs
      = scanHeaders ⟨simd, buf, total, a, b, d, y, m⟩ offset hs := by
  unfold scanHeaders
  simp only []
  rw [scanLoop_currentHeaderSize simd buf total a b d x y m]

theorem and_two_pow_eq_iff (x k : Nat) : x &&& 2 ^ k = 2 ^ k ↔ x.testBit k = true := by
  rw [Nat.and_two_pow]
  have hp : 0 < 2 ^ k := Nat.two_pow_pos k
  cases x.testBit k
  · simp only [Bool.toNat_false, Nat.zero_mul, Bool.false_eq_true, iff_false]
    omega
  · simp

theorem singleBit_index (F : FlagBits) (hF : F ∈ FlagBits.singleBit) :
    ∃ k, F.toNat = 2 ^ k
      ∧ ∀ f, f ∈ FlagBits.singleBit → (f.toNat.testBit k = true ↔ f = F) := by
  have key : ∀ k, F.toNat = 2 ^ k →
      (∀ f, f ∈ FlagBits.singleBit → (f.toNat.testBit k = true ↔ f = F)) →
      ∃ k, F.toNat = 2 ^ k
        ∧ ∀ f, f ∈ FlagBits.singleBit → (f.toNat.testBit k = true ↔ f = F) :=
    fun k h1 h2 => ⟨k, h1, h2⟩
  cases F
  case FLAG_BAD_REQUEST => exact key 0 rfl (fun f hf => by cases f <;> revert hf <;> decide)
  case FLAG_METHOD_NOT_ALLOWED =>
    exact key 1 rfl (fun f hf => by cases f <;> revert hf <;> decide)
  case FLAG_NOT_FOUND => exact key 2 rfl (fun f hf => by cases f <;> revert hf <;> decide)
  case FLAG_CORS_PREFLIGHT => exact key 3 rfl (fun f hf => by cases f <;> revert hf <;> decide)
  case FLAG_HTTP_VERSION_UNSUPPORTED =>
    exact key 4 rfl (fun f hf => by cases f <;> revert hf <;> decide)
  case FLAG_CONTENT_LENGTH_TOO_LARGE =>
    exact key 5 rfl (fun f hf => by cases f <;> revert hf <;> decide)
  case FLAG_MISSING_HOST => exact key 6 rfl (fun f hf => by cases f <;> revert hf <;> decide)
  case FLAG_HAS_BODY => exact key 7 rfl (fun f hf => by cases f <;> revert hf <;> decide)
  case FLAG_INVALID_ARGUMENT =>
    exact key 8 rfl (fun f hf => by cases f <;> revert hf <;> decide)
  case FLAG_INVALID_HEADER => exact key 9 rfl (fun f hf => by cases f <;> revert hf <;> decide)
  case FLAG_INVALID_CONTENT_LENGTH =>
    exact key 10 rfl (fun f hf => by cases f <;> revert hf <;> decide)
  case FLAG_CONTENT_LENGTH_EXCEEDED =>
    exact key 11 rfl (fun f hf => by cases f <;> revert hf <;> decide)
  case FLAG_UNTERMINATED_HEADERS =>
    exact key 12 rfl (fun f hf => by cases f <;> revert hf <;> decide)
  case FLAG_MAX_HEADER_SIZE =>
    exact key 13 rfl (fun f hf => by cases f <;> revert hf <;> decide)
  case FLAG_REQUEST_QUERY_EXCEEDED =>
    exact key 14 rfl (fun f hf => by cases f <;> revert hf <;> decide)
  all_goals exact absurd hF (by decide)

/-- Membership by mask in a word built from single-bit flags. -/
theorem foldl_or_singleBit (F : FlagBits) (hF : F ∈ FlagBits.singleBit) :
    ∀ (S : List FlagBits) (w : Nat), (∀ f ∈ S, f ∈ FlagBits.singleBit) →
      ((S.foldl (fun w f => w ||| f.toNat) w) &&& F.toNat = F.toNat
        ↔ (w &&& F.toNat = F.toNat ∨ F ∈ S))
  | [], w, _ => by simp
  | f :: S, w, hS => by
    obtain ⟨k, hk, hbit⟩ := singleBit_index F hF
    simp only [List.foldl_cons]
    rw [foldl_or_singleBit F hF S _ (fun g hg => hS g (List.mem_cons_of_mem _ hg))]
    rw [hk, and_two_pow_eq_iff, and_two_pow_eq_iff, Nat.testBit_or, Bool.or_eq_true,
      hbit f (hS f (List.mem_cons_self _ _)), List.mem_cons]
    constructor
    · rintro ((h | h) | h)
      · exact Or.inl h
      · exact Or.inr (Or.inl h.symm)
      · exact Or.inr (Or.inr h)
    · rintro (h | h | h)
      · exact Or.inl (Or.inl h)
      · exact Or.inl (Or.inr h.symm)
      · exact Or.inr h

/-- One call of `buildSubRouteTree` as the sequence of its stages. -/
theorem buildSubRouteTree_succ (fuel : Nat) (node : RouteNode) (eps : List Endpoint)
    (offset : Nat) :
    buildSubRouteTree (fuel + 1) node eps offset =
      if eps.isEmpty then some node
      else
        buildWild eps offset (buildParam fuel eps offset (buildStatic fuel eps offset
          (eps.foldl
            (fun n ep => if rd ep.url offset = 0 then n.setVptr ep.vptr_table_index else n)
            node))) := by
  rfl

theorem setVptr_self (n : RouteNode) : n.setVptr n.vptr_table_index = n := by
  cases n; rfl

theorem setVptr_setVptr (n : RouteNode) (a b : Int) : (n.setVptr a).setVptr b = n.setVptr b := by
  cases n; rfl

theorem foldl_setVptr (offset : Nat) : ∀ (eps : List Endpoint) (node : RouteNode),
    eps.foldl (fun n ep => if rd ep.url offset = 0 then n.setVptr ep.vptr_table_index else n)
        node
      = node.setVptr (terminalVptr eps offset node.vptr_table_index)
  | [], node => by
    simp only [List.foldl_nil, terminalVptr]
    exact (setVptr_self node).symm
  | ep :: eps, node => by
    simp only [List.foldl_cons, terminalVptr]
    rw [foldl_setVptr offset eps]
    by_cases h : rd ep.url offset = 0
    · rw [if_pos h, if_pos h, setVptr_setVptr]
      unfold terminalVptr
      cases node; rfl
    · rw [if_neg h, if_neg h]
      rfl

theorem pushChild_eq (n c : RouteNode) : n.pushChild c = n.pushChildren [c] := by
  cases n; rfl

theorem pushChildren_nil (n : RouteNode) : n.pushChildren [] = n := by
  cases n; simp [RouteNode.pushChildren]

theorem pushChildren_append (n : RouteNode) (a b : List RouteNode) :
    (n.pushChildren a).pushChildren b = n.pushChildren (a ++ b) := by
  cases n; simp [RouteNode.pushChildren]

theorem pushBuilt_some (x c : Option RouteNode) (r : RouteNode) (h : pushBuilt x c = some r) :
    ∃ n k, x = some n ∧ c = some k ∧ r = n.pushChildren [k] := by
  cases x with
  | none => cases c <;> cases h
  | some n =>
    cases c with
    | none => cases h
    | some k =>
      refine ⟨n, k, rfl, rfl, ?_⟩
      simp only [pushBuilt, Option.some.injEq] at h
      rw [← h, pushChild_eq]

theorem foldl_pushBuilt_none {α : Type} (g : α → Option RouteNode) :
    ∀ (l : List α), l.foldl (fun acc a => pushBuilt acc (g a)) none = none
  | [] => rfl
  | a :: l => by
    simp only [List.foldl_cons]
    have : pushBuilt none (g a) = none := by cases g a <;> rfl
    rw [this]
    exact foldl_pushBuilt_none g l

theorem foldl_pushBuilt_some {α : Type} (g : α → Option RouteNode) :
    ∀ (l : List α) (n0 r : RouteNode),
      l.foldl (fun acc a => pushBuilt acc (g a)) (some n0) = some r →
      ∃ cs, List.Forall₂ (fun a c => g a = some c) l cs ∧ r = n0.pushChildren cs
  | [], n0, r, h => by
    simp only [List.foldl_nil, Option.some.injEq] at h
    exact ⟨[], List.Forall₂.nil, by rw [pushChildren_nil, h]⟩
  | a :: l, n0, r, h => by
    simp only [List.foldl_cons] at h
    cases hg : g a with
    | none =>
      rw [hg] at h
      have : pushBuilt (some n0) none = none := rfl
      rw [this, foldl_pushBuilt_none] at h
      cases h
    | some c =>
      rw [hg] at h
      have : pushBuilt (some n0) (some c) = some (n0.pushChildren [c]) := by
        simp only [pushBuilt, pushChild_eq]
      rw [this] at h
      obtain ⟨cs, h1, h2⟩ := foldl_pushBuilt_some g l _ r h
      refine ⟨c :: cs, List.Forall₂.cons hg h1, ?_⟩
      rw [h2, pushChildren_append]
      rfl

theorem buildStatic_shape (fuel : Nat) (eps : List Endpoint) (offset : Nat) (n0 r : RouteNode)
    (h : buildStatic fuel eps offset n0 = some r) :
    ∃ S, r = n0.pushChildren S ∧ StaticKids fuel eps offset S := by
  unfold buildStatic at h
  unfold StaticKids
  split at h
  · rename_i hse
    simp only [Option.some.injEq] at h
    refine ⟨[], by rw [pushChildren_nil, h], ?_, ?_⟩
    · intro _; rfl
    · intro first rest h2
      rw [hse] at h2
      cases h2
  · rename_i first tail hse
    by_cases hp : commonPfx first (staticEps eps offset) offset kMaxPacked 0 [] = []
    · rw [if_neg (not_not.mpr hp)] at h
      obtain ⟨cs, h1, h2⟩ := foldl_pushBuilt_some
        (fun (kv : Nat × List Endpoint) =>
          buildSubRouteTree fuel (staticNodeOf [kv.1]) kv.2 (offset + 1)) _ n0 r h
      refine ⟨cs, h2, ?_, ?_⟩
      · intro h0; rw [hse] at h0; cases h0
      · intro f2 r2 h3
        rw [hse] at h3
        cases h3
        exact ⟨fun hh => absurd hp hh, fun _ => h1⟩
    · rw [if_pos hp] at h
      obtain ⟨c, hc, hr⟩ := Option.map_eq_some'.mp h
      refine ⟨[c], by rw [← hr, pushChild_eq], ?_, ?_⟩
      · intro h0; rw [hse] at h0; cases h0
      · intro f2 r2 h3
        rw [hse] at h3
        cases h3
        exact ⟨fun _ => ⟨c, hc, rfl⟩, fun hh => absurd hh hp⟩

theorem buildParam_shape (fuel : Nat) (eps : List Endpoint) (offset : Nat)
    (x : Option RouteNode) (r : RouteNode) (h : buildParam fuel eps offset x = some r) :
    ∃ n P, x = some n ∧ r = n.pushChildren P ∧ ParamKids fuel eps offset P := by
  unfold buildParam at h
  unfold ParamKids
  split at h
  · rename_i hpe
    refine ⟨r, [], h, by rw [pushChildren_nil], ?_, ?_⟩
    · intro _; rfl
    · intro pfirst rest h2
      rw [hpe] at h2
      cases h2
  · rename_i pfirst tail hpe
    obtain ⟨n, k, h1, h2, h3⟩ := pushBuilt_some _ _ _ h
    refine ⟨n, [k], h1, h3, ?_, ?_⟩
    · intro h0; rw [hpe] at h0; cases h0
    · intro p2 r2 h4
      rw [hpe] at h4
      cases h4
      exact ⟨k, h2, rfl⟩

theorem buildWild_shape (eps : List Endpoint) (offset : Nat) (x : Option RouteNode)
    (r : RouteNode) (h : buildWild eps offset x = some r) :
    ∃ n W, x = some n ∧ r = n.pushChildren W ∧ WildKids eps offset W := by
  unfold buildWild at h
  unfold WildKids
  by_cases hw : (wildcardEp eps offset).vptr_table_index ≠ -1
  · rw [if_pos hw] at h
    obtain ⟨n, hn, hr⟩ := Option.map_eq_some'.mp h
    refine ⟨n, _, hn, ?_, rfl⟩
    rw [if_pos hw, ← hr, pushChild_eq]
  · rw [if_neg hw] at h
    refine ⟨r, _, h, ?_, rfl⟩
    rw [if_neg hw, pushChildren_nil]

/-- What one call of `buildSubRouteTree` does to its node: it sets the handler index and
appends the children of the static group, of the parameter group and the wildcard node, in
this order. -/
theorem buildSubRouteTree_shape (fuel : Nat) (node : RouteNode) (eps : List Endpoint)
    (offset : Nat) (r : RouteNode) (hne : eps ≠ [])
    (h : buildSubRouteTree (fuel + 1) node eps offset = some r) :
    ∃ S P W, r = (node.setVptr (terminalVptr eps offset node.vptr_table_index)).pushChildren
          (S ++ P ++ W)
      ∧ StaticKids fuel eps offset S ∧ ParamKids fuel eps offset P ∧ WildKids eps offset W := by
  rw [buildSubRouteTree_succ, if_neg (by
    intro h0
    exact hne (List.isEmpty_iff.mp h0)), foldl_setVptr] at h
  obtain ⟨n2, W, h2, hr2, hW⟩ := buildWild_shape _ _ _ _ h
  obtain ⟨n1, P, h1, hr1, hP⟩ := buildParam_shape _ _ _ _ _ h2
  obtain ⟨S, hr0, hS⟩ := buildStatic_shape _ _ _ _ _ h1
  refine ⟨S, P, W, ?_, hS, hP, hW⟩
  rw [hr2, hr1, hr0, pushChildren_append, pushChildren_append, List.append_assoc]

theorem allNodes_iff (p : RouteNode → Bool) (n : RouteNode) :
    n.allNodes p = true ↔ p n = true ∧ allNodesList p n.children = true := by
  cases n
  simp only [RouteNode.allNodes, Bool.and_eq_true, RouteNode.children]

theorem allNodesList_iff (p : RouteNode → Bool) : ∀ (cs : List RouteNode),
    allNodesList p cs = true ↔ ∀ c ∈ cs, c.allNodes p = true
  | [] => by simp [allNodesList]
  | c :: cs => by
    simp only [allNodesList, Bool.and_eq_true, allNodesList_iff p cs, List.mem_cons,
      forall_eq_or_imp]

theorem children_pushChildren (n : RouteNode) (cs : List RouteNode) :
    (n.pushChildren cs).children = n.children ++ cs := by
  cases n; rfl

theorem children_setVptr (n : RouteNode) (v : Int) : (n.setVptr v).children = n.children := by
  cases n; rfl


theorem commonPfx_length_le (first : Endpoint) (eps : List Endpoint) (offset : Nat) :
    ∀ (n p : Nat) (acc : Bytes), (commonPfx first eps offset n p acc).length ≤ acc.length + n
  | 0, p, acc => by simp [commonPfx]
  | n + 1, p, acc => by
    unfold commonPfx
    simp only []
    split
    · omega
    · split
      · have := commonPfx_length_le first eps offset n (p + 1) (acc ++ [rd first.url (offset + p)])
        simp only [List.length_append, List.length_singleton] at this
        omega
      · omega

theorem forall₂_mem_right {α β : Type} (R : α → β → Prop) :
    ∀ (l : List α) (cs : List β), List.Forall₂ R l cs → ∀ c ∈ cs, ∃ a ∈ l, R a c
  | [], _, h, c, hc => by
    cases h
    exact absurd hc (List.not_mem_nil _)
  | a :: l, _, h, c, hc => by
    cases h with
    | cons h1 h2 =>
      rcases List.mem_cons.mp hc with e | hm
      · rw [e]
        exact ⟨a, List.mem_cons_self _ _, h1⟩
      · obtain ⟨a2, ha2, hr⟩ := forall₂_mem_right R l _ h2 c hm
        exact ⟨a2, List.mem_cons_of_mem _ ha2, hr⟩

/-- Every child of the static group is the result of a recursive call on a static node for
1 to 8 bytes. -/
theorem StaticKids_mem (fuel : Nat) (eps : List Endpoint) (offset : Nat) (S : List RouteNode)
    (h : StaticKids fuel eps offset S) :
    ∀ c ∈ S, ∃ pfx eps2 off2, 1 ≤ pfx.length ∧ pfx.length ≤ 8
      ∧ buildSubRouteTree fuel (staticNodeOf pfx) eps2 off2 = some c := by
  intro c hc
  unfold StaticKids at h
  cases hse : staticEps eps offset with
  | nil =>
    rw [h.1 hse] at hc
    exact absurd hc (List.not_mem_nil _)
  | cons first rest =>
    have h2 := h.2 first rest hse
    by_cases hp : commonPfx first (staticEps eps offset) offset kMaxPacked 0 [] = []
    · obtain ⟨kv, _, hkv⟩ := forall₂_mem_right _ _ _ (h2.2 hp) c hc
      exact ⟨[kv.1], kv.2, offset + 1, by simp, by simp, hkv⟩
    · obtain ⟨k, hk, hS⟩ := h2.1 hp
      rw [hS] at hc
      simp only [List.mem_singleton] at hc
      subst hc
      have hl := commonPfx_length_le first (staticEps eps offset) offset kMaxPacked 0 []
      have hpos : 0 < (commonPfx first (staticEps eps offset) offset kMaxPacked 0 []).length :=
        List.length_pos.mpr hp
      refine ⟨_, _, _, hpos, ?_, hk⟩
      simp only [List.length_nil, Nat.zero_add] at hl
      exact hl

/-- The parameter group appends no child or the result of a recursive call on a parameter
node. -/
theorem ParamKids_cases (fuel : Nat) (eps : List Endpoint) (offset : Nat) (P : List RouteNode)
    (h : ParamKids fuel eps offset P) :
    P = [] ∨ ∃ c pfirst eps2 off2, P = [c]
      ∧ buildSubRouteTree fuel (paramNodeOf pfirst) eps2 off2 = some c := by
  unfold ParamKids at h
  cases hpe : paramEps eps offset with
  | nil => exact Or.inl (h.1 hpe)
  | cons pfirst rest =>
    obtain ⟨c, hc, hP⟩ := h.2 pfirst rest hpe
    exact Or.inr ⟨c, pfirst, _, _, hP, hc⟩

theorem sameHead_refl (a : RouteNode) : a.sameHead a := ⟨rfl, rfl, rfl, rfl, rfl, rfl⟩

theorem sameHead_shape (node : RouteNode) (v : Int) (cs : List RouteNode) :
    ((node.setVptr v).pushChildren cs).sameHead node := by
  cases node
  exact ⟨rfl, rfl, rfl, rfl, rfl, rfl⟩

theorem paramNodeOf_head (e : Endpoint) :
    (paramNodeOf e).is_param = true ∧ (paramNodeOf e).is_wildcard = false
      ∧ (paramNodeOf e).children = [] ∧ (paramNodeOf e).value_length = 0 := by
  unfold paramNodeOf
  cases e.params <;> exact ⟨rfl, rfl, rfl, rfl⟩

theorem childrenOrdered_of_kinds (P W : List RouteNode)
    (hP : P = [] ∨ ∃ c, P = [c] ∧ c.kind = 1) (hW : W = [] ∨ ∃ w, W = [w] ∧ w.kind = 2) :
    ∀ (S : List RouteNode), (∀ c ∈ S, c.kind = 0) → childrenOrdered (S ++ P ++ W)
  | [], _ => by
    unfold childrenOrdered
    rcases hP with hP | ⟨c, hP, hc⟩ <;> rcases hW with hW | ⟨w, hW, hw⟩ <;> subst hP <;>
      subst hW <;> simp [*]
  | c :: S, hS => by
    have ih := childrenOrdered_of_kinds P W hP hW S
      (fun x hx => hS x (List.mem_cons_of_mem _ hx))
    unfold childrenOrdered at ih ⊢
    simp only [List.cons_append, List.map_cons, List.pairwise_cons]
    refine ⟨?_, ih⟩
    intro b _
    rw [hS c (List.mem_cons_self _ _)]
    omega

theorem kind_of_head (c n : RouteNode) (h : c.sameHead n) : c.kind = n.kind := by
  unfold RouteNode.kind
  rw [h.2.2.2.1, h.2.2.2.2.1]

/-- Every call of the builder on a node without children keeps the fields of the node and
leaves a tree in which every child list is ordered and every child is as it should be. -/
theorem buildSubRouteTree_localOk : ∀ (fuel : Nat) (node : RouteNode) (eps : List Endpoint)
    (offset : Nat) (r : RouteNode), buildSubRouteTree fuel node eps offset = some r →
    node.children = [] → r.sameHead node ∧ r.allNodes RouteNode.localOk = true
  | 0, _, _, _, _, h, _ => by
    unfold buildSubRouteTree at h
    cases h
  | fuel + 1, node, eps, offset, r, h, hch => by
    by_cases hne : eps = []
    · subst hne
      rw [buildSubRouteTree_succ] at h
      simp only [List.isEmpty_nil, if_true, Option.some.injEq] at h
      subst h
      refine ⟨sameHead_refl _, (allNodes_iff _ _).mpr ?_⟩
      rw [hch]
      refine ⟨?_, rfl⟩
      unfold RouteNode.localOk
      rw [hch]
      decide
    · obtain ⟨S, P, W, hr, hS, hP, hW⟩ := buildSubRouteTree_shape fuel node eps offset r hne h
      have hkids : r.children = S ++ P ++ W := by
        rw [hr, children_pushChildren, children_setVptr, hch, List.nil_append]
      -- the three groups
      have hSf : ∀ c ∈ S, c.kind = 0 ∧ c.childOk = true
          ∧ c.allNodes RouteNode.localOk = true := by
        intro c hc
        obtain ⟨pfx, eps2, off2, h1, h2, hb⟩ := StaticKids_mem fuel eps offset S hS c hc
        have ih := buildSubRouteTree_localOk fuel (staticNodeOf pfx) eps2 off2 c hb rfl
        have hk : c.kind = 0 := by rw [kind_of_head c _ ih.1]; rfl
        refine ⟨hk, ?_, ih.2⟩
        unfold RouteNode.childOk
        have e1 : c.is_param = false := ih.1.2.2.2.1
        have e2 : c.is_wildcard = false := ih.1.2.2.2.2.1
        have e3 : c.value_length = pfx.length := ih.1.2.1
        simp only [e1, e2, e3, Bool.false_eq_true, if_false, Bool.not_false, Bool.and_self,
          if_true, Bool.true_and, decide_eq_true_eq]
        exact ⟨h1, h2⟩
      have hPc := ParamKids_cases fuel eps offset P hP
      have hPf : ∀ c ∈ P, c.kind = 1 ∧ c.childOk = true
          ∧ c.allNodes RouteNode.localOk = true := by
        intro c hc
        rcases hPc with h0 | ⟨k, pfirst, eps2, off2, hPk, hb⟩
        · rw [h0] at hc; exact absurd hc (List.not_mem_nil _)
        · rw [hPk] at hc
          simp only [List.mem_singleton] at hc
          subst hc
          have hh := paramNodeOf_head pfirst
          have ih := buildSubRouteTree_localOk fuel (paramNodeOf pfirst) eps2 off2 c hb hh.2.2.1
          have e1 : c.is_param = true := by rw [ih.1.2.2.2.1]; exact hh.1
          have e2 : c.is_wildcard = false := by rw [ih.1.2.2.2.2.1]; exact hh.2.1
          refine ⟨?_, ?_, ih.2⟩
          · unfold RouteNode.kind
            simp [e1, e2]
          · unfold RouteNode.childOk
            simp [e1, e2]
      have hWf : ∀ c ∈ W, c.kind = 2 ∧ c.childOk = true
          ∧ c.allNodes RouteNode.localOk = true := by
        intro c hc
        unfold WildKids at hW
        by_cases hw : (wildcardEp eps offset).vptr_table_index ≠ -1
        · rw [if_pos hw] at hW
          rw [hW] at hc
          simp only [List.mem_singleton] at hc
          subst hc
          exact ⟨rfl, rfl, rfl⟩
        · rw [if_neg hw] at hW
          rw [hW] at hc
          exact absurd hc (List.not_mem_nil _)
      have hall : ∀ c ∈ S ++ P ++ W, c.childOk = true
          ∧ c.allNodes RouteNode.localOk = true := by
        intro c hc
        rcases List.mem_append.mp hc with hc | hc
        · rcases List.mem_append.mp hc with hc | hc
          · exact (hSf c hc).2
          · exact (hPf c hc).2
        · exact (hWf c hc).2
      have hord : childrenOrdered (S ++ P ++ W) := by
        apply childrenOrdered_of_kinds
        · rcases hPc with h0 | ⟨k, _, _, _, hPk, _⟩
          · exact Or.inl h0
          · exact Or.inr ⟨k, hPk, (hPf k (by rw [hPk]; exact List.mem_singleton.mpr rfl)).1⟩
        · unfold WildKids at hW
          by_cases hw : (wildcardEp eps offset).vptr_table_index ≠ -1
          · rw [if_pos hw] at hW
            exact Or.inr ⟨_, hW, rfl⟩
          · rw [if_neg hw] at hW
            exact Or.inl hW
        · exact fun c hc => (hSf c hc).1
      refine ⟨by rw [hr]; exact sameHead_shape _ _ _, (allNodes_iff _ _).mpr ⟨?_, ?_⟩⟩
      · unfold RouteNode.localOk
        rw [hkids, Bool.and_eq_true, decide_eq_true_eq, List.all_eq_true]
        exact ⟨hord, fun c hc => (hall c hc).1⟩
      · rw [hkids, allNodesList_iff]
        exact fun c hc => (hall c hc).2

/-- The common prefix is shared by every endpoint of the group and holds no NUL, `:` or
`*`. -/
theorem commonPfx_spec (first : Endpoint) (eps : List Endpoint) (offset : Nat) :
    ∀ (n p : Nat) (acc : Bytes), p = acc.length →
      (∀ ep ∈ eps, ∀ j, j < acc.length → rd ep.url (offset + j) = rd acc j) →
      (∀ j, j < acc.length → rd acc j ≠ 0 ∧ rd acc j ≠ 58 ∧ rd acc j ≠ 42) →
      (∀ ep ∈ eps, ∀ j, j < (commonPfx first eps offset n p acc).length →
          rd ep.url (offset + j) = rd (commonPfx first eps offset n p acc) j)
        ∧ (∀ j, j < (commonPfx first eps offset n p acc).length →
            rd (commonPfx first eps offset n p acc) j ≠ 0
              ∧ rd (commonPfx first eps offset n p acc) j ≠ 58
              ∧ rd (commonPfx first eps offset n p acc) j ≠ 42)
  | 0, p, acc, _, h1, h2 => by
    unfold commonPfx
    exact ⟨h1, h2⟩
  | n + 1, p, acc, hp, h1, h2 => by
    unfold commonPfx
    simp only []
    by_cases hc : rd first.url (offset + p) = 0 ∨ rd first.url (offset + p) = kParamMarker
        ∨ rd first.url (offset + p) = kWildcardMarker
    · rw [if_pos hc]
      exact ⟨h1, h2⟩
    · rw [if_neg hc]
      by_cases ha : (eps.all fun se => rd se.url (offset + p) == rd first.url (offset + p)) = true
      · rw [if_pos ha]
        have hlen : (acc ++ [rd first.url (offset + p)]).length = acc.length + 1 := by simp
        apply commonPfx_spec first eps offset n (p + 1) _ (by rw [hlen, hp])
        · intro ep hep j hj
          rw [hlen] at hj
          by_cases hj2 : j < acc.length
          · rw [rd_append_left _ _ _ hj2]
            exact h1 ep hep j hj2
          · have e : j = acc.length := by omega
            have := rd_append_right acc [rd first.url (offset + p)] 0
            rw [Nat.add_zero] at this
            rw [e, this, ← hp]
            have hh := List.all_eq_true.mp ha ep hep
            exact beq_iff_eq.mp hh
        · intro j hj
          rw [hlen] at hj
          by_cases hj2 : j < acc.length
          · rw [rd_append_left _ _ _ hj2]
            exact h2 j hj2
          · have e : j = acc.length := by omega
            have := rd_append_right acc [rd first.url (offset + p)] 0
            rw [Nat.add_zero] at this
            rw [e, this]
            have e0 : rd [rd first.url (offset + p)] 0 = rd first.url (offset + p) := rfl
            rw [e0]
            unfold kParamMarker kWildcardMarker at hc
            omega
      · rw [if_neg ha]
        exact ⟨h1, h2⟩

theorem staticEps_mem (eps : List Endpoint) (offset : Nat) (ep : Endpoint)
    (h : ep ∈ staticEps eps offset) : ep ∈ eps ∧ rd ep.url offset ≠ 0 := by
  unfold staticEps at h
  have := List.mem_filter.mp h
  refine ⟨this.1, ?_⟩
  have h2 := this.2
  simp only [Bool.and_eq_true, bne_iff_ne, ne_eq] at h2
  exact h2.1.1

theorem paramEps_mem (eps : List Endpoint) (offset : Nat) (ep : Endpoint)
    (h : ep ∈ paramEps eps offset) :
    ep ∈ eps ∧ rd ep.url offset = 58 ∧ rd ep.url (offset + 1) = 47 := by
  unfold paramEps at h
  have := List.mem_filter.mp h
  refine ⟨this.1, ?_⟩
  have h2 := this.2
  simp only [Bool.and_eq_true, bne_iff_ne, ne_eq, beq_iff_eq] at h2
  exact h2.2

theorem staticBuckets_mem (static_eps : List Endpoint) (offset : Nat)
    (kv : Nat × List Endpoint) (h : kv ∈ staticBuckets static_eps offset) :
    kv.2 ≠ [] ∧ ∀ ep ∈ kv.2, ep ∈ static_eps :=
  buckets_spec offset static_eps [] (fun ep => ep ∈ static_eps) (by simp) (fun _ h => h) kv h

theorem foldl_pushBuilt_mono {α : Type} (g g2 : α → Option RouteNode)
    (hg : ∀ a c, g a = some c → g2 a = some c) :
    ∀ (l : List α) (acc : Option RouteNode) (r : RouteNode),
      l.foldl (fun acc a => pushBuilt acc (g a)) acc = some r →
      l.foldl (fun acc a => pushBuilt acc (g2 a)) acc = some r
  | [], _, _, h => h
  | a :: l, acc, r, h => by
    simp only [List.foldl_cons] at h ⊢
    cases hp : pushBuilt acc (g a) with
    | none =>
      rw [hp, foldl_pushBuilt_none] at h
      cases h
    | some x =>
      obtain ⟨n, k, hn, hk, _⟩ := pushBuilt_some _ _ _ hp
      have e : pushBuilt acc (g2 a) = pushBuilt acc (g a) := by rw [hg a k hk, hk]
      rw [e]
      exact foldl_pushBuilt_mono g g2 hg l _ r h

theorem buildStatic_mono (fuel : Nat) (eps : List Endpoint) (offset : Nat) (n0 r : RouteNode)
    (ih : ∀ node eps offset r, buildSubRouteTree fuel node eps offset = some r →
      buildSubRouteTree (fuel + 1) node eps offset = some r)
    (h : buildStatic fuel eps offset n0 = some r) :
    buildStatic (fuel + 1) eps offset n0 = some r := by
  unfold buildStatic at h ⊢
  split
  · rename_i hse
    rw [hse] at h
    exact h
  · rename_i first tail hse
    rw [hse] at h
    simp only [] at h
    rw [← hse] at h
    by_cases hp : commonPfx first (staticEps eps offset) offset kMaxPacked 0 [] ≠ []
    · rw [if_pos hp] at h ⊢
      obtain ⟨c, hc, hr⟩ := Option.map_eq_some'.mp h
      rw [ih _ _ _ _ hc]
      exact congrArg some hr
    · rw [if_neg hp] at h ⊢
      exact foldl_pushBuilt_mono
        (fun (kv : Nat × List Endpoint) =>
          buildSubRouteTree fuel (staticNodeOf [kv.1]) kv.2 (offset + 1))
        (fun (kv : Nat × List Endpoint) =>
          buildSubRouteTree (fuel + 1) (staticNodeOf [kv.1]) kv.2 (offset + 1))
        (fun kv c hc => ih _ _ _ _ hc) _ _ _ h

theorem buildParam_mono (fuel : Nat) (eps : List Endpoint) (offset : Nat)
    (x : Option RouteNode) (r : RouteNode)
    (ih : ∀ node eps offset r, buildSubRouteTree fuel node eps offset = some r →
      buildSubRouteTree (fuel + 1) node eps offset = some r)
    (h : buildParam fuel eps offset x = some r) :
    buildParam (fuel + 1) eps offset x = some r := by
  unfold buildParam at h ⊢
  split
  · rename_i hpe
    rw [hpe] at h
    exact h
  · rename_i pfirst tail hpe
    rw [hpe] at h
    simp only [] at h
    rw [← hpe] at h
    obtain ⟨n, k, hn, hk, _⟩ := pushBuilt_some _ _ _ h
    rw [ih _ _ _ _ hk, ← hk]
    exact h

/-- A larger recursion budget gives the same tree. -/
theorem buildSubRouteTree_mono : ∀ (fuel : Nat) (node : RouteNode) (eps : List Endpoint)
    (offset : Nat) (r : RouteNode), buildSubRouteTree fuel node eps offset = some r →
    buildSubRouteTree (fuel + 1) node eps offset = some r
  | 0, _, _, _, _, h => by cases h
  | fuel + 1, node, eps, offset, r, h => by
    rw [buildSubRouteTree_succ] at h ⊢
    by_cases he : eps.isEmpty = true
    · rw [if_pos he] at h ⊢
      exact h
    · rw [if_neg he] at h ⊢
      obtain ⟨n2, W, hx2, _, _⟩ := buildWild_shape _ _ _ _ h
      obtain ⟨n1, P, hx1, _, _⟩ := buildParam_shape _ _ _ _ _ hx2
      have h1 := buildStatic_mono fuel eps offset _ n1 (buildSubRouteTree_mono fuel) hx1
      have h2 := buildParam_mono fuel eps offset _ n2 (buildSubRouteTree_mono fuel) hx2
      rw [hx1] at h2
      rw [h1, h2, ← hx2]
      exact h

theorem buildSubRouteTree_add (fuel : Nat) (node : RouteNode) (eps : List Endpoint)
    (offset : Nat) (r : RouteNode) (h : buildSubRouteTree fuel node eps offset = some r) :
    ∀ k, buildSubRouteTree (fuel + k) node eps offset = some r
  | 0 => h
  | k + 1 => buildSubRouteTree_mono _ _ _ _ _ (buildSubRouteTree_add fuel node eps offset r h k)

theorem forall₂_map_left {α β γ : Type} (f : α → β) (R : β → γ → Prop) :
    ∀ (l : List α) (cs : List γ), List.Forall₂ (fun a c => R (f a) c) l cs →
      List.Forall₂ R (l.map f) cs
  | [], _, h => by cases h; exact List.Forall₂.nil
  | a :: l, _, h => by
    cases h with
    | cons h1 h2 => exact List.Forall₂.cons h1 (forall₂_map_left f R l _ h2)

theorem forall₂_append {α β : Type} (R : α → β → Prop) :
    ∀ (l1 : List α) (c1 : List β) (l2 : List α) (c2 : List β),
      List.Forall₂ R l1 c1 → List.Forall₂ R l2 c2 → List.Forall₂ R (l1 ++ l2) (c1 ++ c2)
  | [], _, _, _, h1, h2 => by cases h1; exact h2
  | a :: l, _, _, _, h1, h2 => by
    cases h1 with
    | cons h h1 => exact List.Forall₂.cons h (forall₂_append R l _ _ _ h1 h2)

/-- The children appended by a call are the results of its recursive calls, in order,
followed by the wildcard node if there is one. -/
theorem buildSubRouteTree_calls (fuel : Nat) (node : RouteNode) (eps : List Endpoint)
    (offset : Nat) (r : RouteNode) (hne : eps ≠ [])
    (h : buildSubRouteTree (fuel + 1) node eps offset = some r) :
    ∃ cs W, r = (node.setVptr (terminalVptr eps offset node.vptr_table_index)).pushChildren
          (cs ++ W)
      ∧ List.Forall₂ (fun call c => buildSubRouteTree fuel call.1 call.2.1 call.2.2 = some c)
          (recursiveCalls eps offset) cs
      ∧ WildKids eps offset W := by
  obtain ⟨S, P, W, hr, hS, hP, hW⟩ := buildSubRouteTree_shape fuel node eps offset r hne h
  refine ⟨S ++ P, W, hr, ?_, hW⟩
  unfold recursiveCalls
  refine forall₂_append _ _ _ _ _ ?_ ?_
  · unfold StaticKids at hS
    split
    · rename_i hse
      rw [hS.1 hse]
      exact List.Forall₂.nil
    · rename_i first tail hse
      have h2 := hS.2 first tail hse
      by_cases hp : commonPfx first (staticEps eps offset) offset kMaxPacked 0 [] ≠ []
      · rw [if_pos hp]
        obtain ⟨c, hc, hSc⟩ := h2.1 hp
        rw [hSc]
        exact List.Forall₂.cons hc List.Forall₂.nil
      · rw [if_neg hp]
        exact forall₂_map_left
          (fun (kv : Nat × List Endpoint) => (staticNodeOf [kv.1], kv.2, offset + 1))
          (fun call c => buildSubRouteTree fuel call.1 call.2.1 call.2.2 = some c) _ _
          (h2.2 (not_not.mp hp))
  · unfold ParamKids at hP
    split
    · rename_i hpe
      rw [hP.1 hpe]
      exact List.Forall₂.nil
    · rename_i pfirst tail hpe
      obtain ⟨c, hc, hPc⟩ := hP.2 pfirst tail hpe
      rw [hPc]
      exact List.Forall₂.cons hc List.Forall₂.nil

/-- Every recursive call is made on a non-empty group of the endpoints of the call, at a
larger offset which has not passed the terminator of any endpoint of the group. -/
theorem recursiveCalls_offsets (eps : List Endpoint) (offset : Nat)
    (hin : ∀ ep ∈ eps, withinPattern ep offset) :
    ∀ call ∈ recursiveCalls eps offset,
      offset < call.2.2 ∧ call.2.1 ≠ []
        ∧ ∀ ep ∈ call.2.1, ep ∈ eps ∧ withinPattern ep call.2.2 := by
  intro call hcall
  unfold recursiveCalls at hcall
  rcases List.mem_append.mp hcall with hc | hc
  · split at hc
    · cases hc
    · rename_i first tail hse
      by_cases hp : commonPfx first (staticEps eps offset) offset kMaxPacked 0 [] ≠ []
      · rw [if_pos hp] at hc
        have e := List.mem_singleton.mp hc
        subst e
        have hpos : 0 < (commonPfx first (staticEps eps offset) offset kMaxPacked 0 []).length :=
          List.length_pos.mpr hp
        have hs := commonPfx_spec first (staticEps eps offset) offset kMaxPacked 0 [] rfl
          (fun _ _ j hj => absurd hj (Nat.not_lt_zero j))
          (fun j hj => absurd hj (Nat.not_lt_zero j))
        refine ⟨by simp only []; omega, by simp only []; rw [hse]; simp, ?_⟩
        intro ep hep
        refine ⟨(staticEps_mem eps offset ep hep).1, ?_⟩
        intro j hj
        by_cases hj2 : j < offset
        · exact hin ep (staticEps_mem eps offset ep hep).1 j hj2
        · have h1 := hs.1 ep hep (j - offset) (by simp only [] at hj; omega)
          have h2 := (hs.2 (j - offset) (by simp only [] at hj; omega)).1
          rw [← h1] at h2
          have e : offset + (j - offset) = j := by omega
          rw [e] at h2
          exact h2
      · rw [if_neg hp] at hc
        obtain ⟨kv, hkv, e⟩ := List.mem_map.mp hc
        subst e
        have hb := staticBuckets_mem _ _ kv hkv
        refine ⟨by simp only []; omega, hb.1, ?_⟩
        intro ep hep
        have hm := staticEps_mem eps offset ep (hb.2 ep hep)
        refine ⟨hm.1, ?_⟩
        intro j hj
        by_cases hj2 : j < offset
        · exact hin ep hm.1 j hj2
        · have e : j = offset := by simp only [] at hj; omega
          rw [e]; exact hm.2
  · split at hc
    · cases hc
    · rename_i pfirst tail hpe
      have e := List.mem_singleton.mp hc
      subst e
      refine ⟨by simp only []; omega, by simp only []; rw [hpe]; simp, ?_⟩
      intro ep hep
      have hm := paramEps_mem eps offset ep hep
      refine ⟨hm.1, ?_⟩
      intro j hj
      by_cases hj2 : j < offset
      · exact hin ep hm.1 j hj2
      · by_cases hj3 : j = offset
        · rw [hj3, hm.2.1]; decide
        · have e : j = offset + 1 := by simp only [] at hj; omega
          rw [e, hm.2.2]; decide

theorem lor_shift_add (a b k : Nat) (h : a < 2 ^ k) : a ||| (b <<< k) = a + 2 ^ k * b := by
  rw [Nat.shiftLeft_eq, Nat.lor_comm, Nat.mul_comm b, ← Nat.mul_add_lt_is_or h b, Nat.add_comm]

theorem foldl_or_shift (f : Nat → Nat) : ∀ (n : Nat), (∀ i, i < n → f i < 256) →
    (List.range n).foldl (fun v i => v ||| (f i <<< (8 * i))) 0 = packLE ((List.range n).map f)
  | 0, _ => rfl
  | n + 1, h => by
    have ih := foldl_or_shift f n (fun i hi => h i (by omega))
    rw [List.range_succ, List.foldl_append, ih, List.map_append, packLE_append]
    simp only [List.foldl_cons, List.foldl_nil, List.map_cons, List.map_nil, List.length_map,
      List.length_range, packLE]
    have hlt : packLE ((List.range n).map f) < 2 ^ (8 * n) := by
      have := packLE_lt ((List.range n).map f) (by
        intro a ha
        obtain ⟨i, hi, e⟩ := List.mem_map.mp ha
        rw [← e]
        exact h i (by have := List.mem_range.mp hi; omega))
      rw [List.length_map, List.length_range] at this
      rw [Nat.pow_mul]
      exact this
    rw [lor_shift_add _ _ _ hlt, Nat.pow_mul]
    ring

theorem foldl_or_pad : ∀ (m n val : Nat), val < 256 ^ n →
    (List.range' n m).foldl (fun v i => v ||| (0xFF <<< (8 * i))) val
      = val + 256 ^ n * packLE (List.replicate m 255)
  | 0, n, val, _ => by simp [packLE]
  | m + 1, n, val, h => by
    have e : val ||| (0xFF <<< (8 * n)) = val + 256 ^ n * 255 := by
      have hlt : val < 2 ^ (8 * n) := by rw [Nat.pow_mul]; exact h
      rw [lor_shift_add _ _ _ hlt, Nat.pow_mul]
    have hlt2 : val + 256 ^ n * 255 < 256 ^ (n + 1) := by
      rw [Nat.pow_succ]; omega
    simp only [List.range', List.foldl_cons, List.replicate_succ, packLE]
    rw [e, foldl_or_pad m (n + 1) _ hlt2, Nat.pow_succ]
    ring

/-- The word of `n` bytes `f 0 .. f (n-1)`, low byte first, the high bytes set to 0xFF. -/
theorem packed_word (f : Nat → Nat) (n : Nat) (h : ∀ i, i < n → f i < 256) :
    (List.range' n (8 - n)).foldl (fun v i => v ||| (0xFF <<< (8 * i)))
        ((List.range n).foldl (fun v i => v ||| (f i <<< (8 * i))) 0)
      = packLE ((List.range n).map f ++ List.replicate (8 - n) 255) := by
  have hb : ∀ a ∈ (List.range n).map f, a < 256 := by
    intro a ha
    obtain ⟨i, hi, e⟩ := List.mem_map.mp ha
    rw [← e]
    exact h i (List.mem_range.mp hi)
  have hlt := packLE_lt _ hb
  rw [List.length_map, List.length_range] at hlt
  rw [foldl_or_shift f n h, foldl_or_pad _ _ _ hlt, packLE_append, List.length_map,
    List.length_range]

theorem packLE_inj : ∀ (xs ys : Bytes), xs.length = ys.length → (∀ a ∈ xs, a < 256) →
    (∀ a ∈ ys, a < 256) → packLE xs = packLE ys → xs = ys
  | [], [], _, _, _, _ => rfl
  | [], _ :: _, h, _, _, _ => by simp at h
  | _ :: _, [], h, _, _, _ => by simp at h
  | a :: xs, c :: ys, h, hx, hy, he => by
    have ha := hx a (List.mem_cons_self _ _)
    have hc := hy c (List.mem_cons_self _ _)
    simp only [packLE] at he
    have e1 : a = c := by omega
    have e2 : packLE xs = packLE ys := by omega
    rw [e1, packLE_inj xs ys (by simpa using h)
      (fun b hb => hx b (List.mem_cons_of_mem _ hb))
      (fun b hb => hy b (List.mem_cons_of_mem _ hb)) e2]

theorem packU64Safe_eq (str : Bytes) (n : Nat) (h1 : 1 ≤ n) (h8 : n ≤ 8) (hb : IsBytes str) :
    packU64Safe str n = packLE (slice str 0 n ++ List.replicate (8 - n) 255) := by
  unfold packU64Safe
  rw [if_neg (by omega)]
  simp only []
  rw [if_neg (by omega)]
  have := packed_word (fun i => rd str i) n (fun i _ => rd_lt str hb i)
  rw [this]
  unfold slice
  simp only [Nat.zero_add]

theorem packedU64FromString_eq (src : Bytes) (start n : Nat) (h8 : n ≤ 8) (hb : IsBytes src) :
    packedU64FromString src start (start + n)
      = packLE (slice src start n ++ List.replicate (8 - n) 255) := by
  unfold packedU64FromString
  simp only []
  have e : start + n - start = n := by omega
  rw [e, if_neg (by omega)]
  have := packed_word (fun i => rd src (start + i)) n (fun i _ => rd_lt src hb _)
  rw [this]
  rfl

/-- Static matching is byte equality: a node that holds the word of the `n` bytes `lit`
(1 to 8 bytes) matches at `offset` exactly when the `n` bytes there are those of `lit`. -/
theorem nodeStaticMatches_iff (node : RouteNode) (lit url : Bytes) (offset : Nat)
    (h1 : 1 ≤ lit.length) (h8 : lit.length ≤ 8) (hl : IsBytes lit) (hu : IsBytes url)
    (hv : node.value = packU64Safe lit lit.length) (hn : node.value_length = lit.length) :
    nodeStaticMatches node url offset = true ↔ slice url offset lit.length = lit := by
  unfold nodeStaticMatches
  rw [hn, hv, packedU64FromString_eq url offset _ h8 hu, packU64Safe_eq lit _ h1 h8 hl,
    beq_iff_eq]
  have hs : slice lit 0 lit.length = lit := by
    apply List.ext_getElem
    · rw [slice_length]
    · intro i h1 h2
      have := rd_slice lit 0 lit.length i h2
      rw [Nat.zero_add] at this
      unfold rd at this
      rw [List.getD_eq_getElem?_getD, List.getD_eq_getElem?_getD,
        List.getElem?_eq_getElem h1, List.getElem?_eq_getElem h2] at this
      exact this
  rw [hs]
  constructor
  · intro h
    have h2 := packLE_inj _ _ (by simp [slice_length]) (by
        intro a ha
        rcases List.mem_append.mp ha with ha | ha
        · exact slice_lt url hu _ _ a ha
        · rw [List.eq_of_mem_replicate ha]; decide) (by
        intro a ha
        rcases List.mem_append.mp ha with ha | ha
        · exact hl a ha
        · rw [List.eq_of_mem_replicate ha]; decide) h
    exact List.append_inj_left h2 (by rw [slice_length])
  · intro h
    rw [h]

theorem bucketInsert_spec (c : Nat) (se : Endpoint) :
    ∀ (bs : List (Nat × List Endpoint)), bs.Pairwise (fun a b => a.1 < b.1) →
      (bucketInsert c se bs).Pairwise (fun a b => a.1 < b.1)
        ∧ (∀ kv ∈ bucketInsert c se bs,
            (kv.1 ≠ c ∧ kv ∈ bs)
              ∨ (kv.1 = c ∧ ((∃ v, (c, v) ∈ bs ∧ kv.2 = v ++ [se])
                  ∨ (kv.2 = [se] ∧ ∀ kv2 ∈ bs, kv2.1 ≠ c))))
        ∧ (∃ kv ∈ bucketInsert c se bs, kv.1 = c)
        ∧ (∀ kv ∈ bs, ∃ kv2 ∈ bucketInsert c se bs, kv2.1 = kv.1)
  | [], _ => by
    unfold bucketInsert
    refine ⟨List.pairwise_singleton _ _, ?_, ⟨(c, [se]), List.mem_singleton.mpr rfl, rfl⟩, ?_⟩
    · intro kv hkv
      rw [List.mem_singleton.mp hkv]
      exact Or.inr ⟨rfl, Or.inr ⟨rfl, fun _ h => absurd h (List.not_mem_nil _)⟩⟩
    · intro kv h
      exact absurd h (List.not_mem_nil _)
  | (k, v) :: rest, hs => by
    have hs1 : ∀ x ∈ rest, k < x.1 := (List.pairwise_cons.mp hs).1
    have hs2 := (List.pairwise_cons.mp hs).2
    unfold bucketInsert
    by_cases h1 : c = k
    · rw [if_pos h1]
      refine ⟨List.pairwise_cons.mpr ⟨hs1, hs2⟩, ?_, ⟨_, List.mem_cons_self _ _, h1.symm⟩, ?_⟩
      · intro kv hkv
        rcases List.mem_cons.mp hkv with e | hm
        · rw [e]
          refine Or.inr ⟨h1.symm, Or.inl ⟨v, ?_, rfl⟩⟩
          rw [h1]
          exact List.mem_cons_self _ _
        · refine Or.inl ⟨?_, List.mem_cons_of_mem _ hm⟩
          have := hs1 kv hm
          omega
      · intro kv hkv
        rcases List.mem_cons.mp hkv with e | hm
        · exact ⟨_, List.mem_cons_self _ _, by rw [e]⟩
        · exact ⟨kv, List.mem_cons_of_mem _ hm, rfl⟩
    · rw [if_neg h1]
      by_cases h2 : c < k
      · rw [if_pos h2]
        refine ⟨List.pairwise_cons.mpr ⟨?_, hs⟩, ?_, ⟨_, List.mem_cons_self _ _, rfl⟩, ?_⟩
        · intro x hx
          rcases List.mem_cons.mp hx with e | hm
          · rw [e]; exact h2
          · have := hs1 x hm
            show c < x.1
            omega
        · intro kv hkv
          rcases List.mem_cons.mp hkv with e | hm
          · rw [e]
            refine Or.inr ⟨rfl, Or.inr ⟨rfl, ?_⟩⟩
            intro kv2 hk2
            rcases List.mem_cons.mp hk2 with e2 | hm2
            · rw [e2]; show k ≠ c; omega
            · have := hs1 kv2 hm2
              omega
          · refine Or.inl ⟨?_, hm⟩
            rcases List.mem_cons.mp hm with e2 | hm2
            · rw [e2]; show k ≠ c; omega
            · have := hs1 kv hm2
              omega
        · intro kv hkv
          exact ⟨kv, List.mem_cons_of_mem _ hkv, rfl⟩
      · rw [if_neg h2]
        obtain ⟨i1, i2, ⟨w, hw, hwc⟩, i4⟩ := bucketInsert_spec c se rest hs2
        refine ⟨List.pairwise_cons.mpr ⟨?_, i1⟩, ?_, ⟨w, List.mem_cons_of_mem _ hw, hwc⟩, ?_⟩
        · intro x hx
          rcases i2 x hx with ⟨_, hm⟩ | ⟨e, _⟩
          · exact hs1 x hm
          · show k < x.1
            omega
        · intro kv hkv
          rcases List.mem_cons.mp hkv with e | hm
          · rw [e]
            exact Or.inl ⟨by show k ≠ c; omega, List.mem_cons_self _ _⟩
          · rcases i2 kv hm with ⟨a, b⟩ | ⟨a, ⟨v2, b, d⟩ | ⟨b, d⟩⟩
            · exact Or.inl ⟨a, List.mem_cons_of_mem _ b⟩
            · exact Or.inr ⟨a, Or.inl ⟨v2, List.mem_cons_of_mem _ b, d⟩⟩
            · refine Or.inr ⟨a, Or.inr ⟨b, ?_⟩⟩
              intro kv2 hk2
              rcases List.mem_cons.mp hk2 with e2 | hm2
              · rw [e2]; show k ≠ c; omega
              · exact d kv2 hm2
        · intro kv hkv
          rcases List.mem_cons.mp hkv with e | hm
          · exact ⟨_, List.mem_cons_self _ _, by rw [e]⟩
          · obtain ⟨kv2, a, b⟩ := i4 kv hm
            exact ⟨kv2, List.mem_cons_of_mem _ a, b⟩

theorem bucketsOf_step (offset : Nat) (bs : List (Nat × List Endpoint)) (done : List Endpoint)
    (se : Endpoint) (h : BucketsOf offset bs done) :
    BucketsOf offset (bucketInsert (rd se.url offset) se bs) (done ++ [se]) := by
  obtain ⟨h1, h2, h3⟩ := h
  obtain ⟨i1, i2, i3, i4⟩ := bucketInsert_spec (rd se.url offset) se bs h1
  refine ⟨i1, ?_, ?_⟩
  · intro kv hkv
    rw [List.filter_append]
    rcases i2 kv hkv with ⟨a, b⟩ | ⟨a, ⟨v, b, d⟩ | ⟨b, d⟩⟩
    · have e : [se].filter (fun e => rd e.url offset == kv.1) = [] := by
        simp only [List.filter_cons, List.filter_nil]
        rw [if_neg]
        simp only [beq_iff_eq]
        exact fun h => a h.symm
      rw [e, List.append_nil]
      exact h2 kv b
    · have e : [se].filter (fun e => rd e.url offset == kv.1) = [se] := by
        simp only [List.filter_cons, List.filter_nil]
        rw [if_pos]
        simp only [beq_iff_eq]
        exact a.symm
      rw [e, d, a]
      have := h2 _ b
      simp only [] at this
      rw [this]
    · have e : [se].filter (fun e => rd e.url offset == kv.1) = [se] := by
        simp only [List.filter_cons, List.filter_nil]
        rw [if_pos]
        simp only [beq_iff_eq]
        exact a.symm
      have e2 : done.filter (fun e => rd e.url offset == kv.1) = [] := by
        apply List.filter_eq_nil_iff.mpr
        intro x hx
        simp only [beq_iff_eq]
        intro hk
        obtain ⟨kv2, m, k2⟩ := h3 x hx
        exact d kv2 m (by rw [k2, hk, a])
      rw [e, e2, b]
      rfl
  · intro e he
    rcases List.mem_append.mp he with hm | hm
    · obtain ⟨kv, a, b⟩ := h3 e hm
      obtain ⟨kv2, a2, b2⟩ := i4 kv a
      exact ⟨kv2, a2, by rw [b2, b]⟩
    · rw [List.mem_singleton.mp hm]
      exact i3

theorem bucketsOf_foldl (offset : Nat) : ∀ (l done : List Endpoint)
    (bs : List (Nat × List Endpoint)), BucketsOf offset bs done →
    BucketsOf offset (l.foldl (fun bs se => bucketInsert (rd se.url offset) se bs) bs)
      (done ++ l)
  | [], done, bs, h => by
    rw [List.append_nil]
    exact h
  | se :: l, done, bs, h => by
    have := bucketsOf_foldl offset l (done ++ [se]) _ (bucketsOf_step offset bs done se h)
    rw [List.append_assoc] at this
    exact this

theorem staticBuckets_of (l : List Endpoint) (offset : Nat) :
    BucketsOf offset (staticBuckets l offset) l := by
  have := bucketsOf_foldl offset l [] []
    ⟨List.Pairwise.nil, fun _ h => absurd h (List.not_mem_nil _),
      fun _ h => absurd h (List.not_mem_nil _)⟩
  rw [List.nil_append] at this
  exact this

theorem rd_mem_ne_zero (p : Bytes) (h : ∀ b ∈ p, b ≠ 0) (j : Nat) (hj : j < p.length) :
    rd p j ≠ 0 := by
  unfold rd
  rw [List.getD_eq_getElem?_getD, List.getElem?_eq_getElem hj]
  exact h _ (List.getElem_mem _)

theorem rd_length (p : Bytes) : rd p p.length = 0 := by
  unfold rd
  rw [List.getD_eq_getElem?_getD, List.getElem?_eq_none (Nat.le_refl _)]
  rfl

theorem rd_ext (a b : Bytes) (hl : a.length = b.length)
    (h : ∀ j, j < a.length → rd a j = rd b j) : a = b := by
  apply List.ext_getElem hl
  intro i h1 h2
  have := h i h1
  unfold rd at this
  rw [List.getD_eq_getElem?_getD, List.getD_eq_getElem?_getD,
    List.getElem?_eq_getElem h1, List.getElem?_eq_getElem h2] at this
  exact this

/-- Two folds that keep the handler of the last endpoint satisfying a condition agree when
the conditions agree on the list and either some endpoint satisfies them or the folds start
from the same value. -/
theorem foldl_last_congr (c1 c2 : Endpoint → Prop) [DecidablePred c1] [DecidablePred c2] :
    ∀ (l : List Endpoint) (v1 v2 : Int), (∀ e ∈ l, c1 e ↔ c2 e) →
      ((∃ e ∈ l, c1 e) ∨ v1 = v2) →
      l.foldl (fun v e => if c1 e then e.vptr_table_index else v) v1
        = l.foldl (fun v e => if c2 e then e.vptr_table_index else v) v2
  | [], v1, v2, _, h => by
    rcases h with ⟨e, he, _⟩ | h
    · exact absurd he (List.not_mem_nil _)
    · exact h
  | e :: l, v1, v2, hc, h => by
    simp only [List.foldl_cons]
    have hl : ∀ x ∈ l, c1 x ↔ c2 x := fun x hx => hc x (List.mem_cons_of_mem _ hx)
    by_cases h1 : c1 e
    · have h2 : c2 e := (hc e (List.mem_cons_self _ _)).mp h1
      rw [if_pos h1, if_pos h2]
      exact foldl_last_congr c1 c2 l _ _ hl (Or.inr rfl)
    · have h2 : ¬ c2 e := fun x => h1 ((hc e (List.mem_cons_self _ _)).mpr x)
      rw [if_neg h1, if_neg h2]
      refine foldl_last_congr c1 c2 l _ _ hl ?_
      rcases h with ⟨x, hx, hx1⟩ | h
      · rcases List.mem_cons.mp hx with e1 | hm
        · rw [e1] at hx1; exact absurd hx1 h1
        · exact Or.inl ⟨x, hm, hx1⟩
      · exact Or.inr h

theorem foldl_filter_skip {α β : Type} (g : β → α → β) (f : α → Bool) :
    ∀ (l : List α) (v : β), (∀ e ∈ l, f e = false → ∀ w, g w e = w) →
      (l.filter f).foldl g v = l.foldl g v
  | [], _, _ => rfl
  | e :: l, v, h => by
    have hl : ∀ x ∈ l, f x = false → ∀ w, g w x = w :=
      fun x hx => h x (List.mem_cons_of_mem _ hx)
    cases hf : f e with
    | true =>
      rw [List.filter_cons_of_pos hf]
      simp only [List.foldl_cons]
      exact foldl_filter_skip g f l _ hl
    | false =>
      rw [List.filter_cons_of_neg (by rw [hf]; decide)]
      simp only [List.foldl_cons]
      rw [h e (List.mem_cons_self _ _) hf v]
      exact foldl_filter_skip g f l _ hl

/-- A group that keeps every endpoint with the pattern `p` has the same last handler. -/
theorem lastHandler_filter (l : List Endpoint) (p : Bytes) (f : Endpoint → Bool)
    (h : ∀ e ∈ l, e.url = p → f e = true) : lastHandler (l.filter f) p = lastHandler l p := by
  unfold lastHandler
  apply foldl_filter_skip
  intro e he hf w
  have : ¬ e.url = p := by
    intro hp
    rw [h e he hp] at hf
    cases hf
  exact if_neg this

theorem foldl_last_mem (c : Endpoint → Prop) [DecidablePred c] :
    ∀ (l : List Endpoint) (v : Int), (∃ e ∈ l, c e) →
      ∃ e ∈ l, c e ∧ l.foldl (fun v e => if c e then e.vptr_table_index else v) v
        = e.vptr_table_index
  | [], _, h => by
    obtain ⟨e, he, _⟩ := h
    exact absurd he (List.not_mem_nil _)
  | x :: l, v, h => by
    simp only [List.foldl_cons]
    by_cases hl : ∃ e ∈ l, c e
    · obtain ⟨e, he, hc, hv⟩ := foldl_last_mem c l (if c x then x.vptr_table_index else v) hl
      exact ⟨e, List.mem_cons_of_mem _ he, hc, hv⟩
    · have hx : c x := by
        obtain ⟨e, he, hc⟩ := h
        rcases List.mem_cons.mp he with e1 | hm
        · rw [← e1]; exact hc
        · exact absurd ⟨e, hm, hc⟩ hl
      refine ⟨x, List.mem_cons_self _ _, hx, ?_⟩
      rw [if_pos hx]
      have : ∀ (l : List Endpoint) (w : Int), (¬ ∃ e ∈ l, c e) →
          l.foldl (fun v e => if c e then e.vptr_table_index else v) w = w := by
        intro l
        induction l with
        | nil => intro w _; rfl
        | cons y l ih =>
          intro w hn
          simp only [List.foldl_cons]
          rw [if_neg (fun hy => hn ⟨y, List.mem_cons_self _ _, hy⟩)]
          exact ih w (fun ⟨e, he, hc⟩ => hn ⟨e, List.mem_cons_of_mem _ he, hc⟩)
      exact this l _ hl

/-- The last handler of a pattern that is in the list is the handler of an endpoint of the
list with that pattern. -/
theorem lastHandler_mem (l : List Endpoint) (p : Bytes) (h : ∃ e ∈ l, e.url = p) :
    ∃ e ∈ l, e.url = p ∧ lastHandler l p = e.vptr_table_index :=
  foldl_last_mem (fun e => e.url = p) l (-1) h

theorem foldl_last_vptr (c : Endpoint → Prop) [DecidablePred c] :
    ∀ (l : List Endpoint) (d : Endpoint),
      (l.foldl (fun w e => if c e then e else w) d).vptr_table_index
        = l.foldl (fun v e => if c e then e.vptr_table_index else v) d.vptr_table_index
  | [], _ => rfl
  | x :: l, d => by
    simp only [List.foldl_cons]
    rw [foldl_last_vptr c l]
    by_cases hx : c x
    · rw [if_pos hx, if_pos hx]
    · rw [if_neg hx, if_neg hx]

/-- In a group that agrees with `p` before `offset`, the endpoints whose pattern ends at
`offset = |p|` are those with the pattern `p`. -/
theorem ends_iff_eq (ep : Endpoint) (p : Bytes) (hz : ∀ b ∈ ep.url, b ≠ 0)
    (hp : ∀ b ∈ p, b ≠ 0) (ha : ∀ j, j < p.length → rd ep.url j = rd p j) :
    rd ep.url p.length = 0 ↔ ep.url = p := by
  constructor
  · intro h
    have h1 : ep.url.length ≤ p.length := by
      by_contra hn
      exact rd_mem_ne_zero ep.url hz p.length (by omega) h
    have h2 : p.length ≤ ep.url.length := by
      by_contra hn
      have hlt : ep.url.length < p.length := by omega
      have := ha ep.url.length hlt
      rw [rd_length] at this
      exact rd_mem_ne_zero p hp _ hlt this.symm
    exact rd_ext _ _ (by omega) (fun j hj => ha j (by omega))
  · intro h
    rw [h]
    exact rd_length p

theorem vptr_shape (node : RouteNode) (v : Int) (cs : List RouteNode) :
    ((node.setVptr v).pushChildren cs).vptr_table_index = v := by
  cases node; rfl

/-- The handler a call leaves on its node when the pattern `p` ends at its offset. -/
theorem terminalVptr_lastHandler (eps : List Endpoint) (p : Bytes) (v0 : Int)
    (hz : ∀ ep ∈ eps, ∀ b ∈ ep.url, b ≠ 0) (hp : ∃ ep ∈ eps, ep.url = p)
    (ha : ∀ ep ∈ eps, ∀ j, j < p.length → rd ep.url j = rd p j) :
    terminalVptr eps p.length v0 = lastHandler eps p := by
  unfold terminalVptr lastHandler
  have hpz : ∀ b ∈ p, b ≠ 0 := by
    obtain ⟨ep, he, e⟩ := hp
    rw [← e]
    exact hz ep he
  apply foldl_last_congr (fun ep => rd ep.url p.length = 0) (fun ep => ep.url = p)
  · intro e he
    exact ends_iff_eq e p (hz e he) hpz (ha e he)
  · obtain ⟨ep, he, e⟩ := hp
    exact Or.inl ⟨ep, he, (ends_iff_eq ep p (hz ep he) hpz (ha ep he)).mpr e⟩

theorem buildSubRouteTree_head (fuel : Nat) (node : RouteNode) (eps : List Endpoint)
    (offset : Nat) (r : RouteNode) (h : buildSubRouteTree fuel node eps offset = some r) :
    r.sameHead node := by
  cases fuel with
  | zero => cases h
  | succ fuel =>
    by_cases hne : eps = []
    · subst hne
      rw [buildSubRouteTree_succ] at h
      simp only [List.isEmpty_nil, if_true, Option.some.injEq] at h
      rw [← h]
      exact sameHead_refl node
    · obtain ⟨S, P, W, hr, _⟩ := buildSubRouteTree_shape fuel node eps offset r hne h
      rw [hr]
      exact sameHead_shape _ _ _

theorem forall₂_split_left {α β : Type} (R : α → β → Prop) (a : α) (l2 : List α) :
    ∀ (l1 : List α) (cs : List β), List.Forall₂ R (l1 ++ a :: l2) cs →
      ∃ c1 c c2, cs = c1 ++ c :: c2 ∧ List.Forall₂ R l1 c1 ∧ R a c ∧ List.Forall₂ R l2 c2
  | [], _, h => by
    cases h with
    | cons h1 h2 => exact ⟨[], _, _, rfl, List.Forall₂.nil, h1, h2⟩
  | x :: l1, _, h => by
    cases h with
    | cons h1 h2 =>
      obtain ⟨c1, c, c2, e, f1, r, f2⟩ := forall₂_split_left R a l2 l1 _ h2
      exact ⟨_ :: c1, c, c2, by rw [e]; rfl, List.Forall₂.cons h1 f1, r, f2⟩

theorem isBytes_of_rd (l : Bytes) (h : ∀ j, j < l.length → rd l j < 256) : IsBytes l := by
  intro b hb
  obtain ⟨i, hi, e⟩ := List.mem_iff_getElem.mp hb
  have := h i hi
  unfold rd at this
  rw [List.getD_eq_getElem?_getD, List.getElem?_eq_getElem hi] at this
  rw [← e]
  exact this

/-- A static node built for the bytes `lit` matches a buffer exactly at the places where
the bytes of `lit` stand. -/
theorem built_static_matches (fuel : Nat) (lit : Bytes) (g : List Endpoint) (off : Nat)
    (c : RouteNode) (u : Bytes) (o : Nat)
    (h : buildSubRouteTree fuel (staticNodeOf lit) g off = some c)
    (h1 : 1 ≤ lit.length) (h8 : lit.length ≤ 8) (hl : IsBytes lit) (hu : IsBytes u) :
    c.is_param = false ∧ c.is_wildcard = false ∧ c.value_length = lit.length
      ∧ (nodeStaticMatches c u o = true ↔ ∀ j, j < lit.length → rd u (o + j) = rd lit j) := by
  have hh := buildSubRouteTree_head fuel _ g off c h
  unfold RouteNode.sameHead at hh
  refine ⟨hh.2.2.2.1, hh.2.2.2.2.1, hh.2.1, ?_⟩
  rw [nodeStaticMatches_iff c lit u o h1 h8 hl hu hh.1 hh.2.1]
  constructor
  · intro hs j hj
    rw [← rd_slice u o lit.length j hj, hs]
  · intro hr
    apply rd_ext _ _ (slice_length _ _ _)
    intro j hj
    rw [slice_length] at hj
    rw [rd_slice u o lit.length j hj]
    exact hr j hj

/-- The static child that a pattern `p` of the group continues in, when its byte at the
offset is neither the end, `*` nor the start of `:/`: the children before it are static
and do not match a buffer that continues like `p`, the child matches it, and the group
of the child keeps every endpoint with the pattern `p`. -/
theorem static_child (fuel : Nat) (eps : List Endpoint) (offset : Nat) (S : List RouteNode)
    (p u : Bytes) (o : Nat) (hS : StaticKids fuel eps offset S)
    (hb : ∀ ep ∈ eps, IsBytes ep.url) (hu : IsBytes u) (hp : ∃ ep ∈ eps, ep.url = p)
    (ha : ∀ ep ∈ eps, ∀ j, j < offset → rd ep.url j = rd p j)
    (hc : rd p offset ≠ 0) (hw : rd p offset ≠ kWildcardMarker)
    (hnp : ¬ (rd p offset = kParamMarker ∧ rd p (offset + 1) = 47))
    (hu2 : ∀ i, offset + i < p.length → rd u (o + i) = rd p (offset + i)) :
    ∃ pre c post pfx g, S = pre ++ c :: post
      ∧ buildSubRouteTree fuel (staticNodeOf pfx) g (offset + pfx.length) = some c
      ∧ 1 ≤ pfx.length ∧ offset + pfx.length ≤ p.length
      ∧ (∀ x ∈ pre, x.is_param = false ∧ x.is_wildcard = false
          ∧ nodeStaticMatches x u o = false)
      ∧ c.is_param = false ∧ c.is_wildcard = false ∧ c.value_length = pfx.length
      ∧ nodeStaticMatches c u o = true
      ∧ (∀ ep ∈ g, ep ∈ eps) ∧ (∀ ep ∈ g, ∀ j, j < offset + pfx.length → rd ep.url j = rd p j)
      ∧ (∃ ep ∈ g, ep.url = p) ∧ lastHandler g p = lastHandler eps p := by
  obtain ⟨epp, hepp, hurl⟩ := hp
  have hpb : IsBytes p := by rw [← hurl]; exact hb epp hepp
  have hplen : offset < p.length := rd_ne_zero_lt p offset hc
  have hf : ∀ e ∈ eps, e.url = p →
      (rd e.url offset != 0 && rd e.url offset != kWildcardMarker
        && !(rd e.url offset == kParamMarker && rd e.url (offset + 1) == 47)) = true := by
    intro e _ he
    rw [he]
    simp only [Bool.and_eq_true, bne_iff_ne, ne_eq, Bool.not_eq_true', Bool.and_eq_false_imp,
      beq_iff_eq, beq_eq_false_iff_ne]
    exact ⟨⟨hc, hw⟩, fun h1 h2 => hnp ⟨h1, h2⟩⟩
  have hmem : epp ∈ staticEps eps offset := by
    unfold staticEps
    exact List.mem_filter.mpr ⟨hepp, hf epp hepp hurl⟩
  have hlast : lastHandler (staticEps eps offset) p = lastHandler eps p := by
    unfold staticEps
    exact lastHandler_filter eps p _ hf
  unfold StaticKids at hS
  cases hse : staticEps eps offset with
  | nil =>
    rw [hse] at hmem
    exact absurd hmem (List.not_mem_nil _)
  | cons first rest =>
    have h2 := hS.2 first rest hse
    by_cases hpe : commonPfx first (staticEps eps offset) offset kMaxPacked 0 [] = []
    · -- one child per first byte
      have hF := h2.2 hpe
      obtain ⟨hsorted, hfil, hcov⟩ := staticBuckets_of (staticEps eps offset) offset
      obtain ⟨kv, hkv, hk⟩ := hcov epp hmem
      rw [hurl] at hk
      obtain ⟨B1, B2, hB⟩ := List.append_of_mem hkv
      rw [hB] at hF hsorted
      obtain ⟨S1, c, S2, hSe, hF1, hRc, _⟩ := forall₂_split_left _ kv B2 B1 S hF
      have hkey : ∀ kv2 ∈ staticBuckets (staticEps eps offset) offset,
          kv2.1 < 256 := by
        intro kv2 hk2
        have hne := (staticBuckets_mem _ _ kv2 hk2).1
        obtain ⟨e, he⟩ := List.exists_mem_of_ne_nil _ hne
        have he2 := he
        rw [hfil kv2 hk2] at he2
        have hm := List.mem_filter.mp he2
        have hkey := beq_iff_eq.mp hm.2
        rw [← hkey]
        exact rd_lt _ (hb e (staticEps_mem eps offset e hm.1).1) _
      have hk256 : kv.1 < 256 := hkey kv hkv
      have hrel := built_static_matches fuel [kv.1] kv.2 (offset + 1) c u o hRc (by simp)
        (by simp) (by intro b hb2; rw [List.mem_singleton.mp hb2]; exact hk256) hu
      refine ⟨S1, c, S2, [kv.1], kv.2, hSe, hRc, by simp, ?_, ?_, hrel.1, hrel.2.1,
        hrel.2.2.1, ?_, ?_, ?_, ?_, ?_⟩
      · simp only [List.length_singleton]; omega
      · intro x hx
        obtain ⟨kv2, hk2, hR2⟩ := forall₂_mem_right _ _ _ hF1 x hx
        have hk2m : kv2 ∈ staticBuckets (staticEps eps offset) offset := by
          rw [hB]; exact List.mem_append_left _ hk2
        have hrel2 := built_static_matches fuel [kv2.1] kv2.2 (offset + 1) x u o hR2 (by simp)
          (by simp) (by intro b hb2; rw [List.mem_singleton.mp hb2]; exact hkey kv2 hk2m) hu
        refine ⟨hrel2.1, hrel2.2.1, ?_⟩
        cases hm : nodeStaticMatches x u o with
        | false => rfl
        | true =>
          have h0 := hrel2.2.2.2.mp hm 0 (by simp)
          have hlt : kv2.1 < kv.1 :=
            (List.pairwise_append.mp hsorted).2.2 kv2 hk2 kv (List.mem_cons_self _ _)
          have hu0 := hu2 0 (by omega)
          simp only [Nat.add_zero] at h0 hu0
          have e0 : rd [kv2.1] 0 = kv2.1 := rfl
          rw [hu0, e0, ← hk] at h0
          omega
      · apply hrel.2.2.2.mpr
        intro j hj
        have hj0 : j = 0 := by simp only [List.length_singleton] at hj; omega
        subst hj0
        have hu0 := hu2 0 (by omega)
        rw [hu0, Nat.add_zero, ← hk]
        rfl
      · intro ep hep
        rw [hfil kv hkv] at hep
        exact (staticEps_mem eps offset ep (List.mem_filter.mp hep).1).1
      · intro ep hep j hj
        rw [hfil kv hkv] at hep
        have hm := List.mem_filter.mp hep
        by_cases hj2 : j < offset
        · exact ha ep (staticEps_mem eps offset ep hm.1).1 j hj2
        · have e : j = offset := by simp only [List.length_singleton] at hj; omega
          rw [e, beq_iff_eq.mp hm.2, hk]
      · refine ⟨epp, ?_, hurl⟩
        rw [hfil kv hkv]
        refine List.mem_filter.mpr ⟨hmem, ?_⟩
        rw [hurl, hk]
        exact beq_self_eq_true _
      · rw [hfil kv hkv, ← hlast]
        apply lastHandler_filter
        intro e _ he
        rw [he, hk]
        exact beq_self_eq_true _
    · -- the node of the common prefix
      obtain ⟨c, hRc, hSc⟩ := h2.1 hpe
      have hpos : 0 < (commonPfx first (staticEps eps offset) offset kMaxPacked 0 []).length :=
        List.length_pos.mpr hpe
      have hle := commonPfx_length_le first (staticEps eps offset) offset kMaxPacked 0 []
      have hs := commonPfx_spec first (staticEps eps offset) offset kMaxPacked 0 [] rfl
        (fun _ _ j hj => absurd hj (Nat.not_lt_zero j))
        (fun j hj => absurd hj (Nat.not_lt_zero j))
      rw [hse] at hRc hpos hle hs
      generalize hpfx : commonPfx first (first :: rest) offset kMaxPacked 0 [] = pfx
        at hRc hpos hle hs
      rw [← hse] at hRc hs
      have hpp : ∀ j, j < pfx.length → rd p (offset + j) = rd pfx j := by
        intro j hj
        rw [← hurl]
        exact hs.1 epp hmem j hj
      have hlen : offset + pfx.length ≤ p.length := by
        have h1 := (hs.2 (pfx.length - 1) (by omega)).1
        rw [← hpp _ (by omega)] at h1
        have := rd_ne_zero_lt _ _ h1
        omega
      have hpfxb : IsBytes pfx := by
        apply isBytes_of_rd
        intro j hj
        rw [← hpp j hj]
        exact rd_lt p hpb _
      have h8 : pfx.length ≤ 8 := by
        simp only [List.length_nil, Nat.zero_add] at hle
        exact hle
      have hrel := built_static_matches fuel pfx (staticEps eps offset) (offset + pfx.length) c
        u o hRc hpos h8 hpfxb hu
      refine ⟨[], c, [], pfx, staticEps eps offset, by rw [hSc]; rfl, hRc, hpos, hlen, ?_,
        hrel.1, hrel.2.1, hrel.2.2.1, ?_, ?_, ?_, ⟨epp, hmem, hurl⟩, hlast⟩
      · intro x hx
        exact absurd hx (List.not_mem_nil _)
      · apply hrel.2.2.2.mpr
        intro j hj
        rw [hu2 j (by omega)]
        exact hpp j hj
      · intro ep hep
        exact (staticEps_mem eps offset ep hep).1
      · intro ep hep j hj
        by_cases hj2 : j < offset
        · exact ha ep (staticEps_mem eps offset ep hep).1 j hj2
        · have h1 := hs.1 ep hep (j - offset) (by omega)
          have h2 := hpp (j - offset) (by omega)
          have e : offset + (j - offset) = j := by omega
          rw [e] at h1 h2
          rw [h1, h2]

theorem find?_pre {α : Type} (f : α → Bool) (c : α) (rest : List α) (hc : f c = true) :
    ∀ (pre : List α), (∀ x ∈ pre, f x = false) → (pre ++ c :: rest).find? f = some c
  | [], _ => by
    rw [List.nil_append, List.find?_cons, hc]
  | x :: pre, h => by
    rw [List.cons_append, List.find?_cons, h x (List.mem_cons_self _ _)]
    exact find?_pre f c rest hc pre (fun y hy => h y (List.mem_cons_of_mem _ hy))

/-- The node a call on a node without children leaves: its handler and its children, the
static children first, then the parameter child, then the wildcard child. -/
theorem built_children (fuel : Nat) (node : RouteNode) (eps : List Endpoint) (offset : Nat)
    (r : RouteNode) (hne : eps ≠ []) (hch : node.children = [])
    (h : buildSubRouteTree (fuel + 1) node eps offset = some r) :
    ∃ S P W, r.children = S ++ P ++ W
      ∧ r.vptr_table_index = terminalVptr eps offset node.vptr_table_index
      ∧ StaticKids fuel eps offset S ∧ ParamKids fuel eps offset P ∧ WildKids eps offset W
      ∧ (∀ x ∈ S, x.is_param = false ∧ x.is_wildcard = false)
      ∧ (∀ x ∈ P, x.is_param = true ∧ x.is_wildcard = false) := by
  obtain ⟨S, P, W, hr, hS, hP, hW⟩ := buildSubRouteTree_shape fuel node eps offset r hne h
  refine ⟨S, P, W, ?_, ?_, hS, hP, hW, ?_, ?_⟩
  · rw [hr, children_pushChildren, children_setVptr, hch, List.nil_append]
  · rw [hr, vptr_shape]
  · intro x hx
    obtain ⟨pfx, eps2, off2, _, _, hb⟩ := StaticKids_mem fuel eps offset S hS x hx
    have hh := buildSubRouteTree_head fuel _ eps2 off2 x hb
    unfold RouteNode.sameHead at hh
    exact ⟨hh.2.2.2.1, hh.2.2.2.2.1⟩
  · intro x hx
    rcases ParamKids_cases fuel eps offset P hP with e | ⟨c, pfirst, eps2, off2, e, hb⟩
    · rw [e] at hx
      exact absurd hx (List.not_mem_nil _)
    · rw [e] at hx
      rw [List.mem_singleton.mp hx]
      have hh := buildSubRouteTree_head fuel _ eps2 off2 c hb
      unfold RouteNode.sameHead at hh
      rw [hh.2.2.2.1, hh.2.2.2.2.1]
      exact ⟨(paramNodeOf_head pfirst).1, (paramNodeOf_head pfirst).2.1⟩

theorem wellFormed_sub (eps g : List Endpoint) (h : WellFormedPatterns eps)
    (hg : ∀ ep ∈ g, ep ∈ eps) : WellFormedPatterns g :=
  fun ep hep => h ep (hg ep hep)

/-- In a group that agrees with `p` before the offset at which `p` has its `*`, the
wildcard endpoint carries the last handler of `p`. -/
theorem wildcardEp_lastHandler (eps : List Endpoint) (offset : Nat) (p : Bytes)
    (hwf : WellFormedPatterns eps) (hp : ∃ ep ∈ eps, ep.url = p)
    (ha : ∀ ep ∈ eps, ∀ j, j < offset → rd ep.url j = rd p j)
    (hw : rd p offset = kWildcardMarker) :
    (wildcardEp eps offset).vptr_table_index = lastHandler eps p := by
  obtain ⟨epp, hepp, hurl⟩ := hp
  have hplen : offset + 1 = p.length := by
    have := (hwf epp hepp).2.2.2 offset
    rw [hurl] at this
    exact this (rd_ne_zero_lt p offset (by rw [hw]; decide)) hw
  unfold wildcardEp lastHandler
  rw [foldl_last_vptr (fun ep => (rd ep.url offset == kWildcardMarker) = true) eps
    Endpoint.default]
  apply foldl_last_congr
  · intro e he
    rw [beq_iff_eq]
    constructor
    · intro h
      have hl := (hwf e he).2.2.2 offset (rd_ne_zero_lt _ offset (by rw [h]; decide)) h
      apply rd_ext _ _ (by omega)
      intro j hj
      by_cases hj2 : j < offset
      · exact ha e he j hj2
      · have e2 : j = offset := by omega
        rw [e2, h, hw]
    · intro h
      rw [h]
      exact hw
  · exact Or.inr rfl

/-- The node at which a pattern of the group terminates carries its last handler. -/
theorem patternNode_built : ∀ (fuel : Nat) (node : RouteNode) (eps : List Endpoint)
    (offset : Nat) (r : RouteNode), buildSubRouteTree fuel node eps offset = some r →
    node.children = [] → WellFormedPatterns eps →
    ∀ (p : Bytes), (∃ ep ∈ eps, ep.url = p) →
      (∀ ep ∈ eps, ∀ j, j < offset → rd ep.url j = rd p j) → offset ≤ p.length →
      ∀ (pf : Nat), p.length + 1 ≤ offset + pf →
        ∃ n, patternNode pf r p offset = some n ∧ n.vptr_table_index = lastHandler eps p
  | 0, _, _, _, _, h, _, _, _, _, _, _, _, _ => by cases h
  | fuel + 1, node, eps, offset, r, h, hch, hwf, p, hp, ha, hle, pf, hpf => by
    obtain ⟨epp, hepp, hurl⟩ := hp
    have hne : eps ≠ [] := List.ne_nil_of_mem hepp
    have hz : ∀ ep ∈ eps, ∀ b ∈ ep.url, b ≠ 0 := fun ep he => (hwf ep he).2.1
    have hpz : ∀ b ∈ p, b ≠ 0 := by rw [← hurl]; exact hz epp hepp
    obtain ⟨S, P, W, hkids, hv, hS, hP, hW, hSk, hPk⟩ :=
      built_children fuel node eps offset r hne hch h
    cases pf with
    | zero => omega
    | succ pf =>
      unfold patternNode
      by_cases h0 : rd p offset = 0
      · rw [if_pos h0]
        refine ⟨r, rfl, ?_⟩
        have hoff : offset = p.length := by
          by_contra hn
          exact rd_mem_ne_zero p hpz offset (by omega) h0
        rw [hv, hoff]
        rw [hoff] at ha
        exact terminalVptr_lastHandler eps p _ hz ⟨epp, hepp, hurl⟩ ha
      · rw [if_neg h0]
        have hlt : offset < p.length := rd_ne_zero_lt p offset h0
        by_cases hwc : rd p offset = kWildcardMarker
        · rw [if_pos hwc]
          have hwl := wildcardEp_lastHandler eps offset p hwf ⟨epp, hepp, hurl⟩ ha hwc
          obtain ⟨e, he, _, hev⟩ := lastHandler_mem eps p ⟨epp, hepp, hurl⟩
          have hn1 : (wildcardEp eps offset).vptr_table_index ≠ -1 := by
            rw [hwl, hev]
            exact (hwf e he).2.2.1
          unfold WildKids at hW
          rw [if_pos hn1] at hW
          refine ⟨wildcardNodeOf (wildcardEp eps offset), ?_, ?_⟩
          · rw [hkids, hW]
            apply find?_pre
            · rfl
            · intro x hx
              rcases List.mem_append.mp hx with hx | hx
              · exact (hSk x hx).2
              · exact (hPk x hx).2
          · rw [← hwl]
            rfl
        · rw [if_neg hwc]
          by_cases hpm : rd p offset = kParamMarker ∧ rd p (offset + 1) = 47
          · rw [if_pos hpm]
            have hf : ∀ e ∈ eps, e.url = p →
                (rd e.url offset != 0 && rd e.url offset != kWildcardMarker
                  && (rd e.url offset == kParamMarker && rd e.url (offset + 1) == 47))
                  = true := by
              intro e _ he
              rw [he]
              simp only [Bool.and_eq_true, bne_iff_ne, ne_eq, beq_iff_eq]
              exact ⟨⟨h0, hwc⟩, hpm⟩
            have hmem : epp ∈ paramEps eps offset := by
              unfold paramEps
              exact List.mem_filter.mpr ⟨hepp, hf epp hepp hurl⟩
            have hlast : lastHandler (paramEps eps offset) p = lastHandler eps p := by
              unfold paramEps
              exact lastHandler_filter eps p _ hf
            cases hpe : paramEps eps offset with
            | nil =>
              rw [hpe] at hmem
              exact absurd hmem (List.not_mem_nil _)
            | cons pfirst rest =>
              unfold ParamKids at hP
              obtain ⟨c, hc, hPc⟩ := hP.2 pfirst rest hpe
              have hfind : r.children.find? (fun c => c.is_param) = some c := by
                rw [hkids, hPc, List.append_assoc]
                apply find?_pre
                · exact (hPk c (by rw [hPc]; exact List.mem_singleton.mpr rfl)).1
                · intro x hx
                  exact (hSk x hx).1
              rw [hfind]
              simp only []
              have hlen2 : offset + 2 ≤ p.length := by
                have := rd_ne_zero_lt p (offset + 1) (by rw [hpm.2]; decide)
                omega
              obtain ⟨n, hn, hnv⟩ := patternNode_built fuel (paramNodeOf pfirst)
                (paramEps eps offset) (offset + 2) c hc (paramNodeOf_head pfirst).2.2.1
                (wellFormed_sub eps _ hwf (fun ep he => (paramEps_mem eps offset ep he).1))
                p ⟨epp, hmem, hurl⟩
                (by
                  intro ep he j hj
                  have hm := paramEps_mem eps offset ep he
                  by_cases hj2 : j < offset
                  · exact ha ep hm.1 j hj2
                  · by_cases hj3 : j = offset
                    · rw [hj3, hm.2.1, hpm.1]; rfl
                    · have e2 : j = offset + 1 := by omega
                      rw [e2, hm.2.2, hpm.2])
                hlen2 pf (by omega)
              exact ⟨n, hn, by rw [hnv, hlast]⟩
          · rw [if_neg hpm]
            obtain ⟨pre, c, post, pfx, g, hSe, hRc, hp1, hplen, hpre, hcp, hcw, hcl, hcm, hg,
              hga, hgp, hgl⟩ := static_child fuel eps offset S p p offset hS
                (fun ep he => (hwf ep he).1)
                (by rw [← hurl]; exact (hwf epp hepp).1) ⟨epp, hepp, hurl⟩ ha h0 hwc hpm
                (fun _ _ => rfl)
            have hfind : r.children.find?
                (fun c => !c.is_param && !c.is_wildcard && nodeStaticMatches c p offset)
                = some c := by
              rw [hkids, hSe, List.append_assoc, List.append_assoc, List.cons_append]
              apply find?_pre
              · simp only [hcp, hcw, hcm, Bool.not_false, Bool.and_self]
              · intro x hx
                simp only [(hpre x hx).2.2, Bool.and_false]
            rw [hfind]
            simp only []
            rw [hcl]
            obtain ⟨n, hn, hnv⟩ := patternNode_built fuel (staticNodeOf pfx) g
              (offset + pfx.length) c hRc rfl (wellFormed_sub eps g hwf hg) p hgp hga hplen
              pf (by omega)
            exact ⟨n, hn, by rw [hnv, hgl]⟩

theorem matchNode_children (url : Bytes) (query_limit : Nat) (node : RouteNode) (offset : Nat)
    (ps : List Bytes) (q : Obj) :
    matchNode url query_limit node offset ps q
      = matchChildren url query_limit node.children offset ps q := by
  cases node
  unfold matchNode
  rfl

theorem matchChildren_static_hit (url : Bytes) (query_limit : Nat) (c : RouteNode)
    (rest : List RouteNode) (offset : Nat) (ps : List Bytes) (q : Obj)
    (h1 : c.is_param = false) (h2 : c.is_wildcard = false)
    (h3 : nodeStaticMatches c url offset = true) :
    matchChildren url query_limit (c :: rest) offset ps q
      = if c.vptr_table_index ≠ -1
            ∧ (rd url (offset + c.value_length) = 32 ∨ rd url (offset + c.value_length) = 63)
        then matchFinish url query_limit c.vptr_table_index (offset + c.value_length) ps q
        else matchNode url query_limit c (offset + c.value_length) ps q := by
  conv => lhs; unfold matchChildren
  simp only [h1, h2, h3, Bool.false_eq_true, if_false, if_true]

/-- Matching a buffer that spells the rest of a static pattern of the group, followed by a
space, ends on the node of the pattern with its last handler. -/
theorem matchNode_built : ∀ (fuel : Nat) (node : RouteNode) (eps : List Endpoint)
    (offset : Nat) (r : RouteNode), buildSubRouteTree fuel node eps offset = some r →
    node.children = [] → (∀ ep ∈ eps, IsBytes ep.url) → (∀ ep ∈ eps, ∀ b ∈ ep.url, b ≠ 0) →
    ∀ (p u : Bytes) (o : Nat) (ps : List Bytes) (q : Obj) (ql : Nat), IsBytes u →
      (∃ ep ∈ eps, ep.url = p) →
      (∀ ep ∈ eps, ∀ j, j < offset → rd ep.url j = rd p j) → offset < p.length →
      (∀ j, offset ≤ j → j < p.length →
        rd p j ≠ 58 ∧ rd p j ≠ 42 ∧ rd p j ≠ 32 ∧ rd p j ≠ 63) →
      (∀ i, offset + i < p.length → rd u (o + i) = rd p (offset + i)) →
      rd u (o + (p.length - offset)) = 32 → lastHandler eps p ≠ -1 →
      matchNode u ql r o ps q = some ⟨lastHandler eps p, o + (p.length - offset), ps, q⟩
  | 0, _, _, _, _, h, _, _, _, _, _, _, _, _, _, _, _, _, _, _, _, _, _ => by cases h
  | fuel + 1, node, eps, offset, r, h, hch, hb, hz, p, u, o, ps, q, ql, hu, hp, ha, hlt, hpl,
      hu2, hsp, hlast => by
    obtain ⟨epp, hepp, hurl⟩ := hp
    have hne : eps ≠ [] := List.ne_nil_of_mem hepp
    have hpz : ∀ b ∈ p, b ≠ 0 := by rw [← hurl]; exact hz epp hepp
    obtain ⟨S, P, W, hkids, _, hS, _, _, _, _⟩ :=
      built_children fuel node eps offset r hne hch h
    have hpo := hpl offset (Nat.le_refl _) hlt
    obtain ⟨pre, c, post, pfx, g, hSe, hRc, hp1, hplen, hpre, hcp, hcw, hcl, hcm, hg,
      hga, hgp, hgl⟩ := static_child fuel eps offset S p u o hS hb hu ⟨epp, hepp, hurl⟩ ha
        (rd_mem_ne_zero p hpz offset hlt) (by unfold kWildcardMarker; exact hpo.2.1)
        (by unfold kParamMarker; exact fun hx => hpo.1 hx.1) hu2
    rw [matchNode_children, hkids, hSe, List.append_assoc, List.append_assoc, List.cons_append,
      matchChildren_skip u ql _ o ps q pre hpre,
      matchChildren_static_hit u ql c _ o ps q hcp hcw hcm, hcl]
    by_cases hend : offset + pfx.length = p.length
    · have e1 : o + pfx.length = o + (p.length - offset) := by omega
      have hcv : c.vptr_table_index = lastHandler eps p := by
        cases fuel with
        | zero => cases hRc
        | succ fuel =>
          obtain ⟨g1, hg1, _⟩ := hgp
          obtain ⟨_, _, _, _, hv, _⟩ := built_children fuel (staticNodeOf pfx) g
            (offset + pfx.length) c (List.ne_nil_of_mem hg1) rfl hRc
          rw [hv, ← hgl, hend]
          rw [hend] at hga
          exact terminalVptr_lastHandler g p _ (fun ep he => hz ep (hg ep he))
            ⟨g1, hg1, by assumption⟩ hga
      rw [e1, if_pos ⟨by rw [hcv]; exact hlast, Or.inl hsp⟩, hcv]
      unfold matchFinish
      rw [if_neg (by rw [hsp]; decide)]
    · have hnext := hpl (offset + pfx.length) (by omega) (by omega)
      have hun := hu2 pfx.length (by omega)
      rw [if_neg (by
        rw [hun]
        intro hx
        rcases hx.2 with h32 | h63
        · exact hnext.2.2.1 h32
        · exact hnext.2.2.2 h63)]
      have ih := matchNode_built fuel (staticNodeOf pfx) g (offset + pfx.length) c hRc rfl
        (fun ep he => hb ep (hg ep he)) (fun ep he => hz ep (hg ep he)) p u (o + pfx.length)
        ps q ql hu hgp hga (by omega) (fun j h1 h2 => hpl j (by omega) h2)
        (by
          intro i hi
          have := hu2 (pfx.length + i) (by omega)
          rw [← Nat.add_assoc, ← Nat.add_assoc] at this
          exact this)
        (by
          have e : o + pfx.length + (p.length - (offset + pfx.length))
              = o + (p.length - offset) := by omega
          rw [e]
          exact hsp)
        (by rw [hgl]; exact hlast)
      rw [ih, hgl]
      have e : o + pfx.length + (p.length - (offset + pfx.length))
          = o + (p.length - offset) := by omega
      rw [e]

theorem foldl_last_none (c : Endpoint → Prop) [DecidablePred c] :
    ∀ (l : List Endpoint) (w : Int), (∀ e ∈ l, ¬ c e) →
      l.foldl (fun v e => if c e then e.vptr_table_index else v) w = w
  | [], _, _ => rfl
  | y :: l, w, hn => by
    simp only [List.foldl_cons]
    rw [if_neg (hn y (List.mem_cons_self _ _))]
    exact foldl_last_none c l w (fun e he => hn e (List.mem_cons_of_mem _ he))

/-- The last handler of a pattern is the handler of the endpoint after which no endpoint
of the list has that pattern. -/
theorem lastHandler_split (l1 l2 : List Endpoint) (e : Endpoint)
    (h : ∀ x ∈ l2, x.url ≠ e.url) : lastHandler (l1 ++ e :: l2) e.url = e.vptr_table_index := by
  unfold lastHandler
  rw [List.foldl_append, List.foldl_cons, if_pos rfl]
  exact foldl_last_none (fun x => x.url = e.url) l2 _ h

theorem hex_to_char_nonhex (h : Nat) (hh : isHexByte h = false) : hex_to_char h = 0 := by
  unfold isHexByte at hh
  have := of_decide_eq_false hh
  unfold hex_to_char
  rw [if_neg (by omega), if_neg (by omega), if_neg (by omega)]

/-- The output of `url_decode` is never longer than its input. -/
theorem url_decode_length (buf : Bytes) :
    ∀ (k p stop : Nat), stop - p ≤ k → (url_decode buf p stop).length ≤ stop - p
  | 0, p, stop, h => by
    rw [url_decode_nil buf p stop (by omega)]
    exact Nat.zero_le _
  | k + 1, p, stop, h => by
    by_cases hp : stop ≤ p
    · rw [url_decode_nil buf p stop hp]
      exact Nat.zero_le _
    · by_cases h37 : rd buf p = 37
      · by_cases h2 : p + 2 < stop
        · rw [url_decode_pct buf p stop h37 h2, List.length_cons]
          have := url_decode_length buf k (p + 3) stop (by omega)
          omega
        · rw [url_decode_copy buf p stop (by omega) (Or.inl ⟨h37, by omega⟩), List.length_cons]
          have := url_decode_length buf k (p + 1) stop (by omega)
          omega
      · by_cases h43 : rd buf p = 43
        · rw [url_decode_plus buf p stop h43 (by omega), List.length_cons]
          have := url_decode_length buf k (p + 1) stop (by omega)
          omega
        · rw [url_decode_copy buf p stop (by omega) (Or.inr ⟨h37, h43⟩), List.length_cons]
          have := url_decode_length buf k (p + 1) stop (by omega)
          omega

/-- A run of key bytes, plain bytes or `=`, moves the cursor and the count and keeps the
start of the key. -/
theorem parse_query_loop_keyrun (url : Bytes) (offset query_limit key_start : Nat) (q : Obj) :
    ∀ (w : Bytes) (n p scanned : Nat) (val_start : Option Nat),
      (∀ c ∈ w, isQueryPlain c = true ∨ c = 61) →
      slice url p w.length = w → scanned + w.length ≤ query_limit →
      ∃ vs, parse_query_loop url offset query_limit (n + w.length) p scanned key_start
            val_start q
          = parse_query_loop url offset query_limit n (p + w.length) (scanned + w.length)
              key_start vs q
  | [], n, p, scanned, val_start, _, _, _ => ⟨val_start, rfl⟩
  | c :: w, n, p, scanned, val_start, hw, hsl, hs => by
    have h := (slice_cons_iff url p c w).mp hsl
    simp only [List.length_cons] at hs ⊢
    rw [show n + (w.length + 1) = (n + w.length) + 1 by omega,
      show p + (w.length + 1) = (p + 1) + w.length by omega,
      show scanned + (w.length + 1) = (scanned + 1) + w.length by omega]
    rcases hw c (List.mem_cons_self _ _) with hc | hc
    · rw [parse_query_loop_plain url offset query_limit _ p scanned key_start val_start q
        (by rw [h.1]; exact hc) (by omega)]
      exact parse_query_loop_keyrun url offset query_limit key_start q w n (p + 1)
        (scanned + 1) val_start (fun x hx => hw x (List.mem_cons_of_mem _ hx)) h.2 (by omega)
    · rw [parse_query_loop_eq url offset query_limit _ p scanned key_start val_start q
        (by rw [h.1]; exact hc) (by omega)]
      exact parse_query_loop_keyrun url offset query_limit key_start q w n (p + 1)
        (scanned + 1) (some (p + 1)) (fun x hx => hw x (List.mem_cons_of_mem _ hx)) h.2
        (by omega)

/-- Scanning the text of one pair whose key may hold `=` from the start-of-pair state: the
pair is split at its last `=`. -/
theorem parse_query_loop_pair_eq (url : Bytes) (offset query_limit : Nat) (q : Obj)
    (kv : Bytes × Option Bytes) (n p scanned : Nat) (hkv : splitsAtLastEq kv)
    (hsl : slice url p (renderPair kv).length = renderPair kv)
    (hs : scanned + (renderPair kv).length ≤ query_limit) :
    ∃ vs, parse_query_loop url offset query_limit (n + (renderPair kv).length) p scanned p
          none q
        = parse_query_loop url offset query_limit n (p + (renderPair kv).length)
            (scanned + (renderPair kv).length) p vs q
      ∧ querySetPair url p vs (p + (renderPair kv).length) q
        = q.Set (c_str (pctDecode kv.1))
            (match kv.2 with
              | none => []
              | some v => pctDecode v) := by
  obtain ⟨k, v⟩ := kv
  unfold splitsAtLastEq at hkv
  cases v with
  | none =>
    exact parse_query_loop_pair url offset query_limit q (k, none) n p scanned (hkv.2.2 rfl)
      (fun v hv => by cases hv) hsl hs
  | some v =>
    have hk := (hkv.2.1 v rfl).1
    have hv := (hkv.2.1 v rfl).2
    simp only [renderPair] at hsl hs ⊢
    have h1 := (slice_append_iff url p k (61 :: v)).mp hsl
    have h2 := (slice_cons_iff url (p + k.length) 61 v).mp h1.2
    have hlen : (k ++ 61 :: v).length = k.length + 1 + v.length := by
      simp only [List.length_append, List.length_cons]; omega
    rw [hlen] at hs ⊢
    obtain ⟨vs0, hrun⟩ := parse_query_loop_keyrun url offset query_limit p q k
      (n + v.length + 1) p scanned none hk h1.1 (by omega)
    refine ⟨some (p + k.length + 1), ?_, ?_⟩
    · rw [show n + (k.length + 1 + v.length) = (n + v.length + 1) + k.length by omega, hrun,
        parse_query_loop_eq url offset query_limit _ _ _ p vs0 q h2.1 (by omega),
        parse_query_loop_run url offset query_limit p (some (p + k.length + 1)) q v n
          (p + k.length + 1) (scanned + k.length + 1) hv h2.2 (by omega)]
      rw [show p + k.length + 1 + v.length = p + (k.length + 1 + v.length) by omega,
        show scanned + k.length + 1 + v.length = scanned + (k.length + 1 + v.length) by omega]
    · unfold querySetPair
      simp only []
      rw [show p + k.length + 1 - 1 = p + k.length by omega, url_decode_slice url p k h1.1,
        show p + (k.length + 1 + v.length) = (p + k.length + 1) + v.length by omega,
        url_decode_slice url (p + k.length + 1) v h2.2]

/-- The scan loop on the text of pairs whose keys may hold `=`, ending at a stop byte. -/
theorem parse_query_loop_pairs_eq (url : Bytes) (offset query_limit : Nat) :
    ∀ (pairs : List (Bytes × Option Bytes)) (n p scanned : Nat) (q : Obj),
      (∀ kv ∈ pairs, splitsAtLastEq kv) →
      slice url p (renderQuery pairs).length = renderQuery pairs →
      isQueryStop (rd url (p + (renderQuery pairs).length)) = true →
      scanned + (renderQuery pairs).length ≤ query_limit →
      parse_query_loop url offset query_limit (n + ((renderQuery pairs).length + 1)) p scanned
          p none q
        = some ⟨true, offset + (scanned + (renderQuery pairs).length), storePairsCStr pairs q⟩
  | [], n, p, scanned, q, _, _, hstop, _ => by
    simp only [renderQuery, List.length_nil, Nat.add_zero] at hstop ⊢
    rw [parse_query_loop_stop url offset query_limit n p scanned p none q hstop,
      if_neg (Nat.lt_irrefl p)]
    rfl
  | [kv], n, p, scanned, q, hwf, hsl, hstop, hs => by
    simp only [renderQuery] at hsl hstop hs ⊢
    have hkv := hwf kv (List.mem_cons_self _ _)
    obtain ⟨vs, h1, h2⟩ := parse_query_loop_pair_eq url offset query_limit q kv (n + 1) p
      scanned hkv hsl hs
    have hpos : 0 < (renderPair kv).length := List.length_pos.mpr hkv.1
    rw [show n + ((renderPair kv).length + 1) = (n + 1) + (renderPair kv).length by omega, h1,
      parse_query_loop_stop url offset query_limit n _ _ p vs q hstop, if_pos (by omega), h2]
    rfl
  | kv :: kv2 :: rest, n, p, scanned, q, hwf, hsl, hstop, hs => by
    simp only [renderQuery] at hsl hstop hs ⊢
    have hkv := hwf kv (List.mem_cons_self _ _)
    have hl : (renderPair kv ++ 38 :: renderQuery (kv2 :: rest)).length
        = (renderPair kv).length + 1 + (renderQuery (kv2 :: rest)).length := by
      simp only [List.length_append, List.length_cons]; omega
    have hA := (slice_append_iff url p (renderPair kv) (38 :: renderQuery (kv2 :: rest))).mp hsl
    have hB := (slice_cons_iff url (p + (renderPair kv).length) 38
      (renderQuery (kv2 :: rest))).mp hA.2
    rw [hl] at hstop hs ⊢
    obtain ⟨vs, h1, h2⟩ := parse_query_loop_pair_eq url offset query_limit q kv
      (n + ((renderQuery (kv2 :: rest)).length + 1) + 1) p scanned hkv hA.1 (by omega)
    rw [show n + ((renderPair kv).length + 1 + (renderQuery (kv2 :: rest)).length + 1)
        = (n + ((renderQuery (kv2 :: rest)).length + 1) + 1) + (renderPair kv).length by omega,
      h1, parse_query_loop_amp url offset query_limit _ _ _ p vs q hB.1 (by omega), h2,
      parse_query_loop_pairs_eq url offset query_limit (kv2 :: rest) n
        (p + (renderPair kv).length + 1) (scanned + (renderPair kv).length + 1) _
        (fun x hx => hwf x (List.mem_cons_of_mem _ hx)) hB.2
        (by
          rw [show p + (renderPair kv).length + 1 + (renderQuery (kv2 :: rest)).length
            = p + ((renderPair kv).length + 1 + (renderQuery (kv2 :: rest)).length) by omega]
          exact hstop)
        (by omega)]
    rw [show scanned + (renderPair kv).length + 1 + (renderQuery (kv2 :: rest)).length
      = scanned + ((renderPair kv).length + 1 + (renderQuery (kv2 :: rest)).length) by omega]
    rfl

/-- A string without NUL is its own C string. -/
theorem c_str_of_text (v : Bytes) (h : ∀ b ∈ v, isTextByte b = true) : c_str v = v := by
  unfold c_str
  rw [List.takeWhile_eq_self_iff]
  intro b hb
  have := h b hb
  unfold isTextByte at this
  rw [decide_eq_true_eq] at this
  rw [bne_iff_ne]
  omega

/-- Pairs that decode to plain text are stored under their whole decoded keys. -/
theorem storePairsCStr_of_text :
    ∀ (pairs : List (Bytes × Option Bytes)) (q : Obj), decodeToText pairs →
      storePairsCStr pairs q = storePairs pairs q
  | [], _, _ => rfl
  | kv :: rest, q, h => by
    have h1 := h kv (List.mem_cons_self _ _)
    show storePairsCStr rest (q.Set (c_str (pctDecode kv.1)) _) = storePairs rest _
    rw [c_str_of_text _ h1.1,
      storePairsCStr_of_text rest _ (fun x hx => h x (List.mem_cons_of_mem _ hx))]

theorem slice_self (l : Bytes) : slice l 0 l.length = l := by
  apply rd_ext _ _ (slice_length _ _ _)
  intro j hj
  rw [slice_length] at hj
  rw [rd_slice l 0 l.length j hj, Nat.zero_add]

theorem pad_isBytes (l : Bytes) (n : Nat) (h : IsBytes l) :
    ∀ a ∈ l ++ List.replicate n 255, a < 256 := by
  intro a ha
  rcases List.mem_append.mp ha with ha | ha
  · exact h a ha
  · rw [List.eq_of_mem_replicate ha]; decide

/-- The words of two literals of different lengths differ when the longer one holds no byte
0xFF at the length of the shorter. -/
theorem packU64Safe_length_ne (l1 l2 : Bytes) (h1 : 1 ≤ l1.length) (h2 : l2.length ≤ 8)
    (hlt : l1.length < l2.length) (hb1 : IsBytes l1) (hb2 : IsBytes l2)
    (hff : rd l2 l1.length ≠ 255) :
    packU64Safe l1 l1.length ≠ packU64Safe l2 l2.length := by
  intro he
  rw [packU64Safe_eq l1 _ h1 (by omega) hb1, packU64Safe_eq l2 _ (by omega) h2 hb2, slice_self,
    slice_self] at he
  have hl := packLE_inj _ _ (by simp only [List.length_append, List.length_replicate]; omega)
    (pad_isBytes l1 _ hb1) (pad_isBytes l2 _ hb2) he
  have e1 := rd_append_right l1 (List.replicate (8 - l1.length) 255) 0
  have e2 := rd_append_left l2 (List.replicate (8 - l2.length) 255) l1.length hlt
  rw [Nat.add_zero, hl, e2] at e1
  have e3 : rd (List.replicate (8 - l1.length) 255) 0 = 255 := by
    obtain ⟨k, hk⟩ : ∃ k, 8 - l1.length = k + 1 := ⟨8 - l1.length - 1, by omega⟩
    rw [hk]
    rfl
  rw [e3] at e1
  exact hff e1

theorem queryLen_stop (url : Bytes) :
    ∀ (m p : Nat), url.length - p ≤ m → isQueryStop (rd url (p + queryLen url p)) = true
  | 0, p, h => by
    have hz : rd url p = 0 := by
      unfold rd
      rw [List.getD_eq_getElem?_getD, List.getElem?_eq_none (by omega)]
      rfl
    have hs : isQueryStop (rd url p) = true := by rw [hz]; rfl
    rw [queryLen_zero url p hs, Nat.add_zero]
    exact hs
  | m + 1, p, h => by
    cases hs : isQueryStop (rd url p) with
    | true =>
      rw [queryLen_zero url p hs, Nat.add_zero]
      exact hs
    | false =>
      have hp : p < url.length := rd_ne_zero_lt url p ((isQueryStop_iff _).mp hs).1
      rw [queryLen_succ url p hs]
      have := queryLen_stop url m (p + 1) (by omega)
      rw [show p + (queryLen url (p + 1) + 1) = p + 1 + queryLen url (p + 1) by omega]
      exact this

theorem endsTarget_mono (url : Bytes) (c c2 : Nat) (res : MatchResult) (h : c ≤ c2)
    (he : res.endsTarget url c2) : res.endsTarget url c := by
  unfold MatchResult.endsTarget at he ⊢
  refine ⟨by omega, ?_⟩
  rcases he.2 with h1 | ⟨k, hk, h2⟩
  · exact Or.inl h1
  · exact Or.inr ⟨k, by omega, h2⟩

/-- The result of a query scan that started on a `?`: a failure, or the cursor on the byte
that stopped the query. -/
theorem query_endsTarget (url : Bytes) (query_limit : Nat) (vptr : Int) (offset : Nat)
    (ps : List Bytes) (q : Obj) (res : MatchResult) (h63 : rd url offset = 63)
    (h : (match parse_query_params url offset q query_limit with
          | none => none
          | some r =>
            if !r.ok then some ⟨-2, r.offset, ps, r.query⟩
            else some ⟨vptr, r.offset + 1, ps, r.query⟩) = some res)
    (hret : 0 ≤ res.ret) : res.endsTarget url offset := by
  obtain ⟨r, hr, _, hok⟩ := parse_query_params_count url offset q query_limit h63
  rw [hr] at h
  simp only [] at h
  cases hb : r.ok with
  | false =>
    rw [hb] at h
    simp only [Bool.not_false, if_true, Option.some.injEq] at h
    rw [← h] at hret
    exact absurd hret (show ¬ (0 : Int) ≤ -2 by decide)
  | true =>
    rw [hb] at h
    simp only [Bool.not_true, Bool.false_eq_true, if_false, Option.some.injEq] at h
    have ho := hok hb
    have hst := queryLen_stop url (url.length - (offset + 1)) (offset + 1) (Nat.le_refl _)
    unfold MatchResult.endsTarget
    rw [← h]
    simp only [ho]
    refine ⟨by omega, Or.inr ⟨offset, Nat.le_refl _, h63, by omega, ?_⟩⟩
    rw [show offset + queryLen url (offset + 1) + 1 = offset + 1 + queryLen url (offset + 1)
      by omega]
    exact hst

theorem matchFinish_endsTarget (url : Bytes) (query_limit : Nat) (vptr : Int) (offset : Nat)
    (ps : List Bytes) (q : Obj) (res : MatchResult)
    (hb : rd url offset = 32 ∨ rd url offset = 63)
    (h : matchFinish url query_limit vptr offset ps q = some res) (hret : 0 ≤ res.ret) :
    res.endsTarget url offset := by
  unfold matchFinish at h
  by_cases h63 : rd url offset = 63
  · rw [if_pos h63] at h
    exact query_endsTarget url query_limit vptr offset ps q res h63 h hret
  · rw [if_neg h63] at h
    simp only [Option.some.injEq] at h
    unfold MatchResult.endsTarget
    rw [← h]
    rcases hb with hb | hb
    · exact ⟨Nat.le_refl _, Or.inl hb⟩
    · exact absurd hb h63

theorem wildcardLoop_endsTarget (url : Bytes) (query_limit : Nat) (vptr : Int)
    (ps : List Bytes) :
    ∀ (n offset : Nat) (q : Obj) (res : MatchResult),
      wildcardLoop url query_limit vptr ps n offset q = some res → 0 ≤ res.ret →
      res.endsTarget url offset
  | 0, _, _, _, h, _ => by cases h
  | n + 1, offset, q, res, h, hret => by
    unfold wildcardLoop at h
    by_cases h32 : rd url offset ≠ 32
    · rw [if_pos h32] at h
      by_cases hover : offset > 1000
      · rw [if_pos hover] at h
        simp only [Option.some.injEq] at h
        rw [← h] at hret
        exact absurd hret (show ¬ (0 : Int) ≤ -3 by decide)
      · rw [if_neg hover] at h
        by_cases h63 : rd url offset = 63
        · rw [if_pos h63] at h
          exact query_endsTarget url query_limit vptr offset ps q res h63 h hret
        · rw [if_neg h63] at h
          exact endsTarget_mono url offset (offset + 1) res (by omega)
            (wildcardLoop_endsTarget url query_limit vptr ps n (offset + 1) q res h hret)
    · rw [if_neg h32] at h
      simp only [Option.some.injEq] at h
      unfold MatchResult.endsTarget
      rw [← h]
      exact ⟨Nat.le_refl _, Or.inl (not_not.mp h32)⟩

mutual
theorem matchNode_endsTarget (url : Bytes) (query_limit : Nat) :
    ∀ (node : RouteNode) (offset : Nat) (ps : List Bytes) (q : Obj) (res : MatchResult),
      matchNode url query_limit node offset ps q = some res → 0 ≤ res.ret →
      res.endsTarget url offset
  | RouteNode.mk _ _ _ _ _ _ _ cs, offset, ps, q, res, h, hret => by
    unfold matchNode at h
    exact matchChildren_endsTarget url query_limit cs offset ps q res h hret
theorem matchChildren_endsTarget (url : Bytes) (query_limit : Nat) :
    ∀ (cs : List RouteNode) (offset : Nat) (ps : List Bytes) (q : Obj) (res : MatchResult),
      matchChildren url query_limit cs offset ps q = some res → 0 ≤ res.ret →
      res.endsTarget url offset
  | [], offset, ps, q, res, h, hret => by
    unfold matchChildren at h
    simp only [Option.some.injEq] at h
    rw [← h] at hret
    exact absurd hret (show ¬ (0 : Int) ≤ -1 by decide)
  | child :: rest, offset, ps, q, res, h, hret => by
    unfold matchChildren at h
    simp only [] at h
    split at h
    · have hge := paramEnd_ge url (url.length + 1 - offset) offset
      split at h
      · rename_i hc
        exact endsTarget_mono url offset _ res (by omega)
          (matchFinish_endsTarget url query_limit _ _ _ _ res hc.2 h hret)
      · exact endsTarget_mono url offset _ res (by omega)
          (matchNode_endsTarget url query_limit child _ _ _ res h hret)
    · split at h
      · exact wildcardLoop_endsTarget url query_limit _ _ _ _ _ res h hret
      · split at h
        · split at h
          · rename_i hc
            exact endsTarget_mono url offset _ res (by omega)
              (matchFinish_endsTarget url query_limit _ _ _ _ res hc.2 h hret)
          · exact endsTarget_mono url offset _ res (by omega)
              (matchNode_endsTarget url query_limit child _ _ _ res h hret)
        · exact matchChildren_endsTarget url query_limit rest offset ps q res h hret
end

/-- What is known of every child of the static group: the literal it was made for, the
group it was built on, and that the patterns of the group spell the literal at the offset. -/
theorem StaticKids_info (fuel : Nat) (eps : List Endpoint) (offset : Nat) (S : List RouteNode)
    (h : StaticKids fuel eps offset S) (hb : ∀ ep ∈ eps, IsBytes ep.url) :
    ∀ c ∈ S, ∃ pfx g, 1 ≤ pfx.length ∧ pfx.length ≤ 8 ∧ IsBytes pfx
      ∧ buildSubRouteTree fuel (staticNodeOf pfx) g (offset + pfx.length) = some c
      ∧ g ≠ []
      ∧ (∀ j, j < pfx.length → rd pfx j ≠ 0)
      ∧ ∀ ep ∈ g, ep ∈ eps ∧ ∀ j, j < pfx.length → rd ep.url (offset + j) = rd pfx j := by
  intro c hc
  unfold StaticKids at h
  cases hse : staticEps eps offset with
  | nil =>
    rw [h.1 hse] at hc
    exact absurd hc (List.not_mem_nil _)
  | cons first rest =>
    have h2 := h.2 first rest hse
    by_cases hpe : commonPfx first (staticEps eps offset) offset kMaxPacked 0 [] = []
    · obtain ⟨kv, hkv, hR⟩ := forall₂_mem_right _ _ _ (h2.2 hpe) c hc
      obtain ⟨_, hfil, _⟩ := staticBuckets_of (staticEps eps offset) offset
      have hne := (staticBuckets_mem _ _ kv hkv).1
      have hmem : ∀ ep ∈ kv.2, ep ∈ eps ∧ rd ep.url offset = kv.1 := by
        intro ep hep
        rw [hfil kv hkv] at hep
        have hm := List.mem_filter.mp hep
        exact ⟨(staticEps_mem eps offset ep hm.1).1, beq_iff_eq.mp hm.2⟩
      obtain ⟨e0, he0⟩ := List.exists_mem_of_ne_nil _ hne
      have hk0 : kv.1 ≠ 0 := by
        have hm : e0 ∈ staticEps eps offset := by
          have := he0
          rw [hfil kv hkv] at this
          exact (List.mem_filter.mp this).1
        rw [← (hmem e0 he0).2]
        exact (staticEps_mem eps offset e0 hm).2
      have hk256 : kv.1 < 256 := by
        rw [← (hmem e0 he0).2]
        exact rd_lt _ (hb e0 (hmem e0 he0).1) _
      refine ⟨[kv.1], kv.2, by simp, by simp, ?_, hR, hne, ?_, ?_⟩
      · intro b hb2
        rw [List.mem_singleton.mp hb2]
        exact hk256
      · intro j hj
        have hj0 : j = 0 := by simp only [List.length_singleton] at hj; omega
        rw [hj0]
        exact hk0
      · intro ep hep
        refine ⟨(hmem ep hep).1, ?_⟩
        intro j hj
        have hj0 : j = 0 := by simp only [List.length_singleton] at hj; omega
        rw [hj0, Nat.add_zero, (hmem ep hep).2]
        rfl
    · obtain ⟨c2, hRc, hSc⟩ := h2.1 hpe
      rw [hSc] at hc
      rw [List.mem_singleton.mp hc]
      have hpos : 0 < (commonPfx first (staticEps eps offset) offset kMaxPacked 0 []).length :=
        List.length_pos.mpr hpe
      have hle := commonPfx_length_le first (staticEps eps offset) offset kMaxPacked 0 []
      have hs := commonPfx_spec first (staticEps eps offset) offset kMaxPacked 0 [] rfl
        (fun _ _ j hj => absurd hj (Nat.not_lt_zero j))
        (fun j hj => absurd hj (Nat.not_lt_zero j))
      have hfirst : first ∈ staticEps eps offset := by rw [hse]; exact List.mem_cons_self _ _
      refine ⟨_, staticEps eps offset, hpos, ?_, ?_, hRc, by rw [hse]; simp, ?_, ?_⟩
      · simp only [List.length_nil, Nat.zero_add] at hle
        exact hle
      · apply isBytes_of_rd
        intro j hj
        rw [← hs.1 first hfirst j hj]
        exact rd_lt _ (hb first (staticEps_mem eps offset first hfirst).1) _
      · intro j hj
        exact (hs.2 j hj).1
      · intro ep hep
        exact ⟨(staticEps_mem eps offset ep hep).1, fun j hj => hs.1 ep hep j hj⟩

theorem rd_mem_of_lt (p : Bytes) (j : Nat) (hj : j < p.length) : rd p j ∈ p := by
  unfold rd
  rw [List.getD_eq_getElem?_getD, List.getElem?_eq_getElem hj]
  exact List.getElem_mem _

/-- A byte that a static pattern holds, or the NUL read past its end, is not `:` or `*`. -/
theorem staticPattern_rd (p : Bytes) (h : StaticPattern p) (j : Nat) :
    rd p j ≠ 58 ∧ rd p j ≠ 42 ∧ rd p j ≠ 32 ∧ rd p j ≠ 63 := by
  by_cases hj : j < p.length
  · have := h.2 _ (rd_mem_of_lt p j hj)
    exact ⟨this.2.1, this.2.2.1, this.2.2.2.1, this.2.2.2.2⟩
  · have e : rd p j = 0 := by
      unfold rd
      rw [List.getD_eq_getElem?_getD, List.getElem?_eq_none (by omega)]
      rfl
    rw [e]
    decide

/-- A list of static patterns has no parameter group and no wildcard endpoint. -/
theorem static_only (eps : List Endpoint) (offset : Nat)
    (h : ∀ ep ∈ eps, StaticPattern ep.url) :
    paramEps eps offset = [] ∧ (wildcardEp eps offset).vptr_table_index = -1 := by
  constructor
  · unfold paramEps
    apply List.filter_eq_nil_iff.mpr
    intro ep hep
    have := (staticPattern_rd ep.url (h ep hep) offset).1
    simp only [Bool.and_eq_true, bne_iff_ne, ne_eq, beq_iff_eq, not_and]
    intro _ hx
    exact absurd hx (by unfold kParamMarker; exact this)
  · unfold wildcardEp
    rw [foldl_last_vptr (fun ep => (rd ep.url offset == kWildcardMarker) = true) eps
      Endpoint.default]
    apply foldl_last_none
    intro ep hep
    have := (staticPattern_rd ep.url (h ep hep) offset).2.1
    rw [beq_iff_eq]
    unfold kWildcardMarker
    exact this

/-- The children of a node built on static patterns are the children of the static group. -/
theorem built_children_static (fuel : Nat) (node : RouteNode) (eps : List Endpoint)
    (offset : Nat) (r : RouteNode) (hne : eps ≠ []) (hch : node.children = [])
    (hst : ∀ ep ∈ eps, StaticPattern ep.url)
    (h : buildSubRouteTree (fuel + 1) node eps offset = some r) :
    ∃ S, r.children = S ∧ StaticKids fuel eps offset S
      ∧ r.vptr_table_index = terminalVptr eps offset node.vptr_table_index := by
  obtain ⟨S, P, W, hkids, hv, hS, hP, hW, _, _⟩ :=
    built_children fuel node eps offset r hne hch h
  have hso := static_only eps offset hst
  unfold ParamKids at hP
  unfold WildKids at hW
  rw [if_neg (not_not.mpr hso.2)] at hW
  rw [hP.1 hso.1, hW, List.append_nil, List.append_nil] at hkids
  exact ⟨S, hkids, hS, hv⟩

theorem terminalVptr_ne (eps : List Endpoint) (offset : Nat)
    (h : terminalVptr eps offset (-1) ≠ -1) : ∃ ep ∈ eps, rd ep.url offset = 0 := by
  by_contra hn
  apply h
  unfold terminalVptr
  exact foldl_last_none (fun ep => rd ep.url offset = 0) eps (-1)
    (fun e he h0 => hn ⟨e, he, h0⟩)

/-- A list of static children none of which can finish or continue a match gives `-1`. -/
theorem matchChildren_miss (url : Bytes) (query_limit : Nat) (offset : Nat) (ps : List Bytes)
    (q : Obj) :
    ∀ (cs : List RouteNode),
      (∀ c ∈ cs, c.is_param = false ∧ c.is_wildcard = false
        ∧ (nodeStaticMatches c url offset = true →
            ¬ (c.vptr_table_index ≠ -1
                ∧ (rd url (offset + c.value_length) = 32
                  ∨ rd url (offset + c.value_length) = 63))
              ∧ ∃ res, matchNode url query_limit c (offset + c.value_length) ps q = some res
                  ∧ res.ret = -1)) →
      ∃ res, matchChildren url query_limit cs offset ps q = some res ∧ res.ret = -1
  | [], _ => ⟨⟨-1, offset, ps, q⟩, by unfold matchChildren; rfl, rfl⟩
  | c :: cs, h => by
    have hc := h c (List.mem_cons_self _ _)
    cases hm : nodeStaticMatches c url offset with
    | true =>
      have h2 := hc.2.2 hm
      rw [matchChildren_static_hit url query_limit c cs offset ps q hc.1 hc.2.1 hm,
        if_neg h2.1]
      exact h2.2
    | false =>
      have := matchChildren_skip url query_limit cs offset ps q [c]
        (fun x hx => by rw [List.mem_singleton.mp hx]; exact ⟨hc.1, hc.2.1, hm⟩)
      rw [List.singleton_append] at this
      rw [this]
      exact matchChildren_miss url query_limit offset ps q cs
        (fun x hx => h x (List.mem_cons_of_mem _ hx))

/-- Matching a buffer whose path is none of the static patterns of the group gives `-1`.
The path starts at `o0` and ends before the space at `t`; the cursor is `o0 + offset`, and
the patterns of the group spell the path up to the cursor. -/
theorem matchNode_built_miss : ∀ (fuel : Nat) (node : RouteNode) (eps : List Endpoint)
    (offset : Nat) (r : RouteNode), buildSubRouteTree fuel node eps offset = some r →
    node.children = [] → (∀ ep ∈ eps, StaticPattern ep.url ∧ IsBytes ep.url) →
    ∀ (u : Bytes) (o0 t : Nat) (ps : List Bytes) (q : Obj) (ql : Nat), IsBytes u →
      o0 + offset ≤ t → rd u t = 32 →
      (∀ i, o0 ≤ i → i < t → rd u i ≠ 32 ∧ rd u i ≠ 63) →
      (∀ ep ∈ eps, offset ≤ ep.url.length ∧ ∀ j, j < offset → rd ep.url j = rd u (o0 + j)) →
      (∀ ep ∈ eps, ep.url ≠ slice u o0 (t - o0)) →
      ∃ res, matchNode u ql r (o0 + offset) ps q = some res ∧ res.ret = -1
  | 0, _, _, _, _, h, _, _, _, _, _, _, _, _, _, _, _, _, _, _ => by cases h
  | fuel + 1, node, eps, offset, r, h, hch, hst, u, o0, t, ps, q, ql, hu, hot, ht, hpath, hag,
      hno => by
    rw [matchNode_children]
    by_cases hne : eps = []
    · subst hne
      rw [buildSubRouteTree_succ] at h
      simp only [List.isEmpty_nil, if_true, Option.some.injEq] at h
      rw [← h, hch]
      exact ⟨⟨-1, o0 + offset, ps, q⟩, by unfold matchChildren; rfl, rfl⟩
    · obtain ⟨S, hkids, hS, _⟩ := built_children_static fuel node eps offset r hne hch
        (fun ep he => (hst ep he).1) h
      rw [hkids]
      apply matchChildren_miss
      intro c hc
      obtain ⟨pfx, g, hp1, hp8, hpb, hRc, hgne, hpz, hg⟩ :=
        StaticKids_info fuel eps offset S hS (fun ep he => (hst ep he).2) c hc
      have hrel := built_static_matches fuel pfx g (offset + pfx.length) c u (o0 + offset) hRc
        hp1 hp8 hpb hu
      refine ⟨hrel.1, hrel.2.1, ?_⟩
      intro hm
      have hmb := hrel.2.2.2.mp hm
      rw [hrel.2.2.1]
      obtain ⟨e0, he0⟩ := List.exists_mem_of_ne_nil _ hgne
      -- the group of the child spells the path up to the new cursor
      have hlenG : ∀ ep ∈ g, offset + pfx.length ≤ ep.url.length := by
        intro ep hep
        have h1 := (hg ep hep).2 (pfx.length - 1) (by omega)
        have h2 := hpz (pfx.length - 1) (by omega)
        rw [← h1] at h2
        have := rd_ne_zero_lt _ _ h2
        omega
      have hagG : ∀ ep ∈ g, ∀ j, j < offset + pfx.length → rd ep.url j = rd u (o0 + j) := by
        intro ep hep j hj
        by_cases hj2 : j < offset
        · exact (hag ep (hg ep hep).1).2 j hj2
        · have h1 := (hg ep hep).2 (j - offset) (by omega)
          have h2 := hmb (j - offset) (by omega)
          rw [show offset + (j - offset) = j by omega] at h1
          rw [show o0 + offset + (j - offset) = o0 + j by omega] at h2
          rw [h1, h2]
      -- the bytes matched are no space, so the cursor stays before the space
      have hnew : o0 + offset + pfx.length ≤ t := by
        by_contra hn
        have hlt : t - o0 < offset + pfx.length := by omega
        have h1 := hagG e0 he0 (t - o0) hlt
        rw [show o0 + (t - o0) = t by omega, ht] at h1
        exact (staticPattern_rd e0.url (hst e0 (hg e0 he0).1).1 (t - o0)).2.2.1 h1
      refine ⟨?_, ?_⟩
      · intro hx
        have heq : o0 + offset + pfx.length = t := by
          by_contra hn
          have := hpath (o0 + offset + pfx.length) (by omega) (by omega)
          rcases hx.2 with h32 | h63
          · exact this.1 h32
          · exact this.2 h63
        have hv : c.vptr_table_index = terminalVptr g (offset + pfx.length) (-1) := by
          cases fuel with
          | zero => cases hRc
          | succ fuel =>
            obtain ⟨_, _, _, _, hv, _⟩ := built_children fuel (staticNodeOf pfx) g
              (offset + pfx.length) c hgne rfl hRc
            exact hv
        obtain ⟨ep, hep, hz⟩ := terminalVptr_ne g (offset + pfx.length) (by rw [← hv]; exact hx.1)
        have hl1 := hlenG ep hep
        have hl2 : ep.url.length ≤ offset + pfx.length := by
          by_contra hn
          exact rd_mem_ne_zero ep.url (fun b hb => ((hst ep (hg ep hep).1).1.2 b hb).1)
            (offset + pfx.length) (by omega) hz
        apply hno ep (hg ep hep).1
        apply rd_ext _ _ (by rw [slice_length]; omega)
        intro j hj
        rw [rd_slice u o0 (t - o0) j (by omega)]
        exact hagG ep hep j (by omega)
      · have ih := matchNode_built_miss fuel (staticNodeOf pfx) g (offset + pfx.length) c hRc
          rfl (fun ep he => hst ep (hg ep he).1) u o0 t ps q ql hu (by omega) ht hpath
          (fun ep he => ⟨hlenG ep he, hagG ep he⟩) (fun ep he => hno ep (hg ep he).1)
        rw [show o0 + (offset + pfx.length) = o0 + offset + pfx.length by omega] at ih
        exact ih

theorem mem_slice (buf : Bytes) (p k b : Nat) (h : b ∈ slice buf p k) :
    ∃ i, i < k ∧ b = rd buf (p + i) := by
  unfold slice at h
  obtain ⟨i, hi, e⟩ := List.mem_map.mp h
  exact ⟨i, List.mem_range.mp hi, e.symm⟩

theorem isValueByte_of_valid (c : Nat) (h : hv_is_valid_char c = true) :
    isValueByte c = true := by
  unfold hv_is_valid_char at h
  unfold isValueByte
  by_cases h1 : c = 9 ∨ c = 32
  · rcases h1 with h1 | h1 <;> rw [h1] <;> rfl
  · rw [if_neg h1] at h
    have := of_decide_eq_true h
    simp only [Bool.or_eq_true, beq_iff_eq, decide_eq_true_eq]
    exact Or.inr (by omega)

/-- The value `hv_get_value_any` leaves holds value bytes only. -/
theorem hv_any_loop_clean (buf : Bytes) (total mx vb : Nat) : ∀ (n off ve : Nat),
    ve ≤ off → (∀ j, vb ≤ j → j < off → isValueByte (rd buf j) = true) →
    ∀ b ∈ (hv_any_loop buf total mx vb n off ve).hv, isValueByte b = true
  | 0, off, ve, _, _ => by
    intro b hb
    simp only [hv_any_loop, List.not_mem_nil] at hb
  | n + 1, off, ve, hve, hval => by
    unfold hv_any_loop
    simp only []
    split
    · intro b hb; simp only [List.not_mem_nil] at hb
    · split
      · intro b hb; simp only [List.not_mem_nil] at hb
      · split
        · intro b hb
          obtain ⟨i, hi, e⟩ := mem_slice buf vb _ b hb
          rw [e]
          exact hval _ (by omega) (by omega)
        · split
          · intro b hb; simp only [List.not_mem_nil] at hb
          · split
            · intro b hb; simp only [List.not_mem_nil] at hb
            · split
              · intro b hb; simp only [List.not_mem_nil] at hb
              · rename_i hv
                have hvalid : isValueByte (rd buf off) = true := by
                  apply isValueByte_of_valid
                  simpa using hv
                apply hv_any_loop_clean buf total mx vb n (off + 1)
                · split <;> omega
                · intro j hj1 hj2
                  by_cases hj : j < off
                  · exact hval j hj1 hj
                  · rw [show j = off by omega]
                    exact hvalid

/-- The value `hv_get_value_number` leaves holds value bytes only. -/
theorem hv_number_loop_clean (buf : Bytes) (total mx vb : Nat) :
    ∀ (n off ve : Nat) (sd : Bool),
    ve ≤ off → (∀ j, vb ≤ j → j < off → isValueByte (rd buf j) = true) →
    ∀ b ∈ (hv_number_loop buf total mx vb n off ve sd).hv, isValueByte b = true
  | 0, off, ve, sd, _, _ => by
    intro b hb
    simp only [hv_number_loop, List.not_mem_nil] at hb
  | n + 1, off, ve, sd, hve, hval => by
    have hfin : ∀ (o2 : Nat), ∀ b ∈ (if (!sd) = true
        then (⟨FlagBits.FLAG_INVALID_HEADER_VALUE, o2, []⟩ : ParseResult)
        else ⟨FlagBits.FLAG_OK, o2, slice buf vb (ve - vb)⟩).hv, isValueByte b = true := by
      intro o2 b hb
      split at hb
      · simp only [List.not_mem_nil] at hb
      · obtain ⟨i, hi, e⟩ := mem_slice buf vb _ b hb
        rw [e]
        exact hval _ (by omega) (by omega)
    unfold hv_number_loop
    simp only []
    split
    · intro b hb; simp only [List.not_mem_nil] at hb
    · split
      · intro b hb; simp only [List.not_mem_nil] at hb
      · split
        · exact hfin off
        · split
          · rename_i hd
            apply hv_number_loop_clean buf total mx vb n (off + 1) (off + 1) true
              (Nat.le_refl _)
            intro j hj1 hj2
            by_cases hj : j < off
            · exact hval j hj1 hj
            · rw [show j = off by omega]
              unfold isValueByte
              simp only [Bool.or_eq_true, beq_iff_eq, decide_eq_true_eq]
              exact Or.inr (by omega)
          · split
            · split
              · intro b hb; simp only [List.not_mem_nil] at hb
              · exact hfin _
            · intro b hb; simp only [List.not_mem_nil] at hb

theorem HEADERS_clean (id : HeaderId) (buf : Bytes) (off total mx : Nat) :
    ∀ b ∈ ((HEADERS id).value_parser_fn buf off total mx).hv, isValueByte b = true := by
  cases id <;> first
    | exact hv_any_loop_clean buf total mx off (total - off) off off (Nat.le_refl _)
        (fun j h1 h2 => absurd h2 (by omega))
    | exact hv_number_loop_clean buf total mx off (total - off) off off false (Nat.le_refl _)
        (fun j h1 h2 => absurd h2 (by omega))

theorem mem_c_str (v : Bytes) (b : Nat) (h : b ∈ c_str v) : b ∈ v := by
  unfold c_str at h
  exact (List.takeWhile_sublist _).subset h

theorem cleanValues_Set : ∀ (hs : Obj) (k v : Bytes), cleanValues hs →
    (∀ b ∈ v, isValueByte b = true) → cleanValues (hs.Set k v)
  | [], k, v, _, hv => by
    intro kv hkv
    simp only [Obj.Set, List.mem_singleton] at hkv
    rw [hkv]
    exact hv
  | (k0, v0) :: rest, k, v, h, hv => by
    unfold Obj.Set
    split
    · intro kv hkv
      rcases List.mem_cons.mp hkv with e | hm
      · rw [e]; exact hv
      · exact h kv (List.mem_cons_of_mem _ hm)
    · intro kv hkv
      rcases List.mem_cons.mp hkv with e | hm
      · rw [e]; exact h _ (List.mem_cons_self _ _)
      · exact cleanValues_Set rest k v (fun x hx => h x (List.mem_cons_of_mem _ hx)) hv kv hm

theorem cleanValues_Get (hs : Obj) (k : Bytes) (h : cleanValues hs) :
    ∀ b ∈ hs.Get k, isValueByte b = true := by
  unfold Obj.Get
  cases hf : hs.find? (fun kv => kv.1 == k) with
  | none => intro b hb; simp only [List.not_mem_nil] at hb
  | some kv => exact h kv (List.mem_of_find?_eq_some hf)

/-- Storing a value of value bytes keeps the mapping clean, also when it is merged. -/
theorem cleanValues_store (s : Scan) (v : Bytes) (h : cleanValues s.outHeaders)
    (hv : ∀ b ∈ v, isValueByte b = true) : cleanValues (s.store v) := by
  unfold Scan.store
  split
  · exact cleanValues_Set _ _ _ h hv
  · split
    · apply cleanValues_Set _ _ _ h
      intro b hb
      rcases List.mem_append.mp hb with hb | hb
      · rcases List.mem_append.mp hb with hb | hb
        · exact cleanValues_Get _ _ h b hb
        · have : ∀ x ∈ B ", ", isValueByte x = true := by decide
          exact this b hb
      · exact hv b hb
    · exact cleanValues_Set _ _ _ h hv

theorem nameOk_round (c : Cfg) (s : Scan) (st : Step) (h : Step.nameOk s st) :
    Step.round c s st := by
  cases st with
  | ret f s2 => exact Or.inl ⟨h.1, h.2, fun hx => by cases hx⟩
  | next s2 => exact Or.inl ⟨h.2.1, h.2.2.1, fun _ => h.1⟩

theorem ite_round (c : Cfg) (s : Scan) (p : Prop) [Decidable p] (a b : Step)
    (ha : Step.round c s a) (hb : Step.round c s b) :
    Step.round c s (if p then a else b) := by
  split <;> assumption

theorem st_STARTUP_round (c : Cfg) (s : Scan) : Step.round c s (st_STARTUP c s) := by
  unfold st_STARTUP
  simp only []
  have key0 : ∀ (f : FlagBits), Step.round c s (Step.ret f s) :=
    fun f => Or.inl ⟨rfl, rfl, fun hx => by cases hx⟩
  have key1 : ∀ st : State, Step.round c s (Step.next (s.started st)) :=
    fun _ => Or.inl ⟨rfl, rfl, fun _ => Nat.le_succ _⟩
  have key2 : Step.round c s
      (Step.next { s with vStart := s.__offset, state := State.ST_HN_UNKNOWN }) :=
    Or.inl ⟨rfl, rfl, fun _ => Nat.le_refl _⟩
  repeat' first
    | exact key0 _
    | exact key1 _
    | exact key2
    | apply ite_round

theorem st_HN_UNKNOWN_round (c : Cfg) (s : Scan) : Step.round c s (st_HN_UNKNOWN c s) := by
  unfold st_HN_UNKNOWN
  split
  · exact Or.inl ⟨rfl, rfl, fun hx => by cases hx⟩
  · rename_i off he
    have := unknownLoop_none c _ _ _ _ he
    exact Or.inl ⟨rfl, rfl, fun _ => Nat.le_of_lt this⟩

theorem st_HV_CONCAT_round (c : Cfg) (s : Scan) : Step.round c s (st_HV_CONCAT c s) := by
  have hle := HEADERS_lineEnd s.hdrId c.buf
    (skipOWS c (c.total - s.__offset) s.__offset) c.total c.maxHeaderValueSize
  have hcl := HEADERS_clean s.hdrId c.buf
    (skipOWS c (c.total - s.__offset) s.__offset) c.total c.maxHeaderValueSize
  have hsk := skipOWS_ge c (c.total - s.__offset) s.__offset
  by_cases hf : ((HEADERS s.hdrId).value_parser_fn c.buf
      (skipOWS c (c.total - s.__offset) s.__offset) c.total c.maxHeaderValueSize).flag
      = FlagBits.FLAG_OK
  · rw [st_HV_CONCAT_ok c s _ rfl hf _ rfl]
    generalize (HEADERS s.hdrId).value_parser_fn c.buf
      (skipOWS c (c.total - s.__offset) s.__offset) c.total c.maxHeaderValueSize = r at *
    obtain ⟨h1, h2, h3⟩ := hle hf
    by_cases hcr : rd c.buf r.cur = 13 ∧ (r.cur + 1 ≥ c.total ∨ rd c.buf (r.cur + 1) ≠ 10)
    · rw [if_pos hcr]
      exact Or.inl ⟨rfl, rfl, fun hx => by cases hx⟩
    · rw [if_neg hcr]
      have he : (s.__offset < (if rd c.buf r.cur = 13 then r.cur + 2
            else if rd c.buf r.cur = 10 then r.cur + 1 else r.cur))
          ∧ (if rd c.buf r.cur = 13 then r.cur + 2
              else if rd c.buf r.cur = 10 then r.cur + 1 else r.cur) ≤ c.total
          ∧ rd c.buf ((if rd c.buf r.cur = 13 then r.cur + 2
              else if rd c.buf r.cur = 10 then r.cur + 1 else r.cur) - 1) = 10 := by
        rcases h3 with h3 | h3
        · rw [if_pos h3]
          have hn : r.cur + 1 < c.total ∧ rd c.buf (r.cur + 1) = 10 := by
            constructor
            · by_contra hh
              exact hcr ⟨h3, Or.inl (by omega)⟩
            · by_contra hh
              exact hcr ⟨h3, Or.inr hh⟩
          exact ⟨by omega, by omega, by rw [show r.cur + 2 - 1 = r.cur + 1 by omega]; exact hn.2⟩
        · rw [if_neg (by omega), if_pos h3]
          exact ⟨by omega, by omega, by rw [show r.cur + 1 - 1 = r.cur by omega]; exact h3⟩
      generalize (if rd c.buf r.cur = 13 then r.cur + 2
            else if rd c.buf r.cur = 10 then r.cur + 1 else r.cur) = e at he
      have hv : ∀ b ∈ c_str r.hv, isValueByte b = true :=
        fun b hb => hcl b (mem_c_str _ _ hb)
      by_cases hend : e + 1 < c.total ∧ rd c.buf e = 13 ∧ rd c.buf (e + 1) = 10
      · rw [if_pos hend]
        exact Or.inr ⟨c_str r.hv, e, hv, he.1, he.2.1, he.2.2, rfl,
          Or.inl ⟨rfl, rfl, hend.1, hend.2.1, hend.2.2⟩⟩
      · rw [if_neg hend]
        exact Or.inr ⟨c_str r.hv, e, hv, he.1, he.2.1, he.2.2, rfl,
          Or.inr ⟨rfl, ⟨rfl, rfl, rfl, rfl, rfl⟩, rfl⟩⟩
  · unfold st_HV_CONCAT
    simp only []
    rw [if_pos hf]
    exact Or.inl ⟨rfl, rfl, fun hx => by cases hx⟩

/-- Every round of the loop is as `Step.round` says. -/
theorem step_round (c : Cfg) (s : Scan) : Step.round c s (step c s) := by
  unfold step
  cases hst : s.state <;> simp only []
  · exact st_STARTUP_round c s
  · exact Or.inl ⟨rfl, rfl, fun _ => Nat.le_succ _⟩
  · exact st_HN_UNKNOWN_round c s
  · exact nameOk_round c s _ (st_HN_H_nameOk c s)
  · exact nameOk_round c s _ (st_HN_A_nameOk c s)
  · exact nameOk_round c s _ (st_HN_C_nameOk c s)
  · exact nameOk_round c s _ (st_HN_D_nameOk c s)
  · exact nameOk_round c s _ (st_HN_I_nameOk c s)
  · exact nameOk_round c s _ (st_HN_L_nameOk c s)
  · exact nameOk_round c s _ (st_HN_O_nameOk c s)
  · exact nameOk_round c s _ (st_HN_P_nameOk c s)
  · exact nameOk_round c s _ (st_HN_S_nameOk c s)
  · exact nameOk_round c s _ (st_HN_T_nameOk c s)
  · exact nameOk_round c s _ (st_HN_U_nameOk c s)
  · exact nameOk_round c s _ (st_HN_V_nameOk c s)
  · exact nameOk_round c s _ (st_HN_W_nameOk c s)
  · exact nameOk_round c s _ (st_HN_X_nameOk c s)
  · exact st_HV_CONCAT_round c s

/-- The offset a run of the loop leaves is the committed offset it started with, or a larger
one just after an LF inside the buffer. -/
theorem scanLoop_commit (c : Cfg) : ∀ (n : Nat) (s : Scan) (res : ScanResult),
    s.offset ≤ s.__offset → scanLoop c n s = some res →
    s.offset ≤ res.offset
      ∧ (res.offset ≠ s.offset → rd c.buf (res.offset - 1) = 10 ∧ res.offset ≤ c.total)
  | 0, _, _, _, h => by cases h
  | n + 1, s, res, hle, h => by
    rw [scanLoop_succ] at h
    by_cases hh : s.__offset ≥ c.total ∧ s.state ≠ State.ST_HV_CONCAT
    · rw [if_pos hh] at h
      simp only [Option.some.injEq] at h
      rw [← h]
      exact ⟨Nat.le_refl _, fun hx => absurd rfl hx⟩
    · rw [if_neg hh] at h
      have hr := step_round c s
      cases hs : step c s with
      | ret f s2 =>
        rw [hs] at h hr
        simp only [Option.some.injEq] at h
        rw [← h]
        rcases hr with ⟨h1, _, _⟩ | ⟨v, e, _, he1, he2, he3, _, hk | hk⟩
        · have e1 : s2.offset = s.offset := h1
          exact ⟨by simp only [e1]; exact Nat.le_refl _, fun hx => absurd e1 hx⟩
        · have e1 : s2.offset = e + 2 := hk.2.1
          simp only [e1]
          refine ⟨by omega, fun _ => ⟨?_, by omega⟩⟩
          rw [show e + 2 - 1 = e + 1 by omega]
          exact hk.2.2.2.2
        · have : Step.flag (Step.ret f s2) = none := hk.1
          cases this
      | next s2 =>
        rw [hs] at h hr
        simp only [] at h
        rcases hr with ⟨h1, _, h3⟩ | ⟨v, e, _, he1, he2, he3, _, hk | hk⟩
        · have e1 : s2.offset = s.offset := h1
          have e3 : s.__offset ≤ s2.__offset := h3 rfl
          have ih := scanLoop_commit c n s2 res (by omega) h
          rw [e1] at ih
          exact ih
        · have : Step.flag (Step.next s2) = some FlagBits.FLAG_OK := hk.1
          cases this
        · have hls : s2.lineStart := hk.2.1
          have e1 : s2.offset = e := hk.2.2
          have ih := scanLoop_commit c n s2 res (Nat.le_of_eq hls.2.1) h
          rw [e1] at ih
          refine ⟨by omega, fun _ => ?_⟩
          by_cases hx : res.offset = e
          · rw [hx]
            exact ⟨he3, he2⟩
          · exact ih.2 hx

/-- A run of the loop keeps the header mapping clean. -/
theorem scanLoop_clean (c : Cfg) : ∀ (n : Nat) (s : Scan) (res : ScanResult),
    cleanValues s.outHeaders → scanLoop c n s = some res → cleanValues res.headers
  | 0, _, _, _, h => by cases h
  | n + 1, s, res, hcl, h => by
    rw [scanLoop_succ] at h
    by_cases hh : s.__offset ≥ c.total ∧ s.state ≠ State.ST_HV_CONCAT
    · rw [if_pos hh] at h
      simp only [Option.some.injEq] at h
      rw [← h]
      exact hcl
    · rw [if_neg hh] at h
      have hr := step_round c s
      have hnext : cleanValues (Step.scan (step c s)).outHeaders := by
        rcases hr with ⟨_, h2, _⟩ | ⟨v, e, hv, _, _, _, h5, _⟩
        · rw [h2]; exact hcl
        · rw [h5]; exact cleanValues_store s v hcl hv
      cases hs : step c s with
      | ret f s2 =>
        rw [hs] at h hnext
        simp only [Option.some.injEq] at h
        rw [← h]
        exact hnext
      | next s2 =>
        rw [hs] at h hnext
        exact scanLoop_clean c n s2 res hnext h

/-- The result of the loop does not depend on the budget, once the budget is enough. -/
theorem scanLoop_fuel (c : Cfg) : ∀ (n : Nat) (s : Scan) (r : ScanResult),
    scanLoop c n s = some r → ∀ n2, (scanLoop c n2 s).isSome = true → scanLoop c n2 s = some r
  | 0, _, _, h, _, _ => by cases h
  | n + 1, s, r, h, n2, h2 => by
    cases n2 with
    | zero => cases h2
    | succ n2 =>
      rw [scanLoop_succ] at h h2 ⊢
      by_cases hh : s.__offset ≥ c.total ∧ s.state ≠ State.ST_HV_CONCAT
      · rw [if_pos hh] at h ⊢
        exact h
      · rw [if_neg hh] at h h2 ⊢
        cases hs : step c s with
        | ret f s2 =>
          rw [hs] at h
          exact h
        | next s2 =>
          rw [hs] at h h2
          exact scanLoop_fuel c n s2 r h n2 h2

theorem scanRounds_snoc (c : Cfg) : ∀ (k : Nat) (s0 s s2 : Scan),
    scanRounds c k s0 = some s → ¬ (s.__offset ≥ c.total ∧ s.state ≠ State.ST_HV_CONCAT) →
    step c s = Step.next s2 → scanRounds c (k + 1) s0 = some s2
  | 0, s0, s, s2, h, hh, hs => by
    simp only [scanRounds, Option.some.injEq] at h
    rw [h, scanRounds_succ, if_neg hh, hs]
    rfl
  | k + 1, s0, s, s2, h, hh, hs => by
    rw [scanRounds_succ] at h ⊢
    by_cases h0 : s0.__offset ≥ c.total ∧ s0.state ≠ State.ST_HV_CONCAT
    · rw [if_pos h0] at h
      cases h
    · rw [if_neg h0] at h ⊢
      cases hs0 : step c s0 with
      | ret f s3 =>
        rw [hs0] at h
        cases h
      | next s3 =>
        rw [hs0] at h
        exact scanRounds_snoc c k s3 s s2 h hh hs

/-- A run of the loop that does not return OK ends in the line whose start state it names:
the offset and the mapping returned are those of that state, and the loop run from that
state returns the same result. -/
theorem scanLoop_restart (c : Cfg) : ∀ (n : Nat) (s : Scan) (res : ScanResult),
    scanLoop c n s = some res → res.flag ≠ FlagBits.FLAG_OK →
    ∀ (s0 : Scan) (k : Nat), s0.lineStart → scanRounds c k s0 = some s →
      s.offset = s0.offset → s.outHeaders = s0.outHeaders →
      ∃ s1 m, s1.lineStart ∧ s1.offset = res.offset ∧ s1.outHeaders = res.headers
        ∧ scanLoop c m s1 = some res
  | 0, _, _, h, _, _, _, _, _, _, _ => by cases h
  | n + 1, s, res, h, hf, s0, k, hls, hk, ho, hh0 => by
    have hrun := scanRounds_scanLoop c k s0 s hk (n + 1)
    rw [scanLoop_succ] at h
    by_cases hh : s.__offset ≥ c.total ∧ s.state ≠ State.ST_HV_CONCAT
    · rw [if_pos hh] at h
      simp only [Option.some.injEq] at h
      rw [← h] at hf
      exact absurd rfl hf
    · rw [if_neg hh] at h
      have hr := step_round c s
      cases hs : step c s with
      | ret f s2 =>
        rw [hs] at h hr
        simp only [Option.some.injEq] at h
        rcases hr with ⟨h1, h2, _⟩ | ⟨v, e, _, _, _, _, _, hx | hx⟩
        · have e1 : s2.offset = s.offset := h1
          have e2 : s2.outHeaders = s.outHeaders := h2
          refine ⟨s0, k + (n + 1), hls, ?_, ?_, ?_⟩
          · rw [← h]; simp only [e1, ho]
          · rw [← h]; simp only [e2, hh0]
          · rw [hrun, scanLoop_succ, if_neg hh, hs]
            simp only [h]
        · have e1 : some f = some FlagBits.FLAG_OK := hx.1
          simp only [Option.some.injEq] at e1
          rw [← h] at hf
          exact absurd e1 hf
        · have : Step.flag (Step.ret f s2) = none := hx.1
          cases this
      | next s2 =>
        rw [hs] at h hr
        rcases hr with ⟨h1, h2, _⟩ | ⟨v, e, _, _, _, _, _, hx | hx⟩
        · have e1 : s2.offset = s.offset := h1
          have e2 : s2.outHeaders = s.outHeaders := h2
          exact scanLoop_restart c n s2 res h hf s0 (k + 1) hls
            (scanRounds_snoc c k s0 s s2 hk hh hs) (by rw [e1, ho]) (by rw [e2, hh0])
        · have : Step.flag (Step.next s2) = some FlagBits.FLAG_OK := hx.1
          cases this
        · exact scanLoop_restart c n s2 res h hf s2 0 hx.2.1 rfl rfl rfl

theorem ite_sameLine (s : Scan) (v : Nat) (p : Prop) [Decidable p] (a1 b1 a2 b2 : Step)
    (ha : Step.sameLine s v a1 a2) (hb : Step.sameLine s v b1 b2) :
    Step.sameLine s v (if p then a1 else b1) (if p then a2 else b2) := by
  split <;> assumption

/-- Case `ST_STARTUP` does not read `vStart`. -/
theorem st_STARTUP_vStart (c : Cfg) (s : Scan) (v : Nat) :
    Step.sameLine s v (st_STARTUP c { s with vStart := v }) (st_STARTUP c s) := by
  unfold st_STARTUP Scan.cut
  simp only []
  repeat' first
    | exact Or.inl ⟨_, rfl, rfl⟩
    | exact Or.inr ⟨_, rfl, rfl⟩
    | apply ite_sameLine

/-- At the start of a line the value of `vStart` does not matter. -/
theorem scanLoop_vStart (c : Cfg) (n : Nat) (s : Scan) (v : Nat)
    (hst : s.state = State.ST_STARTUP) :
    scanLoop c n { s with vStart := v } = scanLoop c n s := by
  cases n with
  | zero => rfl
  | succ n =>
    rw [scanLoop_succ, scanLoop_succ]
    have e1 : step c s = st_STARTUP c s := by unfold step; rw [hst]
    have e2 : step c { s with vStart := v } = st_STARTUP c { s with vStart := v } := by
      unfold step
      simp only [hst]
    rw [e1, e2]
    by_cases hh : s.__offset ≥ c.total ∧ s.state ≠ State.ST_HV_CONCAT
    · rw [if_pos hh, if_pos hh]
    · rw [if_neg hh, if_neg hh]
      rcases st_STARTUP_vStart c s v with ⟨f, h1, h2⟩ | ⟨s2, h1, h2⟩
      · rw [h1, h2]
      · rw [h1, h2]

theorem toInt_inj (i j : Nat) (hi : i < 4294967296) (hj : j < 4294967296)
    (h : toInt i = toInt j) : i = j := by
  unfold toInt at h
  split at h <;> split at h <;> omega

theorem toInt_of_nonneg (j : Nat) (hj : j < 4294967296) (h : 0 ≤ toInt j) :
    toInt j = j ∧ j < 2147483648 := by
  unfold toInt at h ⊢
  split at h <;> split <;> omega

theorem toInt_small (j : Nat) (hj : j < 2147483648) : toInt j = j := by
  unfold toInt
  split <;> omega

theorem toInt_le (j : Nat) : toInt j ≤ j := by
  unfold toInt
  split <;> omega

theorem toInt_ge (j : Nat) : -2147483648 ≤ toInt j := by
  unfold toInt
  split <;> omega

theorem toSize_lt (idx : Int) (n : Nat) (hlo : -2147483648 ≤ idx) (hhi : idx < 2147483648)
    (hn : n < 4294967296) (h : toSize idx < n) : 0 ≤ idx ∧ idx.toNat < n := by
  unfold toSize at h
  omega

theorem toSize_of_nonneg (idx : Int) (h0 : 0 ≤ idx) (h1 : idx < 2147483648) :
    toSize idx = idx.toNat := by
  unfold toSize
  omega

theorem Int32Value_range (x : Int) : -2147483648 ≤ Int32Value x ∧ Int32Value x < 2147483648 := by
  unfold Int32Value toInt
  split <;> omega

theorem Uint32Value_lt (x : Int) : Uint32Value x < 4294967296 := by
  unfold Uint32Value
  omega

theorem entryAt_set (es : List PoolEntry) (i j : Nat) (e : PoolEntry) :
    entryAt (es.set i e) j = if i = j ∧ i < es.length then e else entryAt es j := by
  unfold entryAt
  rw [List.getElem?_set]
  by_cases hij : i = j
  · subst hij
    by_cases hl : i < es.length
    · simp [hl]
    · simp [hl, List.getElem?_eq_none (Nat.le_of_not_lt hl)]
  · simp [hij]

theorem entryAt_ge (es : List PoolEntry) (j : Nat) (h : es.length ≤ j) :
    entryAt es j = PoolEntry.fresh := by
  unfold entryAt
  rw [List.getElem?_eq_none h]
  rfl

theorem inUse_setInUse (es : List PoolEntry) (i j : Nat) (b : Bool) :
    (entryAt (setInUse es i b) j).inUse
      = if i = j ∧ i < es.length then b else (entryAt es j).inUse := by
  unfold setInUse
  rw [entryAt_set]
  split <;> rfl

theorem length_setInUse (es : List PoolEntry) (i : Nat) (b : Bool) :
    (setInUse es i b).length = es.length := by
  unfold setInUse
  simp

theorem inUse_setRef (es : List PoolEntry) (i j : Nat) (b : Bool) :
    (entryAt (setRef es i b) j).inUse = (entryAt es j).inUse := by
  unfold setRef
  rw [entryAt_set]
  split
  · rename_i h
    rw [h.1]
  · rfl

theorem length_setRef (es : List PoolEntry) (i : Nat) (b : Bool) :
    (setRef es i b).length = es.length := by
  unfold setRef
  simp

theorem inUse_unrefAt (es : List PoolEntry) (i j : Nat) :
    (entryAt (unrefAt es i) j).inUse = (entryAt es j).inUse := by
  unfold unrefAt
  split
  · exact inUse_setRef es i j false
  · rfl

theorem length_unrefAt (es : List PoolEntry) (i : Nat) :
    (unrefAt es i).length = es.length := by
  unfold unrefAt
  split
  · exact length_setRef es i false
  · rfl

theorem unref_foldl (l : List Nat) : ∀ (es : List PoolEntry),
    (l.foldl unrefAt es).length = es.length
      ∧ ∀ j, (entryAt (l.foldl unrefAt es) j).inUse = (entryAt es j).inUse := by
  induction l with
  | nil => intro es; exact ⟨rfl, fun _ => rfl⟩
  | cons a l ih =>
    intro es
    have h := ih (unrefAt es a)
    simp only [List.foldl_cons]
    exact ⟨by rw [h.1, length_unrefAt], fun j => by rw [h.2 j, inUse_unrefAt]⟩

theorem length_unrefRange (es : List PoolEntry) (a b : Nat) :
    (unrefRange es a b).length = es.length := (unref_foldl _ es).1

theorem inUse_unrefRange (es : List PoolEntry) (a b j : Nat) :
    (entryAt (unrefRange es a b) j).inUse = (entryAt es j).inUse := (unref_foldl _ es).2 j

theorem length_vresize (es : List PoolEntry) (n : Nat) : (vresize es n).length = n := by
  unfold vresize
  simp only [List.length_append, List.length_take, List.length_replicate]
  omega

theorem entryAt_vresize (es : List PoolEntry) (n j : Nat) :
    entryAt (vresize es n) j = if j < n then entryAt es j else PoolEntry.fresh := by
  by_cases hj : j < n
  · rw [if_pos hj]
    unfold entryAt vresize
    by_cases hl : j < es.length
    · rw [List.getElem?_append_left (by simp only [List.length_take]; omega),
        List.getElem?_take_of_lt hj]
    · rw [List.getElem?_append_right (by simp only [List.length_take]; omega)]
      rw [List.getElem?_eq_none (Nat.le_of_not_lt hl)]
      rw [List.getElem?_replicate]
      simp only [List.length_take]
      rw [if_pos (by omega)]
      rfl
  · rw [if_neg hj]
    exact entryAt_ge _ _ (by rw [length_vresize]; omega)

theorem setInUse_foldl (l : List Nat) : ∀ (es : List PoolEntry),
    (l.foldl (fun es i => setInUse es i false) es).length = es.length
      ∧ ∀ j, (entryAt (l.foldl (fun es i => setInUse es i false) es) j).inUse
          = if j ∈ l then false else (entryAt es j).inUse := by
  induction l with
  | nil => intro es; exact ⟨rfl, fun _ => by simp⟩
  | cons a l ih =>
    intro es
    have h := ih (setInUse es a false)
    simp only [List.foldl_cons]
    refine ⟨by rw [h.1, length_setInUse], fun j => ?_⟩
    rw [h.2 j, inUse_setInUse]
    by_cases hjl : j ∈ l
    · simp [hjl]
    · by_cases hja : a = j
      · subst hja
        by_cases hlen : a < es.length
        · simp [hlen]
        · simp only [hjl, hlen, and_false, if_false, List.mem_cons, true_or, if_true]
          rw [entryAt_ge es a (Nat.le_of_not_lt hlen)]
          rfl
      · have : ¬ j = a := fun h => hja h.symm
        simp [hjl, hja, this]

theorem stackOk_congr (es es2 : List PoolEntry) (a : Nat) (st : List Int)
    (h : ∀ j, j < a → (entryAt es j).inUse = false → (entryAt es2 j).inUse = false)
    (hs : stackOk es a st) : stackOk es2 a st :=
  ⟨hs.1, fun idx hi => by
    obtain ⟨j, h1, h2, h3⟩ := hs.2 idx hi
    exact ⟨j, h1, h2, h j h1 h3⟩⟩

theorem stackOk_sublist (es : List PoolEntry) (a : Nat) (st st2 : List Int)
    (h : List.Sublist st2 st) (hs : stackOk es a st) : stackOk es a st2 :=
  ⟨hs.1.sublist h, fun idx hi => hs.2 idx (h.subset hi)⟩

theorem stackOk_zero (es : List PoolEntry) (st : List Int) (hs : stackOk es 0 st) : st = [] := by
  apply List.eq_nil_iff_forall_not_mem.mpr
  intro idx hi
  obtain ⟨j, h1, _, _⟩ := hs.2 idx hi
  omega

theorem stackOk_append (es : List PoolEntry) (a old n : Nat) (st : List Int) (l : List Nat)
    (hs : stackOk es a st) (ha : a ≤ old) (hon : old ≤ n) (hn : n < 4294967296) (hl : l.Nodup)
    (hr : ∀ j ∈ l, old ≤ j ∧ j < n ∧ (entryAt es j).inUse = false) :
    stackOk es n (st ++ l.map toInt) := by
  refine ⟨?_, fun idx hi => ?_⟩
  · rw [List.nodup_append]
    refine ⟨hs.1, ?_, ?_⟩
    · apply List.Nodup.map_on _ hl
      intro x hx y hy hxy
      exact toInt_inj x y (by have := (hr x hx).2.1; omega) (by have := (hr y hy).2.1; omega) hxy
    · intro idx h1 h2
      obtain ⟨j, hj1, hj2, _⟩ := hs.2 idx h1
      obtain ⟨k, hk1, hk2⟩ := List.mem_map.mp h2
      have hk := hr k hk1
      have : k = j := toInt_inj k j (by omega) (by omega) (by rw [hk2, hj2])
      omega
  · rcases List.mem_append.mp hi with h1 | h2
    · obtain ⟨j, hj1, hj2, hj3⟩ := hs.2 idx h1
      exact ⟨j, by omega, hj2, hj3⟩
    · obtain ⟨k, hk1, hk2⟩ := List.mem_map.mp h2
      have hk := hr k hk1
      exact ⟨k, hk.2.1, hk2.symm, hk.2.2⟩

theorem stackOk_rebuild (es : List PoolEntry) (n : Nat) (hn : n < 4294967296) :
    stackOk es n (rebuildFreeStack es n) := by
  have h := stackOk_append es 0 0 n [] ((List.range n).filter (fun i => !(entryAt es i).inUse))
    ⟨List.nodup_nil, fun _ hx => absurd hx (List.not_mem_nil _)⟩ (Nat.le_refl _) (Nat.zero_le _) hn
    (List.Nodup.filter _ (List.nodup_range n))
    (fun j hj => by
      have h1 := List.mem_filter.mp hj
      have h2 := List.mem_range.mp h1.1
      have h3 := h1.2
      simp only [Bool.not_eq_true_eq_eq_false, Bool.not_eq_true] at h3
      exact ⟨Nat.zero_le _, h2, h3⟩)
  rw [List.nil_append] at h
  exact h

theorem stackOk_filter (es : List PoolEntry) (a n : Nat) (st : List Int)
    (hs : stackOk es a st) (ha : a < 4294967296) (hn : n < 4294967296) :
    stackOk es n (st.filter (fun idx => decide (toSize idx < n))) := by
  refine ⟨hs.1.filter _, fun idx hi => ?_⟩
  have h1 := List.mem_filter.mp hi
  obtain ⟨j, hj1, hj2, hj3⟩ := hs.2 idx h1.1
  have h2 : toSize idx < n := of_decide_eq_true h1.2
  have hlo : -2147483648 ≤ idx := by rw [hj2]; exact toInt_ge j
  have hhi : idx < 2147483648 := by
    rw [hj2]
    unfold toInt
    split <;> omega
  have h3 := toSize_lt idx n hlo hhi hn h2
  have h4 := toInt_of_nonneg j (by omega) (by rw [← hj2]; exact h3.1)
  exact ⟨j, by rw [hj2, h4.1] at h3; have := h3.2; omega, hj2, hj3⟩

theorem popFreeIndex_spec (st : List Int) :
    popFreeIndex st = (-1, st) ∨ ∃ idx, popFreeIndex st = (idx, st.dropLast)
      ∧ st = st.dropLast ++ [idx] := by
  unfold popFreeIndex
  cases h : st.getLast? with
  | none => exact Or.inl rfl
  | some idx =>
    exact Or.inr ⟨idx, rfl, (List.dropLast_append_getLast? idx (by rw [h]; rfl)).symm⟩

theorem Inv_new : CPool.new.Inv :=
  ⟨rfl, Nat.le_refl _, by decide, List.nodup_nil, fun _ hx => absurd hx (List.not_mem_nil _)⟩

theorem Inv_finalizeShrinkIfNeeded (p : CPool) (h : p.Inv) : p.finalizeShrinkIfNeeded.Inv := by
  unfold CPool.finalizeShrinkIfNeeded
  split
  · exact h
  · obtain ⟨h1, h2, h3, h4⟩ := h
    exact ⟨length_vresize _ _, Nat.le_refl _, by show p.m_activeSize < _; omega,
      stackOk_rebuild _ _ (by show p.m_activeSize < _; omega)⟩

theorem Inv_RegisterObj (p : CPool) (h : p.Inv) : p.RegisterObj.Inv := by
  unfold CPool.RegisterObj
  split
  · exact h
  · split
    · exact h
    · obtain ⟨h1, h2, h3, h4⟩ := h
      exact ⟨by show List.length (setRef _ _ _) = _; rw [length_setRef]; exact h1, h2, h3,
        stackOk_congr _ _ _ _ (fun j _ hj => by rw [inUse_setRef]; exact hj) h4⟩

theorem Inv_InitializePool (p : CPool) (x : Int) (h : p.Inv) : (p.InitializePool x).Inv := by
  unfold CPool.InitializePool
  simp only []
  split
  · exact h
  · split
    · exact h
    · rename_i hn hc
      obtain ⟨h1, h2, h3, h4⟩ := h
      have hc0 : p.m_currentSize = 0 := by
        by_contra hx
        exact hc hx
      have ha0 : p.m_activeSize = 0 := by omega
      rw [ha0] at h4
      have hst := stackOk_zero _ _ h4
      have hf := setInUse_foldl (List.range (Uint32Value x)) (vresize p.m_poolEntries (Uint32Value x))
      refine ⟨by show List.length (List.foldl _ _ _) = _; rw [hf.1, length_vresize], Nat.le_refl _,
        Uint32Value_lt x, ?_⟩
      show stackOk _ (Uint32Value x) (p.m_freeStack ++ _)
      apply stackOk_append _ 0 0 _ _ _ _ (Nat.le_refl _) (Nat.zero_le _) (Uint32Value_lt x)
        (List.nodup_range _)
      · intro j hj
        refine ⟨Nat.zero_le _, List.mem_range.mp hj, ?_⟩
        rw [hf.2 j, if_pos hj]
      · rw [hst]
        exact ⟨List.nodup_nil, fun _ hx => absurd hx (List.not_mem_nil _)⟩

theorem Allocate_spec (p : CPool) (h : p.Inv) :
    p.Allocate.Inv
      ∧ (p.Allocate.m_poolEntries = p.m_poolEntries
          ∨ ∃ j, j < p.m_activeSize ∧ (entryAt p.m_poolEntries j).inUse = false
              ∧ p.m_freeStack = p.Allocate.m_freeStack ++ [(j : Int)]
              ∧ p.Allocate.m_poolEntries = setInUse p.m_poolEntries j true) := by
  obtain ⟨h1, h2, h3, h4⟩ := h
  unfold CPool.Allocate
  simp only []
  split
  · exact ⟨⟨h1, h2, h3, h4⟩, Or.inl rfl⟩
  · rcases popFreeIndex_spec p.m_freeStack with he | ⟨idx, he, hst⟩
    · rw [he]
      simp only [if_true]
      refine ⟨⟨h1, h2, h3, h4⟩, Or.inl ?_⟩
      trivial
    · rw [he]
      simp only []
      have hsub : List.Sublist p.m_freeStack.dropLast p.m_freeStack := List.dropLast_sublist _
      split
      · exact ⟨⟨h1, h2, h3, stackOk_sublist _ _ _ _ hsub h4⟩, Or.inl rfl⟩
      · split
        · refine ⟨⟨h1, h2, h3, ?_⟩, Or.inl rfl⟩
          show stackOk _ _ (p.m_freeStack.dropLast ++ [idx])
          rw [← hst]
          exact h4
        · rename_i hne hlt
          have hmem : idx ∈ p.m_freeStack := by
            rw [hst]
            exact List.mem_append_right _ (List.mem_singleton_self _)
          obtain ⟨j, hj1, hj2, hj3⟩ := h4.2 idx hmem
          have hlo : -2147483648 ≤ idx := by rw [hj2]; exact toInt_ge j
          have hhi : idx < 2147483648 := by
            rw [hj2]
            unfold toInt
            split <;> omega
          have h5 := toSize_lt idx p.m_activeSize hlo hhi (by omega) (by omega)
          have h6 := toInt_of_nonneg j (by omega) (by rw [← hj2]; exact h5.1)
          have hidx : idx = (j : Int) := by rw [hj2, h6.1]
          have htn : idx.toNat = j := by rw [hidx]; rfl
          have hnd : (p.m_freeStack.dropLast ++ [idx]).Nodup := by rw [← hst]; exact h4.1
          have hnot : idx ∉ p.m_freeStack.dropLast := by
            intro hx
            exact (List.nodup_append.mp hnd).2.2 hx (List.mem_singleton_self _)
          refine ⟨⟨by show List.length (setInUse _ _ _) = _; rw [length_setInUse]; exact h1, h2, h3,
            ?_⟩, Or.inr ⟨j, hj1, hj3, ?_, ?_⟩⟩
          · show stackOk (setInUse _ _ _) _ p.m_freeStack.dropLast
            refine ⟨h4.1.sublist hsub, fun i2 hi2 => ?_⟩
            obtain ⟨k, hk1, hk2, hk3⟩ := h4.2 i2 (hsub.subset hi2)
            refine ⟨k, hk1, hk2, ?_⟩
            rw [inUse_setInUse, htn]
            have hjk : ¬ j = k := by
              intro hjk
              apply hnot
              rw [hj2, hjk, ← hk2]
              exact hi2
            rw [if_neg (fun hx => hjk hx.1)]
            exact hk3
          · show p.m_freeStack = p.m_freeStack.dropLast ++ [(j : Int)]
            rw [← hidx]
            exact hst
          · show setInUse _ idx.toNat true = _
            rw [htn]

theorem Free_noop (p : CPool) (x : Int)
    (h : (entryAt p.m_poolEntries (Int32Value x).toNat).inUse = false) : p.Free x = p := by
  unfold CPool.Free
  simp only []
  split
  · rfl
  · rw [if_pos (by rw [h]; decide)]

theorem Inv_Free (p : CPool) (x : Int) (h : p.Inv) : (p.Free x).Inv := by
  have hr := Int32Value_range x
  obtain ⟨h1, h2, h3, h4⟩ := h
  unfold CPool.Free
  simp only []
  split
  · exact ⟨h1, h2, h3, h4⟩
  · rename_i hin
    have hin0 : 0 ≤ Int32Value x := by
      by_contra hx
      exact hin (Or.inl (by omega))
    have hts := toSize_of_nonneg _ hin0 hr.2
    have hin1 : (Int32Value x).toNat < p.m_currentSize := by
      by_contra hx
      exact hin (Or.inr (by rw [hts]; omega))
    split
    · exact ⟨h1, h2, h3, h4⟩
    · rename_i hu
      have hu1 : (entryAt p.m_poolEntries (Int32Value x).toNat).inUse = true := by
        simpa using hu
      have hcl : stackOk (setInUse p.m_poolEntries (Int32Value x).toNat false) p.m_activeSize
          p.m_freeStack :=
        stackOk_congr _ _ _ _ (fun j _ hj => by
          rw [inUse_setInUse]
          split
          · rfl
          · exact hj) h4
      split
      · have hq : CPool.Inv ⟨unrefAt (setInUse p.m_poolEntries (Int32Value x).toNat false)
            (Int32Value x).toNat, p.m_freeStack, p.m_activeSize, p.m_currentSize,
            p.m_retiredCount, p.m_shrinking⟩ :=
          ⟨by show List.length (unrefAt _ _) = _; rw [length_unrefAt, length_setInUse]; exact h1,
            h2, h3, stackOk_congr _ _ _ _ (fun j _ hj => by rw [inUse_unrefAt]; exact hj) hcl⟩
        split
        · split
          · exact Inv_finalizeShrinkIfNeeded _ hq
          · exact hq
        · exact hq
      · rename_i hact
        have hlt : (Int32Value x).toNat < p.m_activeSize := by
          rw [hts] at hact
          omega
        refine ⟨by show List.length (setInUse _ _ _) = _; rw [length_setInUse]; exact h1, h2, h3, ?_⟩
        show stackOk _ _ (p.m_freeStack ++ [Int32Value x])
        have hidx : Int32Value x = toInt (Int32Value x).toNat := by
          rw [toInt_small _ (by omega)]
          omega
        refine ⟨?_, fun idx hi => ?_⟩
        · rw [List.nodup_append]
          refine ⟨h4.1, List.nodup_singleton _, ?_⟩
          intro idx hi1 hi2
          rw [List.mem_singleton] at hi2
          obtain ⟨j, hj1, hj2, hj3⟩ := h4.2 idx hi1
          have h6 := toInt_of_nonneg j (by omega) (by rw [← hj2, hi2]; exact hin0)
          have : j = (Int32Value x).toNat := by
            have : (j : Int) = Int32Value x := by rw [← h6.1, ← hj2, hi2]
            omega
          rw [this, hu1] at hj3
          cases hj3
        · rcases List.mem_append.mp hi with ha | hb
          · exact hcl.2 idx ha
          · rw [List.mem_singleton] at hb
            refine ⟨(Int32Value x).toNat, hlt, by rw [hb]; exact hidx, ?_⟩
            rw [inUse_setInUse, if_pos ⟨rfl, by omega⟩]

theorem Inv_ResizePool (p : CPool) (x : Int) (h : p.Inv) : (p.ResizePool x).Inv := by
  have hx := Uint32Value_lt x
  obtain ⟨h1, h2, h3, h4⟩ := h
  unfold CPool.ResizePool
  simp only []
  split
  · exact ⟨h1, h2, h3, h4⟩
  · split
    · exact ⟨h1, h2, h3, h4⟩
    · split
      · rename_i hgt
        have hf := setInUse_foldl
          (List.range' p.m_currentSize (Uint32Value x - p.m_currentSize))
          (vresize p.m_poolEntries (Uint32Value x))
        refine ⟨by show List.length (List.foldl _ _ _) = _; rw [hf.1, length_vresize],
          Nat.le_refl _, hx, ?_⟩
        show stackOk _ (Uint32Value x) (p.m_freeStack ++ _)
        apply stackOk_append _ p.m_activeSize p.m_currentSize _ _ _ _ h2 (by omega) hx
          (List.nodup_range' _ _)
        · intro j hj
          have hj2 := List.mem_range'_1.mp hj
          refine ⟨hj2.1, by omega, ?_⟩
          rw [hf.2 j, if_pos hj]
        · apply stackOk_congr _ _ _ _ _ h4
          intro j hj1 hj2
          rw [hf.2 j]
          split
          · rfl
          · rw [entryAt_vresize, if_pos (by omega)]
            exact hj2
      · rename_i hle
        split
        · exact ⟨length_vresize _ _, Nat.le_refl _, hx, stackOk_rebuild _ _ hx⟩
        · exact ⟨h1, by show Uint32Value x ≤ p.m_currentSize; omega, h3,
            stackOk_filter _ _ _ _ h4 (by omega) hx⟩

theorem Inv_call (p : CPool) (op : PoolOp) (h : p.Inv) : (p.call op).Inv := by
  cases op with
  | initializePool x => exact Inv_InitializePool p x h
  | registerObj => exact Inv_RegisterObj p h
  | allocate => exact (Allocate_spec p h).1
  | free x => exact Inv_Free p x h
  | resizePool x => exact Inv_ResizePool p x h

theorem Inv_run : ∀ (ops : List PoolOp) (p : CPool), p.Inv → (p.run ops).Inv
  | [], _, h => h
  | op :: ops, p, h => Inv_run ops (p.call op) (Inv_call p op h)

theorem currentSize_finalizeShrinkIfNeeded (p : CPool) (b : Nat)
    (h : p.m_activeSize ≤ p.m_currentSize) (hb : p.m_currentSize ≤ b) : p.finalizeShrinkIfNeeded.m_currentSize ≤ b := by
  unfold CPool.finalizeShrinkIfNeeded
  split
  · exact hb
  · show p.m_activeSize ≤ b
    exact Nat.le_trans h hb

theorem currentSize_call (p : CPool) (op : PoolOp) (b : Nat) (h : p.Inv)
    (hb : p.m_currentSize ≤ b) (hop : ∀ x, op = PoolOp.initializePool x ∨ op = PoolOp.resizePool x →
      Uint32Value x ≤ b) : (p.call op).m_currentSize ≤ b := by
  cases op with
  | initializePool x =>
    have hx := hop x (Or.inl rfl)
    show (p.InitializePool x).m_currentSize ≤ b
    unfold CPool.InitializePool
    simp only []
    split
    · exact hb
    · split
      · exact hb
      · exact hx
  | registerObj =>
    show p.RegisterObj.m_currentSize ≤ b
    unfold CPool.RegisterObj
    split
    · exact hb
    · split
      · exact hb
      · exact hb
  | allocate =>
    show p.Allocate.m_currentSize ≤ b
    unfold CPool.Allocate
    simp only []
    split
    · exact hb
    · split
      · exact hb
      · split
        · exact hb
        · exact hb
  | free x =>
    show (p.Free x).m_currentSize ≤ b
    unfold CPool.Free
    simp only []
    split
    · exact hb
    · split
      · exact hb
      · split
        · split
          · split
            · exact currentSize_finalizeShrinkIfNeeded _ b h.2.1 hb
            · exact hb
          · exact hb
        · exact hb
  | resizePool x =>
    have hx := hop x (Or.inr rfl)
    show (p.ResizePool x).m_currentSize ≤ b
    unfold CPool.ResizePool
    simp only []
    split
    · exact hb
    · split
      · exact hb
      · split
        · exact hx
        · split
          · exact hx
          · exact hb

theorem currentSize_run : ∀ (ops : List PoolOp) (p : CPool), p.Inv →
    p.m_currentSize ≤ 2147483648 → (∀ op ∈ ops, op.small) →
    (p.run ops).m_currentSize ≤ 2147483648
  | [], _, _, hb, _ => hb
  | op :: ops, p, h, hb, hs =>
    currentSize_run ops (p.call op) (Inv_call p op h)
      (currentSize_call p op _ h hb (fun x hx => by
        have h1 := hs op (List.mem_cons_self _ _)
        rcases hx with hx | hx
        · rw [hx] at h1
          exact h1
        · rw [hx] at h1
          exact h1))
      (fun o ho => hs o (List.mem_cons_of_mem _ ho))

theorem slice_below (k : Nat) (b2 b1 : Bytes) (h : agreeBelow k b2 b1) (p n : Nat)
    (hp : p + n ≤ k) : slice b2 p n = slice b1 p n := by
  unfold slice
  apply List.map_congr_left
  intro i hi
  have := List.mem_range.mp hi
  exact h _ (by omega)

theorem packedU64FromString_frame (k : Nat) (b2 b1 : Bytes) (h : agreeBelow k b2 b1)
    (start stop : Nat) (hk : start + 8 ≤ k) :
    packedU64FromString b2 start stop = packedU64FromString b1 start stop := by
  unfold packedU64FromString
  simp only []
  congr 1
  apply List.foldl_ext
  intro v i hi
  have h1 := List.mem_range.mp hi
  have h2 : i < 8 := by
    split at h1 <;> omega
  rw [h _ (by omega)]

theorem nodeStaticMatches_frame (k : Nat) (b2 b1 : Bytes) (h : agreeBelow k b2 b1)
    (node : RouteNode) (off : Nat) (hk : off + 8 ≤ k) :
    nodeStaticMatches node b2 off = nodeStaticMatches node b1 off := by
  unfold nodeStaticMatches
  rw [packedU64FromString_frame k b2 b1 h _ _ hk]

theorem paramEnd_frame (k : Nat) (b2 b1 : Bytes) (h : agreeBelow k b2 b1) :
    ∀ (n p : Nat), paramEnd b1 n p < k → paramEnd b2 n p = paramEnd b1 n p
  | 0, _, _ => rfl
  | n + 1, p, hk => by
    have hge := paramEnd_ge b1 (n + 1) p
    have hp : p < k := by omega
    unfold paramEnd at hk ⊢
    simp only [] at hk ⊢
    rw [h p hp]
    by_cases hc : rd b1 p ≠ 0 ∧ rd b1 p ≠ 47 ∧ rd b1 p ≠ 63 ∧ rd b1 p ≠ 32
    · rw [if_pos hc] at hk
      rw [if_pos hc, if_pos hc]
      exact paramEnd_frame k b2 b1 h n (p + 1) hk
    · rw [if_neg hc, if_neg hc]

theorem url_decode_loop_frame (k : Nat) (b2 b1 : Bytes) (h : agreeBelow k b2 b1) (stop : Nat)
    (hs : stop ≤ k) : ∀ (n p : Nat) (out : Bytes),
    url_decode_loop b2 stop n p out = url_decode_loop b1 stop n p out
  | 0, _, _ => rfl
  | n + 1, p, out => by
    unfold url_decode_loop
    by_cases hp : p < stop
    · rw [if_pos hp, if_pos hp]
      simp only []
      rw [h p (by omega)]
      by_cases h1 : rd b1 p = 37 ∧ p + 2 < stop
      · rw [if_pos h1, if_pos h1, h (p + 1) (by omega), h (p + 2) (by omega)]
        exact url_decode_loop_frame k b2 b1 h stop hs n _ _
      · rw [if_neg h1, if_neg h1]
        by_cases h2 : rd b1 p ≠ 37 ∧ rd b1 p = 43
        · rw [if_pos h2, if_pos h2]
          exact url_decode_loop_frame k b2 b1 h stop hs n _ _
        · rw [if_neg h2, if_neg h2]
          exact url_decode_loop_frame k b2 b1 h stop hs n _ _
    · rw [if_neg hp, if_neg hp]

theorem url_decode_frame (k : Nat) (b2 b1 : Bytes) (h : agreeBelow k b2 b1) (start stop : Nat)
    (hs : stop ≤ k) : url_decode b2 start stop = url_decode b1 start stop :=
  url_decode_loop_frame k b2 b1 h stop hs _ _ _

theorem querySetPair_frame (k : Nat) (b2 b1 : Bytes) (h : agreeBelow k b2 b1)
    (ks : Nat) (vs : Option Nat) (p : Nat) (q : Obj) (hp : p ≤ k)
    (hv : ∀ v, vs = some v → v ≤ p) :
    querySetPair b2 ks vs p q = querySetPair b1 ks vs p q := by
  unfold querySetPair
  cases vs with
  | none =>
    simp only []
    rw [url_decode_frame k b2 b1 h ks p hp]
  | some v =>
    have := hv v rfl
    simp only []
    rw [url_decode_frame k b2 b1 h ks (v - 1) (by omega), url_decode_frame k b2 b1 h v p hp]

/-- A query scan that succeeds has read the buffer up to the byte that stopped it. -/
theorem parse_query_loop_frame (k : Nat) (b2 b1 : Bytes) (h : agreeBelow k b2 b1)
    (off ql : Nat) : ∀ (n p scanned ks : Nat) (vs : Option Nat) (q : Obj) (r : QueryResult),
    parse_query_loop b1 off ql n p scanned ks vs q = some r → r.ok = true →
    (∀ v, vs = some v → v ≤ p) →
    off + scanned ≤ r.offset
      ∧ (p + r.offset < k + off + scanned →
          parse_query_loop b2 off ql n p scanned ks vs q = some r)
  | 0, _, _, _, _, _, _, hr, _, _ => by cases hr
  | n + 1, p, scanned, ks, vs, q, r, hr, hok, hv => by
    unfold parse_query_loop at hr ⊢
    simp only [] at hr ⊢
    by_cases hc : rd b1 p ≠ 0 ∧ ¬ (rd b1 p = 32 ∨ rd b1 p = 13 ∨ rd b1 p = 10 ∨ rd b1 p = 35)
    · rw [if_pos hc] at hr
      by_cases hl : scanned + 1 > ql
      · rw [if_pos hl] at hr
        simp only [Option.some.injEq] at hr
        rw [← hr] at hok
        cases hok
      · rw [if_neg hl] at hr
        by_cases h61 : rd b1 p = 61
        · rw [if_pos h61] at hr
          have ih := parse_query_loop_frame k b2 b1 h off ql n (p + 1) (scanned + 1) ks
            (some (p + 1)) q r hr hok (fun v hv1 => by cases hv1; exact Nat.le_refl _)
          refine ⟨by omega, fun hk => ?_⟩
          rw [h p (by omega), if_pos hc, if_neg hl, if_pos h61]
          exact ih.2 (by omega)
        · rw [if_neg h61] at hr
          by_cases h38 : rd b1 p = 38
          · rw [if_pos h38] at hr
            have ih := parse_query_loop_frame k b2 b1 h off ql n (p + 1) (scanned + 1) (p + 1)
              none _ r hr hok (fun v hv1 => by cases hv1)
            refine ⟨by omega, fun hk => ?_⟩
            rw [h p (by omega), if_pos hc, if_neg hl, if_neg h61, if_pos h38,
              querySetPair_frame k b2 b1 h ks vs p q (by omega) hv]
            exact ih.2 (by omega)
          · rw [if_neg h38] at hr
            have ih := parse_query_loop_frame k b2 b1 h off ql n (p + 1) (scanned + 1) ks
              vs q r hr hok (fun v hv1 => Nat.le_succ_of_le (hv v hv1))
            refine ⟨by omega, fun hk => ?_⟩
            rw [h p (by omega), if_pos hc, if_neg hl, if_neg h61, if_neg h38]
            exact ih.2 (by omega)
    · rw [if_neg hc] at hr
      simp only [Option.some.injEq] at hr
      have ho : r.offset = off + scanned := by rw [← hr]
      refine ⟨by omega, fun hk => ?_⟩
      rw [h p (by omega), if_neg hc, querySetPair_frame k b2 b1 h ks vs p q (by omega) hv]
      rw [← hr]

/-- The exit through the query scan, as in `matchFinish` and in the wildcard loop. -/
theorem queryExit_frame (b2 b1 : Bytes) (hlen : b2.length = b1.length) (ql : Nat) (vptr : Int)
    (off : Nat) (ps : List Bytes) (q : Obj) (res : MatchResult) (h63 : rd b1 off = 63)
    (hres : (match parse_query_params b1 off q ql with
          | none => none
          | some r =>
            if !r.ok then some ⟨-2, r.offset, ps, r.query⟩
            else some ⟨vptr, r.offset + 1, ps, r.query⟩) = some res)
    (hf : res.found) :
    off ≤ res.offset
      ∧ (agreeBelow (res.offset + 8) b2 b1 →
          (match parse_query_params b2 off q ql with
          | none => none
          | some r =>
            if !r.ok then some ⟨-2, r.offset, ps, r.query⟩
            else some ⟨vptr, r.offset + 1, ps, r.query⟩) = some res) := by
  cases hq : parse_query_params b1 off q ql with
  | none =>
    rw [hq] at hres
    cases hres
  | some r =>
    rw [hq] at hres
    simp only [] at hres
    cases hok : r.ok with
    | false =>
      rw [hok] at hres
      simp only [Bool.not_false, if_true, Option.some.injEq] at hres
      have := hf.2.1
      rw [← hres] at this
      exact absurd rfl this
    | true =>
      rw [hok] at hres
      simp only [Bool.not_true, Bool.false_eq_true, if_false, Option.some.injEq] at hres
      unfold parse_query_params at hq
      simp only [] at hq
      rw [if_pos h63] at hq
      have hro : res.offset = r.offset + 1 := by rw [← hres]
      refine ⟨?_, fun hag => ?_⟩
      · have := (parse_query_loop_frame (res.offset + 8) b1 b1 (fun _ _ => rfl) off ql _ _ _ _
          _ _ r hq hok (fun v hv => by cases hv)).1
        omega
      · have hfr := parse_query_loop_frame (res.offset + 8) b2 b1 hag off ql _ _ _ _ _ _ r hq hok
          (fun v hv => by cases hv)
        have h2 : parse_query_params b2 off q ql = some r := by
          unfold parse_query_params
          simp only []
          rw [hag off (by omega), if_pos h63, hlen]
          exact hfr.2 (by omega)
        rw [h2]
        simp only [hok, Bool.not_true, Bool.false_eq_true, if_false]
        rw [← hres]

theorem matchFinish_frame (b2 b1 : Bytes) (hlen : b2.length = b1.length) (ql : Nat) (vptr : Int)
    (off : Nat) (ps : List Bytes) (q : Obj) (res : MatchResult)
    (hres : matchFinish b1 ql vptr off ps q = some res) (hf : res.found) :
    off ≤ res.offset
      ∧ (agreeBelow (res.offset + 8) b2 b1 → matchFinish b2 ql vptr off ps q = some res) := by
  unfold matchFinish at hres ⊢
  by_cases h63 : rd b1 off = 63
  · rw [if_pos h63] at hres
    have hq := queryExit_frame b2 b1 hlen ql vptr off ps q res h63 hres hf
    refine ⟨hq.1, fun hag => ?_⟩
    rw [hag off (by have := hq.1; omega), if_pos h63]
    exact hq.2 hag
  · rw [if_neg h63] at hres
    simp only [Option.some.injEq] at hres
    have ho : res.offset = off := by rw [← hres]
    refine ⟨by omega, fun hag => ?_⟩
    rw [hag off (by omega), if_neg h63, hres]

theorem wildcardLoop_frame (b2 b1 : Bytes) (hlen : b2.length = b1.length) (ql : Nat)
    (vptr : Int) (ps : List Bytes) :
    ∀ (n off : Nat) (q : Obj) (res : MatchResult),
      wildcardLoop b1 ql vptr ps n off q = some res → res.found →
      off ≤ res.offset
        ∧ (agreeBelow (res.offset + 8) b2 b1 → wildcardLoop b2 ql vptr ps n off q = some res)
  | 0, _, _, _, hres, _ => by cases hres
  | n + 1, off, q, res, hres, hf => by
    unfold wildcardLoop at hres ⊢
    by_cases h32 : rd b1 off ≠ 32
    · rw [if_pos h32] at hres
      by_cases hover : off > 1000
      · rw [if_pos hover] at hres
        simp only [Option.some.injEq] at hres
        have := hf.2.2
        rw [← hres] at this
        exact absurd rfl this
      · rw [if_neg hover] at hres
        by_cases h63 : rd b1 off = 63
        · rw [if_pos h63] at hres
          have hq := queryExit_frame b2 b1 hlen ql vptr off ps q res h63 hres hf
          refine ⟨hq.1, fun hag => ?_⟩
          rw [hag off (by have := hq.1; omega), if_pos h32, if_neg hover, if_pos h63]
          exact hq.2 hag
        · rw [if_neg h63] at hres
          have ih := wildcardLoop_frame b2 b1 hlen ql vptr ps n (off + 1) q res hres hf
          refine ⟨by have := ih.1; omega, fun hag => ?_⟩
          rw [hag off (by have := ih.1; omega), if_pos h32, if_neg hover, if_neg h63]
          exact ih.2 hag
    · rw [if_neg h32] at hres
      simp only [Option.some.injEq] at hres
      have ho : res.offset = off := by rw [← hres]
      refine ⟨by omega, fun hag => ?_⟩
      rw [hag off (by omega), if_neg h32, hres]

mutual
/-- A route match that finds a handler has read the buffer below the offset it leaves plus 8
only: on a buffer that agrees there it gives the same result. -/
theorem matchNode_frame (b2 b1 : Bytes) (hlen : b2.length = b1.length) (ql : Nat) :
    ∀ (node : RouteNode) (off : Nat) (ps : List Bytes) (q : Obj) (res : MatchResult),
      matchNode b1 ql node off ps q = some res → res.found →
      off ≤ res.offset
        ∧ (agreeBelow (res.offset + 8) b2 b1 → matchNode b2 ql node off ps q = some res)
  | RouteNode.mk _ _ _ _ _ _ _ cs, off, ps, q, res, h, hf => by
    unfold matchNode at h ⊢
    exact matchChildren_frame b2 b1 hlen ql cs off ps q res h hf
theorem matchChildren_frame (b2 b1 : Bytes) (hlen : b2.length = b1.length) (ql : Nat) :
    ∀ (cs : List RouteNode) (off : Nat) (ps : List Bytes) (q : Obj) (res : MatchResult),
      matchChildren b1 ql cs off ps q = some res → res.found →
      off ≤ res.offset
        ∧ (agreeBelow (res.offset + 8) b2 b1 → matchChildren b2 ql cs off ps q = some res)
  | [], off, ps, q, res, h, hf => by
    unfold matchChildren at h
    simp only [Option.some.injEq] at h
    have := hf.1
    rw [← h] at this
    exact absurd rfl this
  | child :: rest, off, ps, q, res, h, hf => by
    unfold matchChildren at h ⊢
    simp only [] at h ⊢
    by_cases hp : child.is_param = true
    · rw [if_pos hp] at h
      have hge := paramEnd_ge b1 (b1.length + 1 - off) off
      by_cases hc : child.vptr_table_index ≠ -1
          ∧ (rd b1 (off + (paramEnd b1 (b1.length + 1 - off) off - off)) = 32
            ∨ rd b1 (off + (paramEnd b1 (b1.length + 1 - off) off - off)) = 63)
      · rw [if_pos hc] at h
        have ih := matchFinish_frame b2 b1 hlen ql _ _ _ _ res h hf
        have h1 := ih.1
        refine ⟨by omega, fun hag => ?_⟩
        rw [if_pos hp, hlen, paramEnd_frame _ b2 b1 hag _ _ (by omega),
          slice_below _ b2 b1 hag _ _ (by omega), hag _ (by omega), if_pos hc]
        exact ih.2 hag
      · rw [if_neg hc] at h
        have ih := matchNode_frame b2 b1 hlen ql child _ _ _ res h hf
        have h1 := ih.1
        refine ⟨by omega, fun hag => ?_⟩
        rw [if_pos hp, hlen, paramEnd_frame _ b2 b1 hag _ _ (by omega),
          slice_below _ b2 b1 hag _ _ (by omega), hag _ (by omega), if_neg hc]
        exact ih.2 hag
    · rw [if_neg hp] at h
      by_cases hw : child.is_wildcard = true
      · rw [if_pos hw] at h
        have ih := wildcardLoop_frame b2 b1 hlen ql _ _ _ _ _ res h hf
        refine ⟨ih.1, fun hag => ?_⟩
        rw [if_neg hp, if_pos hw]
        exact ih.2 hag
      · rw [if_neg hw] at h
        by_cases hs : nodeStaticMatches child b1 off = true
        · rw [if_pos hs] at h
          by_cases hc : child.vptr_table_index ≠ -1
              ∧ (rd b1 (off + child.value_length) = 32 ∨ rd b1 (off + child.value_length) = 63)
          · rw [if_pos hc] at h
            have ih := matchFinish_frame b2 b1 hlen ql _ _ _ _ res h hf
            have h1 := ih.1
            refine ⟨by omega, fun hag => ?_⟩
            rw [if_neg hp, if_neg hw, nodeStaticMatches_frame _ b2 b1 hag child off (by omega),
              if_pos hs, hag _ (by omega), if_pos hc]
            exact ih.2 hag
          · rw [if_neg hc] at h
            have ih := matchNode_frame b2 b1 hlen ql child _ _ _ res h hf
            have h1 := ih.1
            refine ⟨by omega, fun hag => ?_⟩
            rw [if_neg hp, if_neg hw, nodeStaticMatches_frame _ b2 b1 hag child off (by omega),
              if_pos hs, hag _ (by omega), if_neg hc]
            exact ih.2 hag
        · rw [if_neg hs] at h
          have ih := matchChildren_frame b2 b1 hlen ql rest off ps q res h hf
          have h1 := ih.1
          refine ⟨h1, fun hag => ?_⟩
          rw [if_neg hp, if_neg hw, nodeStaticMatches_frame _ b2 b1 hag child off (by omega),
            if_neg hs]
          exact ih.2 hag
end

theorem matchUrl_frame (b2 b1 : Bytes) (hlen : b2.length = b1.length) (ql : Nat)
    (root : Option RouteNode) (off : Nat) (ps : List Bytes) (q : Obj) (res : MatchResult)
    (h : matchUrl root b1 off ps q ql = some res) (hf : res.found) :
    off ≤ res.offset
      ∧ (agreeBelow (res.offset + 8) b2 b1 → matchUrl root b2 off ps q ql = some res) := by
  unfold matchUrl at h ⊢
  cases root with
  | none =>
    simp only [Option.some.injEq] at h
    have := hf.1
    rw [← h] at this
    exact absurd rfl this
  | some node =>
    simp only [] at h ⊢
    by_cases hn : (!node.is_param) = true ∧ node.value_length > 0
    · rw [if_pos hn] at h
      by_cases hs : (!nodeStaticMatches node b1 off) = true
      · rw [if_pos hs] at h
        simp only [Option.some.injEq] at h
        have := hf.1
        rw [← h] at this
        exact absurd rfl this
      · rw [if_neg hs] at h
        have ih := matchNode_frame b2 b1 hlen ql node _ _ _ res h hf
        have h1 := ih.1
        refine ⟨by omega, fun hag => ?_⟩
        rw [if_pos hn, nodeStaticMatches_frame _ b2 b1 hag node off (by omega), if_neg hs]
        exact ih.2 hag
    · rw [if_neg hn] at h
      have ih := matchNode_frame b2 b1 hlen ql node _ _ _ res h hf
      refine ⟨ih.1, fun hag => ?_⟩
      rw [if_neg hn]
      exact ih.2 hag

theorem slice_frame (b1 b2 : Bytes) (o : Nat) (h : ∀ i, o ≤ i → rd b2 i = rd b1 i)
    (p n : Nat) (hp : o ≤ p) : slice b2 p n = slice b1 p n := by
  unfold slice
  apply List.map_congr_left
  intro i _
  exact h _ (by omega)

theorem byte_frame (c : Cfg) (b2 : Bytes) (o : Nat) (h : ∀ i, o ≤ i → rd b2 i = rd c.buf i)
    (i : Nat) (hi : o ≤ i) : Cfg.byte { c with buf := b2 } i = c.byte i := h i hi

theorem lw_frame (c : Cfg) (b2 : Bytes) (o : Nat) (h : ∀ i, o ≤ i → rd b2 i = rd c.buf i)
    (p : Nat) (hp : o ≤ p) : Cfg.lw { c with buf := b2 } p = c.lw p := by
  unfold Cfg.lw load_u64
  simp only []
  rw [slice_frame c.buf b2 o h p 8 hp]

theorem eq128_frame (c : Cfg) (b2 : Bytes) (o : Nat) (h : ∀ i, o ≤ i → rd b2 i = rd c.buf i)
    (p : Nat) (lit : Bytes) (n : Nat) (hp : o ≤ p) :
    Cfg.eq128 { c with buf := b2 } p lit n = c.eq128 p lit n := by
  unfold Cfg.eq128 load_u128
  simp only []
  rw [slice_frame c.buf b2 o h p 16 hp]

theorem colon_frame (c : Cfg) (b2 : Bytes) (o : Nat) (h : ∀ i, o ≤ i → rd b2 i = rd c.buf i)
    (s : Scan) (off : Nat) (hit : Step) (hp : o ≤ off) :
    Scan.colon { c with buf := b2 } s off hit = s.colon c off hit := by
  unfold Scan.colon
  rw [byte_frame c b2 o h off hp]

theorem secFetch_frame (c : Cfg) (b2 : Bytes) (o : Nat) (h : ∀ i, o ≤ i → rd b2 i = rd c.buf i)
    (s : Scan) (off : Nat) (tail : Bytes) (id : HeaderId) (hp : o ≤ off) :
    Scan.secFetch { c with buf := b2 } s off tail id = s.secFetch c off tail id := by
  unfold Scan.secFetch
  simp (disch := omega) only [byte_frame c b2 o h, lw_frame c b2 o h, colon_frame c b2 o h]

theorem skipOWS_frame (c : Cfg) (b2 : Bytes) (o : Nat) (h : ∀ i, o ≤ i → rd b2 i = rd c.buf i) :
    ∀ (n off : Nat), o ≤ off → skipOWS { c with buf := b2 } n off = skipOWS c n off
  | 0, _, _ => rfl
  | n + 1, off, ho => by
    unfold skipOWS
    rw [byte_frame c b2 o h off ho, skipOWS_frame c b2 o h n (off + 1) (by omega)]

theorem unknownLoop_frame (c : Cfg) (b2 : Bytes) (o : Nat)
    (h : ∀ i, o ≤ i → rd b2 i = rd c.buf i) (v : Nat) :
    ∀ (n off : Nat), o ≤ off → unknownLoop { c with buf := b2 } v n off = unknownLoop c v n off
  | 0, _, _ => rfl
  | n + 1, off, ho => by
    unfold unknownLoop
    simp only []
    rw [byte_frame c b2 o h off ho, unknownLoop_frame c b2 o h v n (off + 1) (by omega)]

theorem hv_number_ows_frame (b1 b2 : Bytes) (o : Nat) (h : ∀ i, o ≤ i → rd b2 i = rd b1 i)
    (total : Nat) : ∀ (n off : Nat), o ≤ off →
    hv_number_ows b2 total n off = hv_number_ows b1 total n off
  | 0, _, _ => rfl
  | n + 1, off, ho => by
    unfold hv_number_ows
    simp only []
    rw [h off ho, hv_number_ows_frame b1 b2 o h total n (off + 1) (by omega)]

theorem hv_number_loop_frame (b1 b2 : Bytes) (o : Nat) (h : ∀ i, o ≤ i → rd b2 i = rd b1 i)
    (total mx vb : Nat) (hvb : o ≤ vb) : ∀ (n off ve : Nat) (sd : Bool), o ≤ off →
    hv_number_loop b2 total mx vb n off ve sd = hv_number_loop b1 total mx vb n off ve sd
  | 0, _, _, _, _ => rfl
  | n + 1, off, ve, sd, ho => by
    unfold hv_number_loop
    simp only []
    rw [h off ho, hv_number_loop_frame b1 b2 o h total mx vb hvb n (off + 1) (off + 1) true
      (by omega), hv_number_ows_frame b1 b2 o h total n (off + 1) (by omega)]
    simp only [slice_frame b1 b2 o h vb _ hvb]

theorem hv_any_loop_frame (b1 b2 : Bytes) (o : Nat) (h : ∀ i, o ≤ i → rd b2 i = rd b1 i)
    (total mx vb : Nat) (hvb : o ≤ vb) : ∀ (n off ve : Nat), o ≤ off →
    hv_any_loop b2 total mx vb n off ve = hv_any_loop b1 total mx vb n off ve
  | 0, _, _, _ => rfl
  | n + 1, off, ve, ho => by
    unfold hv_any_loop
    simp only []
    rw [h off ho, hv_any_loop_frame b1 b2 o h total mx vb hvb n (off + 1) _ (by omega),
      slice_frame b1 b2 o h vb _ hvb]

theorem HEADERS_frame (b1 b2 : Bytes) (o : Nat) (h : ∀ i, o ≤ i → rd b2 i = rd b1 i)
    (id : HeaderId) (off total mx : Nat) (ho : o ≤ off) :
    (HEADERS id).value_parser_fn b2 off total mx = (HEADERS id).value_parser_fn b1 off total mx := by
  cases id <;> first
    | exact hv_any_loop_frame b1 b2 o h total mx off ho (total - off) off off ho
    | exact hv_number_loop_frame b1 b2 o h total mx off ho (total - off) off off false ho

theorem st_STARTUP_frame (c : Cfg) (b2 : Bytes) (o : Nat)
    (h : ∀ i, o ≤ i → rd b2 i = rd c.buf i) (s : Scan) (hs : o ≤ s.__offset) :
    st_STARTUP { c with buf := b2 } s = st_STARTUP c s := by
  unfold st_STARTUP
  simp only []
  have hb := byte_frame c b2 o h
  have hl := lw_frame c b2 o h
  have he := eq128_frame c b2 o h
  have hc := colon_frame c b2 o h
  have hf := secFetch_frame c b2 o h
  repeat' first
    | omega
    | rw [hb]

theorem st_HN_H_frame (c : Cfg) (b2 : Bytes) (o : Nat)
    (h : ∀ i, o ≤ i → rd b2 i = rd c.buf i) (s : Scan) (hs : o ≤ s.__offset) :
    st_HN_H { c with buf := b2 } s = st_HN_H c s := by
  unfold st_HN_H
  simp only []
  have hb := byte_frame c b2 o h
  have hl := lw_frame c b2 o h
  have he := eq128_frame c b2 o h
  have hc := colon_frame c b2 o h
  have hf := secFetch_frame c b2 o h
  repeat' first
    | omega
    | rw [hb]
    | rw [hl]
    | rw [he]
    | rw [hc]

theorem st_HN_A_frame (c : Cfg) (b2 : Bytes) (o : Nat)
    (h : ∀ i, o ≤ i → rd b2 i = rd c.buf i) (s : Scan) (hs : o ≤ s.__offset) :
    st_HN_A { c with buf := b2 } s = st_HN_A c s := by
  unfold st_HN_A
  simp only []
  have hb := byte_frame c b2 o h
  have hl := lw_frame c b2 o h
  have he := eq128_frame c b2 o h
  have hc := colon_frame c b2 o h
  have hf := secFetch_frame c b2 o h
  repeat' first
    | omega
    | rw [hb]
    | rw [hl]
    | rw [he]
    | rw [hc]

theorem st_HN_C_frame (c : Cfg) (b2 : Bytes) (o : Nat)
    (h : ∀ i, o ≤ i → rd b2 i = rd c.buf i) (s : Scan) (hs : o ≤ s.__offset) :
    st_HN_C { c with buf := b2 } s = st_HN_C c s := by
  unfold st_HN_C
  simp only []
  have hb := byte_frame c b2 o h
  have hl := lw_frame c b2 o h
  have he := eq128_frame c b2 o h
  have hc := colon_frame c b2 o h
  have hf := secFetch_frame c b2 o h
  repeat' first
    | omega
    | rw [hb]
    | rw [hl]
    | rw [he]
    | rw [hc]

theorem st_HN_D_frame (c : Cfg) (b2 : Bytes) (o : Nat)
    (h : ∀ i, o ≤ i → rd b2 i = rd c.buf i) (s : Scan) (hs : o ≤ s.__offset) :
    st_HN_D { c with buf := b2 } s = st_HN_D c s := by
  unfold st_HN_D
  simp only []
  have hb := byte_frame c b2 o h
  have hl := lw_frame c b2 o h
  have he := eq128_frame c b2 o h
  have hc := colon_frame c b2 o h
  have hf := secFetch_frame c b2 o h
  repeat' first
    | omega
    | rw [hb]
    | rw [hl]
    | rw [he]
    | rw [hc]

theorem st_HN_I_frame (c : Cfg) (b2 : Bytes) (o : Nat)
    (h : ∀ i, o ≤ i → rd b2 i = rd c.buf i) (s : Scan) (hs : o ≤ s.__offset) :
    st_HN_I { c with buf := b2 } s = st_HN_I c s := by
  unfold st_HN_I
  simp only []
  have hb := byte_frame c b2 o h
  have hl := lw_frame c b2 o h
  have he := eq128_frame c b2 o h
  have hc := colon_frame c b2 o h
  have hf := secFetch_frame c b2 o h
  repeat' first
    | omega
    | rw [hb]
    | rw [hl]
    | rw [he]
    | rw [hc]
    | rw [hf]
    | (split <;> omega)

theorem st_HN_L_frame (c : Cfg) (b2 : Bytes) (o : Nat)
    (h : ∀ i, o ≤ i → rd b2 i = rd c.buf i) (s : Scan) (hs : o ≤ s.__offset) :
    st_HN_L { c with buf := b2 } s = st_HN_L c s := by
  unfold st_HN_L
  simp only []
  have hb := byte_frame c b2 o h
  have hl := lw_frame c b2 o h
  have he := eq128_frame c b2 o h
  have hc := colon_frame c b2 o h
  have hf := secFetch_frame c b2 o h
  repeat' first
    | omega
    | rw [hb]
    | rw [hl]
    | rw [he]
    | rw [hc]

theorem st_HN_O_frame (c : Cfg) (b2 : Bytes) (o : Nat)
    (h : ∀ i, o ≤ i → rd b2 i = rd c.buf i) (s : Scan) (hs : o ≤ s.__offset) :
    st_HN_O { c with buf := b2 } s = st_HN_O c s := by
  unfold st_HN_O
  simp only []
  have hb := byte_frame c b2 o h
  have hl := lw_frame c b2 o h
  have he := eq128_frame c b2 o h
  have hc := colon_frame c b2 o h
  have hf := secFetch_frame c b2 o h
  repeat' first
    | omega
    | rw [hb]
    | rw [hl]
    | rw [he]
    | rw [hc]

theorem st_HN_P_frame (c : Cfg) (b2 : Bytes) (o : Nat)
    (h : ∀ i, o ≤ i → rd b2 i = rd c.buf i) (s : Scan) (hs : o ≤ s.__offset) :
    st_HN_P { c with buf := b2 } s = st_HN_P c s := by
  unfold st_HN_P
  simp only []
  have hb := byte_frame c b2 o h
  have hl := lw_frame c b2 o h
  have he := eq128_frame c b2 o h
  have hc := colon_frame c b2 o h
  have hf := secFetch_frame c b2 o h
  repeat' first
    | omega
    | rw [hb]
    | rw [hl]
    | rw [he]
    | rw [hc]

theorem st_HN_S_frame (c : Cfg) (b2 : Bytes) (o : Nat)
    (h : ∀ i, o ≤ i → rd b2 i = rd c.buf i) (s : Scan) (hs : o ≤ s.__offset) :
    st_HN_S { c with buf := b2 } s = st_HN_S c s := by
  unfold st_HN_S
  simp only []
  have hb := byte_frame c b2 o h
  have hl := lw_frame c b2 o h
  have he := eq128_frame c b2 o h
  have hc := colon_frame c b2 o h
  have hf := secFetch_frame c b2 o h
  repeat' first
    | omega
    | rw [hb]
    | rw [hl]
    | rw [he]
    | rw [hc]
    | rw [hf]

theorem st_HN_T_frame (c : Cfg) (b2 : Bytes) (o : Nat)
    (h : ∀ i, o ≤ i → rd b2 i = rd c.buf i) (s : Scan) (hs : o ≤ s.__offset) :
    st_HN_T { c with buf := b2 } s = st_HN_T c s := by
  unfold st_HN_T
  simp only []
  have hb := byte_frame c b2 o h
  have hl := lw_frame c b2 o h
  have he := eq128_frame c b2 o h
  have hc := colon_frame c b2 o h
  have hf := secFetch_frame c b2 o h
  repeat' first
    | omega
    | rw [hb]
    | rw [hl]
    | rw [he]
    | rw [hc]

theorem st_HN_U_frame (c : Cfg) (b2 : Bytes) (o : Nat)
    (h : ∀ i, o ≤ i → rd b2 i = rd c.buf i) (s : Scan) (hs : o ≤ s.__offset) :
    st_HN_U { c with buf := b2 } s = st_HN_U c s := by
  unfold st_HN_U
  simp only []
  have hb := byte_frame c b2 o h
  have hl := lw_frame c b2 o h
  have he := eq128_frame c b2 o h
  have hc := colon_frame c b2 o h
  have hf := secFetch_frame c b2 o h
  repeat' first
    | omega
    | rw [hb]
    | rw [hl]
    | rw [he]
    | rw [hc]

theorem st_HN_V_frame (c : Cfg) (b2 : Bytes) (o : Nat)
    (h : ∀ i, o ≤ i → rd b2 i = rd c.buf i) (s : Scan) (hs : o ≤ s.__offset) :
    st_HN_V { c with buf := b2 } s = st_HN_V c s := by
  unfold st_HN_V
  simp only []
  have hb := byte_frame c b2 o h
  have hl := lw_frame c b2 o h
  have he := eq128_frame c b2 o h
  have hc := colon_frame c b2 o h
  have hf := secFetch_frame c b2 o h
  repeat' first
    | omega
    | rw [hb]
    | rw [hl]
    | rw [he]
    | rw [hc]

theorem st_HN_W_frame (c : Cfg) (b2 : Bytes) (o : Nat)
    (h : ∀ i, o ≤ i → rd b2 i = rd c.buf i) (s : Scan) (hs : o ≤ s.__offset) :
    st_HN_W { c with buf := b2 } s = st_HN_W c s := by
  unfold st_HN_W
  simp only []
  have hb := byte_frame c b2 o h
  have hl := lw_frame c b2 o h
  have he := eq128_frame c b2 o h
  have hc := colon_frame c b2 o h
  have hf := secFetch_frame c b2 o h
  repeat' first
    | omega
    | rw [hb]
    | rw [hl]
    | rw [he]
    | rw [hc]

theorem st_HN_X_frame (c : Cfg) (b2 : Bytes) (o : Nat)
    (h : ∀ i, o ≤ i → rd b2 i = rd c.buf i) (s : Scan) (hs : o ≤ s.__offset) :
    st_HN_X { c with buf := b2 } s = st_HN_X c s := by
  unfold st_HN_X
  simp only []
  have hb := byte_frame c b2 o h
  have hl := lw_frame c b2 o h
  have he := eq128_frame c b2 o h
  have hc := colon_frame c b2 o h
  have hf := secFetch_frame c b2 o h
  repeat' first
    | omega
    | rw [hb]
    | rw [hl]
    | rw [he]
    | rw [hc]

theorem st_HN_UNKNOWN_frame (c : Cfg) (b2 : Bytes) (o : Nat)
    (h : ∀ i, o ≤ i → rd b2 i = rd c.buf i) (s : Scan) (hs : o ≤ s.__offset)
    (hv : o ≤ s.vStart) : st_HN_UNKNOWN { c with buf := b2 } s = st_HN_UNKNOWN c s := by
  unfold st_HN_UNKNOWN
  simp only []
  rw [unknownLoop_frame c b2 o h s.vStart _ _ hs]
  split
  · rfl
  · rw [slice_frame c.buf b2 o h _ _ hv]

theorem st_HV_CONCAT_frame (c : Cfg) (b2 : Bytes) (o : Nat)
    (h : ∀ i, o ≤ i → rd b2 i = rd c.buf i) (s : Scan) (hs : o ≤ s.__offset) :
    st_HV_CONCAT { c with buf := b2 } s = st_HV_CONCAT c s := by
  have hge := skipOWS_ge c (c.total - s.__offset) s.__offset
  have hle := HEADERS_lineEnd s.hdrId c.buf
    (skipOWS c (c.total - s.__offset) s.__offset) c.total c.maxHeaderValueSize
  have hb := byte_frame c b2 o h
  unfold st_HV_CONCAT
  simp only []
  rw [skipOWS_frame c b2 o h _ _ hs, HEADERS_frame c.buf b2 o h s.hdrId _ _ _ (by omega)]
  by_cases hf : ((HEADERS s.hdrId).value_parser_fn c.buf
      (skipOWS c (c.total - s.__offset) s.__offset) c.total c.maxHeaderValueSize).flag
        ≠ FlagBits.FLAG_OK
  · rw [if_pos hf, if_pos hf]
  · rw [if_neg hf, if_neg hf]
    have hle2 := hle (not_not.mp hf)
    repeat' first
      | omega
      | rw [hb]
      | (split <;> first | omega | (split <;> omega))

theorem cut_vKeep (s : Scan) : Step.vKeep s s.cut := by
  simp [Step.vKeep, Scan.cut]

theorem unknown_vKeep (s : Scan) (off : Nat) :
    Step.vKeep s (s.unknown off) := by
  simp [Step.vKeep, Scan.unknown]

theorem known_vKeep (s : Scan) (off : Nat) (id : HeaderId) :
    Step.vKeep s (s.known off id) := by
  simp [Step.vKeep, Scan.known]

theorem mergeable_vKeep (s : Scan) (off : Nat) (id : HeaderId) :
    Step.vKeep s (s.mergeable off id) := by
  simp [Step.vKeep, Scan.mergeable]

theorem singleton_vKeep (s : Scan) (off : Nat) (id : HeaderId) (nm : Bytes) : Step.vKeep s (s.singleton off id nm) := by
  unfold Scan.singleton
  split
  · simp [Step.vKeep]
  · exact known_vKeep s off id

theorem contentLength_vKeep (s : Scan) (off : Nat) :
    Step.vKeep s (s.contentLength off) := by
  unfold Scan.contentLength
  split
  · simp [Step.vKeep]
  · split
    · simp [Step.vKeep]
    · exact known_vKeep s off _

theorem transferEncoding_vKeep (s : Scan) (off : Nat) :
    Step.vKeep s (s.transferEncoding off) := by
  unfold Scan.transferEncoding
  split
  · simp [Step.vKeep]
  · split
    · simp [Step.vKeep]
    · exact known_vKeep s off _

theorem colon_vKeep (c : Cfg) (s : Scan) (off : Nat) (hit : Step)
    (hh : Step.vKeep s hit) : Step.vKeep s (s.colon c off hit) := by
  unfold Scan.colon
  split
  · exact hh
  · exact unknown_vKeep s off

theorem ite_vKeep (s : Scan) (p : Prop) [Decidable p] (a b : Step)
    (ha : Step.vKeep s a) (hb : Step.vKeep s b) : Step.vKeep s (if p then a else b) := by
  split <;> assumption

theorem secFetch_vKeep (c : Cfg) (s : Scan) (o : Nat) (tail : Bytes) (id : HeaderId) : Step.vKeep s (s.secFetch c o tail id) := by
  unfold Scan.secFetch
  simp only []
  repeat' first
    | exact cut_vKeep s
    | exact unknown_vKeep s _
    | exact colon_vKeep c s _ _ (known_vKeep s _ _)
    | apply ite_vKeep

theorem st_HN_H_vKeep (c : Cfg) (s : Scan) : Step.vKeep s (st_HN_H c s) := by
  unfold st_HN_H
  simp only []
  repeat' first
    | exact cut_vKeep s
    | exact unknown_vKeep s _
    | exact colon_vKeep c s _ _ (singleton_vKeep s _ _ _)
    | apply ite_vKeep

theorem st_HN_A_vKeep (c : Cfg) (s : Scan) : Step.vKeep s (st_HN_A c s) := by
  unfold st_HN_A
  simp only []
  repeat' first
    | exact cut_vKeep s
    | exact unknown_vKeep s _
    | exact known_vKeep s _ _
    | exact colon_vKeep c s _ _ (mergeable_vKeep s _ _)
    | exact colon_vKeep c s _ _ (singleton_vKeep s _ _ _)
    | apply ite_vKeep

theorem st_HN_C_vKeep (c : Cfg) (s : Scan) : Step.vKeep s (st_HN_C c s) := by
  unfold st_HN_C
  simp only []
  repeat' first
    | exact cut_vKeep s
    | exact unknown_vKeep s _
    | exact colon_vKeep c s _ _ (mergeable_vKeep s _ _)
    | exact colon_vKeep c s _ _ (known_vKeep s _ _)
    | exact colon_vKeep c s _ _ (singleton_vKeep s _ _ _)
    | exact colon_vKeep c s _ _ (contentLength_vKeep s _)
    | apply ite_vKeep

theorem st_HN_D_vKeep (c : Cfg) (s : Scan) : Step.vKeep s (st_HN_D c s) := by
  unfold st_HN_D
  simp only []
  repeat' first
    | exact cut_vKeep s
    | exact unknown_vKeep s _
    | exact colon_vKeep c s _ _ (known_vKeep s _ _)
    | exact colon_vKeep c s _ _ (singleton_vKeep s _ _ _)
    | apply ite_vKeep

theorem st_HN_L_vKeep (c : Cfg) (s : Scan) : Step.vKeep s (st_HN_L c s) := by
  unfold st_HN_L
  simp only []
  repeat' first
    | exact cut_vKeep s
    | exact unknown_vKeep s _
    | exact colon_vKeep c s _ _ (known_vKeep s _ _)
    | apply ite_vKeep

theorem st_HN_O_vKeep (c : Cfg) (s : Scan) : Step.vKeep s (st_HN_O c s) := by
  unfold st_HN_O
  simp only []
  repeat' first
    | exact cut_vKeep s
    | exact unknown_vKeep s _
    | exact colon_vKeep c s _ _ (singleton_vKeep s _ _ _)
    | apply ite_vKeep

theorem st_HN_P_vKeep (c : Cfg) (s : Scan) : Step.vKeep s (st_HN_P c s) := by
  unfold st_HN_P
  simp only []
  repeat' first
    | exact cut_vKeep s
    | exact unknown_vKeep s _
    | exact colon_vKeep c s _ _ (known_vKeep s _ _)
    | exact colon_vKeep c s _ _ (mergeable_vKeep s _ _)
    | exact colon_vKeep c s _ _ (singleton_vKeep s _ _ _)
    | apply ite_vKeep

theorem st_HN_S_vKeep (c : Cfg) (s : Scan) : Step.vKeep s (st_HN_S c s) := by
  unfold st_HN_S
  simp only []
  repeat' first
    | exact cut_vKeep s
    | exact unknown_vKeep s _
    | exact secFetch_vKeep c s _ _ _
    | exact colon_vKeep c s _ _ (known_vKeep s _ _)
    | apply ite_vKeep

theorem st_HN_T_vKeep (c : Cfg) (s : Scan) : Step.vKeep s (st_HN_T c s) := by
  unfold st_HN_T
  simp only []
  repeat' first
    | exact cut_vKeep s
    | exact unknown_vKeep s _
    | exact mergeable_vKeep s _ _
    | exact colon_vKeep c s _ _ (mergeable_vKeep s _ _)
    | exact colon_vKeep c s _ _ (transferEncoding_vKeep s _)
    | apply ite_vKeep

theorem st_HN_U_vKeep (c : Cfg) (s : Scan) : Step.vKeep s (st_HN_U c s) := by
  unfold st_HN_U
  simp only []
  repeat' first
    | exact cut_vKeep s
    | exact unknown_vKeep s _
    | exact colon_vKeep c s _ _ (mergeable_vKeep s _ _)
    | exact colon_vKeep c s _ _ (singleton_vKeep s _ _ _)
    | apply ite_vKeep

theorem st_HN_V_vKeep (c : Cfg) (s : Scan) : Step.vKeep s (st_HN_V c s) := by
  unfold st_HN_V
  simp only []
  repeat' first
    | exact cut_vKeep s
    | exact unknown_vKeep s _
    | exact colon_vKeep c s _ _ (known_vKeep s _ _)
    | apply ite_vKeep

theorem st_HN_W_vKeep (c : Cfg) (s : Scan) : Step.vKeep s (st_HN_W c s) := by
  unfold st_HN_W
  simp only []
  repeat' first
    | exact cut_vKeep s
    | exact unknown_vKeep s _
    | exact colon_vKeep c s _ _ (known_vKeep s _ _)
    | apply ite_vKeep

theorem st_HN_X_vKeep (c : Cfg) (s : Scan) : Step.vKeep s (st_HN_X c s) := by
  unfold st_HN_X
  simp only []
  repeat' first
    | exact cut_vKeep s
    | exact unknown_vKeep s _
    | exact colon_vKeep c s _ _ (known_vKeep s _ _)
    | apply ite_vKeep

theorem st_HN_I_vKeep (c : Cfg) (s : Scan) : Step.vKeep s (st_HN_I c s) := by
  unfold st_HN_I
  simp only []
  repeat' first
    | exact cut_vKeep s
    | exact unknown_vKeep s _
    | exact singleton_vKeep s _ _ _
    | exact colon_vKeep c s _ _ (singleton_vKeep s _ _ _)
    | apply ite_vKeep

theorem vKeep_vOk (o : Nat) (s : Scan) (st : Step) (hv : o ≤ s.vStart)
    (h : Step.vKeep s st) : Step.vOk o st := by
  cases st with
  | ret f s2 => trivial
  | next s2 =>
    have e : s2.vStart = s.vStart := h
    exact Or.inr (by rw [e]; exact hv)

theorem ite_vOk (o : Nat) (p : Prop) [Decidable p] (a b : Step)
    (ha : Step.vOk o a) (hb : Step.vOk o b) : Step.vOk o (if p then a else b) := by
  split <;> assumption

theorem st_STARTUP_vOk (c : Cfg) (s : Scan) (o : Nat) (hs : o ≤ s.__offset) :
    Step.vOk o (st_STARTUP c s) := by
  unfold st_STARTUP Scan.cut
  simp only []
  have key1 : ∀ st : State, Step.vOk o (Step.next (s.started st)) := fun _ => Or.inr hs
  have key2 : Step.vOk o
      (Step.next { s with vStart := s.__offset, state := State.ST_HN_UNKNOWN }) := Or.inr hs
  repeat' first
    | exact trivial
    | exact key1 _
    | exact key2
    | apply ite_vOk

theorem st_HV_CONCAT_vOk (c : Cfg) (s : Scan) (o : Nat) : Step.vOk o (st_HV_CONCAT c s) := by
  unfold st_HV_CONCAT
  simp only []
  repeat' first
    | exact trivial
    | exact Or.inl rfl
    | apply ite_vOk

theorem step_vOk (c : Cfg) (s : Scan) (o : Nat) (hs : o ≤ s.__offset)
    (hv : s.state = State.ST_STARTUP ∨ o ≤ s.vStart) : Step.vOk o (step c s) := by
  unfold step
  cases hst : s.state <;> simp only []
  · exact st_STARTUP_vOk c s o hs
  · exact Or.inr (by rcases hv with hv | hv; · rw [hst] at hv; cases hv
                     · exact hv)
  · have hv2 : o ≤ s.vStart := by
      rcases hv with hv | hv
      · rw [hst] at hv; cases hv
      · exact hv
    unfold st_HN_UNKNOWN
    split
    · trivial
    · exact Or.inr hv2
  all_goals first
    | exact st_HV_CONCAT_vOk c s o
    | (have hv2 : o ≤ s.vStart := by
        rcases hv with hv | hv
        · rw [hst] at hv; cases hv
        · exact hv
       first
        | exact vKeep_vOk o s _ hv2 (st_HN_H_vKeep c s)
        | exact vKeep_vOk o s _ hv2 (st_HN_A_vKeep c s)
        | exact vKeep_vOk o s _ hv2 (st_HN_C_vKeep c s)
        | exact vKeep_vOk o s _ hv2 (st_HN_D_vKeep c s)
        | exact vKeep_vOk o s _ hv2 (st_HN_I_vKeep c s)
        | exact vKeep_vOk o s _ hv2 (st_HN_L_vKeep c s)
        | exact vKeep_vOk o s _ hv2 (st_HN_O_vKeep c s)
        | exact vKeep_vOk o s _ hv2 (st_HN_P_vKeep c s)
        | exact vKeep_vOk o s _ hv2 (st_HN_S_vKeep c s)
        | exact vKeep_vOk o s _ hv2 (st_HN_T_vKeep c s)
        | exact vKeep_vOk o s _ hv2 (st_HN_U_vKeep c s)
        | exact vKeep_vOk o s _ hv2 (st_HN_V_vKeep c s)
        | exact vKeep_vOk o s _ hv2 (st_HN_W_vKeep c s)
        | exact vKeep_vOk o s _ hv2 (st_HN_X_vKeep c s))

theorem step_frame (c : Cfg) (b2 : Bytes) (o : Nat) (h : ∀ i, o ≤ i → rd b2 i = rd c.buf i)
    (s : Scan) (hs : o ≤ s.__offset) (hv : s.state = State.ST_STARTUP ∨ o ≤ s.vStart) :
    step { c with buf := b2 } s = step c s := by
  unfold step
  cases hst : s.state <;> simp only []
  · exact st_STARTUP_frame c b2 o h s hs
  · rfl
  · exact st_HN_UNKNOWN_frame c b2 o h s hs (by
      rcases hv with hv | hv
      · rw [hst] at hv; cases hv
      · exact hv)
  · exact st_HN_H_frame c b2 o h s hs
  · exact st_HN_A_frame c b2 o h s hs
  · exact st_HN_C_frame c b2 o h s hs
  · exact st_HN_D_frame c b2 o h s hs
  · exact st_HN_I_frame c b2 o h s hs
  · exact st_HN_L_frame c b2 o h s hs
  · exact st_HN_O_frame c b2 o h s hs
  · exact st_HN_P_frame c b2 o h s hs
  · exact st_HN_S_frame c b2 o h s hs
  · exact st_HN_T_frame c b2 o h s hs
  · exact st_HN_U_frame c b2 o h s hs
  · exact st_HN_V_frame c b2 o h s hs
  · exact st_HN_W_frame c b2 o h s hs
  · exact st_HN_X_frame c b2 o h s hs
  · exact st_HV_CONCAT_frame c b2 o h s hs

theorem step_offset_ge (c : Cfg) (s s2 : Scan) (h : step c s = Step.next s2) :
    s.__offset ≤ s2.__offset := by
  have hr := step_round c s
  rw [h] at hr
  rcases hr with ⟨_, _, h3⟩ | ⟨v, e, _, he1, _, _, _, hx | hx⟩
  · exact h3 rfl
  · have : Step.flag (Step.next s2) = some FlagBits.FLAG_OK := hx.1
    cases this
  · have h1 : s2.offset = e := hx.2.2
    have h2 : s2.offset = s2.__offset := hx.2.1.2.1
    omega

/-- The loop of `scanHeaders` reads no byte before the cursor it starts from. -/
theorem scanLoop_frame (c : Cfg) (b2 : Bytes) (o : Nat) (h : ∀ i, o ≤ i → rd b2 i = rd c.buf i) :
    ∀ (n : Nat) (s : Scan), o ≤ s.__offset → (s.state = State.ST_STARTUP ∨ o ≤ s.vStart) →
      scanLoop { c with buf := b2 } n s = scanLoop c n s
  | 0, _, _, _ => rfl
  | n + 1, s, hs, hv => by
    rw [scanLoop_succ, scanLoop_succ, step_frame c b2 o h s hs hv]
    simp only []
    by_cases hh : s.__offset ≥ c.total ∧ s.state ≠ State.ST_HV_CONCAT
    · rw [if_pos hh, if_pos hh]
    · rw [if_neg hh, if_neg hh]
      have hvo := step_vOk c s o hs hv
      cases hst : step c s with
      | ret f s2 => rfl
      | next s2 =>
        rw [hst] at hvo
        have hge := step_offset_ge c s s2 hst
        exact scanLoop_frame c b2 o h n s2 (by omega) hvo

theorem scanHeaders_frame (c : Cfg) (b2 : Bytes) (o : Nat)
    (h : ∀ i, o ≤ i → rd b2 i = rd c.buf i) (hs : Obj) :
    scanHeaders { c with buf := b2 } o hs = scanHeaders c o hs := by
  unfold scanHeaders
  simp only []
  rw [scanLoop_frame c b2 o h _ (Scan.init o hs) (Nat.le_refl _) (Or.inl rfl)]

theorem scanHttpMethod_frame (b2 b1 : Bytes) (h : ∀ i, i < 8 → rd b2 i = rd b1 i) :
    scanHttpMethod b2 0 = scanHttpMethod b1 0 := by
  unfold scanHttpMethod
  simp (disch := omega) only [h]

theorem isHttp11AtOffset_frame (b2 b1 : Bytes) (hlen : b2.length = b1.length) (v : Nat)
    (h : ∀ i, v ≤ i → i < v + 8 → rd b2 i = rd b1 i) :
    isHttp11AtOffset b2 b2.length v = isHttp11AtOffset b1 b1.length v := by
  have hs : slice b2 v 8 = slice b1 v 8 := by
    unfold slice
    apply List.map_congr_left
    intro i hi
    have := List.mem_range.mp hi
    exact h _ (by omega) (by omega)
  unfold isHttp11AtOffset
  rw [hlen, hs]

theorem isHttp11AtOffset_snd (b : Bytes) (n v : Nat) (h : ¬ (isHttp11AtOffset b n v).1 = false) :
    (isHttp11AtOffset b n v).2 = v + 8 := by
  unfold isHttp11AtOffset at h ⊢
  split
  · rename_i h1
    rw [if_pos h1] at h
    exact absurd rfl h
  · rename_i h1
    rw [if_neg h1] at h
    split
    · rename_i h2
      rw [if_pos h2] at h
      exact absurd rfl h
    · rfl

theorem rd_past (b : Bytes) (i : Nat) (h : b.length ≤ i) : rd b i = 0 := by
  unfold rd
  rw [List.getD_eq_getElem?_getD, List.getElem?_eq_none h]
  rfl

/-! ## The claims -/


/-- C1 (fails on the code): the endpoint that `makeEndpoint` produces for the pattern
`users/:id/posts` keeps the placeholder as `:id`; the builder only treats `:` followed by
`/` as a parameter, so the trie holds the literal bytes `:id` and the URL with the sample
value `42` is not found. -/
theorem C1_named_placeholder_not_matched :
    matchUrl (buildRouteTree [makeEndpoint (B "users/:id/posts") 7])
        (B "users/42/posts ") 0 [] [] 64
      = some ⟨-1, 6, [], []⟩ := by
  decide!

/-- C10 (fails on the code): after a HEAD route is registered the HEAD trie is built and
the HEAD bit of `m_methodFlags` is set, yet `isMethodAllowed(M_HEAD)` is false. -/
theorem C10_head_registered_not_allowed :
    ((HttpCore.RegisterRoutes HttpCore.init [⟨B "HEAD", B "/a", 0⟩]).m_httpRouteMaps.getD 0
        none).isSome = true
      ∧ (HttpCore.RegisterRoutes HttpCore.init [⟨B "HEAD", B "/a", 0⟩]).m_methodFlags &&& 1 = 1
      ∧ HttpCore.isMethodAllowed (HttpCore.RegisterRoutes HttpCore.init [⟨B "HEAD", B "/a", 0⟩])
          MethodType.M_HEAD = false := by
  decide!

/-- C2: content-length and transfer-encoding never coexist, in either order, on either
SIMD backend.  Take a call of `scanHeaders` started at offset `o` with the mapping `hs`.
Suppose that after `k1` rounds of its loop (any earlier lines, no error) it stands at
`ST_STARTUP` on a line named `first`, and that `4 + k2` rounds later (the four rounds of that
line, then any further lines, no error) it stands at `ST_STARTUP` on a line named `second`,
where `first`/`second` are `content-length`/`transfer-encoding` in either order, both names
in any ASCII letter case and followed by `:` inside the buffer, both lines starting within
the header-size cap, and `second` not yet in the mapping.  Then the call returns
FLAG_BAD_REQUEST with `*offset` and the mapping as they were when the second line was
reached, and that mapping holds `first` and not `second`. -/
theorem C2_cl_te_coexistence_is_bad_request (c : Cfg) (o : Nat) (hs : Obj) (k1 k2 : Nat)
    (s1 s : Scan) (first second : Bytes)
    (hb : IsBytes c.buf) (hlt : o < c.total)
    (hpair : (first = B "content-length" ∧ second = B "transfer-encoding")
      ∨ (first = B "transfer-encoding" ∧ second = B "content-length"))
    (hreach1 : scanRounds c k1 (Scan.init o hs) = some s1)
    (hst1 : s1.state = State.ST_STARTUP)
    (hname1 : nameAt c.buf s1.__offset first)
    (hcolon1 : rd c.buf (s1.__offset + first.length) = 58)
    (hin1 : s1.__offset + first.length + 1 ≤ c.total)
    (hcap1 : s1.__offset ≤ c.maxHeaderSize)
    (hreach2 : scanRounds c (4 + k2) s1 = some s)
    (hst2 : s.state = State.ST_STARTUP)
    (hname2 : nameAt c.buf s.__offset second)
    (hcolon2 : rd c.buf (s.__offset + second.length) = 58)
    (hin2 : s.__offset + second.length + 1 ≤ c.total)
    (hcap2 : s.__offset ≤ c.maxHeaderSize)
    (hsecond : Obj.Has s.outHeaders second = false) :
    scanHeaders c o hs = some ⟨FlagBits.FLAG_BAD_REQUEST, s.offset, s.outHeaders⟩
      ∧ Obj.Has s.outHeaders first = true
      ∧ Obj.Has s.outHeaders second = false := by
  have hfirst : Obj.Has s.outHeaders first = true :=
    pair_first_line_stored c s1 s k2 first hb hst1
      (by rcases hpair with h | h
          · exact Or.inl h.1
          · exact Or.inr h.1)
      hname1 hcolon1 hin1 hcap1 hreach2
  exact ⟨cl_te_second_rejected c o hs (k1 + (4 + k2)) s first second hb hlt
      (scanRounds_append c k1 (4 + k2) _ s1 s hreach1 hreach2) hst2 hpair hname2 hcolon2 hin2
      hcap2 hfirst hsecond, hfirst, hsecond⟩

/-- Witness of C2 on the NEON backend: an unknown header (LF line end), then
`Transfer-Encoding`, then `content-LENGTH`; the second line is reached after 4 rounds at
offset 7, the third after 4 more at offset 35. -/
theorem C2_cl_te_coexistence_is_bad_request_witness :
    scanHeaders
        (Cfg.whole Simd.neon
          (B "X-A: x\nTransfer-Encoding: chunked\r\ncontent-LENGTH: 1\r\n\r\n")) 0 []
      = some ⟨FlagBits.FLAG_BAD_REQUEST, 35,
          [(B "x-a", B "x"), (B "transfer-encoding", B "chunked")]⟩ :=
  (C2_cl_te_coexistence_is_bad_request
    (Cfg.whole Simd.neon (B "X-A: x\nTransfer-Encoding: chunked\r\ncontent-LENGTH: 1\r\n\r\n"))
    0 [] 4 0
    ⟨7, 7, 0, HeaderId.HDR_UNKNOWN, false, [], State.ST_STARTUP, [(B "x-a", B "x")]⟩
    ⟨35, 35, 7, HeaderId.HDR_UNKNOWN, false, [], State.ST_STARTUP,
      [(B "x-a", B "x"), (B "transfer-encoding", B "chunked")]⟩
    (B "transfer-encoding") (B "content-length")
    (by decide) (by decide) (Or.inr ⟨rfl, rfl⟩)
    (by decide!) rfl (by decide) (by decide) (by decide) (by decide)
    (by decide!) rfl (by decide) (by decide) (by decide) (by decide) (by decide)).1

/-- C3 (fails on the code): the block `Trailer: x` + CRLF + CRLF is rejected with
INVALID_HEADER on both backends (the `trailer` branch advances the cursor by 4 after
matching the 3 bytes `ler`), and nothing is stored. -/
theorem C3_trailer_line_rejected (simd : Simd) :
    scanHeaders (Cfg.whole simd (B "Trailer: x\r\n\r\n")) 0 []
      = some ⟨FlagBits.FLAG_INVALID_HEADER, 0, []⟩ := by
  cases simd <;> decide!

/-- C4 (fails on the code): with `referer` already in the mapping, a further `Referer` line
is accepted on both backends and overwrites the stored value. -/
theorem C4_referer_repeat_overwrites (simd : Simd) :
    scanHeaders (Cfg.whole simd (B "Referer: b\r\n\r\n")) 0 [(B "referer", B "a")]
      = some ⟨FlagBits.FLAG_OK, 14, [(B "referer", B "b")]⟩ := by
  cases simd <;> decide!

/-- C5 (fails on the code): two `Accept: a` lines leave the value `a`, not `a, a`
(the plain `accept` branch never sets `hdrMergeable`). -/
theorem C5_accept_repeat_not_merged (simd : Simd) :
    scanHeaders (Cfg.whole simd (B "Accept: a\r\nAccept: a\r\n\r\n")) 0 []
      = some ⟨FlagBits.FLAG_OK, 24, [(B "accept", B "a")]⟩ := by
  cases simd <;> decide!

/-- C6 (fails on the code): a header block cut right after its first line, before the
closing blank line, is answered with FLAG_OK. -/
theorem C6_cut_block_returns_ok (simd : Simd) :
    scanHeaders (Cfg.whole simd (B "Host: x\r\n")) 0 []
      = some ⟨FlagBits.FLAG_OK, 9, [(B "host", B "x")]⟩ := by
  cases simd <;> decide!

/-- C7 (fails on the code): for the block `Host: x` CRLF CRLF split after 9 bytes, the run
on the prefix leaves offset 9 and the mapping with `host`; the run on the whole buffer
resumed from there returns INVALID_HEADER at offset 9, while the one-shot run returns
FLAG_OK at offset 11. -/
theorem C7_split_differs_from_one_shot (simd : Simd) :
    scanHeaders (Cfg.whole simd ((B "Host: x\r\n\r\n").take 9)) 0 []
        = some ⟨FlagBits.FLAG_OK, 9, [(B "host", B "x")]⟩
      ∧ scanHeaders (Cfg.whole simd (B "Host: x\r\n\r\n")) 9 [(B "host", B "x")]
        = some ⟨FlagBits.FLAG_INVALID_HEADER, 9, [(B "host", B "x")]⟩
      ∧ scanHeaders (Cfg.whole simd (B "Host: x\r\n\r\n")) 0 []
        = some ⟨FlagBits.FLAG_OK, 11, [(B "host", B "x")]⟩ := by
  cases simd <;> decide!

/-- C8 (fails on the code): a line whose name is `Cache`, a carriage return, `Control` is
stored under the key `cache-control`, which is not the lowercase of the name bytes
(OR with 0x20 turns the byte 13 into `-`). -/
theorem C8_cr_folded_to_hyphen (simd : Simd) :
    scanHeaders (Cfg.whole simd (B "Cache\rControl: v\r\n\r\n")) 0 []
        = some ⟨FlagBits.FLAG_OK, 20, [(B "cache-control", B "v")]⟩
      ∧ (B "Cache\rControl").map tolower ≠ B "cache-control" := by
  cases simd <;> decide!

/-- C9 (fails on the code): a line whose name bytes before the first `:` are `Accept`
followed by a space is not rejected; it is stored under `accept` with the value `: x`. -/
theorem C9_space_in_name_accepted (simd : Simd) :
    scanHeaders (Cfg.whole simd (B "Accept : x\r\n\r\n")) 0 []
      = some ⟨FlagBits.FLAG_OK, 14, [(B "accept", B ": x")]⟩ := by
  cases simd <;> decide!

/-- C12: `scanHttpMethod` returns the code of a method `m` and advances the offset by the
length of the token of `m` exactly when the bytes at the offset are that upper-case token
immediately followed by a space or a NUL (a read past the end of the buffer sees NUL); when
no method token stands at the offset it returns `M_ERROR` and leaves the offset unchanged. -/
theorem C12_scanHttpMethod_recognises_tokens (curl : Bytes) (offset : Nat) :
    (∀ m, m ≠ MethodType.M_ERROR →
        (scanHttpMethod curl offset = (m, offset + (MethodType.token m).length)
          ↔ tokenAt curl offset m))
      ∧ (∀ m, m ≠ MethodType.M_ERROR → ((scanHttpMethod curl offset).1 = m ↔ tokenAt curl offset m))
      ∧ ((∀ m, m ≠ MethodType.M_ERROR → ¬ tokenAt curl offset m) →
          scanHttpMethod curl offset = (MethodType.M_ERROR, offset))
      ∧ ((scanHttpMethod curl offset).1 = MethodType.M_ERROR →
          (scanHttpMethod curl offset).2 = offset
            ∧ ∀ m, m ≠ MethodType.M_ERROR → ¬ tokenAt curl offset m) := by
  have key : ∀ m, m ≠ MethodType.M_ERROR → tokenAt curl offset m →
      scanHttpMethod curl offset = (m, offset + (MethodType.token m).length) := by
    intro m hm ht
    rcases scanHttpMethod_cases curl offset with h | h | h | h | h | h | h | h
    all_goals first
      | (have e := tokenAt_unique curl offset m _ hm (by decide) ht h.1
         subst e
         exact h.2)
      | exact absurd ht (h.1 m hm)
  have key2 : ∀ m, m ≠ MethodType.M_ERROR → (scanHttpMethod curl offset).1 = m →
      tokenAt curl offset m := by
    intro m hm he
    rcases scanHttpMethod_cases curl offset with h | h | h | h | h | h | h | h
    all_goals first
      | (rw [h.2] at he
         simp only at he
         subst he
         exact h.1)
      | (rw [h.2] at he
         exact absurd he.symm hm)
  refine ⟨fun m hm => ⟨fun h => key2 m hm (by rw [h]), key m hm⟩,
    fun m hm => ⟨key2 m hm, fun h => by rw [key m hm h]⟩, ?_, ?_⟩
  · intro hno
    rcases scanHttpMethod_cases curl offset with h | h | h | h | h | h | h | h
    all_goals first
      | exact h.2
      | exact absurd h.1 (hno _ (by decide))
  · intro he
    have hno : ∀ m, m ≠ MethodType.M_ERROR → ¬ tokenAt curl offset m := by
      intro m hm ht
      rw [key m hm ht] at he
      exact hm he
    rcases scanHttpMethod_cases curl offset with h | h | h | h | h | h | h | h
    all_goals first
      | exact absurd h.1 (hno _ (by decide))
      | exact ⟨by rw [h.2], hno⟩

/-- C11: method gating of `ScannerRouteFirst`, on a core obtained from a new object by any
sequence of `registerRoutes` calls.  If no method token stands at the start of the buffer,
the call returns -1 and the only change to the request object is `retFlag = BAD_REQUEST`.
If the token of one of the seven methods stands there and the slot of that method holds no
trie, the call returns -1 with `retFlag = METHOD_NOT_ALLOWED`, or-ed with `CORS_PREFLIGHT`
exactly when the method is OPTIONS, and `mainOffset` set to the length of the token; the
parameters, the query, the headers and the header size of the request object are as before,
so neither the route matcher nor the header scanner has contributed. -/
theorem C11_method_gating (calls : List (List RouteDef)) (simd : Simd) (curl : Bytes)
    (reqObj : ReqObj) (caps : Caps) :
    ((∀ m, m ≠ MethodType.M_ERROR → ¬ tokenAt curl 0 m) →
        HttpCore.ScannerRouteFirst (HttpCore.registered calls) simd curl reqObj caps
          = some (-1, { reqObj with retFlag := FlagBits.toNat FlagBits.FLAG_BAD_REQUEST }))
      ∧ (∀ m, m ≠ MethodType.M_ERROR → tokenAt curl 0 m →
          (HttpCore.registered calls).m_httpRouteMaps.getD (MethodType.toNat m) none = none →
          HttpCore.ScannerRouteFirst (HttpCore.registered calls) simd curl reqObj caps
            = some (-1, { reqObj with
                retFlag :=
                  if m = MethodType.M_OPTIONS then
                    FlagBits.toNat FlagBits.FLAG_METHOD_NOT_ALLOWED
                      ||| FlagBits.toNat FlagBits.FLAG_CORS_PREFLIGHT
                  else FlagBits.toNat FlagBits.FLAG_METHOD_NOT_ALLOWED
                mainOffset := (MethodType.token m).length })) := by
  constructor
  · intro hno
    have hs := scanHttpMethod_of_none curl 0 hno
    have ha : (HttpCore.registered calls).isMethodAllowed MethodType.M_ERROR = false := by
      cases hh : (HttpCore.registered calls).isMethodAllowed MethodType.M_ERROR
      · rfl
      · have := ((isMethodAllowed_iff _ _).mp hh).2.1
        exact absurd this (by decide)
    rw [ScannerRouteFirst_gate _ simd curl reqObj caps _ _ hs ha, if_pos rfl]
  · intro m hm ht hslot
    have hs := scanHttpMethod_of_token curl 0 m hm ht
    have ha : (HttpCore.registered calls).isMethodAllowed m = false := by
      cases hh : (HttpCore.registered calls).isMethodAllowed m
      · rfl
      · have := (registered_coherent calls).2 m hh
        rw [hslot] at this
        cases this
    rw [ScannerRouteFirst_gate _ simd curl reqObj caps _ _ hs ha, if_neg hm, Nat.zero_add]

/-- C11 at `OPTIONS /x HTTP/1.1` on a core that has only a GET route: the flag is
`METHOD_NOT_ALLOWED | CORS_PREFLIGHT` (10) and the call returns -1. -/
theorem C11_method_gating_witness :
    MethodType.M_OPTIONS ≠ MethodType.M_ERROR
      ∧ tokenAt (B "OPTIONS /x HTTP/1.1\r\n") 0 MethodType.M_OPTIONS
      ∧ HttpCore.ScannerRouteFirst (HttpCore.registered [[⟨B "GET", B "/x", 1⟩]]) Simd.sse2
          (B "OPTIONS /x HTTP/1.1\r\n") ⟨0, 0, 0, [], [], [], 0⟩ ⟨256, 4096, 8192, 512⟩
        = some (-1, ⟨10, 7, 0, [], [], [], 0⟩) :=
  ⟨by decide, by decide,
    ((C11_method_gating [[⟨B "GET", B "/x", 1⟩]] Simd.sse2 (B "OPTIONS /x HTTP/1.1\r\n")
      ⟨0, 0, 0, [], [], [], 0⟩ ⟨256, 4096, 8192, 512⟩).2
        MethodType.M_OPTIONS (by decide) (by decide) rfl)⟩

/-- C13: `isHttp11AtOffset` returns true and moves the offset by 8 exactly when the eight
bytes at the offset lie inside the buffer and are `HTTP/1.1`; otherwise it returns false and
leaves the offset as it was.  In `ScannerRouteFirst`, when the method is admitted, the route
matcher returned a handler and the check fails after the byte that follows the URL, the call
returns that handler and the request object has the method, the parameters and the query
stored and `retFlag = HTTP_VERSION_UNSUPPORTED`, its headers, header size and main offset
being those it came with: the header scanner has not run. -/
theorem C13_http_version_check (core : HttpCore) (simd : Simd) (curl : Bytes)
    (reqObj : ReqObj) (caps : Caps) (curlLen offset : Nat) :
    (isHttp11AtOffset curl curlLen offset = (true, offset + 8)
        ↔ (offset + 8 ≤ curlLen ∧ slice curl offset 8 = B "HTTP/1.1"))
      ∧ (¬ (offset + 8 ≤ curlLen ∧ slice curl offset 8 = B "HTTP/1.1")
          → isHttp11AtOffset curl curlLen offset = (false, offset))
      ∧ (∀ (m : MethodType) (o : Nat) (r : MatchResult),
          scanHttpMethod curl 0 = (m, o) →
          HttpCore.isMethodAllowed core m = true →
          matchUrl (core.m_httpRouteMaps.getD (MethodType.toNat m) none) curl (o + 1) [] []
            caps.query_limit = some r →
          r.ret ≠ -1 → r.ret ≠ -2 → r.ret ≠ -3 →
          ¬ (r.offset + 1 + 8 ≤ curl.length ∧ slice curl (r.offset + 1) 8 = B "HTTP/1.1") →
          HttpCore.ScannerRouteFirst core simd curl reqObj caps
            = some (r.ret, { reqObj with
                method := MethodType.toNat m
                params := r.path_params
                query := r.query
                retFlag := FlagBits.toNat FlagBits.FLAG_HTTP_VERSION_UNSUPPORTED })) := by
  have hA : ∀ (len off : Nat),
      ¬ (off + 8 ≤ len ∧ slice curl off 8 = B "HTTP/1.1")
        → isHttp11AtOffset curl len off = (false, off) := by
    intro len off h
    unfold isHttp11AtOffset
    by_cases h1 : off + 8 > len
    · rw [if_pos h1]
    · rw [if_neg h1]
      by_cases h2 : slice curl off 8 ≠ B "HTTP/1.1"
      · rw [if_pos h2]
      · exact absurd ⟨by omega, not_not.mp h2⟩ h
  refine ⟨⟨?_, ?_⟩, hA curlLen offset, ?_⟩
  · intro h
    by_contra hn
    rw [hA curlLen offset hn] at h
    cases h
  · intro h
    unfold isHttp11AtOffset
    rw [if_neg (by omega), if_neg (not_not.mpr h.2)]
  · intro m o r hs ha hr h1 h2 h3 hv
    rw [ScannerRouteFirst_route core simd curl reqObj caps m o r hs ha hr, if_neg h1,
      if_neg h2, if_neg h3, hA curl.length (r.offset + 1) hv, if_pos rfl]

/-- C13 at `GET /x HTTP/1.0` with the route `GET /x` registered for handler 7: the handler
is returned with the flag `HTTP_VERSION_UNSUPPORTED` (16). -/
theorem C13_http_version_check_witness :
    HttpCore.ScannerRouteFirst (HttpCore.registered [[⟨B "GET", B "/x", 7⟩]]) Simd.neon
        (B "GET /x HTTP/1.0\r\n\r\n") ⟨0, 0, 0, [], [], [], 0⟩ ⟨256, 4096, 8192, 512⟩
      = some (7, ⟨16, 0, 1, [], [], [], 0⟩) :=
  (C13_http_version_check (HttpCore.registered [[⟨B "GET", B "/x", 7⟩]]) Simd.neon
    (B "GET /x HTTP/1.0\r\n\r\n") ⟨0, 0, 0, [], [], [], 0⟩ ⟨256, 4096, 8192, 512⟩ 0 0).2.2
      MethodType.M_GET 3 ⟨7, 6, [], []⟩ (by decide) (by decide!) (by decide!)
      (by decide) (by decide) (by decide) (by decide)

/-- C14: in `ScannerRouteFirst`, when the method is admitted, the route matcher returns, and
when what it returns is one of its three failure values the call returns -1 and the request
object has the method stored and `retFlag` equal to `NOT_FOUND` for -1,
`REQUEST_QUERY_EXCEEDED` for -2 and `REQUEST_URL_EXCEEDED` for -3; every other property of
the request object, the header mapping among them, is as before. -/
theorem C14_route_failure_flags (core : HttpCore) (simd : Simd) (curl : Bytes)
    (reqObj : ReqObj) (caps : Caps) (m : MethodType) (o : Nat)
    (hs : scanHttpMethod curl 0 = (m, o))
    (ha : HttpCore.isMethodAllowed core m = true) :
    ∃ r, matchUrl (core.m_httpRouteMaps.getD (MethodType.toNat m) none) curl (o + 1) [] []
          caps.query_limit = some r
      ∧ (r.ret = -1 →
          HttpCore.ScannerRouteFirst core simd curl reqObj caps
            = some (-1, { reqObj with
                method := MethodType.toNat m
                retFlag := FlagBits.toNat FlagBits.FLAG_NOT_FOUND }))
      ∧ (r.ret = -2 →
          HttpCore.ScannerRouteFirst core simd curl reqObj caps
            = some (-1, { reqObj with
                method := MethodType.toNat m
                retFlag := FlagBits.toNat FlagBits.FLAG_REQUEST_QUERY_EXCEEDED }))
      ∧ (r.ret = -3 →
          HttpCore.ScannerRouteFirst core simd curl reqObj caps
            = some (-1, { reqObj with
                method := MethodType.toNat m
                retFlag := FlagBits.toNat FlagBits.FLAG_REQUEST_URL_EXCEEDED })) := by
  obtain ⟨r, hr⟩ := Option.isSome_iff_exists.mp
    (matchUrl_isSome (core.m_httpRouteMaps.getD (MethodType.toNat m) none) curl (o + 1) [] []
      caps.query_limit)
  refine ⟨r, hr, ?_, ?_, ?_⟩
  · intro h
    rw [ScannerRouteFirst_route core simd curl reqObj caps m o r hs ha hr, if_pos h]
  · intro h
    rw [ScannerRouteFirst_route core simd curl reqObj caps m o r hs ha hr,
      if_neg (by rw [h]; decide), if_pos h]
  · intro h
    rw [ScannerRouteFirst_route core simd curl reqObj caps m o r hs ha hr,
      if_neg (by rw [h]; decide), if_neg (by rw [h]; decide), if_pos h]

/-- C14 at `GET /nope HTTP/1.1` with only the route `GET /x` registered: the matcher returns
-1, the call returns -1 with the flag `NOT_FOUND` (4), and the headers stay as they were. -/
theorem C14_route_failure_flags_witness :
    (∃ r, matchUrl ((HttpCore.registered [[⟨B "GET", B "/x", 7⟩]]).m_httpRouteMaps.getD
            (MethodType.toNat MethodType.M_GET) none)
          (B "GET /nope HTTP/1.1\r\n\r\n") (3 + 1) [] [] 512 = some r
        ∧ (r.ret = -1 →
            HttpCore.ScannerRouteFirst (HttpCore.registered [[⟨B "GET", B "/x", 7⟩]]) Simd.sse2
                (B "GET /nope HTTP/1.1\r\n\r\n") ⟨0, 0, 0, [], [], [(B "k", B "v")], 0⟩
                ⟨256, 4096, 8192, 512⟩
              = some (-1, ⟨4, 0, 1, [], [], [(B "k", B "v")], 0⟩)))
      ∧ matchUrl ((HttpCore.registered [[⟨B "GET", B "/x", 7⟩]]).m_httpRouteMaps.getD
            (MethodType.toNat MethodType.M_GET) none)
          (B "GET /nope HTTP/1.1\r\n\r\n") (3 + 1) [] [] 512 = some ⟨-1, 4, [], []⟩ :=
  ⟨(C14_route_failure_flags (HttpCore.registered [[⟨B "GET", B "/x", 7⟩]]) Simd.sse2
      (B "GET /nope HTTP/1.1\r\n\r\n") ⟨0, 0, 0, [], [], [(B "k", B "v")], 0⟩
      ⟨256, 4096, 8192, 512⟩ MethodType.M_GET 3 (by decide) (by decide!)).imp
      (fun _ h => ⟨h.1, h.2.1⟩),
    by decide!⟩

/-- C18: percent-decoding.  For every byte string `s`, `url_decode` applied to the region of
a buffer that holds each byte of `s` written as `%` and its two hex digits, each digit in
upper or in lower case, returns `s`.  At any position of the region a `+` produces a space,
a `%` with fewer than two bytes after it in the region is copied as it is, and a byte that is
neither `%` nor `+` is copied unchanged, decoding going on with the next byte; the empty
region decodes to the empty string. -/
theorem C18_url_decode_round_trip :
    (∀ (upper : Nat → Bool) (s before after : Bytes), IsBytes s →
        url_decode (before ++ pctEncode upper 0 s ++ after) before.length
          (before.length + 3 * s.length) = s)
      ∧ (∀ (buf : Bytes) (p stop : Nat), p < stop → rd buf p = 43 →
          url_decode buf p stop = 32 :: url_decode buf (p + 1) stop)
      ∧ (∀ (buf : Bytes) (p stop : Nat), p < stop → rd buf p = 37 → stop ≤ p + 2 →
          url_decode buf p stop = 37 :: url_decode buf (p + 1) stop)
      ∧ (∀ (buf : Bytes) (p stop : Nat), p < stop → rd buf p ≠ 37 → rd buf p ≠ 43 →
          url_decode buf p stop = rd buf p :: url_decode buf (p + 1) stop)
      ∧ (∀ (buf : Bytes) (p stop : Nat), stop ≤ p → url_decode buf p stop = []) := by
  refine ⟨?_, ?_, ?_, ?_, ?_⟩
  · intro upper s before after hs
    apply url_decode_pctEncode upper _ s 0 before.length hs
    intro j hj
    rw [List.append_assoc, rd_append_right, rd_append_left]
    rw [pctEncode_length]
    exact hj
  · intro buf p stop h hc
    exact url_decode_plus buf p stop hc h
  · intro buf p stop h hc h2
    rw [url_decode_copy buf p stop h (Or.inl ⟨hc, h2⟩), hc]
  · intro buf p stop h h1 h2
    exact url_decode_copy buf p stop h (Or.inr ⟨h1, h2⟩)
  · intro buf p stop h
    exact url_decode_nil buf p stop h

/-- C18 at the bytes 0, `/`, 255 and `%`, written `%00%2f%FF%25` after `k=` and before
`&`: decoding the twelve bytes gives the four bytes back. -/
theorem C18_url_decode_round_trip_witness :
    IsBytes [0, 47, 255, 37]
      ∧ url_decode (B "k=%00%2f%FF%25&") 2 14 = [0, 47, 255, 37] :=
  ⟨by decide,
    C18_url_decode_round_trip.1 (fun k => decide (4 ≤ k ∧ k < 6)) [0, 47, 255, 37]
      (B "k=") (B "&") (by decide)⟩

/-- C15 (counterexample): with the single route `*` (handler 5), the request line `GET /`,
1000 letters, `?a HTTP/1.1` is matched from cursor 4.  The wildcard child carries a handler,
the path it consumes (1001 bytes) is followed by `?` at index 1005 and the query is one
byte, exactly the cap of 1; yet `matchUrl` returns -3, not the handler index. -/
theorem C15_counterexample :
    rd (B "GET /" ++ List.replicate 1000 97 ++ B "?a HTTP/1.1") 1005 = 63
      ∧ queryLen (B "GET /" ++ List.replicate 1000 97 ++ B "?a HTTP/1.1") 1006 = 1
      ∧ runLen (fun c => c != 32 && c != 63)
          (B "GET /" ++ List.replicate 1000 97 ++ B "?a HTTP/1.1") 4 = 1001
      ∧ matchUrl (buildRouteTree [makeEndpoint (B "*") 5])
          (B "GET /" ++ List.replicate 1000 97 ++ B "?a HTTP/1.1") 4 [] [] 1
        = some ⟨-3, 1001, [], []⟩ := by
  refine ⟨by decide!, by decide!, by decide!, ?_⟩
  rw [matchUrl_star]
  apply wildcardLoop_over _ _ _ _ _ 1003 4 [] (by omega) (by omega)
  · intro i h1 h2
    by_cases h4 : i = 4
    · subst h4; decide
    · rw [rd_replicate_mid _ _ _ _ _ (by simp [B]; omega) (by simp [B]; omega)]
      decide
  · rw [rd_replicate_mid _ _ _ _ _ (by decide) (by decide)]
    decide

/-- C15 (amended): the query cap, at the round of `matchUrl` that ends the walk.  Let the
first child that is not a static mismatch carry a handler index, and let it be a static
child that matches at the offset (first part), a parameter child (second part) or a
wildcard child that meets no space before the `?` and meets the `?` at a buffer index of at
most 1000, so before its own length test can answer -3 (third part); let the byte after
the matched text be `?`.  Then the matcher returns, it returns -2 exactly when the number
of query bytes after the `?` (the bytes before the first space, CR, LF, `#` or NUL) is
greater than `query_limit`, and when that number is at most `query_limit`, so also when it
is equal to it, it returns the handler index of the child and leaves the offset on the byte
that ends the query. -/
theorem C15_query_cap (url : Bytes) (query_limit : Nat) (skipped : List RouteNode)
    (child : RouteNode) (rest : List RouteNode) (offset : Nat) (ps : List Bytes) (q : Obj)
    (hs : ∀ c ∈ skipped, c.is_param = false ∧ c.is_wildcard = false
      ∧ nodeStaticMatches c url offset = false)
    (hv : 0 ≤ child.vptr_table_index) :
    (child.is_param = false → child.is_wildcard = false →
        nodeStaticMatches child url offset = true →
        rd url (offset + child.value_length) = 63 →
        ∃ r, matchChildren url query_limit (skipped ++ child :: rest) offset ps q = some r
          ∧ (r.ret = -2 ↔ query_limit < queryLen url (offset + child.value_length + 1))
          ∧ (queryLen url (offset + child.value_length + 1) ≤ query_limit →
              r.ret = child.vptr_table_index
                ∧ r.offset = offset + child.value_length
                    + queryLen url (offset + child.value_length + 1) + 1))
      ∧ (child.is_param = true →
          rd url (paramEnd url (url.length + 1 - offset) offset) = 63 →
          ∃ r, matchChildren url query_limit (skipped ++ child :: rest) offset ps q = some r
            ∧ (r.ret = -2
                ↔ query_limit
                    < queryLen url (paramEnd url (url.length + 1 - offset) offset + 1))
            ∧ (queryLen url (paramEnd url (url.length + 1 - offset) offset + 1) ≤ query_limit →
                r.ret = child.vptr_table_index
                  ∧ r.offset = paramEnd url (url.length + 1 - offset) offset
                      + queryLen url (paramEnd url (url.length + 1 - offset) offset + 1) + 1))
      ∧ (child.is_param = false → child.is_wildcard = true →
          ∀ k, offset ≤ k → k ≤ 1000 → rd url k = 63 →
            (∀ i, offset ≤ i → i < k → rd url i ≠ 32 ∧ rd url i ≠ 63) →
            ∃ r, matchChildren url query_limit (skipped ++ child :: rest) offset ps q = some r
              ∧ (r.ret = -2 ↔ query_limit < queryLen url (k + 1))
              ∧ (queryLen url (k + 1) ≤ query_limit →
                  r.ret = child.vptr_table_index
                    ∧ r.offset = k + queryLen url (k + 1) + 1)) := by
  have hv1 : child.vptr_table_index ≠ -1 := by omega
  have hv2 : child.vptr_table_index ≠ -2 := by omega
  refine ⟨?_, ?_, ?_⟩
  · intro hp hw hm hq
    rw [matchChildren_skip url query_limit _ offset ps q skipped hs]
    unfold matchChildren
    simp only [hp, hw, hm, Bool.false_eq_true, if_false, if_true]
    rw [if_pos ⟨hv1, Or.inr hq⟩]
    exact matchFinish_query url query_limit _ _ _ q hq hv2
  · intro hp hq
    have hle := paramEnd_ge url (url.length + 1 - offset) offset
    rw [matchChildren_skip url query_limit _ offset ps q skipped hs]
    unfold matchChildren
    simp only [hp, if_true]
    have e : offset + (paramEnd url (url.length + 1 - offset) offset - offset)
        = paramEnd url (url.length + 1 - offset) offset := by omega
    rw [e, if_pos ⟨hv1, Or.inr hq⟩]
    exact matchFinish_query url query_limit _ _ _ q hq hv2
  · intro hp hw k hk1 hk2 hk hb
    rw [matchChildren_skip url query_limit _ offset ps q skipped hs]
    unfold matchChildren
    simp only [hp, hw, Bool.false_eq_true, if_false, if_true]
    exact wildcardLoop_query url query_limit _ ps k hk hk2 hv2 1003 offset q (by omega) hk1 hb

/-- C15 (amended) at `GET /x?abc HTTP/1.1`.  With the route `/x` (handler 7) and a cap of 3
bytes the three query bytes are accepted and handler 7 is returned; with a cap of 2 the
matcher returns -2.  The same holds for a parameter child (handler 8) reached at cursor 5,
whose text ends at the `?` at index 6, and for a wildcard child (handler 9) reached at
cursor 4, which meets the `?` at index 6. -/
theorem C15_query_cap_witness :
    (∃ r, matchChildren (B "GET /x?abc HTTP/1.1") 3
          ([] ++ RouteNode.mk 18446744073709516847 2 7 ParamType.kString false false [] []
            :: []) 4 [] [] = some r
        ∧ (r.ret = -2 ↔ 3 < queryLen (B "GET /x?abc HTTP/1.1") (4 + 2 + 1))
        ∧ (queryLen (B "GET /x?abc HTTP/1.1") (4 + 2 + 1) ≤ 3 →
            r.ret = 7 ∧ r.offset = 4 + 2 + queryLen (B "GET /x?abc HTTP/1.1") (4 + 2 + 1) + 1))
      ∧ queryLen (B "GET /x?abc HTTP/1.1") 7 = 3
      ∧ matchUrl (buildRouteTree [makeEndpoint (B "/x") 7]) (B "GET /x?abc HTTP/1.1") 4 [] [] 3
          = some ⟨7, 10, [], [(B "abc", [])]⟩
      ∧ matchUrl (buildRouteTree [makeEndpoint (B "/x") 7]) (B "GET /x?abc HTTP/1.1") 4 [] [] 2
          = some ⟨-2, 6, [], []⟩
      ∧ paramEnd (B "GET /x?abc HTTP/1.1") ((B "GET /x?abc HTTP/1.1").length + 1 - 5) 5 = 6
      ∧ (∃ r, matchChildren (B "GET /x?abc HTTP/1.1") 3
            ([] ++ RouteNode.mk 0 0 8 ParamType.kString true false [] [] :: []) 5 [] []
              = some r
          ∧ (r.ret = -2
              ↔ 3 < queryLen (B "GET /x?abc HTTP/1.1")
                  (paramEnd (B "GET /x?abc HTTP/1.1")
                    ((B "GET /x?abc HTTP/1.1").length + 1 - 5) 5 + 1))
          ∧ (queryLen (B "GET /x?abc HTTP/1.1")
                (paramEnd (B "GET /x?abc HTTP/1.1")
                  ((B "GET /x?abc HTTP/1.1").length + 1 - 5) 5 + 1) ≤ 3 →
              r.ret = 8
                ∧ r.offset = paramEnd (B "GET /x?abc HTTP/1.1")
                    ((B "GET /x?abc HTTP/1.1").length + 1 - 5) 5
                  + queryLen (B "GET /x?abc HTTP/1.1")
                      (paramEnd (B "GET /x?abc HTTP/1.1")
                        ((B "GET /x?abc HTTP/1.1").length + 1 - 5) 5 + 1) + 1))
      ∧ (∃ r, matchChildren (B "GET /x?abc HTTP/1.1") 3
            ([] ++ RouteNode.mk 0 0 9 ParamType.kString false true [] [] :: []) 4 [] []
              = some r
          ∧ (r.ret = -2 ↔ 3 < queryLen (B "GET /x?abc HTTP/1.1") (6 + 1))
          ∧ (queryLen (B "GET /x?abc HTTP/1.1") (6 + 1) ≤ 3 →
              r.ret = 9 ∧ r.offset = 6 + queryLen (B "GET /x?abc HTTP/1.1") (6 + 1) + 1)) :=
  ⟨(C15_query_cap (B "GET /x?abc HTTP/1.1") 3 []
      (RouteNode.mk 18446744073709516847 2 7 ParamType.kString false false [] []) [] 4 [] []
      (fun _ h => absurd h (List.not_mem_nil _)) (by decide)).1 rfl rfl (by decide!)
      (by decide),
    by decide, by decide!, by decide!, by decide,
    (C15_query_cap (B "GET /x?abc HTTP/1.1") 3 []
      (RouteNode.mk 0 0 8 ParamType.kString true false [] []) [] 5 [] []
      (fun _ h => absurd h (List.not_mem_nil _)) (by decide)).2.1 rfl (by decide),
    (C15_query_cap (B "GET /x?abc HTTP/1.1") 3 []
      (RouteNode.mk 0 0 9 ParamType.kString false true [] []) [] 4 [] []
      (fun _ h => absurd h (List.not_mem_nil _)) (by decide)).2.2 rfl rfl 6 (by decide)
      (by decide) (by decide)
      (fun i h1 h2 => by
        have hi : i = 4 ∨ i = 5 := by omega
        rcases hi with rfl | rfl <;> decide)⟩

/-- C19: `hv_get_value_number`.  Let the digit run at the offset be followed by a run of
spaces and tabs.  The parser returns OK exactly when the digit run is not empty and not
longer than the value cap and the byte after the two runs is a CR or LF that lies inside the
buffer; it then leaves the cursor on that byte and produces exactly the digit run.  When the
byte after the two runs lies inside the buffer and the digit run is within the cap, every
other input, that is an empty digit run (an empty value among them) or a byte after the runs
that is not a line end, yields INVALID_HEADER_VALUE at that byte. -/
theorem C19_numeric_value (buf : Bytes) (offset total cap : Nat) :
    ((hv_get_value_number buf offset total cap).flag = FlagBits.FLAG_OK
        ↔ (1 ≤ runLen isDigitByte buf offset ∧ runLen isDigitByte buf offset ≤ cap
            ∧ offset + runLen isDigitByte buf offset
                + runLen isOwsByte buf (offset + runLen isDigitByte buf offset) < total
            ∧ isEolByte (rd buf (offset + runLen isDigitByte buf offset
                + runLen isOwsByte buf (offset + runLen isDigitByte buf offset))) = true))
      ∧ ((hv_get_value_number buf offset total cap).flag = FlagBits.FLAG_OK →
          hv_get_value_number buf offset total cap
            = ⟨FlagBits.FLAG_OK,
                offset + runLen isDigitByte buf offset
                  + runLen isOwsByte buf (offset + runLen isDigitByte buf offset),
                slice buf offset (runLen isDigitByte buf offset)⟩)
      ∧ (offset + runLen isDigitByte buf offset
            + runLen isOwsByte buf (offset + runLen isDigitByte buf offset) < total →
          runLen isDigitByte buf offset ≤ cap →
          ¬ (1 ≤ runLen isDigitByte buf offset
              ∧ isEolByte (rd buf (offset + runLen isDigitByte buf offset
                  + runLen isOwsByte buf (offset + runLen isDigitByte buf offset))) = true) →
          hv_get_value_number buf offset total cap
            = ⟨FlagBits.FLAG_INVALID_HEADER_VALUE,
                offset + runLen isDigitByte buf offset
                  + runLen isOwsByte buf (offset + runLen isDigitByte buf offset), []⟩) := by
  by_cases hot : offset ≤ total
  · have key := hv_number_loop_run buf total cap offset (total - offset) offset false
      (by omega) (Nat.le_refl _)
    have e1 : offset + runLen isDigitByte buf offset - offset = runLen isDigitByte buf offset :=
      by omega
    rw [e1] at key
    have hiff : (hv_get_value_number buf offset total cap).flag = FlagBits.FLAG_OK
        ↔ (1 ≤ runLen isDigitByte buf offset ∧ runLen isDigitByte buf offset ≤ cap
            ∧ offset + runLen isDigitByte buf offset
                + runLen isOwsByte buf (offset + runLen isDigitByte buf offset) < total
            ∧ isEolByte (rd buf (offset + runLen isDigitByte buf offset
                + runLen isOwsByte buf (offset + runLen isDigitByte buf offset))) = true) := by
      unfold hv_get_value_number
      constructor
      · intro h
        by_cases hc : offset + runLen isDigitByte buf offset
            + runLen isOwsByte buf (offset + runLen isDigitByte buf offset) < total
            ∧ runLen isDigitByte buf offset ≤ cap
        · rw [key.1 hc.1 hc.2] at h
          by_cases hx : (false = true ∨ 1 ≤ runLen isDigitByte buf offset)
              ∧ isEolByte (rd buf (offset + runLen isDigitByte buf offset
                + runLen isOwsByte buf (offset + runLen isDigitByte buf offset))) = true
          · rcases hx.1 with h0 | h0
            · cases h0
            · exact ⟨h0, hc.2, hc.1, hx.2⟩
          · rw [if_neg hx] at h
            cases h
        · exact absurd h (key.2 hc)
      · intro h
        rw [key.1 h.2.2.1 h.2.1, if_pos ⟨Or.inr h.1, h.2.2.2⟩]
    refine ⟨hiff, ?_, ?_⟩
    · intro h
      have h' := hiff.mp h
      unfold hv_get_value_number
      rw [key.1 h'.2.2.1 h'.2.1, if_pos ⟨Or.inr h'.1, h'.2.2.2⟩]
    · intro ha hb hn
      unfold hv_get_value_number
      rw [key.1 ha hb, if_neg]
      intro hx
      rcases hx.1 with h0 | h0
      · cases h0
      · exact hn ⟨h0, hx.2⟩
  · have hz : hv_get_value_number buf offset total cap
        = ⟨FlagBits.FLAG_UNTERMINATED_HEADERS, offset, []⟩ := by
      unfold hv_get_value_number
      rw [show total - offset = 0 by omega]
      rfl
    rw [hz]
    refine ⟨⟨?_, ?_⟩, ?_, ?_⟩
    · intro h; cases h
    · intro h; omega
    · intro h; cases h
    · intro h; omega

/-- C19 at `123 ` and a tab before CRLF (the value `123`), at an empty value, at a value of
spaces only, at `12a` and at `12 3`. -/
theorem C19_numeric_value_witness :
    hv_get_value_number (B "123 \t\r\n") 0 7 4096 = ⟨FlagBits.FLAG_OK, 5, B "123"⟩
      ∧ (hv_get_value_number (B "\r\n") 0 2 4096).flag = FlagBits.FLAG_INVALID_HEADER_VALUE
      ∧ (hv_get_value_number (B "  \r\n") 0 4 4096).flag = FlagBits.FLAG_INVALID_HEADER_VALUE
      ∧ (hv_get_value_number (B "12a\r\n") 0 5 4096).flag = FlagBits.FLAG_INVALID_HEADER_VALUE
      ∧ (hv_get_value_number (B "12 3\r\n") 0 6 4096).flag
          = FlagBits.FLAG_INVALID_HEADER_VALUE :=
  ⟨(C19_numeric_value (B "123 \t\r\n") 0 7 4096).2.1 (by decide),
    by decide, by decide, by decide, by decide⟩

/-- C20: `hv_get_value_any`.  A byte is valid exactly when it is HTAB, space or visible
ASCII (33..126).  If the first CR or LF from the offset lies inside the buffer, every byte
before it is valid and their number is within the cap, the parser returns OK, leaves the
cursor on the line end and produces those bytes with the trailing spaces and tabs removed.
If a control byte below 32 other than HTAB, or DEL, stands before any line end, inside the
buffer and within the cap, the parser returns INVALID_HEADER_VALUE. -/
theorem C20_any_value (buf : Bytes) (offset total cap : Nat) :
    (∀ c, hv_is_valid_char c = true ↔ c = 9 ∨ c = 32 ∨ (33 ≤ c ∧ c ≤ 126))
      ∧ (∀ e, offset ≤ e → e < total → isEolByte (rd buf e) = true →
          (∀ j, offset ≤ j → j < e → hv_is_valid_char (rd buf j) = true) →
          e - offset ≤ cap →
          hv_get_value_any buf offset total cap
            = ⟨FlagBits.FLAG_OK, e,
                (slice buf offset (e - offset)).rdropWhile isOwsByte⟩)
      ∧ (∀ k, offset ≤ k → k < total →
          (∀ j, offset ≤ j → j ≤ k → isEolByte (rd buf j) = false) →
          k - offset ≤ cap →
          ((rd buf k < 32 ∧ rd buf k ≠ 9) ∨ rd buf k = 127) →
          (hv_get_value_any buf offset total cap).flag
            = FlagBits.FLAG_INVALID_HEADER_VALUE) := by
  refine ⟨hv_is_valid_char_iff, ?_, ?_⟩
  · intro e h1 h2 h3 h4 h5
    unfold hv_get_value_any
    apply hv_any_loop_run buf total cap offset e h2 h3 h5 (total - offset) offset offset
      (by omega) (Nat.le_refl _) (Nat.le_refl _) h1 h4
    rw [Nat.sub_self]
    rfl
  · intro k h1 h2 h3 h4 h5
    unfold hv_get_value_any
    apply hv_any_loop_reject buf total cap offset k h2 h4 _ (total - offset) offset offset
      (by omega) (Nat.le_refl _) h1 h3
    apply bool_false_of_not
    rw [hv_is_valid_char_iff]
    omega

/-- C20 at the value `a b`, a tab and a space before CRLF (the value `a b`), and at a value
that holds the control byte 1. -/
theorem C20_any_value_witness :
    hv_get_value_any (B "a b\t \r\n") 0 7 4096 = ⟨FlagBits.FLAG_OK, 5, B "a b"⟩
      ∧ (hv_get_value_any (B "a\x01b\r\n") 0 5 4096).flag
          = FlagBits.FLAG_INVALID_HEADER_VALUE :=
  ⟨(C20_any_value (B "a b\t \r\n") 0 7 4096).2.1 5 (by decide) (by decide) (by decide)
      (by decide) (by decide),
    (C20_any_value (B "a\x01b\r\n") 0 5 4096).2.2 1 (by decide) (by decide) (by decide)
      (by decide) (by decide)⟩

/-- C16 (fails on the code): the wildcard bound does not follow the span the wildcard
consumes.  With the single route `*`, on the request line `GET /` followed by 997 letters
and a space the wildcard starts at cursor 4 and its span is 998 bytes, yet `matchUrl`
returns -3; on a buffer of 1001 letters and a space matched from cursor 0 the span is 1001
bytes, yet `matchUrl` returns the handler. -/
theorem C16_span_bound_refuted :
    (runLen (fun c => c != 32 && c != 63)
          (B "GET /" ++ List.replicate 997 97 ++ B " HTTP/1.1") 4 = 998
        ∧ matchUrl (buildRouteTree [makeEndpoint (B "*") 5])
            (B "GET /" ++ List.replicate 997 97 ++ B " HTTP/1.1") 4 [] [] 10
          = some ⟨-3, 1001, [], []⟩)
      ∧ (runLen (fun c => c != 32 && c != 63)
            ([] ++ List.replicate 1001 97 ++ B " HTTP/1.1") 0 = 1001
          ∧ matchUrl (buildRouteTree [makeEndpoint (B "*") 5])
              ([] ++ List.replicate 1001 97 ++ B " HTTP/1.1") 0 [] [] 10
            = some ⟨5, 1001, [], []⟩) := by
  have hlen : (B "GET /").length = 5 := by decide
  refine ⟨⟨by decide!, ?_⟩, by decide!, ?_⟩
  · rw [matchUrl_star]
    apply wildcardLoop_over _ _ _ _ _ 1003 4 [] (by omega) (by omega)
    · intro i h1 h2
      by_cases h4 : i = 4
      · subst h4; decide
      · rw [rd_replicate_mid _ _ _ _ _ (by omega) (by omega)]
        decide
    · rw [rd_replicate_mid _ _ _ _ _ (by omega) (by omega)]
      decide
  · rw [matchUrl_star]
    apply wildcardLoop_space _ _ _ _ 1001 _ (by omega) 1003 0 [] (by omega) (by omega)
    · intro i _ h2
      rw [rd_replicate_mid _ _ _ _ _ (by simp) (by simp; omega)]
      decide
    · have := rd_append_right ([] ++ List.replicate 1001 97) (B " HTTP/1.1") 0
      simp only [List.nil_append, List.length_replicate, Nat.add_zero] at this
      rw [List.nil_append, this]
      decide

/-- The wildcard branch in a round of `matchUrl` over the children of a node.  Let the
first child that is not a static mismatch be a wildcard child with a handler index of at
least 0, the cursor being `offset`.  Then the matcher returns; it returns -3 exactly when
no space and no `?` stands at a cursor from `offset` up to 1000 and the byte at cursor
`max offset 1001` is not a space; in every other case it returns the handler index, or -2
(after a `?`); and when the first space stands at a cursor `t` of at most 1001 with no `?`
before it, it returns the handler index and leaves the offset at `t`. -/
theorem matchChildren_wildcard (url : Bytes) (query_limit : Nat)
    (skipped : List RouteNode) (child : RouteNode) (rest : List RouteNode) (offset : Nat)
    (ps : List Bytes) (q : Obj)
    (hs : ∀ c ∈ skipped, c.is_param = false ∧ c.is_wildcard = false
      ∧ nodeStaticMatches c url offset = false)
    (hp : child.is_param = false) (hw : child.is_wildcard = true)
    (hv : 0 ≤ child.vptr_table_index) :
    ∃ r, matchChildren url query_limit (skipped ++ child :: rest) offset ps q = some r
      ∧ (r.ret = -3 ↔
          ((∀ i, offset ≤ i → i ≤ 1000 → rd url i ≠ 32 ∧ rd url i ≠ 63)
            ∧ rd url (max offset 1001) ≠ 32))
      ∧ (r.ret = -3 ∨ r.ret = -2 ∨ r.ret = child.vptr_table_index)
      ∧ (∀ t, offset ≤ t → t ≤ 1001 → rd url t = 32 →
          (∀ i, offset ≤ i → i < t → rd url i ≠ 32 ∧ rd url i ≠ 63) →
          r = ⟨child.vptr_table_index, t, ps, q⟩) := by
  have hm : matchChildren url query_limit (skipped ++ child :: rest) offset ps q
      = wildcardLoop url query_limit child.vptr_table_index ps 1003 offset q := by
    rw [matchChildren_skip url query_limit _ offset ps q skipped hs]
    conv => lhs; unfold matchChildren
    simp only [hp, hw, Bool.false_eq_true, if_false, if_true]
  obtain ⟨r, hr, hiff, hcases⟩ := wildcardLoop_exceeded url query_limit
    child.vptr_table_index ps hv 1003 offset q (by omega) (by omega)
  refine ⟨r, by rw [hm, hr], hiff, hcases, ?_⟩
  intro t h1 h2 h3 h4
  have := wildcardLoop_space url query_limit child.vptr_table_index ps t h3 h2 1003 offset q
    (by omega) h1 h4
  rw [hr] at this
  exact Option.some.inj this

/-- The wildcard branch at `GET /f/a.txt HTTP/1.1` with a wildcard child of handler 5
reached at cursor 7: the matcher returns handler 5 with the offset on the space at cursor 12. -/
theorem matchChildren_wildcard_example :
    ∃ r, matchChildren (B "GET /f/a.txt HTTP/1.1") 10
          ([] ++ RouteNode.mk 0 0 5 ParamType.kString false true [] [] :: []) 7 [] [] = some r
      ∧ r = ⟨5, 12, [], []⟩ :=
  (matchChildren_wildcard (B "GET /f/a.txt HTTP/1.1") 10 []
      (RouteNode.mk 0 0 5 ParamType.kString false true [] []) [] 7 [] []
      (fun _ h => absurd h (List.not_mem_nil _)) rfl rfl (by decide)).imp
    (fun _ h => ⟨h.1, h.2.2.2 12 (by decide) (by decide) (by decide) (by decide)⟩)

/-- C21: the line end in `ST_HV_CONCAT`.  Let the value parser of the header, run from the
first byte after the leading spaces and tabs, return OK with its cursor at `r.cur`; the byte
there is a CR or LF inside the buffer.  If it is a CR with an LF right after it inside the
buffer, the round ends with the cursor at `r.cur + 2`; if it is an LF, with the cursor at
`r.cur + 1`; in both cases the round goes on or returns OK.  If it is a CR that is the last
byte of the buffer or is followed by another byte, the round returns INVALID_HEADER_VALUE
with `*offset` and the header mapping as they were. -/
theorem C21_line_termination (c : Cfg) (s : Scan)
    (hok : ((HEADERS s.hdrId).value_parser_fn c.buf
      (skipOWS c (c.total - s.__offset) s.__offset) c.total c.maxHeaderValueSize).flag
        = FlagBits.FLAG_OK) :
    (rd c.buf ((HEADERS s.hdrId).value_parser_fn c.buf
          (skipOWS c (c.total - s.__offset) s.__offset) c.total c.maxHeaderValueSize).cur = 13
        ∨ rd c.buf ((HEADERS s.hdrId).value_parser_fn c.buf
          (skipOWS c (c.total - s.__offset) s.__offset) c.total c.maxHeaderValueSize).cur = 10)
      ∧ (rd c.buf ((HEADERS s.hdrId).value_parser_fn c.buf
            (skipOWS c (c.total - s.__offset) s.__offset) c.total c.maxHeaderValueSize).cur = 13 →
          ((HEADERS s.hdrId).value_parser_fn c.buf
            (skipOWS c (c.total - s.__offset) s.__offset) c.total c.maxHeaderValueSize).cur + 1
              < c.total →
          rd c.buf (((HEADERS s.hdrId).value_parser_fn c.buf
            (skipOWS c (c.total - s.__offset) s.__offset) c.total c.maxHeaderValueSize).cur + 1)
              = 10 →
          (Step.scan (st_HV_CONCAT c s)).__offset
              = ((HEADERS s.hdrId).value_parser_fn c.buf
                  (skipOWS c (c.total - s.__offset) s.__offset) c.total
                  c.maxHeaderValueSize).cur + 2
            ∧ (Step.flag (st_HV_CONCAT c s) = none
                ∨ Step.flag (st_HV_CONCAT c s) = some FlagBits.FLAG_OK))
      ∧ (rd c.buf ((HEADERS s.hdrId).value_parser_fn c.buf
            (skipOWS c (c.total - s.__offset) s.__offset) c.total c.maxHeaderValueSize).cur = 10 →
          (Step.scan (st_HV_CONCAT c s)).__offset
              = ((HEADERS s.hdrId).value_parser_fn c.buf
                  (skipOWS c (c.total - s.__offset) s.__offset) c.total
                  c.maxHeaderValueSize).cur + 1
            ∧ (Step.flag (st_HV_CONCAT c s) = none
                ∨ Step.flag (st_HV_CONCAT c s) = some FlagBits.FLAG_OK))
      ∧ (rd c.buf ((HEADERS s.hdrId).value_parser_fn c.buf
            (skipOWS c (c.total - s.__offset) s.__offset) c.total c.maxHeaderValueSize).cur = 13 →
          (c.total ≤ ((HEADERS s.hdrId).value_parser_fn c.buf
              (skipOWS c (c.total - s.__offset) s.__offset) c.total
              c.maxHeaderValueSize).cur + 1
            ∨ rd c.buf (((HEADERS s.hdrId).value_parser_fn c.buf
              (skipOWS c (c.total - s.__offset) s.__offset) c.total
              c.maxHeaderValueSize).cur + 1) ≠ 10) →
          Step.flag (st_HV_CONCAT c s) = some FlagBits.FLAG_INVALID_HEADER_VALUE
            ∧ (Step.scan (st_HV_CONCAT c s)).offset = s.offset
            ∧ (Step.scan (st_HV_CONCAT c s)).outHeaders = s.outHeaders) := by
  have hle := HEADERS_lineEnd s.hdrId c.buf
    (skipOWS c (c.total - s.__offset) s.__offset) c.total c.maxHeaderValueSize hok
  generalize hr : (HEADERS s.hdrId).value_parser_fn c.buf
    (skipOWS c (c.total - s.__offset) s.__offset) c.total c.maxHeaderValueSize = r at hok hle ⊢
  refine ⟨hle.2.2, ?_, ?_, ?_⟩
  · intro h13 hin h10
    rw [st_HV_CONCAT_ok c s r hr hok (r.cur + 2) (by rw [if_pos h13]),
      if_neg (by rw [h10]; omega)]
    by_cases hx : r.cur + 2 + 1 < c.total ∧ rd c.buf (r.cur + 2) = 13
        ∧ rd c.buf (r.cur + 2 + 1) = 10
    · rw [if_pos hx]; exact ⟨rfl, Or.inr rfl⟩
    · rw [if_neg hx]; exact ⟨rfl, Or.inl rfl⟩
  · intro h10
    rw [st_HV_CONCAT_ok c s r hr hok (r.cur + 1)
        (by rw [if_neg (by omega), if_pos h10]),
      if_neg (by omega)]
    by_cases hx : r.cur + 1 + 1 < c.total ∧ rd c.buf (r.cur + 1) = 13
        ∧ rd c.buf (r.cur + 1 + 1) = 10
    · rw [if_pos hx]; exact ⟨rfl, Or.inr rfl⟩
    · rw [if_neg hx]; exact ⟨rfl, Or.inl rfl⟩
  · intro h13 hbad
    rw [st_HV_CONCAT_ok c s r hr hok _ rfl, if_pos ⟨h13, by omega⟩]
    exact ⟨rfl, rfl, rfl⟩

/-- C21 on the line `Host: x` at the value state (cursor 6): ended by CR LF the round leaves
the cursor at 9; a whole block whose first line ends in a lone LF is accepted; a CR followed
by another byte gives INVALID_HEADER_VALUE with nothing stored. -/
theorem C21_line_termination_witness :
    ((Step.scan (st_HV_CONCAT (Cfg.whole Simd.sse2 (B "Host: x\r\nA: b\r\n\r\n"))
          ⟨0, 6, 0, HeaderId.HDR_HOST, false, [], State.ST_HV_CONCAT, []⟩)).__offset = 9
        ∧ (Step.flag (st_HV_CONCAT (Cfg.whole Simd.sse2 (B "Host: x\r\nA: b\r\n\r\n"))
              ⟨0, 6, 0, HeaderId.HDR_HOST, false, [], State.ST_HV_CONCAT, []⟩) = none
            ∨ Step.flag (st_HV_CONCAT (Cfg.whole Simd.sse2 (B "Host: x\r\nA: b\r\n\r\n"))
              ⟨0, 6, 0, HeaderId.HDR_HOST, false, [], State.ST_HV_CONCAT, []⟩)
                = some FlagBits.FLAG_OK))
      ∧ scanHeaders (Cfg.whole Simd.sse2 (B "Host: x\nA: b\r\n\r\n")) 0 []
          = some ⟨FlagBits.FLAG_OK, 16, [(B "host", B "x"), (B "a", B "b")]⟩
      ∧ scanHeaders (Cfg.whole Simd.sse2 (B "Host: x\rA: b\r\n\r\n")) 0 []
          = some ⟨FlagBits.FLAG_INVALID_HEADER_VALUE, 0, []⟩ :=
  ⟨(C21_line_termination (Cfg.whole Simd.sse2 (B "Host: x\r\nA: b\r\n\r\n"))
      ⟨0, 6, 0, HeaderId.HDR_HOST, false, [], State.ST_HV_CONCAT, []⟩ (by decide)).2.1
      (by decide) (by decide) (by decide),
    by decide!, by decide!⟩

/-- C22: the value cap of `hv_get_value_any`.  Let the first CR or LF from the offset lie
inside the buffer at `e` and let every byte before it be valid.  Then the parser returns
MAX_HEADER_VALUE_SIZE exactly when the number of bytes from the offset to the byte before
the line end is greater than the cap; a value of at most the cap, so also of exactly the
cap, gives OK with the cursor on the line end. -/
theorem C22_value_cap (buf : Bytes) (offset total cap e : Nat)
    (h1 : offset ≤ e) (h2 : e < total) (h3 : isEolByte (rd buf e) = true)
    (h4 : ∀ j, offset ≤ j → j < e → hv_is_valid_char (rd buf j) = true) :
    ((hv_get_value_any buf offset total cap).flag = FlagBits.FLAG_MAX_HEADER_VALUE_SIZE
        ↔ cap < e - offset)
      ∧ (e - offset ≤ cap →
          (hv_get_value_any buf offset total cap).flag = FlagBits.FLAG_OK
            ∧ (hv_get_value_any buf offset total cap).cur = e) := by
  have hok : e - offset ≤ cap →
      hv_get_value_any buf offset total cap
        = ⟨FlagBits.FLAG_OK, e, (slice buf offset (e - offset)).rdropWhile isOwsByte⟩ := by
    intro h5
    unfold hv_get_value_any
    apply hv_any_loop_run buf total cap offset e h2 h3 h5 (total - offset) offset offset
      (by omega) (Nat.le_refl _) (Nat.le_refl _) h1 h4
    rw [Nat.sub_self]
    rfl
  have hmax : cap < e - offset →
      hv_get_value_any buf offset total cap
        = ⟨FlagBits.FLAG_MAX_HEADER_VALUE_SIZE, offset + cap + 1, []⟩ := by
    intro h5
    unfold hv_get_value_any
    exact hv_any_loop_capped buf total cap offset e h2 (by omega) (total - offset) offset offset
      (by omega) (Nat.le_refl _) (by omega) h4
  refine ⟨⟨?_, ?_⟩, ?_⟩
  · intro h
    by_contra hn
    rw [hok (by omega)] at h
    cases h
  · intro h
    rw [hmax h]
  · intro h
    rw [hok h]
    exact ⟨rfl, rfl⟩

/-- C22 with a cap of 3 bytes: the value `abc` is accepted, the value `abcd` is not. -/
theorem C22_value_cap_witness :
    ((hv_get_value_any (B "abc\r\n") 0 5 3).flag = FlagBits.FLAG_MAX_HEADER_VALUE_SIZE
        ↔ 3 < 3 - 0)
      ∧ (hv_get_value_any (B "abc\r\n") 0 5 3).flag = FlagBits.FLAG_OK
      ∧ (hv_get_value_any (B "abcd\r\n") 0 6 3).flag = FlagBits.FLAG_MAX_HEADER_VALUE_SIZE :=
  ⟨(C22_value_cap (B "abc\r\n") 0 5 3 3 (by decide) (by decide) (by decide) (by decide)).1,
    by decide, by decide⟩

/-- C23: the total-header cap does not count accumulated header bytes.  `scanHeaders` never
reads the running header size: its result is the same for every value of it.  With a cap of
16 bytes and 16 bytes already counted, the 11-byte block `Host: x` is accepted although 27
bytes are accumulated; and the same block, met at offset 32 after a request line, gives
MAX_HEADER_SIZE with no header byte consumed, while at offset 0 it is accepted: the test
compares the position in the buffer with the cap. -/
theorem C23_header_cap_is_on_buffer_offset (simd : Simd) :
    (∀ (buf : Bytes) (total a b d x y : Nat) (m : MethodType) (offset : Nat) (hs : Obj),
        scanHeaders ⟨simd, buf, total, a, b, d, x, m⟩ offset hs
          = scanHeaders ⟨simd, buf, total, a, b, d, y, m⟩ offset hs)
      ∧ scanHeaders ⟨simd, B "Host: x\r\n\r\n", 11, 16, 256, 4096, 16, MethodType.M_GET⟩ 0 []
          = some ⟨FlagBits.FLAG_OK, 11, [(B "host", B "x")]⟩
      ∧ scanHeaders ⟨simd, B "GET /0123456789abcdef HTTP/1.1\r\nHost: x\r\n\r\n", 43, 16, 256,
            4096, 0, MethodType.M_GET⟩ 32 []
          = some ⟨FlagBits.FLAG_MAX_HEADER_SIZE, 32, []⟩
      ∧ scanHeaders ⟨simd, B "Host: x\r\n\r\n", 11, 16, 256, 4096, 0, MethodType.M_GET⟩ 0 []
          = some ⟨FlagBits.FLAG_OK, 11, [(B "host", B "x")]⟩ := by
  refine ⟨fun buf total a b d x y m offset hs =>
    scanHeaders_currentHeaderSize simd buf total a b d x y m offset hs, ?_, ?_, ?_⟩ <;>
  cases simd <;> decide!

/-- C24: the two entry points do not run the header scan with the same caps.  With a name
cap of 4 bytes, a total cap of 8192 and the header line `X-Long-Name: v` at offset 17,
`ScannerRouteFirst` stores the header and records OK, while `ScannerHeader` on the same
buffer, offset, mapping and caps records MAX_HEADER_NAME_SIZE (0x2100) and stores nothing:
`ScannerRouteFirst` passes the total cap in the place of the name cap. -/
theorem C24_entry_points_differ_on_name_cap (simd : Simd) :
    HttpCore.ScannerRouteFirst (HttpCore.registered [[⟨B "GET", B "/x", 1⟩]]) simd
        (B "GET /x HTTP/1.1\r\nX-Long-Name: v\r\n\r\n") ⟨0, 0, 0, [], [], [], 0⟩
        ⟨4, 4096, 8192, 512⟩
      = some (1, ⟨0, 35, 1, [], [], [(B "x-long-name", B "v")], 18⟩)
    ∧ HttpCore.ScannerHeader (HttpCore.registered [[⟨B "GET", B "/x", 1⟩]]) simd
        (B "GET /x HTTP/1.1\r\nX-Long-Name: v\r\n\r\n") ⟨0, 17, 1, [], [], [], 0⟩
        ⟨4, 4096, 8192, 512⟩
      = some (0, ⟨0x2100, 17, 1, [], [], [], 0⟩) := by
  constructor <;> cases simd <;> decide!

/-- C26: the scenarios of the specification with the patterns as written there.  With the
route `users/:id/posts` (handler 7) the request `GET /users/42/posts` is not found, and so it
is with a leading slash added to the pattern; with the route `a` (handler 1) the request
`POST /a?k=v%20w&x=` is not found.  The results the scenarios give are obtained with the
patterns `/users/:/posts` and `/a`. -/
theorem C26_spec_scenarios_not_found (simd : Simd) :
    HttpCore.ScannerRouteFirst (HttpCore.registered [[⟨B "GET", B "users/:id/posts", 7⟩]]) simd
        (B "GET /users/42/posts HTTP/1.1\r\nHost: x\r\n\r\n") ⟨0, 0, 0, [], [], [], 0⟩
        ⟨256, 4096, 8192, 512⟩
      = some (-1, ⟨4, 0, 1, [], [], [], 0⟩)
    ∧ HttpCore.ScannerRouteFirst (HttpCore.registered [[⟨B "GET", B "/users/:id/posts", 7⟩]])
        simd (B "GET /users/42/posts HTTP/1.1\r\nHost: x\r\n\r\n") ⟨0, 0, 0, [], [], [], 0⟩
        ⟨256, 4096, 8192, 512⟩
      = some (-1, ⟨4, 0, 1, [], [], [], 0⟩)
    ∧ HttpCore.ScannerRouteFirst (HttpCore.registered [[⟨B "POST", B "a", 1⟩]]) simd
        (B "POST /a?k=v%20w&x= HTTP/1.1\r\nContent-Length: 3\r\n\r\n")
        ⟨0, 0, 0, [], [], [], 0⟩ ⟨256, 4096, 8192, 512⟩
      = some (-1, ⟨4, 0, 2, [], [], [], 0⟩)
    ∧ HttpCore.ScannerRouteFirst (HttpCore.registered [[⟨B "GET", B "/users/:/posts", 7⟩]])
        simd (B "GET /users/42/posts HTTP/1.1\r\nHost: x\r\n\r\n") ⟨0, 0, 0, [], [], [], 0⟩
        ⟨256, 4096, 8192, 512⟩
      = some (7, ⟨0, 41, 1, [B "42"], [], [(B "host", B "x")], 11⟩)
    ∧ HttpCore.ScannerRouteFirst (HttpCore.registered [[⟨B "POST", B "/a", 1⟩]]) simd
        (B "POST /a?k=v%20w&x= HTTP/1.1\r\nContent-Length: 3\r\n\r\n")
        ⟨0, 0, 0, [], [], [], 0⟩ ⟨256, 4096, 8192, 512⟩
      = some (1, ⟨0, 50, 2, [], [(B "k", B "v w"), (B "x", [])],
          [(B "content-length", B "3")], 21⟩) := by
  refine ⟨?_, ?_, ?_, ?_, ?_⟩ <;> cases simd <;> decide!

/-- C25, counterexample: `FLAG_INVALID_HEADER_VALUE` (0x0300) has two bits set, which are
the bits of `FLAG_INVALID_ARGUMENT` and `FLAG_INVALID_HEADER`: the word that combines these
two flags includes it by mask although it is not one of them. -/
theorem C25_flags_not_all_single_bit :
    bitsSet (FlagBits.toNat FlagBits.FLAG_INVALID_HEADER_VALUE) = 2
      ∧ orAll [FlagBits.FLAG_INVALID_ARGUMENT, FlagBits.FLAG_INVALID_HEADER]
            &&& FlagBits.toNat FlagBits.FLAG_INVALID_HEADER_VALUE
          = FlagBits.toNat FlagBits.FLAG_INVALID_HEADER_VALUE
      ∧ FlagBits.FLAG_INVALID_HEADER_VALUE
          ∉ [FlagBits.FLAG_INVALID_ARGUMENT, FlagBits.FLAG_INVALID_HEADER] := by
  decide

/-- C25, amended: OK is 0 and the values of the flags are pairwise different.  Fifteen flags
(`FlagBits.singleBit`) have exactly one bit set, with pairwise disjoint bits; the six others
(INVALID_HEADER_VALUE, MAX_HEADER_NAME_SIZE, MAX_HEADER_VALUE_SIZE, DUPLICATE_SINGLE_HEADER,
REQUEST_URL_EXCEEDED, SMUGGING_TE_CL) have two.  For every list of single-bit flags combined
with bitwise OR, a single-bit flag is included in the word by mask exactly when it is in the
list. -/
theorem C25_flag_values :
    FlagBits.toNat FlagBits.FLAG_OK = 0
      ∧ (∀ f g, FlagBits.toNat f = FlagBits.toNat g → f = g)
      ∧ (∀ f, f ∈ FlagBits.singleBit ↔ bitsSet (FlagBits.toNat f) = 1)
      ∧ (∀ f, f ≠ FlagBits.FLAG_OK → f ∉ FlagBits.singleBit → bitsSet (FlagBits.toNat f) = 2)
      ∧ (∀ f g, f ∈ FlagBits.singleBit → g ∈ FlagBits.singleBit → f ≠ g →
          FlagBits.toNat f &&& FlagBits.toNat g = 0)
      ∧ (∀ (S : List FlagBits) (F : FlagBits), (∀ f ∈ S, f ∈ FlagBits.singleBit) →
          F ∈ FlagBits.singleBit →
          (orAll S &&& FlagBits.toNat F = FlagBits.toNat F ↔ F ∈ S)) := by
  refine ⟨rfl, ?_, ?_, ?_, ?_, ?_⟩
  · intro f g
    cases f <;> cases g <;> decide
  · intro f
    cases f <;> decide
  · intro f
    cases f <;> decide
  · intro f g
    cases f <;> cases g <;> decide
  · intro S F hS hF
    unfold orAll
    rw [foldl_or_singleBit F hF S 0 hS]
    constructor
    · rintro (h | h)
      · exfalso
        rw [Nat.zero_and] at h
        revert hF h
        cases F <;> decide
      · exact h
    · exact Or.inr

/-- C25 (amended) at the word `METHOD_NOT_ALLOWED | CORS_PREFLIGHT` written for an OPTIONS
request: it includes CORS_PREFLIGHT and does not include NOT_FOUND. -/
theorem C25_flag_values_witness :
    (orAll [FlagBits.FLAG_METHOD_NOT_ALLOWED, FlagBits.FLAG_CORS_PREFLIGHT]
          &&& FlagBits.toNat FlagBits.FLAG_CORS_PREFLIGHT
        = FlagBits.toNat FlagBits.FLAG_CORS_PREFLIGHT
      ↔ FlagBits.FLAG_CORS_PREFLIGHT
          ∈ [FlagBits.FLAG_METHOD_NOT_ALLOWED, FlagBits.FLAG_CORS_PREFLIGHT])
      ∧ orAll [FlagBits.FLAG_METHOD_NOT_ALLOWED, FlagBits.FLAG_CORS_PREFLIGHT] = 10 :=
  ⟨C25_flag_values.2.2.2.2.2 [FlagBits.FLAG_METHOD_NOT_ALLOWED, FlagBits.FLAG_CORS_PREFLIGHT]
      FlagBits.FLAG_CORS_PREFLIGHT (by decide) (by decide),
    by decide⟩

/-- C30: the structural invariants of a trie returned by `buildRouteTree`.  The root is a
static node with `value_length = 0`, and in every node of the trie the child list holds the
static children first, then at most one parameter child, then at most one wildcard child
(`childrenOrdered`), every wildcard child has no children and every static child has a
`value_length` from 1 to 8. -/
theorem C30_trie_invariants (eps : List Endpoint) (root : RouteNode)
    (h : buildRouteTree eps = some root) :
    root.is_param = false ∧ root.is_wildcard = false ∧ root.value_length = 0
      ∧ RouteNode.allNodes RouteNode.localOk root = true
      ∧ RouteNode.wellFormedRoot root = true
      ∧ (∀ n : RouteNode, RouteNode.localOk n = true ↔
          (childrenOrdered n.children
            ∧ ∀ c ∈ n.children,
                (c.is_wildcard = true → c.children = [] ∧ c.is_param = false)
                  ∧ (c.is_param = false → c.is_wildcard = false →
                      1 ≤ c.value_length ∧ c.value_length ≤ 8))) := by
  unfold buildRouteTree at h
  by_cases h0 : eps.length = 0
  · rw [if_pos h0] at h
    cases h
  · rw [if_neg h0] at h
    have key := buildSubRouteTree_localOk (buildFuel eps) newNode eps 0 root h rfl
    have e1 : root.is_param = false := key.1.2.2.2.1
    have e2 : root.is_wildcard = false := key.1.2.2.2.2.1
    have e3 : root.value_length = 0 := key.1.2.1
    refine ⟨e1, e2, e3, key.2, ?_, ?_⟩
    · unfold RouteNode.wellFormedRoot
      rw [e1, e2, e3, key.2]
      rfl
    · intro n
      unfold RouteNode.localOk RouteNode.childOk
      rw [Bool.and_eq_true, decide_eq_true_eq, List.all_eq_true]
      constructor
      · intro hn
        refine ⟨hn.1, ?_⟩
        intro c hc
        have := hn.2 c hc
        rw [Bool.and_eq_true] at this
        constructor
        · intro hw
          have h1 := this.1
          rw [hw] at h1
          simp only [if_true, Bool.and_eq_true, List.isEmpty_iff, Bool.not_eq_true'] at h1
          exact h1
        · intro hp hw
          have h2 := this.2
          rw [hp, hw] at h2
          simp only [Bool.not_false, Bool.and_self, if_true, decide_eq_true_eq] at h2
          exact h2
      · intro hn
        refine ⟨hn.1, ?_⟩
        intro c hc
        have := hn.2 c hc
        rw [Bool.and_eq_true]
        constructor
        · cases hw : c.is_wildcard
          · rfl
          · have h1 := this.1 hw
            simp only [if_true, Bool.and_eq_true, List.isEmpty_iff, Bool.not_eq_true']
            exact h1
        · cases hp : c.is_param
          · cases hw : c.is_wildcard
            · have h2 := this.2 hp hw
              simp only [Bool.not_false, Bool.and_self, if_true, decide_eq_true_eq]
              exact h2
            · rfl
          · rfl

/-- C30 on the routes `/a`, `/b/:/c`, `/b/*` and `/b/x`: the builder returns a root and the
trie has the invariants. -/
theorem C30_trie_invariants_witness :
    ∃ root, buildRouteTree [makeEndpoint (B "/a") 1, makeEndpoint (B "/b/:/c") 2,
          makeEndpoint (B "/b/*") 3, makeEndpoint (B "/b/x") 4] = some root
      ∧ RouteNode.wellFormedRoot root = true :=
  (Option.isSome_iff_exists.mp
      (buildRouteTree_isSome [makeEndpoint (B "/a") 1, makeEndpoint (B "/b/:/c") 2,
        makeEndpoint (B "/b/*") 3, makeEndpoint (B "/b/x") 4] (by simp))).imp
    (fun root h => ⟨h, (C30_trie_invariants _ root h).2.2.2.2.1⟩)

/-- C28: the builder is total. `buildRouteTree` returns no tree exactly for the empty list;
for every other list it returns a root, and every larger recursion budget gives the same
root. The children a call appends are the results of its recursive calls (followed by the
wildcard node, if any), and each recursive call is made on a non-empty group of the
endpoints of the call at a strictly larger offset that has not passed the terminator of any
endpoint of the group. -/
theorem C28_builder_total (eps : List Endpoint) :
    (buildRouteTree eps = none ↔ eps = [])
      ∧ (eps ≠ [] → ∃ root, buildRouteTree eps = some root
          ∧ ∀ k, buildSubRouteTree (buildFuel eps + k) newNode eps 0 = some root)
      ∧ (∀ ep ∈ eps, withinPattern ep 0)
      ∧ (∀ offset, (∀ ep ∈ eps, withinPattern ep offset) →
          ∀ call ∈ recursiveCalls eps offset,
            offset < call.2.2 ∧ call.2.1 ≠ []
              ∧ ∀ ep ∈ call.2.1, ep ∈ eps ∧ withinPattern ep call.2.2)
      ∧ (∀ fuel node offset r, eps ≠ [] →
          buildSubRouteTree (fuel + 1) node eps offset = some r →
          ∃ cs W,
            r = (node.setVptr (terminalVptr eps offset node.vptr_table_index)).pushChildren
                (cs ++ W)
              ∧ List.Forall₂
                  (fun call c => buildSubRouteTree fuel call.1 call.2.1 call.2.2 = some c)
                  (recursiveCalls eps offset) cs
              ∧ WildKids eps offset W) := by
  have hsome : eps ≠ [] → ∃ root, buildRouteTree eps = some root := fun hne =>
    Option.isSome_iff_exists.mp (buildRouteTree_isSome eps hne)
  refine ⟨⟨?_, ?_⟩, ?_, ?_, ?_, ?_⟩
  · intro h
    by_contra hne
    obtain ⟨root, hr⟩ := hsome hne
    rw [hr] at h
    cases h
  · intro h
    subst h
    rfl
  · intro hne
    obtain ⟨root, hr⟩ := hsome hne
    refine ⟨root, hr, ?_⟩
    have hb : buildSubRouteTree (buildFuel eps) newNode eps 0 = some root := by
      unfold buildRouteTree at hr
      rw [if_neg (by intro h0; exact hne (List.length_eq_zero.mp h0))] at hr
      exact hr
    exact buildSubRouteTree_add _ _ _ _ _ hb
  · intro ep _ j hj
    exact absurd hj (Nat.not_lt_zero j)
  · exact recursiveCalls_offsets eps
  · intro fuel node offset r hne h
    exact buildSubRouteTree_calls fuel node eps offset r hne h

theorem C28_builder_total_witness :
    buildRouteTree [] = none
      ∧ ∃ root, buildRouteTree [makeEndpoint (B "/a") 1, makeEndpoint (B "/b/:/c") 2] = some root
          ∧ ∀ k, buildSubRouteTree
              (buildFuel [makeEndpoint (B "/a") 1, makeEndpoint (B "/b/:/c") 2] + k) newNode
              [makeEndpoint (B "/a") 1, makeEndpoint (B "/b/:/c") 2] 0 = some root :=
  ⟨(C28_builder_total []).1.mpr rfl,
    (C28_builder_total [makeEndpoint (B "/a") 1, makeEndpoint (B "/b/:/c") 2]).2.1
      (List.cons_ne_nil _ _)⟩

/-- C29 (fails on the code): a named placeholder is not put into the parameter group.  An
endpoint belongs to the parameter group at an offset only if its byte there is `:` and the
next byte is `/`; an endpoint with `:` followed by any other byte belongs to the static
group.  For the pattern `/users/:id/posts` the only recursive call at the offset of the
placeholder is made on a static node of one byte at the next offset, the trie has no
parameter node, the URL with the value `42` is not found and only the URL that spells
`:id` is matched, without a parameter.  For the pattern `/users/:/posts` the call is made
on a parameter node, two bytes further, and the value is captured. -/
theorem C29_named_placeholder_is_static :
    (∀ (eps : List Endpoint) (offset : Nat) (ep : Endpoint), ep ∈ paramEps eps offset →
        rd ep.url offset = 58 ∧ rd ep.url (offset + 1) = 47)
      ∧ (∀ (eps : List Endpoint) (offset : Nat) (ep : Endpoint), ep ∈ eps →
          rd ep.url offset = 58 → rd ep.url (offset + 1) ≠ 47 →
          ep ∈ staticEps eps offset ∧ ep ∉ paramEps eps offset)
      ∧ (makeEndpoint (B "/users/:id/posts") 7
          = ⟨B "/users/:id/posts", [⟨B "id", ParamType.kString⟩], 7⟩)
      ∧ paramEps [makeEndpoint (B "/users/:id/posts") 7] 7 = []
      ∧ (recursiveCalls [makeEndpoint (B "/users/:id/posts") 7] 7).map
            (fun call => (call.1.is_param, call.1.value_length, call.2.2))
          = [(false, 1, 8)]
      ∧ (buildRouteTree [makeEndpoint (B "/users/:id/posts") 7]).map
            (RouteNode.allNodes (fun n => !n.is_param))
          = some true
      ∧ matchUrl (buildRouteTree [makeEndpoint (B "/users/:id/posts") 7])
            (B "/users/42/posts ") 0 [] [] 64
          = some ⟨-1, 7, [], []⟩
      ∧ matchUrl (buildRouteTree [makeEndpoint (B "/users/:id/posts") 7])
            (B "/users/:id/posts ") 0 [] [] 64
          = some ⟨7, 16, [], []⟩
      ∧ (recursiveCalls [makeEndpoint (B "/users/:/posts") 7] 7).map
            (fun call => (call.1.is_param, call.1.value_length, call.2.2))
          = [(true, 0, 9)]
      ∧ matchUrl (buildRouteTree [makeEndpoint (B "/users/:/posts") 7])
            (B "/users/42/posts ") 0 [] [] 64
          = some ⟨7, 15, [B "42"], []⟩ := by
  refine ⟨?_, ?_, ?_, ?_, ?_, ?_, ?_, ?_, ?_, ?_⟩
  · intro eps offset ep h
    exact (paramEps_mem eps offset ep h).2
  · intro eps offset ep hep h1 h2
    refine ⟨?_, ?_⟩
    · unfold staticEps
      refine List.mem_filter.mpr ⟨hep, ?_⟩
      simp only [Bool.and_eq_true, bne_iff_ne, ne_eq, Bool.not_eq_true', Bool.and_eq_false_imp,
        beq_iff_eq, beq_eq_false_iff_ne]
      unfold kWildcardMarker
      refine ⟨⟨by omega, by omega⟩, fun _ => h2⟩
    · intro h
      exact h2 (paramEps_mem eps offset ep h).2.2
  · decide!
  · decide!
  · decide!
  · decide!
  · decide!
  · decide!
  · decide!
  · decide!

/-- C27: last writer wins.  Let `e` be the last endpoint of a list of well-formed patterns
that has its pattern (endpoints before it may have the same pattern).  Then
`buildRouteTree` returns a root; the node of the trie at which the pattern of `e`
terminates carries the handler index of `e`; and if the pattern is static (plain bytes),
`matchUrl` on a buffer that holds the pattern at the cursor followed by a space returns the
handler index of `e`, with the cursor on the space and nothing added to the parameters. -/
theorem C27_last_writer_wins (l1 l2 : List Endpoint) (e : Endpoint)
    (hwf : WellFormedPatterns (l1 ++ e :: l2)) (hlast : ∀ x ∈ l2, x.url ≠ e.url) :
    ∃ root, buildRouteTree (l1 ++ e :: l2) = some root
      ∧ lastHandler (l1 ++ e :: l2) e.url = e.vptr_table_index
      ∧ (∃ n, patternNode (e.url.length + 1) root e.url 0 = some n
          ∧ n.vptr_table_index = e.vptr_table_index)
      ∧ (StaticPattern e.url →
          ∀ (u : Bytes) (o : Nat) (ps : List Bytes) (q : Obj) (ql : Nat), IsBytes u →
            slice u o e.url.length = e.url → rd u (o + e.url.length) = 32 →
            matchUrl (some root) u o ps q ql
              = some ⟨e.vptr_table_index, o + e.url.length, ps, q⟩) := by
  have hne : l1 ++ e :: l2 ≠ [] := by simp
  have hmem : e ∈ l1 ++ e :: l2 := List.mem_append_right _ (List.mem_cons_self _ _)
  obtain ⟨root, hroot⟩ := Option.isSome_iff_exists.mp (buildRouteTree_isSome _ hne)
  have hb : buildSubRouteTree (buildFuel (l1 ++ e :: l2)) newNode (l1 ++ e :: l2) 0
      = some root := by
    unfold buildRouteTree at hroot
    rw [if_neg (by intro h0; exact hne (List.length_eq_zero.mp h0))] at hroot
    exact hroot
  have hl := lastHandler_split l1 l2 e hlast
  refine ⟨root, hroot, hl, ?_, ?_⟩
  · obtain ⟨n, hn, hv⟩ := patternNode_built _ newNode _ 0 root hb rfl hwf e.url
      ⟨e, hmem, rfl⟩ (fun _ _ j hj => absurd hj (Nat.not_lt_zero j)) (Nat.zero_le _)
      (e.url.length + 1) (by omega)
    exact ⟨n, hn, by rw [hv, hl]⟩
  · intro hst u o ps q ql hu hs hsp
    have hh := buildSubRouteTree_head _ newNode _ 0 root hb
    unfold RouteNode.sameHead at hh
    have hpos : 0 < e.url.length := List.length_pos.mpr hst.1
    have hm := matchNode_built _ newNode _ 0 root hb rfl (fun ep he => (hwf ep he).1)
      (fun ep he => (hwf ep he).2.1) e.url u o ps q ql hu ⟨e, hmem, rfl⟩
      (fun _ _ j hj => absurd hj (Nat.not_lt_zero j)) hpos
      (by
        intro j _ hj
        have hx := hst.2 (rd e.url j) (by
          unfold rd
          rw [List.getD_eq_getElem?_getD, List.getElem?_eq_getElem hj]
          exact List.getElem_mem _)
        exact ⟨hx.2.1, hx.2.2.1, hx.2.2.2.1, hx.2.2.2.2⟩)
      (by
        intro i hi
        rw [Nat.zero_add] at hi ⊢
        rw [← rd_slice u o e.url.length i hi, hs])
      (by rw [Nat.sub_zero]; exact hsp)
      (by rw [hl]; exact (hwf e hmem).2.2.1)
    rw [hl, Nat.sub_zero] at hm
    unfold matchUrl
    simp only []
    rw [if_neg (by
      rw [hh.2.1]
      intro hx
      exact absurd hx.2 (by decide))]
    exact hm

theorem C27_last_writer_wins_witness :
    ∃ root, buildRouteTree [⟨B "/a", [], 1⟩, ⟨B "/b", [], 2⟩, ⟨B "/a", [], 3⟩,
          ⟨B "/c/:/x", [], 4⟩, ⟨B "/w/*", [], 5⟩] = some root
      ∧ (∃ n, patternNode 3 root (B "/a") 0 = some n ∧ n.vptr_table_index = 3)
      ∧ matchUrl (some root) (B "GET /a HTTP/1.1") 4 [] [] 64 = some ⟨3, 6, [], []⟩ := by
  obtain ⟨root, h, _, hn, hm⟩ := C27_last_writer_wins [⟨B "/a", [], 1⟩, ⟨B "/b", [], 2⟩]
    [⟨B "/c/:/x", [], 4⟩, ⟨B "/w/*", [], 5⟩] ⟨B "/a", [], 3⟩ (by decide) (by decide)
  exact ⟨root, h, hn, hm (by decide) (B "GET /a HTTP/1.1") 4 [] [] 64 (by decide) (by decide)
    (by decide)⟩

/-- C39: `url_decode` on a `%` with at least two bytes after it inside the range.  The three
bytes become the one byte `(hex_to_char a << 4) | hex_to_char b`, whatever the two bytes `a`
and `b` are; `hex_to_char` of a byte that is not a hex digit is 0, so two bytes that are not
hex digits give the byte 0 (`%zz` decodes to the single byte 0x00, and `%4z` to 0x40); and
the output is never longer than the input. -/
theorem C39_percent_always_decodes :
    (∀ (buf : Bytes) (p stop : Nat), rd buf p = 37 → p + 2 < stop →
        url_decode buf p stop
          = ((hex_to_char (rd buf (p + 1)) <<< 4 ||| hex_to_char (rd buf (p + 2))) % 256)
              :: url_decode buf (p + 3) stop)
      ∧ (∀ h, isHexByte h = false → hex_to_char h = 0)
      ∧ (∀ (buf : Bytes) (p stop : Nat), rd buf p = 37 → p + 2 < stop →
          isHexByte (rd buf (p + 1)) = false → isHexByte (rd buf (p + 2)) = false →
          url_decode buf p stop = 0 :: url_decode buf (p + 3) stop)
      ∧ pctDecode (B "%zz") = [0]
      ∧ pctDecode (B "a%4zb%z1%") = [97, 64, 98, 1, 37]
      ∧ (∀ (buf : Bytes) (p stop : Nat), (url_decode buf p stop).length ≤ stop - p) := by
  refine ⟨url_decode_pct, hex_to_char_nonhex, ?_, by decide, by decide, ?_⟩
  · intro buf p stop h37 h2 ha hb
    rw [url_decode_pct buf p stop h37 h2, hex_to_char_nonhex _ ha, hex_to_char_nonhex _ hb]
    rfl
  · intro buf p stop
    exact url_decode_length buf (stop - p) p stop (Nat.le_refl _)

/-- C36 (fails on the code): the request head `GET / HTTP/1.1` CR LF CR LF has no header
fields, so `scanHeaders` starts on the CR at offset 16 with no header byte read.  With a cap
of 16 bytes on the header block it returns INVALID_HEADER; with a cap of 15 it returns
MAX_HEADER_SIZE instead, also through `ScannerRouteFirst` (retFlag 0x2000): the cap is
compared with the offset in the buffer, which counts the request line. -/
theorem C36_empty_block_above_cap :
    scanHeaders ⟨Simd.sse2, B "GET / HTTP/1.1\r\n\r\n", 18, 16, 256, 4096, 0, MethodType.M_GET⟩
        16 []
      = some ⟨FlagBits.FLAG_INVALID_HEADER, 16, []⟩
    ∧ scanHeaders ⟨Simd.sse2, B "GET / HTTP/1.1\r\n\r\n", 18, 15, 256, 4096, 0, MethodType.M_GET⟩
        16 []
      = some ⟨FlagBits.FLAG_MAX_HEADER_SIZE, 16, []⟩
    ∧ HttpCore.ScannerRouteFirst (HttpCore.registered [[⟨B "GET", B "/", 1⟩]]) Simd.sse2
        (B "GET / HTTP/1.1\r\n\r\n") ⟨0, 0, 0, [], [], [], 0⟩ ⟨256, 4096, 15, 512⟩
      = some (1, ⟨FlagBits.FLAG_MAX_HEADER_SIZE.toNat, 16, 1, [], [], [], 0⟩) := by
  refine ⟨by decide!, by decide!, by decide!⟩

/-- A CR where a header line starts.  When `scanHeaders` starts on a CR inside the buffer
(the CR LF that closes a request head without header fields), it does not return OK: it
returns INVALID_HEADER, or MAX_HEADER_SIZE when the offset is above `maxHeaderSize`, and
leaves `*offset` and the mapping as they were.  The CR is taken as the first byte of a
header name, where it is not allowed. -/
theorem scanHeaders_on_cr (c : Cfg) (offset : Nat) (hs : Obj)
    (ht : offset < c.total) (hcr : rd c.buf offset = 13) :
    scanHeaders c offset hs
        = some ⟨if offset > c.maxHeaderSize then FlagBits.FLAG_MAX_HEADER_SIZE
                else FlagBits.FLAG_INVALID_HEADER, offset, hs⟩
      ∧ ∀ r, scanHeaders c offset hs = some r → r.flag ≠ FlagBits.FLAG_OK := by
  have main : scanHeaders c offset hs
      = some ⟨if offset > c.maxHeaderSize then FlagBits.FLAG_MAX_HEADER_SIZE
              else FlagBits.FLAG_INVALID_HEADER, offset, hs⟩ := by
    unfold scanHeaders scanFuel
    rw [if_neg (by omega), show 4 * c.total + 8 = (4 * c.total + 6) + 1 + 1 by omega,
      scanLoop_succ, if_neg (by simp only [Scan.init]; omega)]
    have h1 : step c (Scan.init offset hs) = st_STARTUP c (Scan.init offset hs) := rfl
    rw [h1]
    unfold st_STARTUP
    simp only [Scan.init, Cfg.byte, hcr]
    rw [if_neg (by omega)]
    by_cases hcap : offset > c.maxHeaderSize
    · rw [if_pos hcap, if_pos hcap]
    · rw [if_neg hcap, if_neg hcap]
      simp only [show ¬ ((13 : Nat) = 97 ∨ (13 : Nat) = 65) by decide,
        show ¬ ((13 : Nat) = 99 ∨ (13 : Nat) = 67) by decide,
        show ¬ ((13 : Nat) = 100 ∨ (13 : Nat) = 68) by decide,
        show ¬ ((13 : Nat) = 105 ∨ (13 : Nat) = 73) by decide,
        show ¬ ((13 : Nat) = 108 ∨ (13 : Nat) = 76) by decide,
        show ¬ ((13 : Nat) = 111 ∨ (13 : Nat) = 79) by decide,
        show ¬ ((13 : Nat) = 112 ∨ (13 : Nat) = 80) by decide,
        show ¬ ((13 : Nat) = 115 ∨ (13 : Nat) = 83) by decide,
        show ¬ ((13 : Nat) = 116 ∨ (13 : Nat) = 84) by decide,
        show ¬ ((13 : Nat) = 117 ∨ (13 : Nat) = 85) by decide,
        show ¬ ((13 : Nat) = 118 ∨ (13 : Nat) = 86) by decide,
        show ¬ ((13 : Nat) = 119 ∨ (13 : Nat) = 87) by decide,
        show ¬ ((13 : Nat) = 120 ∨ (13 : Nat) = 88) by decide,
        show ¬ ((13 : Nat) = 104 ∨ (13 : Nat) = 72) by decide, if_false]
      rw [scanLoop_succ, if_neg (by simp only []; omega)]
      have h2 : ∀ s : Scan, s.state = State.ST_HN_UNKNOWN → step c s = st_HN_UNKNOWN c s := by
        intro s h
        unfold step
        rw [h]
      rw [h2 _ rfl]
      unfold st_HN_UNKNOWN
      simp only []
      obtain ⟨k, hk⟩ : ∃ k, c.total - offset = k + 1 := ⟨c.total - offset - 1, by omega⟩
      rw [hk]
      unfold unknownLoop
      simp only [Cfg.byte, hcr]
      rw [if_neg (by omega)]
      simp only [show ¬ ((13 : Nat) = 58) by decide,
        show ¬ ((13 : Nat) = 32 ∨ (13 : Nat) = 9) by decide,
        show ((13 : Nat) < 33 ∨ (13 : Nat) > 126) by decide, if_false, if_true]
  refine ⟨main, ?_⟩
  intro r hr
  rw [main] at hr
  simp only [Option.some.injEq] at hr
  rw [← hr]
  simp only []
  split <;> decide

/-- The request head `GET / HTTP/1.1` without header fields: scanned from the CR LF
that follows the request line (offset 16) the scan returns INVALID_HEADER, and so the
request-line scan of a registered route records INVALID_HEADER (0x0200) for it. -/
theorem scanHeaders_on_cr_example :
    scanHeaders (Cfg.whole Simd.sse2 (B "GET / HTTP/1.1\r\n\r\n")) 16 []
        = some ⟨FlagBits.FLAG_INVALID_HEADER, 16, []⟩
      ∧ HttpCore.ScannerRouteFirst (HttpCore.registered [[⟨B "GET", B "/", 1⟩]]) Simd.sse2
          (B "GET / HTTP/1.1\r\n\r\n") ⟨0, 0, 0, [], [], [], 0⟩ ⟨256, 4096, 8192, 512⟩
        = some (1, ⟨0x0200, 16, 1, [], [], [], 0⟩) :=
  ⟨(scanHeaders_on_cr (Cfg.whole Simd.sse2 (B "GET / HTTP/1.1\r\n\r\n")) 16 []
      (by decide) (by decide)).1,
    by decide!⟩

/-- C31: static matching is byte equality.  For `n` bytes (at most 8), `packU64Safe` and
`packedU64FromString` give the little-endian word of the `n` bytes followed by `8 - n` bytes
0xFF, so they give the same word for the same bytes.  The static node the builder makes for
a literal of 1 to 8 bytes, as the recursive call on it leaves it, matches a buffer at a
cursor exactly when the bytes of the buffer there are the bytes of the literal.  The words
of two ASCII literals of different lengths differ. -/
theorem C31_static_match_is_byte_equality :
    (∀ (lit : Bytes), 1 ≤ lit.length → lit.length ≤ 8 → IsBytes lit →
        packU64Safe lit lit.length = packLE (lit ++ List.replicate (8 - lit.length) 255))
      ∧ (∀ (url : Bytes) (offset n : Nat), n ≤ 8 → IsBytes url →
          packedU64FromString url offset (offset + n)
            = packLE (slice url offset n ++ List.replicate (8 - n) 255))
      ∧ (∀ (lit url : Bytes) (offset : Nat), 1 ≤ lit.length → lit.length ≤ 8 → IsBytes lit →
          IsBytes url → slice url offset lit.length = lit →
          packedU64FromString url offset (offset + lit.length) = packU64Safe lit lit.length)
      ∧ (∀ (lit url : Bytes) (offset : Nat), 1 ≤ lit.length → lit.length ≤ 8 → IsBytes lit →
          IsBytes url →
          (nodeStaticMatches (staticNodeOf lit) url offset = true
            ↔ slice url offset lit.length = lit))
      ∧ (∀ (fuel : Nat) (lit : Bytes) (group : List Endpoint) (next : Nat) (node : RouteNode)
          (url : Bytes) (offset : Nat),
          buildSubRouteTree fuel (staticNodeOf lit) group next = some node →
          1 ≤ lit.length → lit.length ≤ 8 → IsBytes lit → IsBytes url →
          (nodeStaticMatches node url offset = true ↔ slice url offset lit.length = lit))
      ∧ (∀ (l1 l2 : Bytes), 1 ≤ l1.length → l1.length ≤ 8 → 1 ≤ l2.length → l2.length ≤ 8 →
          (∀ b ∈ l1, b < 128) → (∀ b ∈ l2, b < 128) → l1.length ≠ l2.length →
          packU64Safe l1 l1.length ≠ packU64Safe l2 l2.length)
      ∧ packU64Safe (B "ab") 2 = 0xFFFFFFFFFFFF6261
      ∧ packedU64FromString (B "GET /ab HTTP/1.1") 5 7 = 0xFFFFFFFFFFFF6261
      ∧ packU64Safe (B "abcdefgh") 8 = 0x6867666564636261 := by
  refine ⟨?_, ?_, ?_, ?_, ?_, ?_, by decide, by decide, by decide⟩
  · intro lit h1 h8 hb
    have := packU64Safe_eq lit _ h1 h8 hb
    rw [slice_self] at this
    exact this
  · intro url offset n h8 hb
    exact packedU64FromString_eq url offset n h8 hb
  · intro lit url offset h1 h8 hb hu hs
    rw [packedU64FromString_eq url offset _ h8 hu, packU64Safe_eq lit _ h1 h8 hb, slice_self, hs]
  · intro lit url offset h1 h8 hb hu
    exact nodeStaticMatches_iff (staticNodeOf lit) lit url offset h1 h8 hb hu rfl rfl
  · intro fuel lit group next node url offset hbuild h1 h8 hb hu
    have hh := buildSubRouteTree_head fuel _ group next node hbuild
    unfold RouteNode.sameHead at hh
    exact nodeStaticMatches_iff node lit url offset h1 h8 hb hu hh.1 hh.2.1
  · intro l1 l2 h1 h18 h2 h28 ha1 ha2 hne
    have hb1 : IsBytes l1 := fun b hb => by have := ha1 b hb; omega
    have hb2 : IsBytes l2 := fun b hb => by have := ha2 b hb; omega
    have hrd : ∀ (l : Bytes), (∀ b ∈ l, b < 128) → ∀ j, rd l j ≠ 255 := by
      intro l hl j
      by_cases hj : j < l.length
      · unfold rd
        rw [List.getD_eq_getElem?_getD, List.getElem?_eq_getElem hj]
        have := hl _ (List.getElem_mem hj)
        simp only [Option.getD_some]
        omega
      · unfold rd
        rw [List.getD_eq_getElem?_getD, List.getElem?_eq_none (by omega)]
        decide
    by_cases hlt : l1.length < l2.length
    · exact packU64Safe_length_ne l1 l2 h1 h28 hlt hb1 hb2 (hrd l2 ha2 _)
    · exact fun he => packU64Safe_length_ne l2 l1 h2 h18 (by omega) hb2 hb1 (hrd l1 ha1 _)
        he.symm

/-- C33 (fails on the code): with the single route `/:/:/:/` (handler 5), the request
`GET /x HTTP/1.1` CR LF `A: b` CR LF CR LF is matched from cursor 4.  Its target `/x` ends
at the space at index 6 and `HTTP/1.1` follows at index 7; yet `matchUrl` returns handler 5
with the offset 19, the space after `A:`: the first parameter node carries no handler and
steps over the space it stopped at, so the walk goes on in the version text and the header
line.  The version check at `offset + 1` then fails on a well-formed request line. -/
theorem C33_cursor_past_target :
    matchUrl (buildRouteTree [makeEndpoint (B "/:/:/:/") 5])
        (B "GET /x HTTP/1.1\r\nA: b\r\n\r\n") 4 [] [] 512
      = some ⟨5, 19, [B "x", B "HTTP", B "1.1\r\nA:"], []⟩
    ∧ runLen (fun c => c != 32 && c != 63) (B "GET /x HTTP/1.1\r\nA: b\r\n\r\n") 4 = 2
    ∧ rd (B "GET /x HTTP/1.1\r\nA: b\r\n\r\n") 6 = 32
    ∧ isHttp11AtOffset (B "GET /x HTTP/1.1\r\nA: b\r\n\r\n") 24 (6 + 1) = (true, 15)
    ∧ isHttp11AtOffset (B "GET /x HTTP/1.1\r\nA: b\r\n\r\n") 24 (19 + 1) = (false, 20) := by
  refine ⟨by decide!, by decide, by decide, by decide, by decide⟩

/-- The byte under the cursor after a successful match.  Whenever `matchUrl` returns a
handler index `≥ 0`, on any trie and buffer, the offset it leaves is not before the one it
was given and the byte there is a space, or a `?` stands at some index `k` at or after the
start, the offset is past the query bytes that follow it and stands on the byte that stopped
the query (NUL, space, CR, LF or `#`).  When that byte is a space and `HTTP/1.1` follows it
inside the buffer, the version check at `offset + 1` succeeds. -/
theorem matchUrl_cursor_on_stop (root : Option RouteNode) (url : Bytes) (offset : Nat)
    (ps : List Bytes) (q : Obj) (query_limit : Nat) (res : MatchResult)
    (h : matchUrl root url offset ps q query_limit = some res) (hret : 0 ≤ res.ret) :
    offset ≤ res.offset
      ∧ (rd url res.offset = 32
        ∨ ∃ k, offset ≤ k ∧ rd url k = 63 ∧ res.offset = k + 1 + queryLen url (k + 1)
            ∧ (rd url res.offset = 0 ∨ rd url res.offset = 32 ∨ rd url res.offset = 13
                ∨ rd url res.offset = 10 ∨ rd url res.offset = 35))
      ∧ (rd url res.offset = 32 → res.offset + 9 ≤ url.length →
          slice url (res.offset + 1) 8 = B "HTTP/1.1" →
          isHttp11AtOffset url url.length (res.offset + 1) = (true, res.offset + 9)) := by
  have hends : res.endsTarget url offset := by
    unfold matchUrl at h
    cases root with
    | none =>
      simp only [Option.some.injEq] at h
      rw [← h] at hret
      exact absurd hret (show ¬ (0 : Int) ≤ -1 by decide)
    | some node =>
      simp only [] at h
      split at h
      · split at h
        · simp only [Option.some.injEq] at h
          rw [← h] at hret
          exact absurd hret (show ¬ (0 : Int) ≤ -1 by decide)
        · exact endsTarget_mono url offset _ res (by omega)
            (matchNode_endsTarget url query_limit node _ ps q res h hret)
      · exact matchNode_endsTarget url query_limit node _ ps q res h hret
  unfold MatchResult.endsTarget at hends
  refine ⟨hends.1, ?_, ?_⟩
  · rcases hends.2 with h1 | ⟨k, hk, h63, ho, hst⟩
    · exact Or.inl h1
    · refine Or.inr ⟨k, hk, h63, ho, ?_⟩
      by_contra hn
      have := (isQueryStop_iff (rd url res.offset)).mpr
        ⟨fun h0 => hn (Or.inl h0), fun hx => hn (Or.inr hx)⟩
      rw [hst] at this
      cases this
  · intro _ hlen hsl
    unfold isHttp11AtOffset
    rw [if_neg (by omega), if_neg (by rw [hsl]; exact fun hx => hx rfl)]

/-- The routes `/a` (1) and `/f/*` (2): the request `GET /a?x=1 HTTP/1.1` is matched
with the cursor on the space after the query (offset 10), the request `GET /f/q?y#z` with
the cursor on the `#` that stopped the query (offset 10). -/
theorem matchUrl_cursor_on_stop_example :
    (4 ≤ 10
        ∧ (rd (B "GET /a?x=1 HTTP/1.1\r\n\r\n") 10 = 32
          ∨ ∃ k, 4 ≤ k ∧ rd (B "GET /a?x=1 HTTP/1.1\r\n\r\n") k = 63
              ∧ 10 = k + 1 + queryLen (B "GET /a?x=1 HTTP/1.1\r\n\r\n") (k + 1)
              ∧ (rd (B "GET /a?x=1 HTTP/1.1\r\n\r\n") 10 = 0
                ∨ rd (B "GET /a?x=1 HTTP/1.1\r\n\r\n") 10 = 32
                ∨ rd (B "GET /a?x=1 HTTP/1.1\r\n\r\n") 10 = 13
                ∨ rd (B "GET /a?x=1 HTTP/1.1\r\n\r\n") 10 = 10
                ∨ rd (B "GET /a?x=1 HTTP/1.1\r\n\r\n") 10 = 35))
        ∧ (rd (B "GET /a?x=1 HTTP/1.1\r\n\r\n") 10 = 32 →
            10 + 9 ≤ (B "GET /a?x=1 HTTP/1.1\r\n\r\n").length →
            slice (B "GET /a?x=1 HTTP/1.1\r\n\r\n") (10 + 1) 8 = B "HTTP/1.1" →
            isHttp11AtOffset (B "GET /a?x=1 HTTP/1.1\r\n\r\n")
              (B "GET /a?x=1 HTTP/1.1\r\n\r\n").length (10 + 1) = (true, 10 + 9)))
      ∧ matchUrl (buildRouteTree [makeEndpoint (B "/a") 1, makeEndpoint (B "/f/*") 2])
          (B "GET /f/q?y#z") 4 [] [] 64 = some ⟨2, 10, [], [(B "y", [])]⟩ :=
  ⟨matchUrl_cursor_on_stop
      (buildRouteTree [makeEndpoint (B "/a") 1, makeEndpoint (B "/f/*") 2])
      (B "GET /a?x=1 HTTP/1.1\r\n\r\n") 4 [] [] 64 ⟨1, 10, [], [(B "x", B "1")]⟩
      (by decide!) (by decide),
    by decide!⟩

/-- C32: exact matching of static routes.  Let every pattern of the list be static (not
empty, bytes without NUL, `:`, `*`, space and `?`) with a handler index `≥ 0`, and let the
path of the buffer run from `offset` to the first space, at `t`, without a `?`.  Then
`matchUrl` on the built tree returns a result; its value is `≥ 0` exactly when the path is
one of the patterns; in that case the value is the handler index of the last endpoint with
that pattern, the cursor is left on the space and nothing else is changed; and in the other
case the value is `-1`. -/
theorem C32_static_routes_exact (eps : List Endpoint) (u : Bytes) (offset t : Nat)
    (ps : List Bytes) (q : Obj) (ql : Nat)
    (hst : ∀ ep ∈ eps, StaticPattern ep.url ∧ IsBytes ep.url ∧ 0 ≤ ep.vptr_table_index)
    (hu : IsBytes u) (hot : offset ≤ t) (ht : rd u t = 32)
    (hpath : ∀ i, offset ≤ i → i < t → rd u i ≠ 32 ∧ rd u i ≠ 63) :
    ∃ res, matchUrl (buildRouteTree eps) u offset ps q ql = some res
      ∧ (0 ≤ res.ret ↔ ∃ ep ∈ eps, ep.url = slice u offset (t - offset))
      ∧ ((∃ ep ∈ eps, ep.url = slice u offset (t - offset)) →
          res = ⟨lastHandler eps (slice u offset (t - offset)), t, ps, q⟩
            ∧ ∀ l1 e l2, eps = l1 ++ e :: l2 → e.url = slice u offset (t - offset) →
                (∀ x ∈ l2, x.url ≠ slice u offset (t - offset)) →
                res.ret = e.vptr_table_index)
      ∧ ((¬ ∃ ep ∈ eps, ep.url = slice u offset (t - offset)) → res.ret = -1) := by
  have key : ∃ res, matchUrl (buildRouteTree eps) u offset ps q ql = some res
      ∧ ((∃ ep ∈ eps, ep.url = slice u offset (t - offset)) →
          res = ⟨lastHandler eps (slice u offset (t - offset)), t, ps, q⟩
            ∧ 0 ≤ lastHandler eps (slice u offset (t - offset)))
      ∧ ((¬ ∃ ep ∈ eps, ep.url = slice u offset (t - offset)) → res.ret = -1) := by
    by_cases hne : eps = []
    · subst hne
      refine ⟨⟨-1, offset, ps, q⟩, rfl, ?_, fun _ => rfl⟩
      intro ⟨ep, hep, _⟩
      exact absurd hep (List.not_mem_nil _)
    · obtain ⟨root, hroot⟩ := Option.isSome_iff_exists.mp (buildRouteTree_isSome eps hne)
      have hb : buildSubRouteTree (buildFuel eps) newNode eps 0 = some root := by
        unfold buildRouteTree at hroot
        rw [if_neg (by intro h0; exact hne (List.length_eq_zero.mp h0))] at hroot
        exact hroot
      have hh := buildSubRouteTree_head _ newNode _ 0 root hb
      unfold RouteNode.sameHead at hh
      have hm : matchUrl (some root) u offset ps q ql = matchNode u ql root offset ps q := by
        unfold matchUrl
        simp only []
        rw [if_neg (by
          rw [hh.2.1]
          intro hx
          exact absurd hx.2 (by decide))]
      rw [hroot, hm]
      by_cases hex : ∃ ep ∈ eps, ep.url = slice u offset (t - offset)
      · obtain ⟨ep, hep, hurl⟩ := hex
        have hsp := (hst ep hep).1
        have hlen : ep.url.length = t - offset := by rw [hurl, slice_length]
        have hpos : 0 < ep.url.length := List.length_pos.mpr hsp.1
        obtain ⟨e2, he2, _, hv2⟩ := lastHandler_mem eps ep.url ⟨ep, hep, rfl⟩
        have hge : 0 ≤ lastHandler eps ep.url := by rw [hv2]; exact (hst e2 he2).2.2
        have hmb := matchNode_built _ newNode _ 0 root hb rfl (fun e he => (hst e he).2.1)
          (fun e he b hb2 => ((hst e he).1.2 b hb2).1) ep.url u offset ps q ql hu
          ⟨ep, hep, rfl⟩ (fun _ _ j hj => absurd hj (Nat.not_lt_zero j)) hpos
          (fun j _ _ => staticPattern_rd ep.url hsp j)
          (by
            intro i hi
            rw [Nat.zero_add] at hi ⊢
            rw [hurl, rd_slice u offset (t - offset) i (by omega)])
          (by rw [Nat.sub_zero, hlen, show offset + (t - offset) = t by omega]; exact ht)
          (by intro hx; rw [hx] at hge; exact absurd hge (by decide))
        rw [Nat.sub_zero, hlen, show offset + (t - offset) = t by omega, hurl] at hmb
        rw [hurl] at hge
        exact ⟨_, hmb, fun _ => ⟨rfl, hge⟩, fun hn => absurd ⟨ep, hep, hurl⟩ hn⟩
      · obtain ⟨res, hres, hret⟩ := matchNode_built_miss _ newNode _ 0 root hb rfl
          (fun e he => ⟨(hst e he).1, (hst e he).2.1⟩) u offset t ps q ql hu (by omega) ht hpath
          (fun _ _ => ⟨Nat.zero_le _, fun j hj => absurd hj (Nat.not_lt_zero j)⟩)
          (fun e he hx => hex ⟨e, he, hx⟩)
        rw [Nat.add_zero] at hres
        exact ⟨res, hres, fun hx => absurd hx hex, fun _ => hret⟩
  obtain ⟨res, hres, hfound, hmiss⟩ := key
  refine ⟨res, hres, ?_, ?_, hmiss⟩
  · constructor
    · intro hret
      by_contra hn
      rw [hmiss hn] at hret
      exact absurd hret (by decide)
    · intro hex
      rw [(hfound hex).1]
      exact (hfound hex).2
  · intro hex
    refine ⟨(hfound hex).1, ?_⟩
    intro l1 e l2 heq hurl hl2
    rw [(hfound hex).1, heq, ← hurl]
    exact lastHandler_split l1 l2 e (fun x hx => by rw [hurl]; exact hl2 x hx)

/-- C32 on the routes `/a` (1), `/ab` (2), `/a` (3) and `/abcdefghij/k` (4): `GET /a ` gives
the handler 3 of the last `/a` with the cursor on the space, and `GET /abc ` gives `-1`. -/
theorem C32_static_routes_exact_witness :
    (∃ res, matchUrl (buildRouteTree [⟨B "/a", [], 1⟩, ⟨B "/ab", [], 2⟩, ⟨B "/a", [], 3⟩,
          ⟨B "/abcdefghij/k", [], 4⟩]) (B "GET /a HTTP/1.1") 4 [] [] 64 = some res
        ∧ (0 ≤ res.ret ↔ ∃ ep ∈ [(⟨B "/a", [], 1⟩ : Endpoint), ⟨B "/ab", [], 2⟩,
              ⟨B "/a", [], 3⟩, ⟨B "/abcdefghij/k", [], 4⟩],
            ep.url = slice (B "GET /a HTTP/1.1") 4 (6 - 4))
        ∧ ((∃ ep ∈ [(⟨B "/a", [], 1⟩ : Endpoint), ⟨B "/ab", [], 2⟩, ⟨B "/a", [], 3⟩,
              ⟨B "/abcdefghij/k", [], 4⟩],
            ep.url = slice (B "GET /a HTTP/1.1") 4 (6 - 4)) →
          res = ⟨lastHandler [⟨B "/a", [], 1⟩, ⟨B "/ab", [], 2⟩, ⟨B "/a", [], 3⟩,
              ⟨B "/abcdefghij/k", [], 4⟩] (slice (B "GET /a HTTP/1.1") 4 (6 - 4)), 6, [], []⟩
            ∧ ∀ l1 e l2, [(⟨B "/a", [], 1⟩ : Endpoint), ⟨B "/ab", [], 2⟩, ⟨B "/a", [], 3⟩,
                ⟨B "/abcdefghij/k", [], 4⟩] = l1 ++ e :: l2 →
              e.url = slice (B "GET /a HTTP/1.1") 4 (6 - 4) →
              (∀ x ∈ l2, x.url ≠ slice (B "GET /a HTTP/1.1") 4 (6 - 4)) →
              res.ret = e.vptr_table_index)
        ∧ ((¬ ∃ ep ∈ [(⟨B "/a", [], 1⟩ : Endpoint), ⟨B "/ab", [], 2⟩, ⟨B "/a", [], 3⟩,
              ⟨B "/abcdefghij/k", [], 4⟩],
            ep.url = slice (B "GET /a HTTP/1.1") 4 (6 - 4)) → res.ret = -1))
      ∧ matchUrl (buildRouteTree [⟨B "/a", [], 1⟩, ⟨B "/ab", [], 2⟩, ⟨B "/a", [], 3⟩,
          ⟨B "/abcdefghij/k", [], 4⟩]) (B "GET /a HTTP/1.1") 4 [] [] 64
        = some ⟨3, 6, [], []⟩
      ∧ matchUrl (buildRouteTree [⟨B "/a", [], 1⟩, ⟨B "/ab", [], 2⟩, ⟨B "/a", [], 3⟩,
          ⟨B "/abcdefghij/k", [], 4⟩]) (B "GET /abc HTTP/1.1") 4 [] [] 64
        = some ⟨-1, 7, [], []⟩ :=
  ⟨C32_static_routes_exact [⟨B "/a", [], 1⟩, ⟨B "/ab", [], 2⟩, ⟨B "/a", [], 3⟩,
      ⟨B "/abcdefghij/k", [], 4⟩] (B "GET /a HTTP/1.1") 4 6 [] [] 64 (by decide) (by decide)
      (by decide) (by decide) (by decide),
    by decide!, by decide!⟩

/-- C34: `scanHeaders` returns on every input, and the offset it writes back is never smaller
than the offset passed in; whenever it differs from the offset passed in, the byte just before
it is an LF inside the buffer (the LF that `ST_HV_CONCAT` consumed when it stored a line, or
the LF of the blank line).  On every return other than `FLAG_OK` the offset and the mapping
written back are those of the start of the line that was not stored: the call repeated from
them gives the same result. -/
theorem C34_committed_offset (c : Cfg) (offset : Nat) (hs : Obj) :
    ∃ res, scanHeaders c offset hs = some res
      ∧ offset ≤ res.offset
      ∧ (res.offset ≠ offset → rd c.buf (res.offset - 1) = 10 ∧ res.offset ≤ c.total)
      ∧ (res.flag ≠ FlagBits.FLAG_OK → scanHeaders c res.offset res.headers = some res) := by
  by_cases h0 : offset + 1 > c.total
  · refine ⟨⟨FlagBits.FLAG_UNTERMINATED_HEADERS, offset, hs⟩, ?_, Nat.le_refl _,
      fun hx => absurd rfl hx, fun _ => ?_⟩
    · unfold scanHeaders
      rw [if_pos h0]
    · unfold scanHeaders
      rw [if_pos h0]
  · have hsome := scanHeaders_isSome c offset hs
    obtain ⟨res, hres⟩ := Option.isSome_iff_exists.mp hsome
    refine ⟨res, hres, ?_⟩
    have hrun : scanLoop c (scanFuel c.total) (Scan.init offset hs) = some res := by
      unfold scanHeaders at hres
      rw [if_neg h0] at hres
      exact hres
    have hc := scanLoop_commit c _ _ res (Nat.le_refl _) hrun
    refine ⟨hc.1, hc.2, fun hf => ?_⟩
    have hls0 : (Scan.init offset hs).lineStart := ⟨rfl, rfl, rfl, rfl, rfl⟩
    obtain ⟨s1, m, hls, ho, hh, hm⟩ :=
      scanLoop_restart c _ _ res hrun hf (Scan.init offset hs) 0 hls0 rfl rfl rfl
    have hlt : s1.__offset < c.total := by
      cases m with
      | zero => cases hm
      | succ m =>
        rw [scanLoop_succ] at hm
        by_cases hh1 : s1.__offset ≥ c.total ∧ s1.state ≠ State.ST_HV_CONCAT
        · rw [if_pos hh1] at hm
          simp only [Option.some.injEq] at hm
          rw [← hm] at hf
          exact absurd rfl hf
        · by_contra hge
          apply hh1
          refine ⟨by omega, ?_⟩
          rw [hls.1]
          decide
    have hinit : Scan.init res.offset res.headers = { s1 with vStart := 0 } := by
      obtain ⟨h1, h2, h3, h4, h5⟩ := hls
      cases s1
      simp only [] at h1 h2 h3 h4 h5 ho hh
      subst h1 h2 h3 h4 h5 ho hh
      rfl
    have h1 : ¬ res.offset + 1 > c.total := by
      rw [← ho, hls.2.1]
      omega
    have hsome2 := scanHeaders_isSome c res.offset res.headers
    unfold scanHeaders at hsome2 ⊢
    rw [if_neg h1] at hsome2 ⊢
    rw [hinit, scanLoop_vStart c _ s1 0 hls.1] at hsome2 ⊢
    exact scanLoop_fuel c m s1 res hm _ hsome2

/-- C35: if every value of the header mapping consists of bytes HTAB and 32..126 only before a
`scanHeaders` call, then so does every value of the mapping the call returns, replaced and
merged values included: no stored value holds CR, LF, NUL, another control byte or a byte
above 126. -/
theorem C35_stored_values_clean (c : Cfg) (offset : Nat) (hs : Obj) (res : ScanResult)
    (hclean : cleanValues hs) (h : scanHeaders c offset hs = some res) :
    cleanValues res.headers
      ∧ ∀ kv ∈ res.headers, ∀ b ∈ kv.2,
          b ≠ 13 ∧ b ≠ 10 ∧ b ≠ 0 ∧ (b < 32 → b = 9) ∧ b ≤ 126 := by
  have key : cleanValues res.headers := by
    unfold scanHeaders at h
    split at h
    · simp only [Option.some.injEq] at h
      rw [← h]
      exact hclean
    · exact scanLoop_clean c _ _ res hclean h
  refine ⟨key, fun kv hkv b hb => ?_⟩
  have hv := key kv hkv b hb
  unfold isValueByte at hv
  simp only [Bool.or_eq_true, beq_iff_eq, decide_eq_true_eq] at hv
  omega

/-- The block `TE: a`, `TE: b` scanned into a mapping that holds `host: x`: the merged value
`a, b` is stored and every value is clean. -/
theorem C35_stored_values_clean_witness :
    cleanValues [(B "host", B "x")]
      ∧ scanHeaders (Cfg.whole Simd.sse2 (B "TE: a\r\nTE: b\r\n\r\n")) 0 [(B "host", B "x")]
          = some ⟨FlagBits.FLAG_OK, 16, [(B "host", B "x"), (B "te", B "a, b")]⟩
      ∧ (cleanValues [(B "host", B "x"), (B "te", B "a, b")]
          ∧ ∀ kv ∈ [(B "host", B "x"), (B "te", B "a, b")], ∀ b ∈ kv.2,
              b ≠ 13 ∧ b ≠ 10 ∧ b ≠ 0 ∧ (b < 32 → b = 9) ∧ b ≤ 126) :=
  ⟨by decide, by decide!,
    C35_stored_values_clean (Cfg.whole Simd.sse2 (B "TE: a\r\nTE: b\r\n\r\n")) 0
      [(B "host", B "x")] ⟨FlagBits.FLAG_OK, 16, [(B "host", B "x"), (B "te", B "a, b")]⟩
      (by decide) (by decide!)⟩

/-- C40: free-list invariant of `CPool`.  In the state `p` reached from the constructed pool
by any sequence of `InitializePool`, `RegisterObj`, `Allocate`, `Free` and `ResizePool` calls,
the free stack holds no index twice, the active size is at most the physical size, which is
the length of the entry vector, and every index on the stack is below the active size and is
the `int` of a position below the active size whose entry is not in use; when no size passed
to the pool exceeds 2^31, every index on the stack is itself such a position.  Hence
`Allocate` leaves the entries unchanged or marks exactly one entry, which was not in use and
whose index it pops, and `Free` of an entry that is not in use changes nothing. -/
theorem C40_free_list_invariant (ops : List PoolOp) (p : CPool)
    (hp : p = CPool.run CPool.new ops) :
    p.m_freeStack.Nodup
      ∧ p.m_activeSize ≤ p.m_currentSize
      ∧ p.m_poolEntries.length = p.m_currentSize
      ∧ (∀ idx ∈ p.m_freeStack, idx < p.m_activeSize
          ∧ ∃ j, j < p.m_activeSize ∧ idx = toInt j ∧ (entryAt p.m_poolEntries j).inUse = false)
      ∧ ((∀ op ∈ ops, op.small) → ∀ idx ∈ p.m_freeStack,
          0 ≤ idx ∧ (entryAt p.m_poolEntries idx.toNat).inUse = false)
      ∧ (p.Allocate.m_poolEntries = p.m_poolEntries
          ∨ ∃ j, j < p.m_activeSize ∧ (entryAt p.m_poolEntries j).inUse = false
              ∧ p.m_freeStack = p.Allocate.m_freeStack ++ [(j : Int)]
              ∧ p.Allocate.m_poolEntries = setInUse p.m_poolEntries j true)
      ∧ ∀ x, (entryAt p.m_poolEntries (Int32Value x).toNat).inUse = false → p.Free x = p := by
  have hinv : p.Inv := by
    rw [hp]
    exact Inv_run ops CPool.new Inv_new
  obtain ⟨h1, h2, h3, h4⟩ := hinv
  refine ⟨h4.1, h2, h1, fun idx hi => ?_, fun hs idx hi => ?_,
    (Allocate_spec p ⟨h1, h2, h3, h4⟩).2, fun x hx => Free_noop p x hx⟩
  · obtain ⟨j, hj1, hj2, hj3⟩ := h4.2 idx hi
    refine ⟨?_, j, hj1, hj2, hj3⟩
    have := toInt_le j
    rw [hj2]
    omega
  · have hb : p.m_currentSize ≤ 2147483648 := by
      rw [hp]
      exact currentSize_run ops CPool.new Inv_new (by decide) hs
    obtain ⟨j, hj1, hj2, hj3⟩ := h4.2 idx hi
    have hj := toInt_small j (by omega)
    rw [hj2, hj]
    exact ⟨Int.ofNat_nonneg j, hj3⟩

/-- A pool of four entries after two allocations, a shrink to two entries that has to wait
for the entries 2 and 3, their release, one more allocation, a growth to five entries and
the release of entry 1 twice: the free stack is 0, 2, 3, 4, 1 and the invariant holds. -/
theorem C40_free_list_invariant_witness :
    CPool.run CPool.new [PoolOp.initializePool 4, PoolOp.allocate, PoolOp.allocate,
        PoolOp.resizePool 2, PoolOp.free 3, PoolOp.free 2, PoolOp.allocate,
        PoolOp.resizePool 5, PoolOp.free 1, PoolOp.free 1]
      = ⟨List.replicate 5 ⟨false, false⟩, [0, 2, 3, 4, 1], 5, 5, 0, false⟩
    ∧ ([0, 2, 3, 4, 1] : List Int).Nodup
    ∧ ∀ idx ∈ ([0, 2, 3, 4, 1] : List Int),
        0 ≤ idx ∧ (entryAt (List.replicate 5 ⟨false, false⟩) idx.toNat).inUse = false :=
  ⟨by decide, by decide,
    (C40_free_list_invariant [PoolOp.initializePool 4, PoolOp.allocate, PoolOp.allocate,
        PoolOp.resizePool 2, PoolOp.free 3, PoolOp.free 2, PoolOp.allocate,
        PoolOp.resizePool 5, PoolOp.free 1, PoolOp.free 1]
      ⟨List.replicate 5 ⟨false, false⟩, [0, 2, 3, 4, 1], 5, 5, 0, false⟩
      (by decide)).2.2.2.2.1 (by decide)⟩

end Corecdtl
